import Mathlib

/-!
# BusTub storage core: LRU-K replacer and B+tree index

A shallow embedding of `src/buffer/lru_k_replacer.cpp` and of the B+tree
sources under `src/storage`, followed by theorems about them.

Conventions of the embedding:

* `frame_id_t` and `page_id_t` are signed machine integers that are only ever
  stored and compared, never computed with: they are `Int`.
* `size_t curr_size_` is a natural number with explicit arithmetic modulo
  `2 ^ 64`.  The logical clock `current_timestamp_` is a natural number that
  is only ever incremented; a run would have to record `2 ^ 64` accesses to
  wrap it, and it is kept unbounded.
* `std::queue<size_t>` is a list whose head is the front of the queue.
* `frame_map_` is an association list in iteration order, with distinct keys.
-/

namespace bustub

/-! ## LRU-K replacer: data model -/

/-- The type of frame identifiers (`int32_t` in the source). -/
abbrev frame_id_t := Int

/-- The modulus of `size_t` arithmetic. -/
def SIZE_MOD : Nat := 2 ^ 64

/-- Per-frame record: the evictable flag and the bounded access history
(oldest timestamp at the head). -/
structure FrameInfo where
  evictable_ : Bool
  access_history_ : List Nat
deriving DecidableEq, Repr

/-- Modelled from the spec: the value-initialised record that `frame_map_[id]`
creates for an unknown frame (the header declaring the record type is not part
of the sources): `evictable = false` and an empty history. -/
def FrameInfo.fresh : FrameInfo := { evictable_ := false, access_history_ := [] }

/-- The replacer object. -/
structure LRUKReplacer where
  frame_map_ : List (Int × FrameInfo)
  current_timestamp_ : Nat
  curr_size_ : Nat
  replacer_size_ : Nat
  k_ : Nat
deriving DecidableEq, Repr

/-- The constructor `LRUKReplacer(num_frames, k)`. -/
def LRUKReplacer.new (num_frames k : Nat) : LRUKReplacer :=
  { frame_map_ := [], current_timestamp_ := 0, curr_size_ := 0,
    replacer_size_ := num_frames, k_ := k }

/-- Lookup in an association list keyed by an integer id (`frame_map_.find(id)` for the
replacer, the page table of the buffer pool for the tree): the value stored, if any. -/
def mapFind {β : Type} : List (Int × β) → Int → Option β
  | [], _ => none
  | (key, value) :: rest, id => if key = id then some value else mapFind rest id

/-- Reading `frame_map_[id]`: the stored record, or the value-initialised one. -/
def mapAt (m : List (Int × FrameInfo)) (id : frame_id_t) : FrameInfo :=
  (mapFind m id).getD FrameInfo.fresh

/-- Writing the entry of `id` (`frame_map_[id] = info`): overwrite in place, or add a new
entry at the end. -/
def mapSet {β : Type} : List (Int × β) → Int → β → List (Int × β)
  | [], id, info => [(id, info)]
  | (key, value) :: rest, id, info =>
    if key = id then (key, info) :: rest else (key, value) :: mapSet rest id info

/-- Erasing the entry of `id` (`frame_map_.erase(id)`). -/
def mapErase {β : Type} : List (Int × β) → Int → List (Int × β)
  | [], _ => []
  | (key, value) :: rest, id =>
    if key = id then mapErase rest id else (key, value) :: mapErase rest id

/-- `access_history_.front()`; reading the front of an empty queue is undefined
in the source and yields `0` here. -/
def front (q : List Nat) : Nat := q.headD 0

/-- `--curr_size_` on a `size_t`. -/
def decSize (c : Nat) : Nat := (c + SIZE_MOD - 1) % SIZE_MOD

/-- `++curr_size_` on a `size_t`. -/
def incSize (c : Nat) : Nat := (c + 1) % SIZE_MOD

/-! ## LRU-K replacer: operations -/

/-- The `judge` lambda of `Evict`: does candidate `s` beat candidate `t`? -/
def judge (r : LRUKReplacer) (s t : frame_id_t) : Bool :=
  if (mapAt r.frame_map_ s).access_history_.length < r.k_
      ∧ (mapAt r.frame_map_ t).access_history_.length = r.k_ then true
  else if (mapAt r.frame_map_ s).access_history_.length = r.k_
      ∧ (mapAt r.frame_map_ t).access_history_.length < r.k_ then false
  else decide (front (mapAt r.frame_map_ s).access_history_
      < front (mapAt r.frame_map_ t).access_history_)

/-- The scan loop of `Evict` over the entries still to visit; `fid` is the
current content of `*frame_id` (`-1` while no candidate was taken). -/
def Evict.scan (r : LRUKReplacer) : List (Int × FrameInfo) → frame_id_t → frame_id_t
  | [], fid => fid
  | (key, value) :: rest, fid =>
    if value.evictable_ then
      if fid = -1 ∨ judge r key fid then Evict.scan r rest key else Evict.scan r rest fid
    else Evict.scan r rest fid

/-- `Evict(&frame_id)`: `some f` stands for the return value `true` with
`*frame_id = f`, `none` for the return value `false`. -/
def Evict (r : LRUKReplacer) : Option frame_id_t × LRUKReplacer :=
  let fid := Evict.scan r r.frame_map_ (-1)
  if fid ≠ -1 then
    (some fid, { r with frame_map_ := mapErase r.frame_map_ fid,
                        curr_size_ := decSize r.curr_size_ })
  else (none, r)

/-- `RecordAccess(frame_id)`. -/
def RecordAccess (r : LRUKReplacer) (frame_id : frame_id_t) : LRUKReplacer :=
  if mapFind r.frame_map_ frame_id = none ∧ r.frame_map_.length = r.replacer_size_ then r
  else
    let info := mapAt r.frame_map_ frame_id
    let popped : List Nat :=
      if info.access_history_.length = r.k_ then info.access_history_.tail
      else info.access_history_
    { r with
      frame_map_ := mapSet r.frame_map_ frame_id
        { info with access_history_ := popped ++ [r.current_timestamp_] },
      current_timestamp_ := r.current_timestamp_ + 1 }

/-- `SetEvictable(frame_id, set_evictable)`. -/
def SetEvictable (r : LRUKReplacer) (frame_id : frame_id_t) (set_evictable : Bool) :
    LRUKReplacer :=
  match mapFind r.frame_map_ frame_id with
  | none => r
  | some info =>
    let old_evictable := info.evictable_
    let m := mapSet r.frame_map_ frame_id { info with evictable_ := set_evictable }
    if !old_evictable && set_evictable then
      { r with frame_map_ := m, curr_size_ := incSize r.curr_size_ }
    else if old_evictable && !set_evictable then
      { r with frame_map_ := m, curr_size_ := decSize r.curr_size_ }
    else { r with frame_map_ := m }

/-- `Remove(frame_id)`. -/
def Remove (r : LRUKReplacer) (frame_id : frame_id_t) : LRUKReplacer :=
  if mapFind r.frame_map_ frame_id = none ∨ !(mapAt r.frame_map_ frame_id).evictable_ then r
  else { r with frame_map_ := mapErase r.frame_map_ frame_id,
                curr_size_ := decSize r.curr_size_ }

/-- `Size()`. -/
abbrev Size (r : LRUKReplacer) : Nat := r.curr_size_

/-- One public call on the replacer. -/
inductive ReplacerOp where
  | recordAccess (frame_id : frame_id_t)
  | setEvictable (frame_id : frame_id_t) (set_evictable : Bool)
  | remove (frame_id : frame_id_t)
  | evict
deriving DecidableEq, Repr

/-- The state after one public call. -/
def ReplacerOp.apply (r : LRUKReplacer) : ReplacerOp → LRUKReplacer
  | .recordAccess f => RecordAccess r f
  | .setEvictable f b => SetEvictable r f b
  | .remove f => Remove r f
  | .evict => (Evict r).2

/-- The state after a sequence of public calls, first call first. -/
def runOps (r : LRUKReplacer) (ops : List ReplacerOp) : LRUKReplacer :=
  ops.foldl ReplacerOp.apply r

/-- States of a replacer built with `num_frames` and `k`.  Besides the public
calls, the iteration order of the hash map may change at any time (`rehash`):
the source fixes no order for `frame_map_`. -/
inductive Reachable (num_frames k : Nat) : LRUKReplacer → Prop
  | init : Reachable num_frames k (LRUKReplacer.new num_frames k)
  | step (r : LRUKReplacer) (op : ReplacerOp) :
      Reachable num_frames k r → Reachable num_frames k (op.apply r)
  | rehash (r : LRUKReplacer) (m : List (Int × FrameInfo)) :
      Reachable num_frames k r → r.frame_map_.Perm m →
      Reachable num_frames k { r with frame_map_ := m }

/-- The tracked frames whose evictable flag is set. -/
def evictableFrames (r : LRUKReplacer) : List frame_id_t :=
  (r.frame_map_.filter (fun e => e.2.evictable_)).map Prod.fst

/-- The access history of frame `f` as the `judge` lambda reads it. -/
def history (r : LRUKReplacer) (f : frame_id_t) : List Nat :=
  (mapAt r.frame_map_ f).access_history_

/-- The timestamp of the `k`-th most recent access recorded in a history (oldest first),
if the history holds that many accesses. -/
def kthRecent (k : Nat) (h : List Nat) : Option Nat := h.reverse.get? (k - 1)

/-- The invariant kept by every public call of a replacer built with `num_frames`
and `k`. -/
structure ReplacerInv (num_frames k : Nat) (r : LRUKReplacer) : Prop where
  size_eq : r.replacer_size_ = num_frames
  k_eq : r.k_ = k
  nodup : (r.frame_map_.map Prod.fst).Nodup
  cap : r.frame_map_.length ≤ num_frames
  curr : r.curr_size_ = (evictableFrames r).length
  hist_ne : ∀ f info, mapFind r.frame_map_ f = some info → info.access_history_ ≠ []
  hist_le : 1 ≤ k → ∀ f info, mapFind r.frame_map_ f = some info →
    info.access_history_.length ≤ k
  hist_sorted : ∀ f info, mapFind r.frame_map_ f = some info →
    info.access_history_.Pairwise (fun a b => a < b)
  hist_lt : ∀ f info, mapFind r.frame_map_ f = some info →
    ∀ t ∈ info.access_history_, t < r.current_timestamp_
  hist_disj : ∀ f g infoF infoG, mapFind r.frame_map_ f = some infoF →
    mapFind r.frame_map_ g = some infoG →
    ∀ t, t ∈ infoF.access_history_ → t ∈ infoG.access_history_ → f = g

/-- The access log kept beside a run: for every frame, the timestamps of the
`RecordAccess` calls that were not dropped since the frame's record was last created,
oldest first.  A call on an unknown frame below capacity creates the record and starts
its log; a call on a tracked frame extends the log; a dropped call and every other
operation leave the log as it is. -/
def logStep (r : LRUKReplacer) (log : frame_id_t → List Nat) :
    ReplacerOp → frame_id_t → List Nat
  | .recordAccess f =>
    if mapFind r.frame_map_ f = none then
      if r.frame_map_.length = r.replacer_size_ then log
      else Function.update log f [r.current_timestamp_]
    else Function.update log f (log f ++ [r.current_timestamp_])
  | _ => log

/-- A run of public calls together with the access log of `logStep`. -/
def runLog (r : LRUKReplacer) (log : frame_id_t → List Nat) :
    List ReplacerOp → LRUKReplacer × (frame_id_t → List Nat)
  | [] => (r, log)
  | op :: rest => runLog (op.apply r) (logStep r log op) rest

/-- A small run used to instantiate the replacer theorems: `K = 2`, seven frames,
frames 1 to 3 accessed, frames 1 and 2 made evictable, frame 1 accessed again. -/
def sampleReplacer : LRUKReplacer :=
  runOps (LRUKReplacer.new 7 2)
    [.recordAccess 1, .recordAccess 2, .recordAccess 3, .setEvictable 1 true,
     .setEvictable 2 true, .recordAccess 1]

/-- The results of `n` successive `Evict` calls. -/
def evictMany (r : LRUKReplacer) : Nat → List (Option frame_id_t)
  | 0 => []
  | n + 1 => (Evict r).1 :: evictMany (Evict r).2 n

/-! ## B+tree: data model

Conventions of the embedding:

* `int` fields and loop counters are `Int`.  Divisions by two are only taken of sums of
  non-negative counters, where C++ truncation and `Int` division agree.
* The slot array of a page lives in zero-filled frame memory well beyond `max_size`: it is
  a list read with `arrGet` (a slot never written reads as zero) and written with `arrSet`
  (which extends the list).  Slots at or beyond `size_` keep their stale content, as in the
  source.
* The buffer pool is the table `pages_` from page id to page content, the allocation
  counter `next_page_id_`, the records of the header page and the log `pins_` of pin
  events: `FetchPage` and `NewPage` add one to the pin count of a page, `UnpinPage`
  subtracts one.  Reading the content of a page (`FetchPage`) is kept apart from the pin
  it takes (`Pin`).  The pins taken by the iterator are left out.
* A function returns `none` where the source dereferences a null frame, reinterprets a page
  as the other page type, or would not terminate.
-/

/-- The type of page identifiers (`int32_t` in the source). -/
abbrev page_id_t := Int

/-- `INVALID_PAGE_ID`. -/
def INVALID_PAGE_ID : page_id_t := -1

/-- Keys: `GenericKey<N>` holding an integer. -/
abbrev KeyType := Int

/-- Record identifiers, the values stored in leaf pages. -/
structure RID where
  page_id_ : Int
  slot_num_ : Int
deriving DecidableEq, Repr, Inhabited

/-- The values of leaf pages. -/
abbrev ValueType := RID

/-- The key comparator `comparator_(a, b)`: negative, zero or positive as `a` is below,
equal to or above `b`. -/
def comparator (a b : KeyType) : Int := if a < b then -1 else if b < a then 1 else 0

/-- Reading `array_[i]`. -/
def arrGet {α : Type} [Inhabited α] (a : List α) (i : Int) : α :=
  if 0 ≤ i then a.getD i.toNat default else default

/-- Writing `array_[i] = v`. -/
def arrSet {α : Type} [Inhabited α] (a : List α) (i : Int) (v : α) : List α :=
  if i < 0 then a
  else if i.toNat < a.length then a.set i.toNat v
  else a ++ List.replicate (i.toNat - a.length) default ++ [v]

/-- The counter values `lo, lo + 1, …, hi - 1` of `for (i = lo; i < hi; ++i)`. -/
def upTo (lo hi : Int) : List Int :=
  (List.range (hi - lo).toNat).map (fun (n : Nat) => lo + (n : Int))

/-- The counter values `hi, hi - 1, …, lo` of `for (i = hi; i >= lo; --i)`. -/
def downTo (hi lo : Int) : List Int :=
  (List.range (hi - lo + 1).toNat).map (fun (n : Nat) => hi - (n : Int))

/-- A leaf page: the common header, the link to the right sibling and the slot array. -/
structure LeafPage where
  page_id_ : page_id_t
  parent_page_id_ : page_id_t
  size_ : Int
  max_size_ : Int
  next_page_id_ : page_id_t
  array_ : List (KeyType × ValueType)
deriving DecidableEq, Repr

/-- An internal page: the common header and the slot array of keys and child ids. -/
structure InternalPage where
  page_id_ : page_id_t
  parent_page_id_ : page_id_t
  size_ : Int
  max_size_ : Int
  array_ : List (KeyType × page_id_t)
deriving DecidableEq, Repr

/-- The content of an index frame; the constructor is the `page_type_` of the header. -/
inductive Page where
  | leaf (p : LeafPage)
  | internal (p : InternalPage)
deriving DecidableEq, Repr

/-- `IsLeafPage()`. -/
def Page.IsLeafPage : Page → Bool
  | .leaf _ => true
  | .internal _ => false

/-- `GetPageId()` of the page header. -/
def Page.GetPageId : Page → page_id_t
  | .leaf p => p.page_id_
  | .internal p => p.page_id_

/-- `GetParentPageId()`. -/
def Page.GetParentPageId : Page → page_id_t
  | .leaf p => p.parent_page_id_
  | .internal p => p.parent_page_id_

/-- `SetParentPageId(id)`. -/
def Page.SetParentPageId : Page → page_id_t → Page
  | .leaf p, id => .leaf { p with parent_page_id_ := id }
  | .internal p, id => .internal { p with parent_page_id_ := id }

/-- `GetSize()`. -/
def Page.GetSize : Page → Int
  | .leaf p => p.size_
  | .internal p => p.size_

/-- `GetMaxSize()`. -/
def Page.GetMaxSize : Page → Int
  | .leaf p => p.max_size_
  | .internal p => p.max_size_

/-- Modelled from the spec: `GetMinSize()` of `b_plus_tree_page.cpp`, which is not part of
the sources: `⌈max_size / 2⌉` for an internal page and `⌈(max_size - 1) / 2⌉` for a leaf. -/
def Page.GetMinSize : Page → Int
  | .leaf p => p.max_size_ / 2
  | .internal p => (p.max_size_ + 1) / 2

/-- Modelled from the spec: `IsRootPage()` of `b_plus_tree_page.cpp`, which is not part of
the sources: the parent id is `INVALID` exactly for the root. -/
def Page.IsRootPage (p : Page) : Bool := p.GetParentPageId = INVALID_PAGE_ID

/-! ## Leaf page operations -/

/-- `Init(page_id, parent_id, max_size)` on a fresh, zero-filled frame. -/
def LeafPage.Init (page_id parent_id : page_id_t) (max_size : Int) : LeafPage :=
  { page_id_ := page_id, parent_page_id_ := parent_id, size_ := 0, max_size_ := max_size,
    next_page_id_ := INVALID_PAGE_ID, array_ := [] }

/-- `KeyAt(index)`. -/
def LeafPage.KeyAt (p : LeafPage) (index : Int) : KeyType := (arrGet p.array_ index).1

/-- `ValueAt(index)`. -/
def LeafPage.ValueAt (p : LeafPage) (index : Int) : ValueType := (arrGet p.array_ index).2

/-- The `while (l < r)` loop of the leaf `KeyIndex`; every turn shrinks `r - l`, so `fuel`
turns are enough when `r - l ≤ fuel`. -/
def LeafPage.KeyIndex.loop (p : LeafPage) (key : KeyType) : Nat → Int → Int → Int
  | 0, l, _ => l
  | fuel + 1, l, r =>
    if l < r then
      if comparator (arrGet p.array_ ((l + r) / 2)).1 key < 0 then
        LeafPage.KeyIndex.loop p key fuel ((l + r) / 2 + 1) r
      else LeafPage.KeyIndex.loop p key fuel l ((l + r) / 2)
    else l

/-- `KeyIndex(key, comparator)`. -/
def LeafPage.KeyIndex (p : LeafPage) (key : KeyType) : Int :=
  LeafPage.KeyIndex.loop p key p.size_.toNat 0 p.size_

/-- `Insert(value, index, comparator)`. -/
def LeafPage.Insert (p : LeafPage) (value : KeyType × ValueType) (index : Int) :
    Bool × LeafPage :=
  if index < p.size_ ∧ comparator value.1 (arrGet p.array_ index).1 = 0 then (false, p)
  else
    (true,
      { p with
        array_ := arrSet
          ((downTo (p.size_ - 1) index).foldl (fun a i => arrSet a (i + 1) (arrGet a i))
            p.array_)
          index value,
        size_ := p.size_ + 1 })

/-- One turn of the loop of the leaf `Split`: slot `i` of `self` goes to slot `j` of the
sibling, `self` shrinks and the sibling grows. -/
def LeafPage.Split.step (mid : Int) (pb : LeafPage × LeafPage) (i : Int) :
    LeafPage × LeafPage :=
  ({ pb.1 with size_ := pb.1.size_ - 1 },
   { pb.2 with array_ := arrSet pb.2.array_ (i - mid) (arrGet pb.1.array_ i),
               size_ := pb.2.size_ + 1 })

/-- `Split(bother_page)`: returns `self` and the sibling after the call. -/
def LeafPage.Split (p bother : LeafPage) : LeafPage × LeafPage :=
  let moved := (upTo (p.size_ / 2) p.max_size_).foldl (LeafPage.Split.step (p.size_ / 2))
    (p, bother)
  ({ moved.1 with next_page_id_ := moved.2.page_id_ },
   { moved.2 with next_page_id_ := p.next_page_id_ })

/-- `Delete(key, comparator)`. -/
def LeafPage.Delete (p : LeafPage) (key : KeyType) : Bool × LeafPage :=
  if p.KeyIndex key ≥ p.size_ ∨ comparator (p.KeyAt (p.KeyIndex key)) key ≠ 0 then (false, p)
  else
    (true,
      { p with
        array_ := (upTo (p.KeyIndex key + 1) p.size_).foldl
          (fun a i => arrSet a (i - 1) (arrGet a i)) p.array_,
        size_ := p.size_ - 1 })

/-- The slot copy of the leaf `Merge(right_page, bpm)`: returns `self` and `right` after
the loop and `right->SetSize(0)`; the caller frees the frame of `right`. -/
def LeafPage.Merge (p right : LeafPage) : LeafPage × LeafPage :=
  ((upTo 0 right.size_).foldl
      (fun (q : LeafPage) j =>
        { q with array_ := arrSet q.array_ q.size_ (right.KeyAt j, right.ValueAt j),
                 size_ := q.size_ + 1 }) p,
   { right with size_ := 0 })

/-- `InsertFirst(key, value)`. -/
def LeafPage.InsertFirst (p : LeafPage) (key : KeyType) (value : ValueType) : LeafPage :=
  { p with
    array_ := arrSet
      ((downTo p.size_ 1).foldl (fun a i => arrSet a i (arrGet a (i - 1))) p.array_)
      0 (key, value),
    size_ := p.size_ + 1 }

/-- `InsertLast(key, value)`. -/
def LeafPage.InsertLast (p : LeafPage) (key : KeyType) (value : ValueType) : LeafPage :=
  { p with array_ := arrSet p.array_ p.size_ (key, value), size_ := p.size_ + 1 }

/-! ## Internal page operations -/

/-- `Init(page_id, parent_id, max_size)` on a fresh, zero-filled frame. -/
def InternalPage.Init (page_id parent_id : page_id_t) (max_size : Int) : InternalPage :=
  { page_id_ := page_id, parent_page_id_ := parent_id, size_ := 0, max_size_ := max_size,
    array_ := [] }

/-- `KeyAt(index)`. -/
def InternalPage.KeyAt (p : InternalPage) (index : Int) : KeyType := (arrGet p.array_ index).1

/-- `ValueAt(index)`. -/
def InternalPage.ValueAt (p : InternalPage) (index : Int) : page_id_t :=
  (arrGet p.array_ index).2

/-- `SetKeyAt(index, key)`. -/
def InternalPage.SetKeyAt (p : InternalPage) (index : Int) (key : KeyType) : InternalPage :=
  { p with array_ := arrSet p.array_ index (key, (arrGet p.array_ index).2) }

/-- `SetValueAt(index, value)`. -/
def InternalPage.SetValueAt (p : InternalPage) (index : Int) (value : page_id_t) :
    InternalPage :=
  { p with array_ := arrSet p.array_ index ((arrGet p.array_ index).1, value) }

/-- The `while (l < r)` loop of `Lookup`: returns the final `r`. -/
def InternalPage.Lookup.loop (p : InternalPage) (key : KeyType) : Nat → Int → Int → Int
  | 0, _, r => r
  | fuel + 1, l, r =>
    if l < r then
      if comparator (arrGet p.array_ ((l + r) / 2)).1 key ≤ 0 then
        InternalPage.Lookup.loop p key fuel ((l + r) / 2 + 1) r
      else InternalPage.Lookup.loop p key fuel l ((l + r) / 2)
    else r

/-- `Lookup(key, comparator)`. -/
def InternalPage.Lookup (p : InternalPage) (key : KeyType) : page_id_t :=
  (arrGet p.array_ (InternalPage.Lookup.loop p key p.size_.toNat 1 p.size_ - 1)).2

/-- The `while (l < r)` loop of the internal `KeyIndex`: returns the final `r`. -/
def InternalPage.KeyIndex.loop (p : InternalPage) (key : KeyType) : Nat → Int → Int → Int
  | 0, _, r => r
  | fuel + 1, l, r =>
    if l < r then
      if comparator (arrGet p.array_ ((l + r) / 2)).1 key < 0 then
        InternalPage.KeyIndex.loop p key fuel ((l + r) / 2 + 1) r
      else InternalPage.KeyIndex.loop p key fuel l ((l + r) / 2)
    else r

/-- `KeyIndex(key, comparator)` of an internal page. -/
def InternalPage.KeyIndex (p : InternalPage) (key : KeyType) : Int :=
  InternalPage.KeyIndex.loop p key p.size_.toNat 1 p.size_

/-- The loop of the internal `Insert` over the counter values still to visit; the empty
list is the fall-through `SetAt(1, value)`. -/
def InternalPage.Insert.loop (value : KeyType × page_id_t) :
    List Int → List (KeyType × page_id_t) → List (KeyType × page_id_t)
  | [], a => arrSet a 1 value
  | i :: rest, a =>
    if comparator (arrGet a i).1 value.1 > 0 then
      InternalPage.Insert.loop value rest (arrSet a (i + 1) (arrGet a i))
    else arrSet a (i + 1) value

/-- `Insert(value, comparator)` of an internal page. -/
def InternalPage.Insert (p : InternalPage) (value : KeyType × page_id_t) : InternalPage :=
  { p with array_ := InternalPage.Insert.loop value (downTo (p.size_ - 1) 1) p.array_,
           size_ := p.size_ + 1 }

/-- One turn of the first loop of the internal `Split`, filling the scratch buffer `tmp`;
the boolean is `flag` ("the new pair is not placed yet"). -/
def InternalPage.Split.fill (p : InternalPage) (key : KeyType) (bother_id : page_id_t)
    (ft : Bool × List (KeyType × page_id_t)) (i : Int) : Bool × List (KeyType × page_id_t) :=
  if comparator (arrGet p.array_ i).1 key < 0 then
    (ft.1, arrSet ft.2 i (arrGet p.array_ i))
  else if ft.1 = true ∧ comparator (arrGet p.array_ i).1 key > 0 then
    (false, arrSet (arrSet ft.2 i (key, bother_id)) (i + 1) (arrGet p.array_ i))
  else (ft.1, arrSet ft.2 (i + 1) (arrGet p.array_ i))

/-- The scratch buffer `tmp` of the internal `Split` after both fill steps. -/
def InternalPage.Split.tmp (p : InternalPage) (key : KeyType) (bother_id : page_id_t) :
    List (KeyType × page_id_t) :=
  let filled := (upTo 1 p.max_size_).foldl (InternalPage.Split.fill p key bother_id)
    (true, arrSet [] 0 (arrGet p.array_ 0))
  if filled.1 = true then arrSet filled.2 p.max_size_ (key, bother_id) else filled.2

/-- `Delete(key, comparator)` of an internal page. -/
def InternalPage.Delete (p : InternalPage) (key : KeyType) : Bool × InternalPage :=
  if p.KeyIndex key ≥ p.size_ ∨ comparator (arrGet p.array_ (p.KeyIndex key)).1 key ≠ 0 then
    (false, p)
  else
    (true,
      { p with
        array_ := (upTo (p.KeyIndex key + 1) p.size_).foldl
          (fun a i => arrSet a (i - 1) (arrGet a i)) p.array_,
        size_ := p.size_ - 1 })

/-- The search loop of `GetBotherPage` over the counter values still to visit: the first
`i` with `array_[i].second == child_page_id`, or the value at which the loop runs out. -/
def InternalPage.GetBotherPage.find (p : InternalPage) (child_page_id : page_id_t) :
    List Int → Int
  | [] => max p.size_ 0
  | i :: rest =>
    if (arrGet p.array_ i).2 = child_page_id then i
    else InternalPage.GetBotherPage.find p child_page_id rest

/-- `GetBotherPage(child_page_id, bother_page, key, ispre, bpm)`: the id of the sibling
frame that is fetched, the key and the flag written to the out-parameters. -/
def InternalPage.GetBotherPage (p : InternalPage) (child_page_id : page_id_t) :
    page_id_t × KeyType × Bool :=
  let i := InternalPage.GetBotherPage.find p child_page_id (upTo 0 p.size_)
  if i ≥ 1 then ((arrGet p.array_ (i - 1)).2, (arrGet p.array_ (i - 1)).1, true)
  else ((arrGet p.array_ (i + 1)).2, (arrGet p.array_ (i + 1)).1, false)

/-- `InsertFirst(key, value)` of an internal page. -/
def InternalPage.InsertFirst (p : InternalPage) (key : KeyType) (value : page_id_t) :
    InternalPage :=
  let shifted : InternalPage :=
    { p with
      array_ := (downTo p.size_ 1).foldl (fun a i => arrSet a i (arrGet a (i - 1))) p.array_ }
  let placed := InternalPage.SetKeyAt (InternalPage.SetValueAt shifted 0 value) 1 key
  { placed with size_ := placed.size_ + 1 }

/-- `DeleteFirst()`. -/
def InternalPage.DeleteFirst (p : InternalPage) : InternalPage :=
  { p with
    array_ := (upTo 1 p.size_).foldl (fun a i => arrSet a (i - 1) (arrGet a i)) p.array_,
    size_ := p.size_ - 1 }
/-! ## B+tree engine -/

/-- A call made on the header page by `UpdateRootPageId`. -/
inductive HeaderCall where
  | InsertRecord (name : String) (root_id : page_id_t)
  | UpdateRecord (name : String) (root_id : page_id_t)
deriving DecidableEq, Repr

/-- The tree object together with the state of the buffer pool it works on: the page
table `pages_`, the allocation counter `next_page_id_`, the records
`(index name, root page id)` of the header page, the calls made on the header page, oldest
first, and the log of pin events `(page id, ±1)`, newest first. -/
structure BPlusTree where
  index_name_ : String
  root_page_id_ : page_id_t
  leaf_max_size_ : Int
  internal_max_size_ : Int
  pages_ : List (Int × Page)
  next_page_id_ : page_id_t
  header_ : List (String × page_id_t)
  header_calls_ : List HeaderCall
  pins_ : List (page_id_t × Int)
deriving DecidableEq, Repr

/-- `HEADER_PAGE_ID`. -/
def HEADER_PAGE_ID : page_id_t := 0

/-- The constructor of the tree on a buffer pool that holds only the header page (id 0). -/
def BPlusTree.new (name : String) (leaf_max_size internal_max_size : Int) : BPlusTree :=
  { index_name_ := name, root_page_id_ := INVALID_PAGE_ID, leaf_max_size_ := leaf_max_size,
    internal_max_size_ := internal_max_size, pages_ := [], next_page_id_ := 1, header_ := [],
    header_calls_ := [], pins_ := [] }

/-- `IsEmpty()`. -/
def BPlusTree.IsEmpty (t : BPlusTree) : Bool := t.root_page_id_ = INVALID_PAGE_ID

/-- Modelled from the spec: the content of the frame that `FetchPage(page_id)` of the
buffer pool returns (the buffer pool is not part of the sources), or null (`none`) when
there is no such page. -/
def BPlusTree.FetchPage (t : BPlusTree) (page_id : page_id_t) : Option Page :=
  mapFind t.pages_ page_id

/-- Modelled from the spec: the pin that `FetchPage` or `NewPage` takes on a page. -/
def BPlusTree.Pin (t : BPlusTree) (page_id : page_id_t) : BPlusTree :=
  { t with pins_ := (page_id, 1) :: t.pins_ }

/-- Modelled from the spec: `UnpinPage(page_id, is_dirty)` of the buffer pool. -/
def BPlusTree.UnpinPage (t : BPlusTree) (page_id : page_id_t) : BPlusTree :=
  { t with pins_ := (page_id, -1) :: t.pins_ }

/-- The pin count of a page: pins taken minus pins released. -/
def BPlusTree.pinCount (t : BPlusTree) (page_id : page_id_t) : Int :=
  ((t.pins_.filter (fun e => e.1 = page_id)).map Prod.snd).sum

/-- Writing through a frame pointer: the page `page_id` now has the content `page`. -/
def BPlusTree.write (t : BPlusTree) (page_id : page_id_t) (page : Page) : BPlusTree :=
  { t with pages_ := mapSet t.pages_ page_id page }

/-- Modelled from the spec: `NewPage(&page_id)` of the buffer pool: a fresh page id, pinned;
the frame is zero-filled and gets its content from the `Init` that follows. -/
def BPlusTree.NewPage (t : BPlusTree) : page_id_t × BPlusTree :=
  (t.next_page_id_,
    { t with next_page_id_ := t.next_page_id_ + 1, pins_ := (t.next_page_id_, 1) :: t.pins_ })

/-- Modelled from the spec: `DeletePage(page_id)` of the buffer pool: the page is no longer
in the page table. -/
def BPlusTree.DeletePage (t : BPlusTree) (page_id : page_id_t) : BPlusTree :=
  { t with pages_ := mapErase t.pages_ page_id }

/-- Modelled from the spec: `HeaderPage::InsertRecord(name, root_id)` of `header_page.h`,
which is not part of the sources: appends a record unless the name is already there. -/
def InsertRecord (records : List (String × page_id_t)) (name : String) (root_id : page_id_t) :
    List (String × page_id_t) :=
  if records.any (fun e => e.1 = name) then records else records ++ [(name, root_id)]

/-- Modelled from the spec: `HeaderPage::UpdateRecord(name, root_id)`: overwrites the record
of the name, if there is one. -/
def UpdateRecord (records : List (String × page_id_t)) (name : String) (root_id : page_id_t) :
    List (String × page_id_t) :=
  records.map (fun e => if e.1 = name then (e.1, root_id) else e)

/-- `UpdateRootPageId(insert_record)`. -/
def BPlusTree.UpdateRootPageId (t : BPlusTree) (insert_record : Int) : BPlusTree :=
  if insert_record ≠ 0 then
    ({ (t.Pin HEADER_PAGE_ID) with
        header_ := InsertRecord t.header_ t.index_name_ t.root_page_id_,
        header_calls_ :=
          t.header_calls_ ++ [HeaderCall.InsertRecord t.index_name_ t.root_page_id_] }).UnpinPage
      HEADER_PAGE_ID
  else
    ({ (t.Pin HEADER_PAGE_ID) with
        header_ := UpdateRecord t.header_ t.index_name_ t.root_page_id_,
        header_calls_ :=
          t.header_calls_ ++ [HeaderCall.UpdateRecord t.index_name_ t.root_page_id_] }).UnpinPage
      HEADER_PAGE_ID

/-- The descent loop of `FindLeafPage` from the pinned frame `page`: the id of the leaf
reached, pinned. -/
def BPlusTree.FindLeafPage.loop (key : KeyType) :
    Nat → BPlusTree → page_id_t → Option (page_id_t × BPlusTree)
  | 0, _, _ => none
  | fuel + 1, t, page =>
    match t.FetchPage page with
    | none => none
    | some (.leaf _) => some (page, t)
    | some (.internal internal_page) =>
      match t.FetchPage (internal_page.Lookup key) with
      | none => none
      | some _ =>
        BPlusTree.FindLeafPage.loop key fuel
          ((t.Pin (internal_page.Lookup key)).UnpinPage page) (internal_page.Lookup key)

/-- `FindLeafPage(key)`: `none` in the first component is the null result on an empty
tree.  A descent visits every page at most once in a tree, so one turn per page of the
table is enough. -/
def BPlusTree.FindLeafPage (t : BPlusTree) (key : KeyType) :
    Option (Option page_id_t × BPlusTree) :=
  if t.IsEmpty then some (none, t)
  else
    match t.FetchPage t.root_page_id_ with
    | none => none
    | some _ =>
      match BPlusTree.FindLeafPage.loop key (t.pages_.length + 1) (t.Pin t.root_page_id_)
          t.root_page_id_ with
      | none => none
      | some (page, t1) => some (some page, t1)

/-- `GetValue(key, result)`: the return value, the result vector after the call and the
state after the call. -/
def BPlusTree.GetValue (t : BPlusTree) (key : KeyType) (result : List ValueType) :
    Option (Bool × List ValueType × BPlusTree) :=
  if t.IsEmpty then some (false, result, t)
  else
    match t.FindLeafPage key with
    | none => none
    | some (none, t1) => some (false, result, t1)
    | some (some page, t1) =>
      match t1.FetchPage page with
      | some (.leaf leaf_page) =>
        if leaf_page.KeyIndex key < leaf_page.size_
            ∧ comparator (leaf_page.KeyAt (leaf_page.KeyIndex key)) key = 0 then
          some (true, result ++ [leaf_page.ValueAt (leaf_page.KeyIndex key)],
            t1.UnpinPage leaf_page.page_id_)
        else some (false, result, t1.UnpinPage leaf_page.page_id_)
      | _ => none

/-- The second loop of the internal `Split`: every slot `tmp[mid], …, tmp[max_size]` is
moved to the sibling and its child is given the sibling as parent. -/
def InternalPage.Split.move (tmp : List (KeyType × page_id_t)) (sibling_id : page_id_t)
    (mid0 : Int) : List Int → BPlusTree → InternalPage → InternalPage →
    Option (BPlusTree × InternalPage × InternalPage)
  | [], t, self, sibling => some (t, self, sibling)
  | mid :: rest, t, self, sibling =>
    match t.FetchPage (arrGet tmp mid).2 with
    | none => none
    | some child =>
      InternalPage.Split.move tmp sibling_id mid0 rest
        (((t.Pin (arrGet tmp mid).2).write (arrGet tmp mid).2
            (child.SetParentPageId sibling_id)).UnpinPage (arrGet tmp mid).2)
        { self with size_ := self.size_ - 1 }
        { sibling with array_ := arrSet sibling.array_ (mid - mid0) (arrGet tmp mid),
                       size_ := sibling.size_ + 1 }

/-- `Split(key, page_bother, page_parent_page, comparator, bpm)` of the internal page in
frame `self_id`, with the new pair `(key, page_bother)` and the freshly initialised sibling
in frame `sibling_id`.  The frames of `self`, of the sibling and of the children are
distinct; `self` and the sibling are written back after the loop. -/
def InternalPage.Split (t : BPlusTree) (self_id : page_id_t) (key : KeyType)
    (page_bother sibling_id : page_id_t) : Option BPlusTree :=
  match t.FetchPage self_id, t.FetchPage page_bother, t.FetchPage sibling_id with
  | some (.internal self), some bother_node, some (.internal sibling) =>
    match InternalPage.Split.move (InternalPage.Split.tmp self key page_bother)
        sibling.page_id_ ((self.max_size_ + 1) / 2)
        (upTo ((self.max_size_ + 1) / 2) (self.max_size_ + 1))
        (t.write page_bother (bother_node.SetParentPageId self.page_id_))
        { self with
          size_ := self.size_ + 1,
          array_ := (upTo 0 ((self.max_size_ + 1) / 2)).foldl
            (fun a i => arrSet a i (arrGet (InternalPage.Split.tmp self key page_bother) i))
            self.array_ }
        sibling with
    | none => none
    | some (t2, self2, sibling2) =>
      some ((t2.write self_id (.internal self2)).write sibling_id (.internal sibling2))
  | _, _, _ => none

/-- The new root that `InsertInParent` builds in the zero-filled frame `new_page_id`. -/
def BPlusTree.InsertInParent.newRoot (new_page_id : page_id_t) (internal_max_size : Int)
    (page_leaf : page_id_t) (key : KeyType) (page_bother : page_id_t) : InternalPage :=
  { (InternalPage.SetValueAt
      (InternalPage.SetKeyAt
        (InternalPage.SetValueAt
          (InternalPage.Init new_page_id INVALID_PAGE_ID internal_max_size) 0 page_leaf)
        1 key)
      1 page_bother) with size_ := 2 }

/-- `InsertInParent(page_leaf, key, page_bother)`; `fuel` bounds the recursion, one step
per level of the tree. -/
def BPlusTree.InsertInParent :
    Nat → BPlusTree → page_id_t → KeyType → page_id_t → Option BPlusTree
  | 0, _, _, _, _ => none
  | fuel + 1, t, page_leaf, key, page_bother =>
    match t.FetchPage page_leaf with
    | none => none
    | some tree_page =>
      if tree_page.GetPageId = t.root_page_id_ then
        let new_page_id := t.NewPage.1
        let t1 := (t.NewPage.2.write new_page_id (.internal
          (BPlusTree.InsertInParent.newRoot new_page_id t.internal_max_size_ page_leaf key
            page_bother))).write page_leaf (tree_page.SetParentPageId new_page_id)
        match t1.FetchPage page_bother with
        | none => none
        | some page_bother_node =>
          let t2 := t1.write page_bother (page_bother_node.SetParentPageId new_page_id)
          some ((BPlusTree.UpdateRootPageId { t2 with root_page_id_ := new_page_id }
            0).UnpinPage new_page_id)
      else
        let parent_id := tree_page.GetParentPageId
        match t.FetchPage parent_id with
        | some (.internal parent_node) =>
          if parent_node.size_ < parent_node.max_size_ then
            let t1 := (t.Pin parent_id).write parent_id
              (.internal (parent_node.Insert (key, page_bother)))
            match t1.FetchPage page_bother with
            | none => none
            | some page_bother_node =>
              some ((t1.write page_bother
                (page_bother_node.SetParentPageId parent_id)).UnpinPage parent_id)
          else
            let page_parent_bother_id := (t.Pin parent_id).NewPage.1
            let t1 := (t.Pin parent_id).NewPage.2.write page_parent_bother_id
              (.internal (InternalPage.Init page_parent_bother_id INVALID_PAGE_ID
                t.internal_max_size_))
            match InternalPage.Split t1 parent_id key page_bother page_parent_bother_id with
            | none => none
            | some t2 =>
              match t2.FetchPage page_parent_bother_id with
              | some (.internal parent_bother_node) =>
                match BPlusTree.InsertInParent fuel t2 parent_id
                    (parent_bother_node.KeyAt 0) page_parent_bother_id with
                | none => none
                | some t3 =>
                  some ((t3.UnpinPage page_parent_bother_id).UnpinPage parent_id)
              | _ => none
        | _ => none

/-- The body of the empty-tree branch of `Insert`: a new leaf becomes the root. -/
def BPlusTree.StartNewTree (t : BPlusTree) : BPlusTree :=
  let page_id := t.NewPage.1
  let t1 := t.NewPage.2.write page_id
    (.leaf (LeafPage.Init page_id INVALID_PAGE_ID t.leaf_max_size_))
  (BPlusTree.UpdateRootPageId { t1 with root_page_id_ := page_id } 1).UnpinPage page_id

/-- The part of `Insert` after the leaf frame `page` was found and pinned. -/
def BPlusTree.Insert.atLeaf (t : BPlusTree) (page : page_id_t) (key : KeyType)
    (value : ValueType) : Option (Bool × BPlusTree) :=
  match t.FetchPage page with
  | some (.leaf leaf_page) =>
    let inserted := leaf_page.Insert (key, value) (leaf_page.KeyIndex key)
    if inserted.1 = false then some (false, t.UnpinPage page)
    else
      let t1 := t.write page (.leaf inserted.2)
      if inserted.2.size_ = t.leaf_max_size_ then
        let page_bother_id := t1.NewPage.1
        let halves := inserted.2.Split
          (LeafPage.Init page_bother_id INVALID_PAGE_ID t.leaf_max_size_)
        let t2 := (t1.NewPage.2.write page (.leaf halves.1)).write page_bother_id
          (.leaf halves.2)
        match BPlusTree.InsertInParent (t2.pages_.length + 1) t2 page (halves.2.KeyAt 0)
            page_bother_id with
        | none => none
        | some t3 => some (true, (t3.UnpinPage page_bother_id).UnpinPage page)
      else some (true, t1.UnpinPage page)
  | _ => none

/-- `Insert(key, value)`: the return value and the state after the call.  `FindLeafPage`
returns null exactly on an empty tree, so the `while (page == nullptr)` loop runs its body
once, creating the root leaf, or not at all. -/
def BPlusTree.Insert (t : BPlusTree) (key : KeyType) (value : ValueType) :
    Option (Bool × BPlusTree) :=
  match t.FindLeafPage key with
  | none => none
  | some (some page, t1) => BPlusTree.Insert.atLeaf t1 page key value
  | some (none, t1) =>
    let t2 := if t1.IsEmpty then t1.StartNewTree else t1
    match t2.FindLeafPage key with
    | some (some page, t3) => BPlusTree.Insert.atLeaf t3 page key value
    | _ => none

/-- `AdjustRootPage(b_node)`. -/
def BPlusTree.AdjustRootPage (t : BPlusTree) (b_node : Page) : BPlusTree :=
  match b_node with
  | .leaf p =>
    if p.size_ = 0 then
      ((BPlusTree.UpdateRootPageId { t with root_page_id_ := INVALID_PAGE_ID } 0).UnpinPage
        p.page_id_).DeletePage p.page_id_
    else t
  | .internal p =>
    if p.size_ = 1 then
      ((BPlusTree.UpdateRootPageId { t with root_page_id_ := p.ValueAt 0 } 0).UnpinPage
        p.page_id_).DeletePage p.page_id_
    else t

/-- The re-parenting loop at the end of the internal `Merge`, over the counter values
still to visit; the page of `self` is read again at every turn. -/
def InternalPage.Merge.reparent (self_id : page_id_t) :
    List Int → BPlusTree → Option BPlusTree
  | [], t => some t
  | i :: rest, t =>
    match t.FetchPage self_id with
    | some (.internal self) =>
      match t.FetchPage (arrGet self.array_ i).2 with
      | none => none
      | some child =>
        InternalPage.Merge.reparent self_id rest
          (((t.Pin (arrGet self.array_ i).2).write (arrGet self.array_ i).2
            (child.SetParentPageId self.page_id_)).UnpinPage (arrGet self.array_ i).2)
    | _ => none

/-- `Merge(key, right_page, bpm)` of the internal page in frame `self_id`. -/
def InternalPage.Merge (t : BPlusTree) (self_id : page_id_t) (key : KeyType)
    (right_id : page_id_t) : Option BPlusTree :=
  match t.FetchPage self_id, t.FetchPage right_id with
  | some (.internal self), some (.internal right) =>
    let self1 : InternalPage :=
      { self with array_ := arrSet self.array_ self.size_ (key, (arrGet right.array_ 0).2),
                  size_ := self.size_ + 1 }
    let self2 : InternalPage :=
      (upTo 1 right.size_).foldl
        (fun (q : InternalPage) j =>
          { q with array_ := arrSet q.array_ q.size_ (arrGet right.array_ j),
                   size_ := q.size_ + 1 }) self1
    InternalPage.Merge.reparent self_id (upTo self.size_ self2.size_)
      (((t.write self_id (.internal self2)).UnpinPage right.page_id_).DeletePage
        right.page_id_)
  | _, _ => none

/-- `Coalesce(page, bother_page, parent_key)`.  The frame of `page` keeps its content after
`DeletePage`: the source reads `page`'s `next_page_id_` after the leaf `Merge` freed it. -/
def BPlusTree.Coalesce (t : BPlusTree) (page bother_page : page_id_t) (parent_key : KeyType) :
    Option BPlusTree :=
  match t.FetchPage page with
  | some (.leaf leaf_b_node) =>
    match t.FetchPage bother_page with
    | some (.leaf leaf_bother_node) =>
      let merged := leaf_bother_node.Merge leaf_b_node
      let t1 := ((t.write page (.leaf merged.2)).UnpinPage page).DeletePage page
      let t2 := t1.write bother_page
        (.leaf { merged.1 with next_page_id_ := leaf_b_node.next_page_id_ })
      some (((t2.UnpinPage page).DeletePage page).UnpinPage bother_page)
    | _ => none
  | some (.internal _) =>
    match InternalPage.Merge t bother_page parent_key page with
    | none => none
    | some t1 => some (((t1.UnpinPage page).DeletePage page).UnpinPage bother_page)
  | none => none

/-- The internal branch of `Redistribute`. -/
def BPlusTree.Redistribute.internal (t : BPlusTree) (page bother_page parent_page : page_id_t)
    (inter_b_node inter_bother_node : InternalPage) (parent_key : KeyType) (ispre : Bool) :
    Option BPlusTree :=
  let child_id : page_id_t :=
    if ispre then inter_bother_node.ValueAt (inter_bother_node.size_ - 1)
    else inter_bother_node.ValueAt 0
  let key : KeyType :=
    if ispre then inter_bother_node.KeyAt (inter_bother_node.size_ - 1)
    else inter_bother_node.KeyAt 1
  let bother1 : InternalPage :=
    if ispre then
      (inter_bother_node.Delete (inter_bother_node.KeyAt (inter_bother_node.size_ - 1))).2
    else inter_bother_node.DeleteFirst
  let b1 : InternalPage :=
    if ispre then inter_b_node.InsertFirst parent_key child_id
    else inter_b_node.Insert (parent_key, child_id)
  let t2 := (t.write bother_page (.internal bother1)).write page (.internal b1)
  match t2.FetchPage child_id with
  | none => none
  | some child_node =>
    let t3 := ((t2.Pin child_id).write child_id
      (child_node.SetParentPageId inter_b_node.page_id_)).UnpinPage child_id
    match t3.FetchPage parent_page with
    | some (.internal inter_parent_node) =>
      some ((((t3.write parent_page (.internal
        (inter_parent_node.SetKeyAt (inter_parent_node.KeyIndex parent_key) key))).UnpinPage
          parent_page).UnpinPage page).UnpinPage bother_page)
    | _ => none

/-- The leaf branch of `Redistribute`. -/
def BPlusTree.Redistribute.leaf (t : BPlusTree) (page bother_page parent_page : page_id_t)
    (leaf_b_node leaf_bother_node : LeafPage) (parent_key : KeyType) (ispre : Bool) :
    Option BPlusTree :=
  let moved : KeyType × ValueType :=
    if ispre then
      (leaf_bother_node.KeyAt (leaf_bother_node.size_ - 1),
        leaf_bother_node.ValueAt (leaf_bother_node.size_ - 1))
    else (leaf_bother_node.KeyAt 0, leaf_bother_node.ValueAt 0)
  let bother1 : LeafPage := (leaf_bother_node.Delete moved.1).2
  let b1 : LeafPage :=
    if ispre then leaf_b_node.InsertFirst moved.1 moved.2
    else leaf_b_node.InsertLast moved.1 moved.2
  let key : KeyType := if ispre then moved.1 else bother1.KeyAt 0
  let t2 := (t.write bother_page (.leaf bother1)).write page (.leaf b1)
  match t2.FetchPage parent_page with
  | some (.internal inter_parent_node) =>
    some ((((t2.write parent_page (.internal
      (inter_parent_node.SetKeyAt (inter_parent_node.KeyIndex parent_key) key))).UnpinPage
        parent_page).UnpinPage page).UnpinPage bother_page)
  | _ => none

/-- `Redistribute(page, bother_page, parent_page, parent_key, ispre)`: the branch is chosen
by `bother_node->IsRootPage()`; each branch reinterprets both pages as its page type. -/
def BPlusTree.Redistribute (t : BPlusTree) (page bother_page parent_page : page_id_t)
    (parent_key : KeyType) (ispre : Bool) : Option BPlusTree :=
  match t.FetchPage bother_page, t.FetchPage page with
  | some bother_node, some b_node =>
    if bother_node.IsRootPage then
      match bother_node, b_node with
      | .internal inter_bother_node, .internal inter_b_node =>
        BPlusTree.Redistribute.internal t page bother_page parent_page inter_b_node
          inter_bother_node parent_key ispre
      | _, _ => none
    else
      match bother_node, b_node with
      | .leaf leaf_bother_node, .leaf leaf_b_node =>
        BPlusTree.Redistribute.leaf t page bother_page parent_page leaf_b_node
          leaf_bother_node parent_key ispre
      | _, _ => none
  | _, _ => none

/-- The page after the `Delete(key)` of `DeleteEntry` and whether the key was there. -/
def Page.Delete (b_node : Page) (key : KeyType) : Bool × Page :=
  match b_node with
  | .leaf leaf_node => ((leaf_node.Delete key).1, .leaf (leaf_node.Delete key).2)
  | .internal internal_node =>
    ((internal_node.Delete key).1, .internal (internal_node.Delete key).2)

/-- `DeleteEntry(page, key)`; `fuel` bounds the recursion, one step per level of the tree. -/
def BPlusTree.DeleteEntry : Nat → BPlusTree → page_id_t → KeyType → Option BPlusTree
  | 0, _, _, _ => none
  | fuel + 1, t, page, key =>
    match t.FetchPage page with
    | none => none
    | some b_node =>
      if (b_node.Delete key).1 = false then some (t.UnpinPage page)
      else
        let b_node1 := (b_node.Delete key).2
        let t1 := t.write page b_node1
        if b_node1.GetPageId = t1.root_page_id_ then
          some (BPlusTree.AdjustRootPage t1 b_node1)
        else if b_node1.GetSize < b_node1.GetMinSize then
          let parent_page_id := b_node1.GetParentPageId
          match t1.FetchPage parent_page_id with
          | some (.internal parent_node) =>
            let bother := parent_node.GetBotherPage page
            match t1.FetchPage bother.1 with
            | none => none
            | some bother_node =>
              let t2 := (t1.Pin parent_page_id).Pin bother.1
              if b_node1.GetSize + bother_node.GetSize ≤ b_node1.GetMaxSize then
                let page1 := if bother.2.2 = false then bother.1 else page
                let bother_page1 := if bother.2.2 = false then page else bother.1
                match BPlusTree.Coalesce t2 page1 bother_page1 bother.2.1 with
                | none => none
                | some t3 =>
                  match BPlusTree.DeleteEntry fuel t3 parent_page_id bother.2.1 with
                  | none => none
                  | some t4 => some (t4.UnpinPage page1)
              else
                match BPlusTree.Redistribute t2 page bother.1 parent_page_id bother.2.1
                    bother.2.2 with
                | none => none
                | some t3 => some (t3.UnpinPage page)
          | _ => none
        else some (t1.UnpinPage page)

/-- `Remove(key)`. -/
def BPlusTree.Remove (t : BPlusTree) (key : KeyType) : Option BPlusTree :=
  if t.IsEmpty then some t
  else
    match t.FindLeafPage key with
    | none => none
    | some (none, t1) => some t1
    | some (some leaf_page, t1) =>
      BPlusTree.DeleteEntry (t1.pages_.length + 1) t1 leaf_page key

/-! ## Index iterator -/

/-- The iterator: the frame it holds (`none` for the null frame of the default-constructed
iterator) and the slot index. -/
structure IndexIterator where
  page_id_ : page_id_t
  page_ : Option page_id_t
  index_ : Int
deriving DecidableEq, Repr

/-- The descent loop of `Begin()` along slot 0. -/
def BPlusTree.Begin.loop (t : BPlusTree) : Nat → page_id_t → Option page_id_t
  | 0, _ => none
  | fuel + 1, curr_page =>
    match t.FetchPage curr_page with
    | none => none
    | some (.leaf _) => some curr_page
    | some (.internal curr_page_inter) =>
      BPlusTree.Begin.loop t fuel (curr_page_inter.ValueAt 0)

/-- `Begin()`; on an empty tree the default-constructed iterator, which holds no frame. -/
def BPlusTree.Begin (t : BPlusTree) : Option IndexIterator :=
  if t.IsEmpty then some { page_id_ := INVALID_PAGE_ID, page_ := none, index_ := 0 }
  else
    match BPlusTree.Begin.loop t (t.pages_.length + 1) t.root_page_id_ with
    | none => none
    | some curr_page => some { page_id_ := curr_page, page_ := some curr_page, index_ := 0 }

/-- `IsEnd()`; undefined on an iterator without a frame. -/
def IndexIterator.IsEnd (t : BPlusTree) (it : IndexIterator) : Option Bool :=
  match it.page_ with
  | none => none
  | some page =>
    match t.FetchPage page with
    | some (.leaf tree_page) =>
      some (decide (it.index_ = tree_page.size_ ∧ tree_page.next_page_id_ = INVALID_PAGE_ID))
    | _ => none

/-- `operator*()`. -/
def IndexIterator.deref (t : BPlusTree) (it : IndexIterator) : Option (KeyType × ValueType) :=
  match it.page_ with
  | none => none
  | some page =>
    match t.FetchPage page with
    | some (.leaf tree_page) => some (arrGet tree_page.array_ it.index_)
    | _ => none

/-- `operator++()`. -/
def IndexIterator.next (t : BPlusTree) (it : IndexIterator) : Option IndexIterator :=
  match it.page_ with
  | none => none
  | some page =>
    match t.FetchPage page with
    | some (.leaf tree_page) =>
      if it.index_ + 1 = tree_page.size_ ∧ tree_page.next_page_id_ ≠ INVALID_PAGE_ID then
        match t.FetchPage tree_page.next_page_id_ with
        | none => none
        | some _ =>
          some { page_id_ := tree_page.next_page_id_, page_ := some tree_page.next_page_id_,
                 index_ := 0 }
      else some { it with index_ := it.index_ + 1 }
    | _ => none

/-- The loop `for (it = Begin(); !it.IsEnd(); ++it) out.push_back(*it)` from the iterator
`it`, with the pairs already read in `out`. -/
def BPlusTree.iterate.loop (t : BPlusTree) :
    Nat → IndexIterator → List (KeyType × ValueType) → Option (List (KeyType × ValueType))
  | 0, _, _ => none
  | fuel + 1, it, out =>
    match it.IsEnd t with
    | none => none
    | some true => some out
    | some false =>
      match it.deref t, it.next t with
      | some kv, some it1 => BPlusTree.iterate.loop t fuel it1 (out ++ [kv])
      | _, _ => none

/-- A bound on the number of turns of the iteration loop on a tree: one per stored slot
and one per page. -/
def BPlusTree.iterate.fuel (t : BPlusTree) : Nat :=
  (t.pages_.map (fun e => e.2.GetSize.toNat + 1)).sum + 1

/-- The pairs read by walking the iterator from `Begin()` with `operator++` until
`IsEnd()`. -/
def BPlusTree.iterate (t : BPlusTree) : Option (List (KeyType × ValueType)) :=
  match t.Begin with
  | none => none
  | some it => BPlusTree.iterate.loop t (BPlusTree.iterate.fuel t) it []

/-- One public call that changes the tree. -/
inductive TreeOp where
  | insert (key : KeyType) (value : ValueType)
  | remove (key : KeyType)
deriving DecidableEq, Repr

/-- The state after one public call, when the call is defined. -/
def TreeOp.apply (t : BPlusTree) : TreeOp → Option BPlusTree
  | .insert key value => (t.Insert key value).map Prod.snd
  | .remove key => t.Remove key

/-- The state after a sequence of public calls, first call first. -/
def BPlusTree.run (t : BPlusTree) : List TreeOp → Option BPlusTree
  | [] => some t
  | op :: rest =>
    match op.apply t with
    | none => none
    | some t1 => BPlusTree.run t1 rest
/-! ## Views of a tree state used to state the claims -/

/-- The slots `[0, size)` of a leaf page. -/
def LeafPage.slots (p : LeafPage) : List (KeyType × ValueType) :=
  (List.range p.size_.toNat).map (fun (i : Nat) => arrGet p.array_ (i : Int))

/-- The slots `[0, size)` of an internal page. -/
def InternalPage.slots (p : InternalPage) : List (KeyType × page_id_t) :=
  (List.range p.size_.toNat).map (fun (i : Nat) => arrGet p.array_ (i : Int))

/-- The keys in the slots `[0, size)` of the leaf page `page_id`, if it is a leaf page of
the page table. -/
def BPlusTree.leafKeys (t : BPlusTree) (page_id : page_id_t) : Option (List KeyType) :=
  match t.FetchPage page_id with
  | some (.leaf p) => some (p.slots.map Prod.fst)
  | _ => none

/-- The slots `[0, size)` of the internal page `page_id`, if it is an internal page of the
page table. -/
def BPlusTree.internalSlots (t : BPlusTree) (page_id : page_id_t) :
    Option (List (KeyType × page_id_t)) :=
  match t.FetchPage page_id with
  | some (.internal p) => some p.slots
  | _ => none

/-- The keys read by the iterator walk of `BPlusTree.iterate`. -/
def BPlusTree.iterateKeys (t : BPlusTree) : Option (List KeyType) :=
  t.iterate.map (fun kvs => kvs.map Prod.fst)

/-- The record id stored with key `k` in the scenarios. -/
def ridOf (k : KeyType) : RID := { page_id_ := k, slot_num_ := 0 }

/-- The calls `Insert(k, ridOf k)` for the keys of a list, in order. -/
def insertKeys (ks : List KeyType) : List TreeOp := ks.map (fun k => TreeOp.insert k (ridOf k))

/-- The calls `Remove(k)` for the keys of a list, in order. -/
def removeKeys (ks : List KeyType) : List TreeOp := ks.map (fun k => TreeOp.remove k)

/-- The tree of the scenarios: leaf and internal `max_size` 4, keys 5, 4, 3, 2, 1 inserted
in that order. -/
def sampleTree : Option BPlusTree := (BPlusTree.new "index" 4 4).run (insertKeys [5, 4, 3, 2, 1])

/-- The parent id stored in the page `page_id`, if it is in the page table. -/
def BPlusTree.parentOf (t : BPlusTree) (page_id : page_id_t) : Option page_id_t :=
  (t.FetchPage page_id).map Page.GetParentPageId

/-- The `size` and `max_size` stored in the page `page_id`, if it is in the page table. -/
def BPlusTree.sizeOf (t : BPlusTree) (page_id : page_id_t) : Option (Int × Int) :=
  (t.FetchPage page_id).map (fun p => (p.GetSize, p.GetMaxSize))

/-- Scenario for C14: both `max_size` 4, keys 1, 2, 3, 4, 6, 7, 5 inserted, `Remove(1)`,
`Insert(0)`. -/
def overfullLeafTree : Option BPlusTree :=
  (BPlusTree.new "index" 4 4).run
    (insertKeys [1, 2, 3, 4, 6, 7, 5] ++ removeKeys [1] ++ insertKeys [0])

/-- Scenario for C15: leaf `max_size` 6, internal `max_size` 4, keys 10, …, 90, 61, 62
inserted, then `Remove(70)`. -/
def redistributedTree : Option BPlusTree :=
  (BPlusTree.new "index" 6 4).run
    (insertKeys [10, 20, 30, 40, 50, 60, 70, 80, 90, 61, 62] ++ removeKeys [70])

/-- Scenario for C16: both `max_size` 4, keys 1 to 5 inserted, then `Remove(1)`. -/
def collapsedTree : Option BPlusTree :=
  (BPlusTree.new "index" 4 4).run (insertKeys [1, 2, 3, 4, 5] ++ removeKeys [1])

/-- Scenario for C20: the sample tree after `Remove(3)` and `Remove(4)`. -/
def mergedTree : Option BPlusTree := sampleTree.bind (fun t => t.run (removeKeys [3, 4]))

/-- The keys stored in the leaves below the page `page_id`, found by following the child
ids in the slots `[0, size)` of the internal pages; `fuel` bounds the depth of the walk. -/
def BPlusTree.subtreeKeys (t : BPlusTree) : Nat → page_id_t → List KeyType
  | 0, _ => []
  | fuel + 1, page_id =>
    match t.FetchPage page_id with
    | some (.leaf p) => p.slots.map Prod.fst
    | some (.internal p) => (p.slots.map Prod.snd).bind (BPlusTree.subtreeKeys t fuel)
    | none => []

/-- The state after the keys of a list were inserted into the empty tree with both
`max_size` 4 (the empty tree itself if a call is undefined). -/
def treeAfter (ks : List KeyType) : BPlusTree :=
  ((BPlusTree.new "index" 4 4).run (insertKeys ks)).getD (BPlusTree.new "index" 4 4)

/-- Scenario for C18: both `max_size` 4, keys 1 to 5 inserted, then `Remove(3)`. -/
def separatorTree : Option BPlusTree :=
  (BPlusTree.new "index" 4 4).run (insertKeys [1, 2, 3, 4, 5] ++ removeKeys [3])
/-! ## Predicates on pages and tree states used in the insert-only development -/

/-- The keys in the slots `[lo, hi)` of a slot array are strictly increasing. -/
def KeysSorted {α : Type} [Inhabited α] (a : List (Int × α)) (lo hi : Int) : Prop :=
  ∀ i j, lo ≤ i → i < j → j < hi → (arrGet a i).1 < (arrGet a j).1

/-- The slot sequence of `a` with `v` put in at position `pos`: slot `m` of the result. -/
def insAt {α : Type} [Inhabited α] (a : List α) (pos : Int) (v : α) (m : Int) : α :=
  if m < pos then arrGet a m else if m = pos then v else arrGet a (m - 1)

/-- Two states hold the same pages, root, allocation counter and size limits: they differ
at most in the pin log and the header records. -/
def BPlusTree.sameStore (t t' : BPlusTree) : Prop :=
  t'.pages_ = t.pages_ ∧ t'.root_page_id_ = t.root_page_id_ ∧
  t'.next_page_id_ = t.next_page_id_ ∧ t'.leaf_max_size_ = t.leaf_max_size_ ∧
  t'.internal_max_size_ = t.internal_max_size_

/-- Proof-side bookkeeping for a tree state: the level of every page above the leaves, the
key range `[lo, hi)` every page is responsible for (`none` is unbounded) and the leaf
pages from left to right. -/
structure Ghost where
  lvl : Int → Nat
  lo : Int → Option Int
  hi : Int → Option Int
  chain : List Int

/-- The lower bound `b` is at most `k`. -/
def loLe (b : Option Int) (k : Int) : Prop := ∀ x, b = some x → x ≤ k

/-- The lower bound `b` is below `k`. -/
def loLt (b : Option Int) (k : Int) : Prop := ∀ x, b = some x → x < k

/-- The key `k` is below the upper bound `b`. -/
def ltHi (k : Int) (b : Option Int) : Prop := ∀ x, b = some x → k < x

/-- The upper bound a parent expects of a page: while a split `(left, key, right)` waits
to be entered in the parent, the parent still expects of `left` the range that `left` and
`right` cover together. -/
def effHi (g : Ghost) (pend : Option (Int × Int × Int)) (id : Int) : Option Int :=
  match pend with
  | some (l, _, r) => if id = l then g.hi r else g.hi id
  | none => g.hi id

/-- The slots `f 0, …, f (n - 1)` are those of a well-formed internal page `id` with the
range `[lo, hi)`: keys increasing and inside the range, every child a page of the table
whose parent is `id`, one level down, responsible for the keys between its separator and
the next one. -/
def NodeOk (t : BPlusTree) (g : Ghost) (pend : Option (Int × Int × Int)) (id : Int)
    (n : Int) (f : Int → Int × Int) (lo hi : Option Int) : Prop :=
  (∀ i j, 1 ≤ i → i < j → j < n → (f i).1 < (f j).1) ∧
  (∀ i, 1 ≤ i → i < n → loLt lo (f i).1 ∧ ltHi (f i).1 hi) ∧
  ∀ i, 0 ≤ i → i < n →
    ∃ cp, t.FetchPage (f i).2 = some cp ∧ cp.GetParentPageId = id ∧
      g.lvl (f i).2 + 1 = g.lvl id ∧
      g.lo (f i).2 = (if i = 0 then lo else some (f i).1) ∧
      effHi g pend (f i).2 = (if i = n - 1 then hi else some (f (i + 1)).1)

/-- The leaf pages `c₀, c₁, …` are linked by `next_page_id_` in this order, the last link
is `INVALID`, and the range of each ends where the range of the next begins. -/
def ChainOk (t : BPlusTree) (g : Ghost) : List Int → Prop
  | [] => False
  | [c] =>
    ∃ p, t.FetchPage c = some (.leaf p) ∧ p.next_page_id_ = INVALID_PAGE_ID ∧ g.hi c = none
  | c :: d :: rest =>
    (∃ p, t.FetchPage c = some (.leaf p) ∧ p.next_page_id_ = d) ∧ g.hi c = g.lo d ∧
      g.lo d ≠ none ∧ ChainOk t g (d :: rest)

/-- The invariant of a non-empty tree between the steps of an insertion.  With
`pend = some (left, key, right)` a split has produced the page `right` next to `left` and
the pair `(key, right)` is still to be entered in the parent of `left`. -/
structure TreeInv (t : BPlusTree) (g : Ghost) (pend : Option (Int × Int × Int)) : Prop where
  leafMax : 1 ≤ t.leaf_max_size_
  internalMax : 2 ≤ t.internal_max_size_
  ids : ∀ id p, t.FetchPage id = some p → p.GetPageId = id ∧ 1 ≤ id ∧ id < t.next_page_id_
  root : ∃ p, t.FetchPage t.root_page_id_ = some p ∧ p.GetParentPageId = INVALID_PAGE_ID ∧
    g.lo t.root_page_id_ = none ∧ effHi g pend t.root_page_id_ = none
  parent : ∀ id p, t.FetchPage id = some p → id ≠ t.root_page_id_ →
    (∀ l k r, pend = some (l, k, r) → id ≠ r) →
    ∃ q i, t.FetchPage p.GetParentPageId = some (.internal q) ∧ 0 ≤ i ∧ i < q.size_ ∧
      (arrGet q.array_ i).2 = id
  leaf : ∀ id p, t.FetchPage id = some (.leaf p) →
    g.lvl id = 0 ∧ p.max_size_ = t.leaf_max_size_ ∧ 0 ≤ p.size_ ∧
    (2 ≤ t.leaf_max_size_ → p.size_ < t.leaf_max_size_) ∧
    (id ≠ t.root_page_id_ → 2 ≤ t.leaf_max_size_ ∨ g.lo id ≠ none → 1 ≤ p.size_) ∧
    KeysSorted p.array_ 0 p.size_ ∧
    (∀ i, 0 ≤ i → i < p.size_ →
      loLe (g.lo id) (arrGet p.array_ i).1 ∧ ltHi (arrGet p.array_ i).1 (g.hi id)) ∧
    (∀ a, g.lo id = some a → (arrGet p.array_ 0).1 = a) ∧ id ∈ g.chain
  internal : ∀ id p, t.FetchPage id = some (.internal p) →
    1 ≤ g.lvl id ∧ p.max_size_ = t.internal_max_size_ ∧
    (1 ≤ p.size_ ∧ (3 ≤ t.internal_max_size_ → 2 ≤ p.size_)) ∧
    p.size_ ≤ t.internal_max_size_ ∧
    NodeOk t g pend id p.size_ (arrGet p.array_) (g.lo id) (g.hi id)
  chain : ChainOk t g g.chain ∧ g.chain.Nodup ∧ ∀ h, g.chain.head? = some h → g.lo h = none
  depth : g.lvl t.root_page_id_ + 1 ≤ t.pages_.length
  lvlRoot : ∀ id p, t.FetchPage id = some p → g.lvl id ≤ g.lvl t.root_page_id_
  pending : ∀ l k r, pend = some (l, k, r) →
    (∃ lp, t.FetchPage l = some lp) ∧ (∃ rp, t.FetchPage r = some rp) ∧
    r ≠ t.root_page_id_ ∧ g.lvl r = g.lvl l ∧ g.lo r = some k ∧ g.hi l = some k ∧
    loLt (g.lo l) k ∧ ltHi k (g.hi r) ∧
    (∀ id q, t.FetchPage id = some (.internal q) → ∀ i, 0 ≤ i → i < q.size_ →
      (arrGet q.array_ i).2 ≠ r) ∧
    ∀ lp, t.FetchPage l = some (.leaf lp) → 2 ≤ t.leaf_max_size_ ∨ g.lo l ≠ none →
      1 ≤ lp.size_

/-- The pair `(k, v)` is stored in a slot `[0, size)` of the leaf page. -/
def LeafPage.has (p : LeafPage) (k : Int) (v : ValueType) : Prop :=
  ∃ i, 0 ≤ i ∧ i < p.size_ ∧ arrGet p.array_ i = (k, v)

/-- The pair `(k, v)` is stored in a slot of a leaf page of the table. -/
def BPlusTree.holds (t : BPlusTree) (k : Int) (v : ValueType) : Prop :=
  ∃ id p, t.FetchPage id = some (.leaf p) ∧ p.has k v

/-- The chain with the page `n` put in right after the page `x`. -/
def insertAfter (x n : Int) : List Int → List Int
  | [] => []
  | c :: rest => if c = x then c :: n :: rest else c :: insertAfter x n rest

/-- The bookkeeping after the page `x` was split at the key `sep` into `x` and the new
page `n`. -/
def splitGhost (g : Ghost) (x n : Int) (sep : Int) : Ghost :=
  { lvl := fun id => if id = n then g.lvl x else g.lvl id,
    lo := fun id => if id = n then some sep else g.lo id,
    hi := fun id => if id = x then some sep else if id = n then g.hi x else g.hi id,
    chain := insertAfter x n g.chain }

/-- Every leaf page has the same slots in both states. -/
def BPlusTree.sameLeaves (t t' : BPlusTree) : Prop :=
  ∀ id,
    (∀ p, t.FetchPage id = some (.leaf p) →
      ∃ p', t'.FetchPage id = some (.leaf p') ∧ p'.size_ = p.size_ ∧ p'.array_ = p.array_) ∧
    (∀ p', t'.FetchPage id = some (.leaf p') →
      ∃ p, t.FetchPage id = some (.leaf p) ∧ p'.size_ = p.size_ ∧ p'.array_ = p.array_)

/-- The bookkeeping after the page `n` became the new root above the old root `l`. -/
def rootGhost (g : Ghost) (l n : Int) : Ghost :=
  { lvl := fun id => if id = n then g.lvl l + 1 else g.lvl id,
    lo := fun id => if id = n then none else g.lo id,
    hi := fun id => if id = n then none else g.hi id,
    chain := g.chain }

/-- The calls `Insert(k, v)` for the pairs of a list, in order. -/
def insertPairs (kvs : List (KeyType × ValueType)) : List TreeOp :=
  kvs.map (fun e => TreeOp.insert e.1 e.2)

/-- The tree states reached from the empty tree of `BPlusTree.new name L I` by `Insert`
calls, each with the pairs whose `Insert` returned true, newest first. -/
inductive InsertReach (name : String) (L I : Int) :
    BPlusTree → List (Int × ValueType) → Prop where
  | init : InsertReach name L I (BPlusTree.new name L I) []
  | step {t : BPlusTree} {m : List (Int × ValueType)} (k : Int) (v : ValueType) (b : Bool)
      (t' : BPlusTree) :
      InsertReach name L I t m → t.Insert k v = some (b, t') →
      InsertReach name L I t' (if b = true then (k, v) :: m else m)

/-- The state of a tree between public calls in an insert-only run: empty and untouched,
or well-formed and holding exactly the pairs inserted so far. -/
def StateInv (t : BPlusTree) (m : List (Int × ValueType)) : Prop :=
  (t.root_page_id_ = INVALID_PAGE_ID ∧ t.pages_ = [] ∧ (1 : Int) ≤ t.next_page_id_ ∧
    1 ≤ t.leaf_max_size_ ∧ 2 ≤ t.internal_max_size_ ∧ m = []) ∨
  (∃ g, TreeInv t g none ∧ ∀ k w, t.holds k w ↔ (k, w) ∈ m)

/-- The slots `[0, size)` of the leaf page `c` of the table (nothing for other ids). -/
def BPlusTree.leafSlots (t : BPlusTree) (c : Int) : List (KeyType × ValueType) :=
  match t.FetchPage c with
  | some (.leaf p) => p.slots
  | _ => []
/-! ## Pages, stores and scenarios used to state the page-level claims -/

/-- Scenario for C22: both `max_size` 4; `Insert(1)`, `Remove(1)`, `Insert(2)`: the tree
becomes empty and then non-empty again. -/
def headerTree : Option BPlusTree :=
  (BPlusTree.new "index" 4 4).run (insertKeys [1] ++ removeKeys [1] ++ insertKeys [2])

/-- A full leaf page: `max_size` 4 and the keys 2, 3, 4, 5. -/
def fullLeaf : LeafPage :=
  { page_id_ := 1, parent_page_id_ := 3, size_ := 4, max_size_ := 4, next_page_id_ := 7,
    array_ := [(2, ridOf 2), (3, ridOf 3), (4, ridOf 4), (5, ridOf 5)] }

/-- A leaf page with room left: `max_size` 4 and the keys 1, 2. -/
def halfLeaf : LeafPage :=
  { page_id_ := 1, parent_page_id_ := 3, size_ := 2, max_size_ := 4, next_page_id_ := 7,
    array_ := [(1, ridOf 1), (2, ridOf 2)] }

/-- An internal page with the children 1, 2, 5 and the separators 4 and 7. -/
def sampleInternal : InternalPage :=
  { page_id_ := 3, parent_page_id_ := INVALID_PAGE_ID, size_ := 3, max_size_ := 4,
    array_ := [(0, 1), (4, 2), (7, 5)] }

/-- A store for the internal `Split`: the full internal page 5 (`max_size` 3) with the leaf
children 1, 2, 3, the new leaf 4 and the freshly initialised internal page 6. -/
def splitStore : BPlusTree :=
  { index_name_ := "index", root_page_id_ := 5, leaf_max_size_ := 4, internal_max_size_ := 3,
    pages_ :=
      [(1, .leaf (LeafPage.Init 1 5 4)), (2, .leaf (LeafPage.Init 2 5 4)),
       (3, .leaf (LeafPage.Init 3 5 4)), (4, .leaf (LeafPage.Init 4 INVALID_PAGE_ID 4)),
       (5, .internal { page_id_ := 5, parent_page_id_ := INVALID_PAGE_ID, size_ := 3,
                       max_size_ := 3, array_ := [(0, 1), (10, 2), (20, 3)] }),
       (6, .internal (InternalPage.Init 6 INVALID_PAGE_ID 3))],
    next_page_id_ := 7, header_ := [("index", 5)], header_calls_ := [], pins_ := [] }

/-- A store for the internal `Merge`: the internal pages 5 (children 1, 2) and 6
(children 3, 4), both with `max_size` 4, and their four leaf children. -/
def mergeStore : BPlusTree :=
  { index_name_ := "index", root_page_id_ := 7, leaf_max_size_ := 4, internal_max_size_ := 4,
    pages_ :=
      [(1, .leaf (LeafPage.Init 1 5 4)), (2, .leaf (LeafPage.Init 2 5 4)),
       (3, .leaf (LeafPage.Init 3 6 4)), (4, .leaf (LeafPage.Init 4 6 4)),
       (5, .internal { page_id_ := 5, parent_page_id_ := 7, size_ := 2, max_size_ := 4,
                       array_ := [(0, 1), (10, 2)] }),
       (6, .internal { page_id_ := 6, parent_page_id_ := 7, size_ := 2, max_size_ := 4,
                       array_ := [(0, 3), (30, 4)] })],
    next_page_id_ := 8, header_ := [("index", 7)], header_calls_ := [], pins_ := [] }
/-! ## Views and scenarios for the claims on redistribution, tree depth and eviction order -/

/-- The state before the `Remove(70)` of `redistributedTree`: leaf `max_size` 6, internal
`max_size` 4, keys 10, …, 90, 61, 62 inserted. -/
def beforeRedistribute : Option BPlusTree :=
  (BPlusTree.new "index" 6 4).run (insertKeys [10, 20, 30, 40, 50, 60, 70, 80, 90, 61, 62])

/-- Scenario for C33: both `max_size` 4; the keys 10, 20, …, 140 and then 51, 52, 71, 72
are inserted, 90 and 100 are removed.  The root (page 8) has three internal children: page
3, page 7 with four leaves and page 11 with the two leaves 6 and 10. -/
def internalUnderflowTree : Option BPlusTree :=
  (BPlusTree.new "index" 4 4).run
    (insertKeys [10, 20, 30, 40, 50, 60, 70, 80, 90, 100, 110, 120, 130, 140, 51, 52, 71, 72]
      ++ removeKeys [90, 100])

/-- The leaves below the page `page_id` with their depth below that page, found by
following the child ids in the slots `[0, size)` of the internal pages; `fuel` bounds the
depth of the walk. -/
def BPlusTree.leafDepths (t : BPlusTree) : Nat → page_id_t → List (page_id_t × Nat)
  | 0, _ => []
  | fuel + 1, page_id =>
    match t.FetchPage page_id with
    | some (.leaf _) => [(page_id, 0)]
    | some (.internal p) =>
      ((p.slots.map Prod.snd).bind (BPlusTree.leafDepths t fuel)).map
        (fun e => (e.1, e.2 + 1))
    | none => []

/-- The descent loop of `FindLeafPage` with a counter of its turns: the number of `Lookup`
calls made before a leaf is reached. -/
def BPlusTree.FindLeafPage.steps (key : KeyType) : Nat → BPlusTree → page_id_t → Option Nat
  | 0, _, _ => none
  | fuel + 1, t, page =>
    match t.FetchPage page with
    | none => none
    | some (.leaf _) => some 0
    | some (.internal internal_page) =>
      match t.FetchPage (internal_page.Lookup key) with
      | none => none
      | some _ =>
        (BPlusTree.FindLeafPage.steps key fuel
          ((t.Pin (internal_page.Lookup key)).UnpinPage page)
          (internal_page.Lookup key)).map (fun n => n + 1)

/-- The number of `Lookup` calls that `FindLeafPage(key)` makes; zero on an empty tree,
where it returns null at once. -/
def BPlusTree.lookupSteps (t : BPlusTree) (key : KeyType) : Option Nat :=
  if t.IsEmpty then some 0
  else
    match t.FetchPage t.root_page_id_ with
    | none => none
    | some _ =>
      BPlusTree.FindLeafPage.steps key (t.pages_.length + 1) (t.Pin t.root_page_id_)
        t.root_page_id_

/-- A replacer with `K = 1` that tracks the evictable frames 5 and -1, frame -1 with the
older access: its frame map lists frame 5 first. -/
def sentinelReplacer : LRUKReplacer :=
  runOps (LRUKReplacer.new 7 1)
    [.recordAccess 5, .recordAccess (-1), .recordAccess 5, .setEvictable 5 true,
     .setEvictable (-1) true]

/-- The state of `internalUnderflowTree` (the empty tree if a call of the run is
undefined). -/
def internalUnderflowState : BPlusTree :=
  internalUnderflowTree.getD (BPlusTree.new "index" 4 4)

/-- The sibling, key and flag that `GetBotherPage(child)` of the internal page `page_id`
returns, and the slot that `KeyIndex` finds for that key. -/
def BPlusTree.siblingOf (t : BPlusTree) (page_id child : page_id_t) :
    Option ((page_id_t × KeyType × Bool) × Int) :=
  match t.FetchPage page_id with
  | some (.internal q) => some (q.GetBotherPage child, q.KeyIndex (q.GetBotherPage child).2.1)
  | _ => none

/-- Every page of the table is a leaf page with a size that is not negative: the state of a
tree whose leaves are never split. -/
def LeafOnly (t : BPlusTree) : Prop :=
  ∀ id p, t.FetchPage id = some p → ∃ lp, p = .leaf lp ∧ 0 ≤ lp.size_

/-- The invariant of a non-empty tree with `internal_max_size` 0 or 1 between the steps of
an insertion.  No internal page has room for a new pair, so every split of a leaf runs up to
a new root and no slot of an internal page is ever written again; the tree is no search
tree, but every page still has the lower bound `lo` of the bookkeeping: the keys below it
are at or above `lo`, and `lo` itself is stored below it.  With
`pend = some (left, key, right)` the pair `(key, right)` is still to be entered above
`left`. -/
structure DegInv (t : BPlusTree) (g : Ghost) (pend : Option (Int × Int × Int)) : Prop where
  leafMax : 1 ≤ t.leaf_max_size_
  internalMax : 0 ≤ t.internal_max_size_ ∧ t.internal_max_size_ ≤ 1
  ids : ∀ id p, t.FetchPage id = some p → p.GetPageId = id ∧ 1 ≤ id ∧ id < t.next_page_id_
  root : ∃ p, t.FetchPage t.root_page_id_ = some p ∧ g.lo t.root_page_id_ = none
  parent : ∀ id p, t.FetchPage id = some p → id ≠ t.root_page_id_ →
    (∀ l k r, pend = some (l, k, r) → id ≠ r) →
    ∃ q, t.FetchPage p.GetParentPageId = some (.internal q) ∧
      g.lvl p.GetParentPageId = g.lvl id + 1
  leaf : ∀ id p, t.FetchPage id = some (.leaf p) →
    g.lvl id = 0 ∧ p.max_size_ = t.leaf_max_size_ ∧ 0 ≤ p.size_ ∧
    (2 ≤ t.leaf_max_size_ → p.size_ < t.leaf_max_size_) ∧
    (g.lo id ≠ none → 1 ≤ p.size_) ∧
    KeysSorted p.array_ 0 p.size_ ∧
    (∀ i, 0 ≤ i → i < p.size_ → loLe (g.lo id) (arrGet p.array_ i).1) ∧
    (∀ a, g.lo id = some a → (arrGet p.array_ 0).1 = a)
  internal : ∀ id p, t.FetchPage id = some (.internal p) →
    1 ≤ g.lvl id ∧ p.max_size_ = t.internal_max_size_ ∧ 1 ≤ p.size_ ∧ p.size_ ≤ 2 ∧
    ∀ i, 0 ≤ i → i < p.size_ →
      ∃ cp, t.FetchPage (arrGet p.array_ i).2 = some cp ∧
        g.lvl (arrGet p.array_ i).2 + 1 = g.lvl id ∧
        g.lo (arrGet p.array_ i).2
          = (if i = 0 then g.lo id else some (arrGet p.array_ i).1) ∧
        (1 ≤ i → loLe (g.lo id) (arrGet p.array_ i).1)
  depth : g.lvl t.root_page_id_ + 1 ≤ t.pages_.length
  lvlRoot : ∀ id p, t.FetchPage id = some p → g.lvl id ≤ g.lvl t.root_page_id_
  pending : ∀ l k r, pend = some (l, k, r) →
    (∃ lp, t.FetchPage l = some lp) ∧ (∃ rp, t.FetchPage r = some rp) ∧
    r ≠ t.root_page_id_ ∧ l ≠ r ∧ g.lvl r = g.lvl l ∧ g.lo r = some k

/-- The state of a tree with `internal_max_size` 0 or 1 between public calls in an
insert-only run: empty and untouched, or as `DegInv` describes. -/
def DegState (t : BPlusTree) : Prop :=
  (t.root_page_id_ = INVALID_PAGE_ID ∧ t.pages_ = [] ∧ (1 : Int) ≤ t.next_page_id_ ∧
    1 ≤ t.leaf_max_size_ ∧ 0 ≤ t.internal_max_size_ ∧ t.internal_max_size_ ≤ 1) ∨
  ∃ g, DegInv t g none

/-! ## LRU-K replacer: lemmas on the frame map -/

theorem mapFind_eq_none_iff {β : Type} (m : List (Int × β)) (id : Int) :
    mapFind m id = none ↔ id ∉ m.map Prod.fst := by
  induction m with
  | nil => simp [mapFind]
  | cons e rest ih =>
    obtain ⟨key, value⟩ := e
    by_cases h : key = id
    · simp [mapFind, h]
    · simp only [mapFind, h, if_false, ih, List.map_cons, List.mem_cons]
      constructor
      · intro h1 h2
        rcases h2 with h2 | h2
        · exact h h2.symm
        · exact h1 h2
      · intro h1 h2
        exact h1 (Or.inr h2)

theorem mapFind_mem {β : Type} (m : List (Int × β)) (id : Int) (info : β)
    (h : mapFind m id = some info) : (id, info) ∈ m := by
  induction m with
  | nil => simp [mapFind] at h
  | cons e rest ih =>
    obtain ⟨key, value⟩ := e
    by_cases hk : key = id
    · simp only [mapFind, hk, if_true, Option.some.injEq] at h
      simp [hk, h]
    · simp only [mapFind, hk, if_false] at h
      exact List.mem_cons_of_mem _ (ih h)

theorem mapFind_of_mem {β : Type} (m : List (Int × β)) (id : Int) (info : β)
    (hnd : (m.map Prod.fst).Nodup) (h : (id, info) ∈ m) : mapFind m id = some info := by
  induction m with
  | nil => simp at h
  | cons e rest ih =>
    obtain ⟨key, value⟩ := e
    simp only [List.map_cons, List.nodup_cons] at hnd
    rcases List.mem_cons.1 h with h | h
    · simp only [Prod.mk.injEq] at h
      simp [mapFind, h.1, h.2]
    · have hne : key ≠ id := by
        intro hk
        apply hnd.1
        rw [hk]
        exact List.mem_map_of_mem Prod.fst h
      simp only [mapFind, hne, if_false]
      exact ih hnd.2 h

theorem mapFind_mapSet_same {β : Type} (m : List (Int × β)) (id : Int)
    (info : β) : mapFind (mapSet m id info) id = some info := by
  induction m with
  | nil => simp [mapSet, mapFind]
  | cons e rest ih =>
    obtain ⟨key, value⟩ := e
    by_cases hk : key = id
    · simp [mapSet, mapFind, hk]
    · simp [mapSet, mapFind, hk, ih]

theorem mapFind_mapSet_other {β : Type} (m : List (Int × β)) (id g : Int)
    (info : β) (hg : g ≠ id) : mapFind (mapSet m id info) g = mapFind m g := by
  induction m with
  | nil =>
    have : ¬ id = g := fun h => hg h.symm
    simp [mapSet, mapFind, this]
  | cons e rest ih =>
    obtain ⟨key, value⟩ := e
    by_cases hk : key = id
    · have : ¬ id = g := fun h => hg h.symm
      simp [mapSet, mapFind, hk, this]
    · by_cases hkg : key = g
      · subst hkg
        simp [mapSet, mapFind, hk]
      · simp [mapSet, mapFind, hk, hkg, ih]

theorem mapSet_keys_of_mem {β : Type} (m : List (Int × β)) (id : Int)
    (info : β) (h : id ∈ m.map Prod.fst) :
    (mapSet m id info).map Prod.fst = m.map Prod.fst := by
  induction m with
  | nil => simp at h
  | cons e rest ih =>
    obtain ⟨key, value⟩ := e
    by_cases hk : key = id
    · simp [mapSet, hk]
    · have h2 : id ∈ rest.map Prod.fst := by
        simp only [List.map_cons, List.mem_cons] at h
        rcases h with h | h
        · exact absurd h.symm hk
        · exact h
      simp [mapSet, hk, ih h2]

theorem mapSet_of_not_mem {β : Type} (m : List (Int × β)) (id : Int)
    (info : β) (h : id ∉ m.map Prod.fst) : mapSet m id info = m ++ [(id, info)] := by
  induction m with
  | nil => simp [mapSet]
  | cons e rest ih =>
    obtain ⟨key, value⟩ := e
    simp only [List.map_cons, List.mem_cons, not_or] at h
    have hk : ¬ key = id := fun hk => h.1 hk.symm
    simp [mapSet, hk, ih h.2]

theorem mapSet_length_of_mem {β : Type} (m : List (Int × β)) (id : Int)
    (info : β) (h : id ∈ m.map Prod.fst) : (mapSet m id info).length = m.length := by
  have := congrArg List.length (mapSet_keys_of_mem m id info h)
  simpa using this

theorem mapFind_mapErase_same {β : Type} (m : List (Int × β)) (id : Int) :
    mapFind (mapErase m id) id = none := by
  induction m with
  | nil => simp [mapErase, mapFind]
  | cons e rest ih =>
    obtain ⟨key, value⟩ := e
    by_cases hk : key = id
    · simp [mapErase, hk, ih]
    · simp [mapErase, mapFind, hk, ih]

theorem mapFind_mapErase_other {β : Type} (m : List (Int × β)) (id g : Int)
    (hg : g ≠ id) : mapFind (mapErase m id) g = mapFind m g := by
  induction m with
  | nil => simp [mapErase, mapFind]
  | cons e rest ih =>
    obtain ⟨key, value⟩ := e
    by_cases hk : key = id
    · have h2 : ¬ id = g := fun h => hg h.symm
      simp [mapErase, mapFind, hk, ih, h2]
    · by_cases hkg : key = g
      · subst hkg
        simp [mapErase, mapFind, hk]
      · simp [mapErase, mapFind, hk, hkg, ih]

theorem mapErase_sublist {β : Type} (m : List (Int × β)) (id : Int) :
    (mapErase m id).Sublist m := by
  induction m with
  | nil => simp [mapErase]
  | cons e rest ih =>
    obtain ⟨key, value⟩ := e
    by_cases hk : key = id
    · simp only [mapErase, hk, if_true]
      exact List.Sublist.cons _ ih
    · simp only [mapErase, hk, if_false]
      exact List.Sublist.cons₂ _ ih

theorem mapErase_of_not_mem {β : Type} (m : List (Int × β)) (id : Int)
    (h : id ∉ m.map Prod.fst) : mapErase m id = m := by
  induction m with
  | nil => simp [mapErase]
  | cons e rest ih =>
    obtain ⟨key, value⟩ := e
    simp only [List.map_cons, List.mem_cons, not_or] at h
    have hk : ¬ key = id := fun hk => h.1 hk.symm
    simp [mapErase, hk, ih h.2]

/-- The number of evictable entries of a frame map. -/
theorem evictableFrames_length (r : LRUKReplacer) :
    (evictableFrames r).length = (r.frame_map_.filter (fun e => e.2.evictable_)).length := by
  simp [evictableFrames]

theorem countEv_mapSet_some (m : List (Int × FrameInfo)) (id : frame_id_t)
    (old new : FrameInfo) (h : mapFind m id = some old) :
    ((mapSet m id new).filter (fun e => e.2.evictable_)).length
        + (if old.evictable_ then 1 else 0)
      = (m.filter (fun e => e.2.evictable_)).length + (if new.evictable_ then 1 else 0) := by
  induction m with
  | nil => simp [mapFind] at h
  | cons e rest ih =>
    obtain ⟨key, value⟩ := e
    by_cases hk : key = id
    · simp only [mapFind, hk, if_true, Option.some.injEq] at h
      subst h
      simp only [mapSet, hk, if_true, List.filter_cons]
      cases h1 : value.evictable_ <;> cases h2 : new.evictable_ <;> simp
    · simp only [mapFind, hk, if_false] at h
      have := ih h
      simp only [mapSet, hk, if_false, List.filter_cons]
      cases h1 : value.evictable_ <;> simp <;> omega

theorem countEv_mapErase (m : List (Int × FrameInfo)) (id : frame_id_t)
    (old : FrameInfo) (hnd : (m.map Prod.fst).Nodup) (h : mapFind m id = some old) :
    ((mapErase m id).filter (fun e => e.2.evictable_)).length
        + (if old.evictable_ then 1 else 0)
      = (m.filter (fun e => e.2.evictable_)).length := by
  induction m with
  | nil => simp [mapFind] at h
  | cons e rest ih =>
    obtain ⟨key, value⟩ := e
    simp only [List.map_cons, List.nodup_cons] at hnd
    by_cases hk : key = id
    · simp only [mapFind, hk, if_true, Option.some.injEq] at h
      subst h
      have hnot : id ∉ rest.map Prod.fst := by rw [← hk]; exact hnd.1
      simp only [mapErase, hk, if_true, List.filter_cons, mapErase_of_not_mem rest id hnot]
      cases h1 : value.evictable_ <;> simp
    · simp only [mapFind, hk, if_false] at h
      have := ih hnd.2 h
      simp only [mapErase, hk, if_false, List.filter_cons]
      cases h1 : value.evictable_ <;> simp <;> omega

theorem mapFind_perm {β : Type} (m m2 : List (Int × β)) (hnd : (m.map Prod.fst).Nodup)
    (hp : m.Perm m2) (id : Int) : mapFind m2 id = mapFind m id := by
  have hnd2 : (m2.map Prod.fst).Nodup := (hp.map Prod.fst).nodup_iff.1 hnd
  cases h : mapFind m id with
  | none =>
    rw [mapFind_eq_none_iff] at h ⊢
    intro h2
    exact h ((hp.map Prod.fst).mem_iff.2 h2)
  | some info =>
    exact mapFind_of_mem m2 id info hnd2 (hp.mem_iff.1 (mapFind_mem m id info h))

theorem mem_evictableFrames (r : LRUKReplacer) (hnd : (r.frame_map_.map Prod.fst).Nodup)
    (g : frame_id_t) :
    g ∈ evictableFrames r ↔ ∃ info, mapFind r.frame_map_ g = some info ∧ info.evictable_ = true := by
  simp only [evictableFrames, List.mem_map, List.mem_filter]
  constructor
  · rintro ⟨e, ⟨he, hev⟩, rfl⟩
    exact ⟨e.2, mapFind_of_mem _ _ _ hnd he, hev⟩
  · rintro ⟨info, hf, hev⟩
    exact ⟨(g, info), ⟨mapFind_mem _ _ _ hf, hev⟩, rfl⟩
/-! ## LRU-K replacer: the invariant is kept -/

theorem mapFind_mapSet {β : Type} (m : List (Int × β)) (id g : Int)
    (info : β) :
    mapFind (mapSet m id info) g = if g = id then some info else mapFind m g := by
  by_cases h : g = id
  · subst h
    simp [mapFind_mapSet_same]
  · simp [h, mapFind_mapSet_other m id g info h]

theorem mapFind_mapErase {β : Type} (m : List (Int × β)) (id g : Int) :
    mapFind (mapErase m id) g = if g = id then none else mapFind m g := by
  by_cases h : g = id
  · subst h
    simp [mapFind_mapErase_same]
  · simp [h, mapFind_mapErase_other m id g h]

theorem mapSet_nodup {β : Type} (m : List (Int × β)) (id : Int) (info : β)
    (hnd : (m.map Prod.fst).Nodup) : ((mapSet m id info).map Prod.fst).Nodup := by
  by_cases h : id ∈ m.map Prod.fst
  · rw [mapSet_keys_of_mem m id info h]
    exact hnd
  · rw [mapSet_of_not_mem m id info h, List.map_append]
    refine List.Nodup.append hnd (by simp) ?_
    intro a h1 h2
    simp only [List.map_cons, List.map_nil, List.mem_singleton] at h2
    exact h (h2 ▸ h1)

theorem mapErase_nodup {β : Type} (m : List (Int × β)) (id : Int)
    (hnd : (m.map Prod.fst).Nodup) : ((mapErase m id).map Prod.fst).Nodup :=
  List.Nodup.sublist ((mapErase_sublist m id).map Prod.fst) hnd

theorem mapErase_length_le {β : Type} (m : List (Int × β)) (id : Int) :
    (mapErase m id).length ≤ m.length :=
  (mapErase_sublist m id).length_le

theorem countEv_le_length (m : List (Int × FrameInfo)) :
    (m.filter (fun e => e.2.evictable_)).length ≤ m.length :=
  List.length_filter_le _ _

theorem ReplacerInv.new (n k : Nat) : ReplacerInv n k (LRUKReplacer.new n k) := by
  constructor <;> simp [LRUKReplacer.new, evictableFrames, mapFind]

theorem ReplacerInv.rehash (n k : Nat) (r : LRUKReplacer) (m : List (Int × FrameInfo))
    (h : ReplacerInv n k r) (hp : r.frame_map_.Perm m) :
    ReplacerInv n k { r with frame_map_ := m } := by
  have hf : ∀ id, mapFind m id = mapFind r.frame_map_ id := mapFind_perm _ _ h.nodup hp
  constructor
  · exact h.size_eq
  · exact h.k_eq
  · exact (hp.map Prod.fst).nodup_iff.1 h.nodup
  · simpa [← hp.length_eq] using h.cap
  · have := (hp.filter (fun e => e.2.evictable_)).length_eq
    have hc := h.curr
    simp only [evictableFrames, List.length_map] at hc ⊢
    rw [← this]
    exact hc
  · intro f info hfi
    exact h.hist_ne f info (by simpa [hf] using hfi)
  · intro hk f info hfi
    exact h.hist_le hk f info (by simpa [hf] using hfi)
  · intro f info hfi
    exact h.hist_sorted f info (by simpa [hf] using hfi)
  · intro f info hfi
    exact h.hist_lt f info (by simpa [hf] using hfi)
  · intro f g i1 i2 h1 h2
    exact h.hist_disj f g i1 i2 (by simpa [hf] using h1) (by simpa [hf] using h2)

theorem ReplacerInv.recordAccess (n k : Nat) (r : LRUKReplacer) (f : frame_id_t)
    (h : ReplacerInv n k r) : ReplacerInv n k (RecordAccess r f) := by
  unfold RecordAccess
  split
  · exact h
  · rename_i hdrop
    -- facts about the record read through `frame_map_[f]`
    have hold_sorted : (mapAt r.frame_map_ f).access_history_.Pairwise (fun a b => a < b) := by
      unfold mapAt
      cases hfi : mapFind r.frame_map_ f with
      | none => simp [FrameInfo.fresh]
      | some info => simpa using h.hist_sorted f info hfi
    have hold_lt : ∀ t ∈ (mapAt r.frame_map_ f).access_history_, t < r.current_timestamp_ := by
      unfold mapAt
      cases hfi : mapFind r.frame_map_ f with
      | none => simp [FrameInfo.fresh]
      | some info => simpa using h.hist_lt f info hfi
    have hold_le : 1 ≤ k → (mapAt r.frame_map_ f).access_history_.length ≤ k := by
      intro hk
      unfold mapAt
      cases hfi : mapFind r.frame_map_ f with
      | none => simp [FrameInfo.fresh]
      | some info => simpa using h.hist_le hk f info hfi
    have hold_disj : ∀ g infoG, g ≠ f → mapFind r.frame_map_ g = some infoG →
        ∀ t, t ∈ (mapAt r.frame_map_ f).access_history_ → t ∉ infoG.access_history_ := by
      intro g infoG hg hgi t ht
      unfold mapAt at ht
      cases hfi : mapFind r.frame_map_ f with
      | none => simp [hfi, FrameInfo.fresh] at ht
      | some info =>
        simp only [hfi, Option.getD_some] at ht
        intro ht2
        exact hg (h.hist_disj f g info infoG hfi hgi t ht ht2).symm
    have hpop_sub : ∀ t ∈ (if (mapAt r.frame_map_ f).access_history_.length = r.k_
        then (mapAt r.frame_map_ f).access_history_.tail
        else (mapAt r.frame_map_ f).access_history_), t ∈ (mapAt r.frame_map_ f).access_history_ := by
      intro t ht
      split at ht
      · exact List.mem_of_mem_tail ht
      · exact ht
    constructor
    · exact h.size_eq
    · exact h.k_eq
    · exact mapSet_nodup _ _ _ h.nodup
    · by_cases hm : f ∈ r.frame_map_.map Prod.fst
      · simp only [mapSet_length_of_mem _ _ _ hm]
        exact h.cap
      · have hnone := (mapFind_eq_none_iff _ _).2 hm
        have hcap := h.cap
        have hsz := h.size_eq
        simp only [mapSet_of_not_mem _ _ _ hm, List.length_append, List.length_singleton]
        have : r.frame_map_.length ≠ r.replacer_size_ := fun hx => hdrop ⟨hnone, hx⟩
        omega
    · have hc := h.curr
      simp only [evictableFrames, List.length_map] at hc ⊢
      rw [hc]
      cases hfi : mapFind r.frame_map_ f with
      | none =>
        have hm := (mapFind_eq_none_iff _ _).1 hfi
        simp [mapSet_of_not_mem _ _ _ hm, mapAt, hfi, FrameInfo.fresh, List.filter_append]
      | some info =>
        have := countEv_mapSet_some r.frame_map_ f info
          { evictable_ := (mapAt r.frame_map_ f).evictable_,
            access_history_ := (if (mapAt r.frame_map_ f).access_history_.length = r.k_
              then (mapAt r.frame_map_ f).access_history_.tail
              else (mapAt r.frame_map_ f).access_history_) ++ [r.current_timestamp_] } hfi
        simp only [mapAt, hfi, Option.getD_some] at this ⊢
        omega
    · intro g info hgi
      simp only [mapFind_mapSet] at hgi
      split at hgi
      · simp only [Option.some.injEq] at hgi
        subst hgi
        simp
      · exact h.hist_ne g info hgi
    · intro hk g info hgi
      simp only [mapFind_mapSet] at hgi
      split at hgi
      · simp only [Option.some.injEq] at hgi
        subst hgi
        have := hold_le hk
        have hke := h.k_eq
        simp only [List.length_append, List.length_singleton]
        split
        · rename_i heq
          simp only [List.length_tail]
          omega
        · rename_i hne
          omega
      · exact h.hist_le hk g info hgi
    · intro g info hgi
      simp only [mapFind_mapSet] at hgi
      split at hgi
      · simp only [Option.some.injEq] at hgi
        subst hgi
        simp only
        rw [List.pairwise_append]
        refine ⟨?_, by simp, ?_⟩
        · split
          · exact hold_sorted.sublist (List.tail_sublist _)
          · exact hold_sorted
        · intro a ha b hb
          simp only [List.mem_singleton] at hb
          subst hb
          exact hold_lt a (hpop_sub a ha)
      · exact h.hist_sorted g info hgi
    · intro g info hgi t ht
      simp only [mapFind_mapSet] at hgi
      split at hgi
      · simp only [Option.some.injEq] at hgi
        subst hgi
        simp only [List.mem_append, List.mem_singleton] at ht
        rcases ht with ht | ht
        · have := hold_lt t (hpop_sub t ht)
          simp only
          omega
        · simp only
          omega
      · have := h.hist_lt g info hgi t ht
        simp only
        omega
    · intro g1 g2 i1 i2 h1 h2 t ht1 ht2
      simp only [mapFind_mapSet] at h1 h2
      by_cases e1 : g1 = f <;> by_cases e2 : g2 = f
      · rw [e1, e2]
      · simp only [e1, if_true, Option.some.injEq, e2, if_false] at h1 h2
        subst h1
        simp only [List.mem_append, List.mem_singleton] at ht1
        rcases ht1 with ht1 | ht1
        · exact absurd ht2 (hold_disj g2 i2 e2 h2 t (hpop_sub t ht1))
        · have := h.hist_lt g2 i2 h2 t ht2
          omega
      · simp only [e1, if_true, Option.some.injEq, e2, if_false] at h1 h2
        subst h2
        simp only [List.mem_append, List.mem_singleton] at ht2
        rcases ht2 with ht2 | ht2
        · exact absurd ht1 (hold_disj g1 i1 e1 h1 t (hpop_sub t ht2))
        · have := h.hist_lt g1 i1 h1 t ht1
          omega
      · simp only [e1, e2, if_false] at h1 h2
        exact h.hist_disj g1 g2 i1 i2 h1 h2 t ht1 ht2

theorem decSize_eq (c : Nat) (h1 : 1 ≤ c) (h2 : c < SIZE_MOD) : decSize c = c - 1 := by
  unfold decSize
  have : c + SIZE_MOD - 1 = (c - 1) + SIZE_MOD := by omega
  rw [this, Nat.add_mod_right, Nat.mod_eq_of_lt (by omega)]

theorem incSize_eq (c : Nat) (h2 : c + 1 < SIZE_MOD) : incSize c = c + 1 := by
  unfold incSize
  exact Nat.mod_eq_of_lt h2

theorem ReplacerInv.count_lt (n k : Nat) (r : LRUKReplacer) (h : ReplacerInv n k r)
    (hn : n < SIZE_MOD) : (r.frame_map_.filter (fun e => e.2.evictable_)).length < SIZE_MOD :=
  lt_of_le_of_lt ((countEv_le_length _).trans h.cap) hn

theorem ReplacerInv.setEvictable (n k : Nat) (r : LRUKReplacer) (f : frame_id_t) (b : Bool)
    (hn : n < SIZE_MOD) (h : ReplacerInv n k r) : ReplacerInv n k (SetEvictable r f b) := by
  unfold SetEvictable
  cases hfi : mapFind r.frame_map_ f with
  | none => exact h
  | some info =>
    simp only
    have hmem : f ∈ r.frame_map_.map Prod.fst := by
      by_contra hc
      rw [(mapFind_eq_none_iff _ _).2 hc] at hfi
      exact Option.noConfusion hfi
    have hcnt := countEv_mapSet_some r.frame_map_ f info
      { info with evictable_ := b } hfi
    have hc := h.curr
    simp only [evictableFrames, List.length_map] at hc
    have hlt := h.count_lt n k r hn
    have hle : ((mapSet r.frame_map_ f { info with evictable_ := b }).filter
        (fun e => e.2.evictable_)).length ≤ n := by
      refine (countEv_le_length _).trans ?_
      rw [mapSet_length_of_mem _ _ _ hmem]
      exact h.cap
    have key : ReplacerInv n k { r with
        frame_map_ := mapSet r.frame_map_ f { info with evictable_ := b },
        curr_size_ := ((mapSet r.frame_map_ f { info with evictable_ := b }).filter
          (fun e => e.2.evictable_)).length } := by
      constructor
      · exact h.size_eq
      · exact h.k_eq
      · exact mapSet_nodup _ _ _ h.nodup
      · simp only [mapSet_length_of_mem _ _ _ hmem]
        exact h.cap
      · simp [evictableFrames]
      · intro g i hgi
        simp only [mapFind_mapSet] at hgi
        split at hgi
        · simp only [Option.some.injEq] at hgi
          subst hgi
          exact h.hist_ne f info hfi
        · exact h.hist_ne g i hgi
      · intro hk g i hgi
        simp only [mapFind_mapSet] at hgi
        split at hgi
        · simp only [Option.some.injEq] at hgi
          subst hgi
          exact h.hist_le hk f info hfi
        · exact h.hist_le hk g i hgi
      · intro g i hgi
        simp only [mapFind_mapSet] at hgi
        split at hgi
        · simp only [Option.some.injEq] at hgi
          subst hgi
          exact h.hist_sorted f info hfi
        · exact h.hist_sorted g i hgi
      · intro g i hgi
        simp only [mapFind_mapSet] at hgi
        split at hgi
        · simp only [Option.some.injEq] at hgi
          subst hgi
          exact h.hist_lt f info hfi
        · exact h.hist_lt g i hgi
      · intro g1 g2 i1 i2 h1 h2 t ht1 ht2
        simp only [mapFind_mapSet] at h1 h2
        by_cases e1 : g1 = f <;> by_cases e2 : g2 = f
        · rw [e1, e2]
        · simp only [e1, if_true, Option.some.injEq, e2, if_false] at h1 h2
          subst h1
          rw [e1]
          exact h.hist_disj f g2 info i2 hfi h2 t ht1 ht2
        · simp only [e1, if_true, Option.some.injEq, e2, if_false] at h1 h2
          subst h2
          rw [e2]
          exact h.hist_disj g1 f i1 info h1 hfi t ht1 ht2
        · simp only [e1, e2, if_false] at h1 h2
          exact h.hist_disj g1 g2 i1 i2 h1 h2 t ht1 ht2
    cases hold : info.evictable_ <;> cases hb : b
    · subst hb
      simp [hold] at hcnt
      simp only [Bool.not_false, Bool.and_false, Bool.false_and, Bool.false_eq_true, if_false]
      have e : r.curr_size_ = ((mapSet r.frame_map_ f { info with evictable_ := false }).filter
          (fun e => e.2.evictable_)).length := by
        rw [hc]; omega
      rw [← e] at key
      exact key
    · subst hb
      simp [hold] at hcnt
      simp only [Bool.not_false, Bool.and_true, if_true]
      have e : incSize r.curr_size_ = ((mapSet r.frame_map_ f { info with evictable_ := true }).filter
          (fun e => e.2.evictable_)).length := by
        rw [incSize_eq _ (by omega)]
        omega
      rw [← e] at key
      exact key
    · subst hb
      simp [hold] at hcnt
      simp only [Bool.not_true, Bool.and_false, Bool.false_eq_true, if_false, Bool.not_false,
        Bool.and_true, if_true]
      have e : decSize r.curr_size_ = ((mapSet r.frame_map_ f { info with evictable_ := false }).filter
          (fun e => e.2.evictable_)).length := by
        rw [decSize_eq _ (by omega) (by omega)]
        omega
      rw [← e] at key
      exact key
    · subst hb
      simp [hold] at hcnt
      simp only [Bool.not_true, Bool.and_true, Bool.false_and, Bool.false_eq_true, if_false,
        Bool.and_false]
      have e : r.curr_size_ = ((mapSet r.frame_map_ f { info with evictable_ := true }).filter
          (fun e => e.2.evictable_)).length := by
        rw [hc]; omega
      rw [← e] at key
      exact key

theorem ReplacerInv.erase (n k : Nat) (r : LRUKReplacer) (f : frame_id_t) (info : FrameInfo)
    (hn : n < SIZE_MOD) (h : ReplacerInv n k r) (hfi : mapFind r.frame_map_ f = some info)
    (hev : info.evictable_ = true) :
    ReplacerInv n k { r with frame_map_ := mapErase r.frame_map_ f,
                             curr_size_ := decSize r.curr_size_ } := by
  have hcnt := countEv_mapErase r.frame_map_ f info h.nodup hfi
  have hc := h.curr
  simp only [evictableFrames, List.length_map] at hc
  have hlt := h.count_lt n k r hn
  simp only [hev, if_true] at hcnt
  constructor
  · exact h.size_eq
  · exact h.k_eq
  · exact mapErase_nodup _ _ h.nodup
  · exact (mapErase_length_le _ _).trans h.cap
  · simp only [evictableFrames, List.length_map]
    rw [decSize_eq _ (by omega) (by omega)]
    omega
  · intro g i hgi
    simp only [mapFind_mapErase] at hgi
    split at hgi
    · exact Option.noConfusion hgi
    · exact h.hist_ne g i hgi
  · intro hk g i hgi
    simp only [mapFind_mapErase] at hgi
    split at hgi
    · exact Option.noConfusion hgi
    · exact h.hist_le hk g i hgi
  · intro g i hgi
    simp only [mapFind_mapErase] at hgi
    split at hgi
    · exact Option.noConfusion hgi
    · exact h.hist_sorted g i hgi
  · intro g i hgi
    simp only [mapFind_mapErase] at hgi
    split at hgi
    · exact Option.noConfusion hgi
    · exact h.hist_lt g i hgi
  · intro g1 g2 i1 i2 h1 h2 t ht1 ht2
    simp only [mapFind_mapErase] at h1 h2
    split at h1
    · exact Option.noConfusion h1
    · split at h2
      · exact Option.noConfusion h2
      · exact h.hist_disj g1 g2 i1 i2 h1 h2 t ht1 ht2

theorem ReplacerInv.remove (n k : Nat) (r : LRUKReplacer) (f : frame_id_t)
    (hn : n < SIZE_MOD) (h : ReplacerInv n k r) : ReplacerInv n k (Remove r f) := by
  unfold Remove
  split
  · exact h
  · rename_i hc
    simp only [not_or] at hc
    cases hfi : mapFind r.frame_map_ f with
    | none => exact absurd hfi hc.1
    | some info =>
      have hev : info.evictable_ = true := by
        have := hc.2
        simpa [mapAt, hfi] using this
      exact h.erase n k r f info hn hfi hev

theorem Evict.scan_result (r : LRUKReplacer) (l : List (Int × FrameInfo))
    (fid : frame_id_t) :
    Evict.scan r l fid = fid ∨ ∃ e ∈ l, e.2.evictable_ = true ∧ e.1 = Evict.scan r l fid := by
  induction l generalizing fid with
  | nil => exact Or.inl rfl
  | cons a rest ih =>
    obtain ⟨key, value⟩ := a
    simp only [Evict.scan]
    split
    · rename_i hev
      split
      · rcases ih key with h1 | ⟨e, he, h2, h3⟩
        · exact Or.inr ⟨(key, value), List.mem_cons_self _ _, hev, h1.symm⟩
        · exact Or.inr ⟨e, List.mem_cons_of_mem _ he, h2, h3⟩
      · rcases ih fid with h1 | ⟨e, he, h2, h3⟩
        · exact Or.inl h1
        · exact Or.inr ⟨e, List.mem_cons_of_mem _ he, h2, h3⟩
    · rcases ih fid with h1 | ⟨e, he, h2, h3⟩
      · exact Or.inl h1
      · exact Or.inr ⟨e, List.mem_cons_of_mem _ he, h2, h3⟩

theorem Evict.some_evictable (n k : Nat) (r : LRUKReplacer) (f : frame_id_t)
    (h : ReplacerInv n k r) (hf : (Evict r).1 = some f) :
    f = Evict.scan r r.frame_map_ (-1) ∧ f ≠ -1 ∧
    ∃ info, mapFind r.frame_map_ f = some info ∧ info.evictable_ = true := by
  unfold Evict at hf
  simp only at hf
  split at hf
  · rename_i hne
    simp only [Option.some.injEq] at hf
    refine ⟨hf.symm, hf ▸ hne, ?_⟩
    rcases Evict.scan_result r r.frame_map_ (-1) with h1 | ⟨e, he, h2, h3⟩
    · exact absurd h1 hne
    · refine ⟨e.2, ?_, h2⟩
      rw [← hf, ← h3]
      exact mapFind_of_mem _ _ _ h.nodup he
  · exact Option.noConfusion hf

theorem ReplacerInv.evict (n k : Nat) (r : LRUKReplacer)
    (hn : n < SIZE_MOD) (h : ReplacerInv n k r) : ReplacerInv n k (Evict r).2 := by
  cases hf : (Evict r).1 with
  | none =>
    have : (Evict r).2 = r := by
      unfold Evict at hf ⊢
      simp only at hf ⊢
      split
      · rename_i hne
        simp [hne] at hf
      · rfl
    rw [this]
    exact h
  | some f =>
    obtain ⟨hscan, hne, info, hfi, hev⟩ := Evict.some_evictable n k r f h hf
    have : (Evict r).2 =
        { r with frame_map_ := mapErase r.frame_map_ f, curr_size_ := decSize r.curr_size_ } := by
      unfold Evict
      simp only
      rw [← hscan]
      simp [hne]
    rw [this]
    exact h.erase n k r f info hn hfi hev

theorem ReplacerInv.apply (n k : Nat) (r : LRUKReplacer) (op : ReplacerOp)
    (hn : n < SIZE_MOD) (h : ReplacerInv n k r) : ReplacerInv n k (op.apply r) := by
  cases op with
  | recordAccess f => exact h.recordAccess n k r f
  | setEvictable f b => exact h.setEvictable n k r f b hn
  | remove f => exact h.remove n k r f hn
  | evict => exact h.evict n k r hn

theorem Reachable.inv (n k : Nat) (r : LRUKReplacer) (hn : n < SIZE_MOD)
    (h : Reachable n k r) : ReplacerInv n k r := by
  induction h with
  | init => exact ReplacerInv.new n k
  | step r op _ ih => exact ih.apply n k r op hn
  | rehash r m _ hp ih => exact ih.rehash n k r m hp

theorem Reachable.runOps (n k : Nat) (r : LRUKReplacer) (ops : List ReplacerOp)
    (h : Reachable n k r) : Reachable n k (runOps r ops) := by
  induction ops generalizing r with
  | nil => exact h
  | cons op rest ih => exact ih (op.apply r) (Reachable.step r op h)
/-! ## LRU-K replacer: the scan of `Evict` returns a least candidate -/

/-- The order that `judge` decides, on the history lengths and fronts of two frames. -/
theorem judge_eq_true_iff (r : LRUKReplacer) (s t : frame_id_t) :
    judge r s t = true ↔
      ((history r s).length < r.k_ ∧ (history r t).length = r.k_) ∨
      (¬ ((history r s).length = r.k_ ∧ (history r t).length < r.k_) ∧
        front (history r s) < front (history r t)) := by
  unfold judge history
  split
  · rename_i h
    simp [h]
  · rename_i h
    split
    · rename_i h2
      simp [h2]
    · rename_i h2
      simp only [decide_eq_true_eq]
      constructor
      · intro h3
        exact Or.inr ⟨h2, h3⟩
      · rintro (h3 | h3)
        · exact absurd h3 h
        · exact h3.2

theorem judge_trans (r : LRUKReplacer) (a b c : frame_id_t)
    (ha : (history r a).length ≤ r.k_) (hb : (history r b).length ≤ r.k_)
    (hc : (history r c).length ≤ r.k_)
    (h1 : judge r a b = true) (h2 : judge r b c = true) : judge r a c = true := by
  rw [judge_eq_true_iff] at h1 h2 ⊢
  omega

theorem judge_negtrans (r : LRUKReplacer) (a b c : frame_id_t)
    (ha : (history r a).length ≤ r.k_) (hb : (history r b).length ≤ r.k_)
    (hc : (history r c).length ≤ r.k_)
    (h1 : ¬ judge r a b = true) (h2 : ¬ judge r b c = true) : ¬ judge r a c = true := by
  rw [judge_eq_true_iff] at h1 h2 ⊢
  omega

theorem judge_irrefl (r : LRUKReplacer) (a : frame_id_t) : ¬ judge r a a = true := by
  rw [judge_eq_true_iff]
  omega

/-- Started on a candidate `fid ≠ -1`, the scan ends on a candidate that neither `fid`
nor any evictable entry of the scanned list beats. -/
theorem Evict.scan_least (r : LRUKReplacer) (l : List (Int × FrameInfo))
    (hlen : ∀ g, (history r g).length ≤ r.k_)
    (hneg : ∀ e ∈ l, e.2.evictable_ = true → e.1 ≠ -1)
    (fid : frame_id_t) (hfid : fid ≠ -1) :
    ¬ judge r fid (Evict.scan r l fid) = true ∧
    ∀ e ∈ l, e.2.evictable_ = true → ¬ judge r e.1 (Evict.scan r l fid) = true := by
  induction l generalizing fid with
  | nil =>
    simp only [Evict.scan]
    exact ⟨judge_irrefl r fid, by simp⟩
  | cons a rest ih =>
    obtain ⟨key, value⟩ := a
    have hneg2 : ∀ e ∈ rest, e.2.evictable_ = true → e.1 ≠ -1 :=
      fun e he => hneg e (List.mem_cons_of_mem _ he)
    simp only [Evict.scan]
    by_cases hev : value.evictable_ = true
    · simp only [hev, if_true, hfid, false_or]
      have hkey : key ≠ -1 := hneg (key, value) (List.mem_cons_self _ _) hev
      by_cases hj : judge r key fid = true
      · simp only [hj, if_true]
        obtain ⟨h1, h2⟩ := ih hneg2 key hkey
        refine ⟨?_, ?_⟩
        · intro h3
          exact h1 (judge_trans r key fid _ (hlen _) (hlen _) (hlen _) hj h3)
        · intro e he hee
          rcases List.mem_cons.1 he with he | he
          · subst he
            exact h1
          · exact h2 e he hee
      · simp only [hj]
        obtain ⟨h1, h2⟩ := ih hneg2 fid hfid
        refine ⟨h1, ?_⟩
        intro e he hee
        rcases List.mem_cons.1 he with he | he
        · subst he
          exact judge_negtrans r key fid _ (hlen _) (hlen _) (hlen _) hj h1
        · exact h2 e he hee
    · simp only [hev]
      obtain ⟨h1, h2⟩ := ih hneg2 fid hfid
      refine ⟨h1, ?_⟩
      intro e he hee
      rcases List.mem_cons.1 he with he | he
      · subst he
        exact absurd hee hev
      · exact h2 e he hee

/-- Started without a candidate, the scan ends without one exactly when the list holds no
evictable entry, and otherwise on an evictable entry that no evictable entry beats. -/
theorem Evict.scan_from_none (r : LRUKReplacer) (l : List (Int × FrameInfo))
    (hlen : ∀ g, (history r g).length ≤ r.k_)
    (hneg : ∀ e ∈ l, e.2.evictable_ = true → e.1 ≠ -1) :
    ((∀ e ∈ l, ¬ e.2.evictable_ = true) ∧ Evict.scan r l (-1) = -1) ∨
    ((∃ e ∈ l, e.2.evictable_ = true ∧ e.1 = Evict.scan r l (-1)) ∧
      Evict.scan r l (-1) ≠ -1 ∧
      ∀ e ∈ l, e.2.evictable_ = true → ¬ judge r e.1 (Evict.scan r l (-1)) = true) := by
  induction l with
  | nil => left; simp [Evict.scan]
  | cons a rest ih =>
    obtain ⟨key, value⟩ := a
    have hneg2 : ∀ e ∈ rest, e.2.evictable_ = true → e.1 ≠ -1 :=
      fun e he => hneg e (List.mem_cons_of_mem _ he)
    simp only [Evict.scan]
    by_cases hev : value.evictable_ = true
    · right
      simp only [hev, if_true, true_or]
      have hkey : key ≠ -1 := hneg (key, value) (List.mem_cons_self _ _) hev
      obtain ⟨h1, h2⟩ := Evict.scan_least r rest hlen hneg2 key hkey
      refine ⟨?_, ?_, ?_⟩
      · rcases Evict.scan_result r rest key with h3 | ⟨e, he, h4, h5⟩
        · exact ⟨(key, value), List.mem_cons_self _ _, hev, h3.symm⟩
        · exact ⟨e, List.mem_cons_of_mem _ he, h4, h5⟩
      · rcases Evict.scan_result r rest key with h3 | ⟨e, he, h4, h5⟩
        · rw [h3]; exact hkey
        · rw [← h5]; exact hneg2 e he h4
      · intro e he hee
        rcases List.mem_cons.1 he with he | he
        · subst he
          exact h1
        · exact h2 e he hee
    · simp only [hev]
      rcases ih hneg2 with ⟨h1, h2⟩ | ⟨⟨e, he, h3, h4⟩, h5, h6⟩
      · left
        refine ⟨?_, h2⟩
        intro e he
        rcases List.mem_cons.1 he with he | he
        · subst he
          exact hev
        · exact h1 e he
      · right
        refine ⟨⟨e, List.mem_cons_of_mem _ he, h3, h4⟩, h5, ?_⟩
        intro e2 he2 hee
        rcases List.mem_cons.1 he2 with he2 | he2
        · subst he2
          exact absurd hee hev
        · exact h6 e2 he2 hee

theorem history_of_mapFind (r : LRUKReplacer) (f : frame_id_t) (info : FrameInfo)
    (h : mapFind r.frame_map_ f = some info) : history r f = info.access_history_ := by
  simp [history, mapAt, h]

theorem ReplacerInv.history_le (n k : Nat) (r : LRUKReplacer) (h : ReplacerInv n k r)
    (hk : 1 ≤ k) (g : frame_id_t) : (history r g).length ≤ r.k_ := by
  rw [h.k_eq]
  cases hfi : mapFind r.frame_map_ g with
  | none => simp [history, mapAt, hfi, FrameInfo.fresh]
  | some info =>
    rw [history_of_mapFind r g info hfi]
    exact h.hist_le hk g info hfi

theorem front_mem (q : List Nat) (h : q ≠ []) : front q ∈ q := by
  cases q with
  | nil => exact absurd rfl h
  | cons a rest => simp [front]

theorem ReplacerInv.front_ne (n k : Nat) (r : LRUKReplacer) (h : ReplacerInv n k r)
    (f g : frame_id_t) (i1 i2 : FrameInfo) (h1 : mapFind r.frame_map_ f = some i1)
    (h2 : mapFind r.frame_map_ g = some i2) (hne : g ≠ f) :
    front (history r f) ≠ front (history r g) := by
  rw [history_of_mapFind r f i1 h1, history_of_mapFind r g i2 h2]
  intro heq
  have m1 := front_mem _ (h.hist_ne f i1 h1)
  have m2 := front_mem _ (h.hist_ne g i2 h2)
  rw [← heq] at m2
  exact hne (h.hist_disj f g i1 i2 h1 h2 _ m1 m2).symm

theorem kthRecent_full (k : Nat) (q : List Nat) (hk : 1 ≤ k) (h : q.length = k) :
    kthRecent k q = some (front q) := by
  cases q with
  | nil => simp at h; omega
  | cons a rest =>
    simp only [List.length_cons] at h
    simp only [kthRecent, front, List.headD_cons, List.reverse_cons]
    rw [List.get?_eq_getElem?, List.getElem?_append_right (by simp; omega)]
    simp
    have : k - 1 - rest.length = 0 := by omega
    rw [this]
    rfl
/-! ## Slot arrays: reading after writing, counting loops -/

theorem arrGet_of_nonneg {α : Type} [Inhabited α] (a : List α) (i : Int) (h : 0 ≤ i) :
    arrGet a i = a.getD i.toNat default := by
  simp [arrGet, h]

theorem arrGet_arrSet {α : Type} [Inhabited α] (a : List α) (i j : Int) (v : α) (hi : 0 ≤ i) :
    arrGet (arrSet a i v) j = if j = i then v else arrGet a j := by
  by_cases hj : 0 ≤ j
  · have hni : ¬ i < 0 := by omega
    simp only [arrGet, arrSet, hj, hi, if_true, hni, if_false]
    by_cases hlen : i.toNat < a.length
    · simp only [hlen, if_true]
      by_cases hji : j = i
      · subst hji
        simp [List.getD_eq_getElem?_getD, List.getElem?_set, hlen]
      · have hne : ¬ i.toNat = j.toNat := by omega
        simp [hji, List.getD_eq_getElem?_getD, List.getElem?_set, hne]
    · simp only [hlen, if_false]
      by_cases hji : j = i
      · subst hji
        have h1 : (a ++ List.replicate (j.toNat - a.length) default).length = j.toNat := by
          simp; omega
        simp only [if_true, List.getD_eq_getElem?_getD]
        rw [List.getElem?_append_right (by omega)]
        simp [h1]
      · simp only [hji, if_false, List.getD_eq_getElem?_getD]
        by_cases hjl : j.toNat < a.length
        · rw [List.append_assoc, List.getElem?_append_left hjl]
        · have hnone : a[j.toNat]? = none := List.getElem?_eq_none (by omega)
          rw [hnone]
          by_cases hjl2 : j.toNat < i.toNat
          · rw [List.getElem?_append_left (by simp; omega),
              List.getElem?_append_right (by omega)]
            have hlt : j.toNat - a.length < i.toNat - a.length := by omega
            simp [List.getElem?_replicate, hlt]
          · have : (a ++ List.replicate (i.toNat - a.length) default ++ [v])[j.toNat]? = none := by
              apply List.getElem?_eq_none
              simp
              omega
            rw [this]
  · have hji : ¬ j = i := by omega
    simp [arrGet, hj, hji]

theorem arrGet_arrSet_same {α : Type} [Inhabited α] (a : List α) (i : Int) (v : α)
    (hi : 0 ≤ i) : arrGet (arrSet a i v) i = v := by
  rw [arrGet_arrSet a i i v hi]
  simp

theorem arrGet_arrSet_ne {α : Type} [Inhabited α] (a : List α) (i j : Int) (v : α)
    (hji : j ≠ i) : arrGet (arrSet a i v) j = arrGet a j := by
  by_cases hi : 0 ≤ i
  · rw [arrGet_arrSet a i j v hi]
    simp [hji]
  · have : i < 0 := by omega
    simp [arrSet, this]

theorem upTo_nil (lo hi : Int) (h : hi ≤ lo) : upTo lo hi = [] := by
  have : (hi - lo).toNat = 0 := by omega
  simp [upTo, this]

theorem upTo_cons (lo hi : Int) (h : lo < hi) : upTo lo hi = lo :: upTo (lo + 1) hi := by
  have e : (hi - lo).toNat = (hi - (lo + 1)).toNat + 1 := by omega
  simp only [upTo, e, List.range_succ_eq_map, List.map_cons, List.map_map]
  congr 1
  · simp
  · apply List.map_congr_left
    intro n _
    simp only [Function.comp, Nat.succ_eq_add_one]
    push_cast
    omega

theorem upTo_snoc (lo hi : Int) (h : lo ≤ hi) : upTo lo (hi + 1) = upTo lo hi ++ [hi] := by
  have e : (hi + 1 - lo).toNat = (hi - lo).toNat + 1 := by omega
  simp only [upTo, e, List.range_succ, List.map_append, List.map_cons, List.map_nil]
  congr 2
  omega

theorem mem_upTo (lo hi i : Int) : i ∈ upTo lo hi ↔ lo ≤ i ∧ i < hi := by
  simp only [upTo, List.mem_map, List.mem_range]
  constructor
  · rintro ⟨n, hn, rfl⟩
    omega
  · rintro ⟨h1, h2⟩
    exact ⟨(i - lo).toNat, by omega, by omega⟩

theorem downTo_nil (hi lo : Int) (h : hi < lo) : downTo hi lo = [] := by
  have : (hi - lo + 1).toNat = 0 := by omega
  simp [downTo, this]

theorem downTo_cons (hi lo : Int) (h : lo ≤ hi) : downTo hi lo = hi :: downTo (hi - 1) lo := by
  have e : (hi - lo + 1).toNat = (hi - 1 - lo + 1).toNat + 1 := by omega
  simp only [downTo, e, List.range_succ_eq_map, List.map_cons, List.map_map]
  congr 1
  · simp
  · apply List.map_congr_left
    intro n _
    simp only [Function.comp, Nat.succ_eq_add_one]
    push_cast
    omega

/-- The loop `for (i = hi; i >= lo; --i) array_[i + 1] = array_[i]` moves the slots
`[lo, hi]` one place up. -/
theorem shiftUp_get {α : Type} [Inhabited α] (lo : Int) (hlo : 0 ≤ lo) (n : Nat) :
    ∀ (hi : Int) (a : List α), (hi - lo + 1).toNat = n → ∀ j,
      arrGet ((downTo hi lo).foldl (fun a i => arrSet a (i + 1) (arrGet a i)) a) j
        = if lo + 1 ≤ j ∧ j ≤ hi + 1 then arrGet a (j - 1) else arrGet a j := by
  induction n with
  | zero =>
    intro hi a hn j
    have h : hi < lo := by omega
    rw [downTo_nil hi lo h]
    have : ¬ (lo + 1 ≤ j ∧ j ≤ hi + 1) := by omega
    rw [if_neg this, List.foldl_nil]
  | succ n ih =>
    intro hi a hn j
    have h : lo ≤ hi := by omega
    rw [downTo_cons hi lo h, List.foldl_cons, ih (hi - 1) _ (by omega) j]
    by_cases h1 : lo + 1 ≤ j ∧ j ≤ hi - 1 + 1
    · have h2 : lo + 1 ≤ j ∧ j ≤ hi + 1 := by omega
      rw [if_pos h1, if_pos h2, arrGet_arrSet_ne _ _ _ _ (by omega)]
    · rw [if_neg h1]
      by_cases h3 : j = hi + 1
      · subst h3
        have h2 : lo + 1 ≤ hi + 1 ∧ hi + 1 ≤ hi + 1 := by omega
        rw [if_pos h2, arrGet_arrSet_same _ _ _ (by omega)]
        congr 1
        omega
      · have h2 : ¬ (lo + 1 ≤ j ∧ j ≤ hi + 1) := by omega
        rw [if_neg h2, arrGet_arrSet_ne _ _ _ _ h3]

/-- The loop `for (i = lo; i < hi; ++i) array_[i - 1] = array_[i]` moves the slots
`[lo, hi)` one place down. -/
theorem shiftDown_get {α : Type} [Inhabited α] (n : Nat) :
    ∀ (lo hi : Int) (a : List α), 1 ≤ lo → (hi - lo).toNat = n → ∀ j,
      arrGet ((upTo lo hi).foldl (fun a i => arrSet a (i - 1) (arrGet a i)) a) j
        = if lo - 1 ≤ j ∧ j < hi - 1 then arrGet a (j + 1) else arrGet a j := by
  induction n with
  | zero =>
    intro lo hi a hlo hn j
    have h : hi ≤ lo := by omega
    rw [upTo_nil lo hi h]
    have : ¬ (lo - 1 ≤ j ∧ j < hi - 1) := by omega
    rw [if_neg this, List.foldl_nil]
  | succ n ih =>
    intro lo hi a hlo hn j
    have h : lo < hi := by omega
    rw [upTo_cons lo hi h, List.foldl_cons, ih (lo + 1) hi _ (by omega) (by omega) j]
    by_cases h1 : lo + 1 - 1 ≤ j ∧ j < hi - 1
    · have h2 : lo - 1 ≤ j ∧ j < hi - 1 := by omega
      rw [if_pos h1, if_pos h2, arrGet_arrSet_ne _ _ _ _ (by omega)]
    · rw [if_neg h1]
      by_cases h3 : j = lo - 1
      · subst h3
        have h2 : lo - 1 ≤ lo - 1 ∧ lo - 1 < hi - 1 := by omega
        rw [if_pos h2, arrGet_arrSet_same _ _ _ (by omega)]
        congr 1
        omega
      · have h2 : ¬ (lo - 1 ≤ j ∧ j < hi - 1) := by omega
        rw [if_neg h2, arrGet_arrSet_ne _ _ _ _ h3]
/-! ## Leaf pages: `KeyIndex`, `Insert`, `Split` -/

theorem comparator_lt (a b : Int) : comparator a b < 0 ↔ a < b := by
  unfold comparator
  split_ifs <;> simp only [KeyType] at * <;> omega

theorem comparator_le (a b : Int) : comparator a b ≤ 0 ↔ a ≤ b := by
  unfold comparator
  split_ifs <;> simp only [KeyType] at * <;> omega

theorem comparator_gt (a b : Int) : comparator a b > 0 ↔ b < a := by
  unfold comparator
  split_ifs <;> simp only [KeyType] at * <;> omega

theorem comparator_eq (a b : Int) : comparator a b = 0 ↔ a = b := by
  unfold comparator
  split_ifs with h1 h2
  · exact ⟨fun h => absurd h (by decide), fun h => absurd h (ne_of_lt h1)⟩
  · exact ⟨fun h => absurd h (by decide), fun h => absurd h.symm (ne_of_lt h2)⟩
  · exact ⟨fun _ => le_antisymm (not_lt.1 h2) (not_lt.1 h1), fun _ => rfl⟩

theorem KeysSorted.mono {α : Type} [Inhabited α] {a : List (Int × α)} {lo hi : Int}
    (h : KeysSorted a lo hi) (i j : Int) (hi1 : lo ≤ i) (hij : i ≤ j) (hj : j < hi) :
    (arrGet a i).1 ≤ (arrGet a j).1 := by
  by_cases e : i = j
  · subst e
    exact le_refl _
  · exact le_of_lt (h i j hi1 (by omega) hj)

theorem LeafPage.KeyIndex.loop_spec (p : LeafPage) (key : KeyType)
    (hs : KeysSorted p.array_ 0 p.size_) :
    ∀ (fuel : Nat) (l r : Int), 0 ≤ l → l ≤ r → r ≤ p.size_ → (r - l).toNat ≤ fuel →
      (∀ i, 0 ≤ i → i < l → (arrGet p.array_ i).1 < key) →
      (∀ i, r ≤ i → i < p.size_ → key ≤ (arrGet p.array_ i).1) →
      l ≤ LeafPage.KeyIndex.loop p key fuel l r ∧ LeafPage.KeyIndex.loop p key fuel l r ≤ r ∧
      (∀ i, 0 ≤ i → i < LeafPage.KeyIndex.loop p key fuel l r → (arrGet p.array_ i).1 < key) ∧
      (∀ i, LeafPage.KeyIndex.loop p key fuel l r ≤ i → i < p.size_ →
        key ≤ (arrGet p.array_ i).1) := by
  intro fuel
  induction fuel with
  | zero =>
    intro l r h0 hlr hr hf hlow hhigh
    have e : l = r := by omega
    subst e
    simp only [LeafPage.KeyIndex.loop]
    exact ⟨le_refl _, le_refl _, hlow, hhigh⟩
  | succ n ih =>
    intro l r h0 hlr hr hf hlow hhigh
    simp only [LeafPage.KeyIndex.loop]
    by_cases hl : l < r
    · rw [if_pos hl]
      have hm1 : l ≤ (l + r) / 2 := by omega
      have hm2 : (l + r) / 2 < r := by omega
      by_cases hc : comparator (arrGet p.array_ ((l + r) / 2)).1 key < 0
      · rw [if_pos hc]
        have hk := (comparator_lt _ _).1 hc
        have := ih ((l + r) / 2 + 1) r (by omega) (by omega) hr (by omega)
          (fun i hi0 hi1 =>
            lt_of_le_of_lt (hs.mono i ((l + r) / 2) hi0 (by omega) (by omega)) hk)
          hhigh
        exact ⟨by omega, this.2.1, this.2.2⟩
      · rw [if_neg hc]
        have hk : key ≤ (arrGet p.array_ ((l + r) / 2)).1 := by
          exact not_lt.1 ((comparator_lt (arrGet p.array_ ((l + r) / 2)).1 key).not.1 hc)
        have := ih l ((l + r) / 2) h0 hm1 (by omega) (by omega) hlow
          (fun i hi0 hi1 =>
            le_trans hk (hs.mono ((l + r) / 2) i (by omega) hi0 hi1))
        exact ⟨this.1, by omega, this.2.2⟩
    · rw [if_neg hl]
      have e : l = r := by omega
      subst e
      exact ⟨le_refl _, le_refl _, hlow, hhigh⟩

/-- The leaf `KeyIndex` returns the first slot whose key is not below `key`. -/
theorem LeafPage.KeyIndex_spec (p : LeafPage) (key : KeyType) (h0 : 0 ≤ p.size_)
    (hs : KeysSorted p.array_ 0 p.size_) :
    0 ≤ p.KeyIndex key ∧ p.KeyIndex key ≤ p.size_ ∧
    (∀ i, 0 ≤ i → i < p.KeyIndex key → (arrGet p.array_ i).1 < key) ∧
    (∀ i, p.KeyIndex key ≤ i → i < p.size_ → key ≤ (arrGet p.array_ i).1) := by
  unfold LeafPage.KeyIndex
  exact LeafPage.KeyIndex.loop_spec p key hs p.size_.toNat 0 p.size_ (le_refl _) h0 (le_refl _)
    (by omega) (fun i h1 h2 => by omega) (fun i h1 h2 => by omega)

/-- The key is on the page exactly if `KeyIndex` points at it. -/
theorem LeafPage.KeyIndex_hit (p : LeafPage) (key : KeyType) (h0 : 0 ≤ p.size_)
    (hs : KeysSorted p.array_ 0 p.size_) (i : Int) (hi0 : 0 ≤ i) (hi1 : i < p.size_)
    (hk : (arrGet p.array_ i).1 = key) : p.KeyIndex key = i := by
  obtain ⟨h1, h2, h3, h4⟩ := LeafPage.KeyIndex_spec p key h0 hs
  by_contra hne
  rcases lt_or_gt_of_ne hne with h | h
  · have a := h4 (p.KeyIndex key) (le_refl _) (by omega)
    have b := hs (p.KeyIndex key) i h1 h hi1
    simp only [KeyType] at *
    omega
  · have a := h3 i hi0 h
    simp only [KeyType] at *
    omega

/-- The slots of the page after a successful leaf `Insert` at `index`. -/
theorem LeafPage.Insert_get (p : LeafPage) (value : KeyType × ValueType) (index : Int)
    (h0 : 0 ≤ index) (j : Int) :
    arrGet (arrSet
        ((downTo (p.size_ - 1) index).foldl (fun a i => arrSet a (i + 1) (arrGet a i))
          p.array_) index value) j
      = if j = index then value
        else if index < j ∧ j ≤ p.size_ then arrGet p.array_ (j - 1) else arrGet p.array_ j := by
  rw [arrGet_arrSet _ _ _ _ h0]
  by_cases hj : j = index
  · simp [hj]
  · rw [if_neg hj, if_neg hj, shiftUp_get index h0 _ (p.size_ - 1) p.array_ rfl j]
    by_cases h1 : index < j ∧ j ≤ p.size_
    · rw [if_pos h1, if_pos (by omega)]
    · rw [if_neg h1, if_neg (by omega)]

theorem LeafPage.Split.fold_spec (p bother : LeafPage) (mid : Int) (hmid : 0 ≤ mid) (n : Nat) :
    ∀ c : Int, (c - mid).toNat = n → mid ≤ c →
      ((upTo mid c).foldl (LeafPage.Split.step mid) (p, bother)).1
        = { p with size_ := p.size_ - (c - mid) } ∧
      ((upTo mid c).foldl (LeafPage.Split.step mid) (p, bother)).2.page_id_
        = bother.page_id_ ∧
      ((upTo mid c).foldl (LeafPage.Split.step mid) (p, bother)).2.parent_page_id_
        = bother.parent_page_id_ ∧
      ((upTo mid c).foldl (LeafPage.Split.step mid) (p, bother)).2.max_size_
        = bother.max_size_ ∧
      ((upTo mid c).foldl (LeafPage.Split.step mid) (p, bother)).2.next_page_id_
        = bother.next_page_id_ ∧
      ((upTo mid c).foldl (LeafPage.Split.step mid) (p, bother)).2.size_
        = bother.size_ + (c - mid) ∧
      ∀ j, arrGet ((upTo mid c).foldl (LeafPage.Split.step mid) (p, bother)).2.array_ j
        = if 0 ≤ j ∧ j < c - mid then arrGet p.array_ (mid + j)
          else arrGet bother.array_ j := by
  induction n with
  | zero =>
    intro c hn hc
    have e : c = mid := by omega
    subst e
    rw [upTo_nil _ _ (le_refl _)]
    simp only [List.foldl_nil, sub_self, sub_zero, add_zero, true_and]
    intro j
    rw [if_neg (by omega)]
  | succ n ih =>
    intro c hn hc
    have hc1 : c = (c - 1) + 1 := by omega
    obtain ⟨i1, i2, i3, i4, i5, i6, i7⟩ := ih (c - 1) (by omega) (by omega)
    rw [hc1, upTo_snoc _ _ (by omega), List.foldl_append]
    simp only [List.foldl_cons, List.foldl_nil]
    generalize (upTo mid (c - 1)).foldl (LeafPage.Split.step mid) (p, bother) = st
      at i1 i2 i3 i4 i5 i6 i7
    rw [← hc1]
    unfold LeafPage.Split.step
    simp only
    refine ⟨?_, i2, i3, i4, i5, ?_, ?_⟩
    · rw [i1]
      simp only [LeafPage.mk.injEq, true_and, and_true]
      omega
    · rw [i6]
      omega
    · intro j
      by_cases e : j = c - 1 - mid
      · rw [e, arrGet_arrSet_same _ _ _ (by omega), if_pos (by omega), i1]
        congr 1
        omega
      · rw [arrGet_arrSet_ne _ _ _ _ e, i7 j]
        by_cases h : 0 ≤ j ∧ j < c - 1 - mid
        · rw [if_pos h, if_pos (by omega)]
        · rw [if_neg h, if_neg (by omega)]

/-- The two pages after the leaf `Split`. -/
theorem LeafPage.Split_spec (p bother : LeafPage) (h0 : 0 ≤ p.size_)
    (hmid : p.size_ / 2 ≤ p.max_size_) :
    (p.Split bother).1
      = { p with size_ := p.size_ - (p.max_size_ - p.size_ / 2),
                 next_page_id_ := bother.page_id_ } ∧
    (p.Split bother).2.page_id_ = bother.page_id_ ∧
    (p.Split bother).2.parent_page_id_ = bother.parent_page_id_ ∧
    (p.Split bother).2.max_size_ = bother.max_size_ ∧
    (p.Split bother).2.next_page_id_ = p.next_page_id_ ∧
    (p.Split bother).2.size_ = bother.size_ + (p.max_size_ - p.size_ / 2) ∧
    ∀ j, arrGet (p.Split bother).2.array_ j
      = if 0 ≤ j ∧ j < p.max_size_ - p.size_ / 2 then arrGet p.array_ (p.size_ / 2 + j)
        else arrGet bother.array_ j := by
  obtain ⟨i1, i2, i3, i4, i5, i6, i7⟩ :=
    LeafPage.Split.fold_spec p bother (p.size_ / 2) (by omega) _ p.max_size_ rfl hmid
  unfold LeafPage.Split
  simp only
  refine ⟨?_, i2, i3, i4, trivial, i6, i7⟩
  rw [i1, i2]

/-! ### A slot sequence with one pair put in -/

theorem insAt_lt {α : Type} [Inhabited α] (a : List α) (pos : Int) (v : α) (m : Int)
    (h : m < pos) : insAt a pos v m = arrGet a m := by
  unfold insAt
  rw [if_pos h]

theorem insAt_eq {α : Type} [Inhabited α] (a : List α) (pos : Int) (v : α) :
    insAt a pos v pos = v := by
  unfold insAt
  rw [if_neg (lt_irrefl _), if_pos rfl]

theorem insAt_gt {α : Type} [Inhabited α] (a : List α) (pos : Int) (v : α) (m : Int)
    (h : pos < m) : insAt a pos v m = arrGet a (m - 1) := by
  unfold insAt
  rw [if_neg (by omega), if_neg (by omega)]

/-- Putting a pair in between the smaller and the larger keys keeps the keys increasing. -/
theorem insAt_sorted {α : Type} [Inhabited α] (a : List (Int × α)) (lo n pos : Int)
    (v : Int × α) (hs : KeysSorted a lo n) (h1 : lo ≤ pos) (h2 : pos ≤ n)
    (hbelow : ∀ i, lo ≤ i → i < pos → (arrGet a i).1 < v.1)
    (habove : ∀ i, pos ≤ i → i < n → v.1 < (arrGet a i).1) :
    ∀ i j, lo ≤ i → i < j → j < n + 1 → (insAt a pos v i).1 < (insAt a pos v j).1 := by
  intro i j hi hij hj
  rcases lt_trichotomy i pos with c1 | c1 | c1
  · rw [insAt_lt _ _ _ _ c1]
    rcases lt_trichotomy j pos with c2 | c2 | c2
    · rw [insAt_lt _ _ _ _ c2]
      exact hs i j hi hij (by omega)
    · rw [c2, insAt_eq]
      exact hbelow i hi c1
    · rw [insAt_gt _ _ _ _ c2]
      exact lt_trans (hbelow i hi c1) (habove (j - 1) (by omega) (by omega))
  · rw [c1, insAt_eq, insAt_gt _ _ _ _ (by omega)]
    exact habove (j - 1) (by omega) (by omega)
  · rw [insAt_gt _ _ _ _ c1, insAt_gt _ _ _ _ (by omega)]
    exact hs (i - 1) (j - 1) (by omega) (by omega) (by omega)

/-- The slots after putting a pair in are the pair and the old slots. -/
theorem insAt_mem {α : Type} [Inhabited α] (a : List α) (lo n pos : Int) (v x : α)
    (h1 : lo ≤ pos) (h2 : pos ≤ n) :
    (∃ j, lo ≤ j ∧ j < n + 1 ∧ insAt a pos v j = x) ↔
      (x = v ∨ ∃ j, lo ≤ j ∧ j < n ∧ arrGet a j = x) := by
  constructor
  · rintro ⟨j, hj0, hj1, hj⟩
    rcases lt_trichotomy j pos with c | c | c
    · rw [insAt_lt _ _ _ _ c] at hj
      exact Or.inr ⟨j, hj0, by omega, hj⟩
    · rw [c, insAt_eq] at hj
      exact Or.inl hj.symm
    · rw [insAt_gt _ _ _ _ c] at hj
      exact Or.inr ⟨j - 1, by omega, by omega, hj⟩
  · rintro (hx | ⟨j, hj0, hj1, hj⟩)
    · exact ⟨pos, h1, by omega, by rw [insAt_eq, hx]⟩
    · by_cases c : j < pos
      · exact ⟨j, hj0, by omega, by rw [insAt_lt _ _ _ _ c, hj]⟩
      · refine ⟨j + 1, by omega, by omega, ?_⟩
        rw [insAt_gt _ _ _ _ (by omega)]
        have e : j + 1 - 1 = j := by omega
        rw [e, hj]

/-- The page after a successful leaf `Insert` at the slot found by `KeyIndex`. -/
theorem LeafPage.Insert_spec (p : LeafPage) (key : Int) (v : ValueType) (h0 : 0 ≤ p.size_)
    (hs : KeysSorted p.array_ 0 p.size_)
    (hnew : ¬ (p.KeyIndex key < p.size_ ∧
      comparator (p.KeyAt (p.KeyIndex key)) key = 0)) :
    (p.Insert (key, v) (p.KeyIndex key)).1 = true ∧
    (p.Insert (key, v) (p.KeyIndex key)).2.page_id_ = p.page_id_ ∧
    (p.Insert (key, v) (p.KeyIndex key)).2.parent_page_id_ = p.parent_page_id_ ∧
    (p.Insert (key, v) (p.KeyIndex key)).2.max_size_ = p.max_size_ ∧
    (p.Insert (key, v) (p.KeyIndex key)).2.next_page_id_ = p.next_page_id_ ∧
    (p.Insert (key, v) (p.KeyIndex key)).2.size_ = p.size_ + 1 ∧
    (∀ j, j ≤ p.size_ → arrGet (p.Insert (key, v) (p.KeyIndex key)).2.array_ j
      = insAt p.array_ (p.KeyIndex key) (key, v) j) ∧
    (∀ i, 0 ≤ i → i < p.KeyIndex key → (arrGet p.array_ i).1 < key) ∧
    (∀ i, p.KeyIndex key ≤ i → i < p.size_ → key < (arrGet p.array_ i).1) := by
  obtain ⟨k1, k2, k3, k4⟩ := LeafPage.KeyIndex_spec p key h0 hs
  have hc : ¬ (p.KeyIndex key < p.size_ ∧
      comparator (key, v).1 (arrGet p.array_ (p.KeyIndex key)).1 = 0) := by
    intro hh
    apply hnew
    refine ⟨hh.1, ?_⟩
    rw [comparator_eq] at hh ⊢
    exact hh.2.symm
  have habove : ∀ i, p.KeyIndex key ≤ i → i < p.size_ → key < (arrGet p.array_ i).1 := by
    intro i hi1 hi2
    have hne : (arrGet p.array_ (p.KeyIndex key)).1 ≠ key := by
      intro e
      apply hnew
      exact ⟨by omega, (comparator_eq _ _).2 e⟩
    have hlt : key < (arrGet p.array_ (p.KeyIndex key)).1 :=
      lt_of_le_of_ne (k4 _ (le_refl _) (by omega)) (Ne.symm hne)
    exact lt_of_lt_of_le hlt (hs.mono _ _ k1 hi1 hi2)
  unfold LeafPage.Insert
  rw [if_neg hc]
  simp only [true_and]
  refine ⟨?_, k3, habove⟩
  intro j hj
  rw [LeafPage.Insert_get p (key, v) (p.KeyIndex key) k1 j]
  unfold insAt
  by_cases c1 : j = p.KeyIndex key
  · rw [if_pos c1, if_neg (by omega), if_pos c1]
  · rw [if_neg c1]
    by_cases c2 : j < p.KeyIndex key
    · rw [if_neg (by omega), if_pos c2]
    · rw [if_pos (by omega), if_neg c2, if_neg c1]
/-! ## Internal pages: `Lookup`, `Insert`, the scratch buffer of `Split` -/

theorem InternalPage.Lookup.loop_lookup (p : InternalPage) (key : Int)
    (hs : KeysSorted p.array_ 1 p.size_) :
    ∀ (fuel : Nat) (l r : Int), 1 ≤ l → l ≤ r → r ≤ p.size_ → (r - l).toNat ≤ fuel →
      (∀ i, 1 ≤ i → i < l → (arrGet p.array_ i).1 ≤ key) →
      (∀ i, r ≤ i → i < p.size_ → key < (arrGet p.array_ i).1) →
      l ≤ InternalPage.Lookup.loop p key fuel l r ∧
      InternalPage.Lookup.loop p key fuel l r ≤ r ∧
      (∀ i, 1 ≤ i → i < InternalPage.Lookup.loop p key fuel l r →
        (arrGet p.array_ i).1 ≤ key) ∧
      (∀ i, InternalPage.Lookup.loop p key fuel l r ≤ i → i < p.size_ →
        key < (arrGet p.array_ i).1) := by
  intro fuel
  induction fuel with
  | zero =>
    intro l r h0 hlr hr hf hlow hhigh
    have e : l = r := by omega
    subst e
    simp only [InternalPage.Lookup.loop]
    exact ⟨le_refl _, le_refl _, hlow, hhigh⟩
  | succ n ih =>
    intro l r h0 hlr hr hf hlow hhigh
    simp only [InternalPage.Lookup.loop]
    by_cases hl : l < r
    · rw [if_pos hl]
      have hm1 : l ≤ (l + r) / 2 := by omega
      have hm2 : (l + r) / 2 < r := by omega
      by_cases hc : comparator (arrGet p.array_ ((l + r) / 2)).1 key ≤ 0
      · rw [if_pos hc]
        have hk := (comparator_le _ _).1 hc
        have := ih ((l + r) / 2 + 1) r (by omega) (by omega) hr (by omega)
          (fun i hi0 hi1 =>
            le_trans (hs.mono i ((l + r) / 2) hi0 (by omega) (by omega)) hk)
          hhigh
        exact ⟨by omega, this.2.1, this.2.2⟩
      · rw [if_neg hc]
        have hk : key < (arrGet p.array_ ((l + r) / 2)).1 :=
          not_le.1 ((comparator_le (arrGet p.array_ ((l + r) / 2)).1 key).not.1 hc)
        have := ih l ((l + r) / 2) h0 hm1 (by omega) (by omega) hlow
          (fun i hi0 hi1 =>
            lt_of_lt_of_le hk (hs.mono ((l + r) / 2) i (by omega) hi0 hi1))
        exact ⟨this.1, by omega, this.2.2⟩
    · rw [if_neg hl]
      have e : l = r := by omega
      subst e
      exact ⟨le_refl _, le_refl _, hlow, hhigh⟩

/-- `Lookup` returns the child of slot `x - 1`, where the keys of the slots `[1, x)` are at
most `key` and the keys of the slots `[x, size)` are above it. -/
theorem InternalPage.Lookup_spec (p : InternalPage) (key : Int) (h1 : 1 ≤ p.size_)
    (hs : KeysSorted p.array_ 1 p.size_) :
    ∃ x, 1 ≤ x ∧ x ≤ p.size_ ∧ p.Lookup key = (arrGet p.array_ (x - 1)).2 ∧
      (∀ i, 1 ≤ i → i < x → (arrGet p.array_ i).1 ≤ key) ∧
      (∀ i, x ≤ i → i < p.size_ → key < (arrGet p.array_ i).1) := by
  have := InternalPage.Lookup.loop_lookup p key hs p.size_.toNat 1 p.size_ (le_refl _) h1
    (le_refl _) (by omega) (fun i a b => by omega) (fun i a b => by omega)
  exact ⟨_, this.1, this.2.1, rfl, this.2.2.1, this.2.2.2⟩

/-- The loop of the internal `Insert` puts the pair in at position `pos`, the place after
the last slot whose key is not above the new key. -/
theorem InternalPage.Insert.loop_get (value : Int × Int) (pos : Int) (hpos : 1 ≤ pos)
    (n : Nat) :
    ∀ (hi : Int) (a : List (Int × Int)), (hi - pos + 1).toNat = n → pos - 1 ≤ hi →
      (∀ i, pos ≤ i → i ≤ hi → value.1 < (arrGet a i).1) →
      (1 < pos → (arrGet a (pos - 1)).1 ≤ value.1) → ∀ m,
      arrGet (InternalPage.Insert.loop value (downTo hi 1) a) m
        = if m = pos then value
          else if pos < m ∧ m ≤ hi + 1 then arrGet a (m - 1) else arrGet a m := by
  induction n with
  | zero =>
    intro hi a hn hhi habove hbelow m
    have e : hi = pos - 1 := by omega
    subst e
    have hno : ¬ (pos < m ∧ m ≤ pos - 1 + 1) := by omega
    rw [if_neg hno]
    by_cases h1 : pos = 1
    · subst h1
      rw [downTo_nil _ _ (by omega)]
      simp only [InternalPage.Insert.loop]
      rw [arrGet_arrSet _ _ _ _ (by omega)]
    · rw [downTo_cons _ _ (by omega)]
      simp only [InternalPage.Insert.loop]
      have hb := hbelow (by omega)
      have hc : ¬ comparator (arrGet a (pos - 1)).1 value.1 > 0 := by
        rw [comparator_gt]
        exact not_lt.2 hb
      rw [if_neg hc, arrGet_arrSet _ _ _ _ (by omega)]
      have e2 : pos - 1 + 1 = pos := by omega
      rw [e2]
  | succ n ih =>
    intro hi a hn hhi habove hbelow m
    have hge : pos ≤ hi := by omega
    rw [downTo_cons _ _ (by omega)]
    simp only [InternalPage.Insert.loop]
    have hc : comparator (arrGet a hi).1 value.1 > 0 := by
      rw [comparator_gt]
      exact habove hi hge (le_refl _)
    rw [if_pos hc, ih (hi - 1) _ (by omega) (by omega)
      (fun i h1 h2 => by
        rw [arrGet_arrSet_ne _ _ _ _ (by omega)]
        exact habove i h1 (by omega))
      (fun h => by
        rw [arrGet_arrSet_ne _ _ _ _ (by omega)]
        exact hbelow h)]
    by_cases hm : m = pos
    · rw [if_pos hm, if_pos hm]
    · rw [if_neg hm, if_neg hm]
      by_cases h2 : pos < m ∧ m ≤ hi - 1 + 1
      · rw [if_pos h2, if_pos (by omega), arrGet_arrSet_ne _ _ _ _ (by omega)]
      · rw [if_neg h2]
        by_cases h3 : m = hi + 1
        · subst h3
          rw [if_pos (by omega), arrGet_arrSet_same _ _ _ (by omega)]
          congr 1
          omega
        · rw [if_neg (by omega), arrGet_arrSet_ne _ _ _ _ h3]

/-- The slots of an internal page after `Insert`, when the new key belongs at `pos`. -/
theorem InternalPage.Insert_slot (p : InternalPage) (value : Int × Int) (pos : Int)
    (hpos : 1 ≤ pos) (hsz : pos ≤ p.size_)
    (habove : ∀ i, pos ≤ i → i < p.size_ → value.1 < (arrGet p.array_ i).1)
    (hbelow : 1 < pos → (arrGet p.array_ (pos - 1)).1 ≤ value.1) (m : Int)
    (hm : m ≤ p.size_) :
    arrGet (p.Insert value).array_ m = insAt p.array_ pos value m := by
  unfold InternalPage.Insert insAt
  simp only
  rw [InternalPage.Insert.loop_get value pos hpos _ (p.size_ - 1) p.array_ rfl (by omega)
    (fun i h1 h2 => habove i h1 (by omega)) hbelow m]
  by_cases h1 : m = pos
  · rw [if_pos h1, if_neg (by omega), if_pos h1]
  · rw [if_neg h1]
    by_cases h2 : m < pos
    · rw [if_pos h2, if_neg (by omega)]
    · rw [if_neg h2, if_neg h1, if_pos (by omega)]
theorem InternalPage.Split.fill_spec (p : InternalPage) (key : Int) (bid : Int) (pos : Int)
    (hpos : 1 ≤ pos)
    (hbelow : ∀ i, 1 ≤ i → i < pos → (arrGet p.array_ i).1 < key)
    (habove : ∀ i, pos ≤ i → i < p.max_size_ → key < (arrGet p.array_ i).1) (n : Nat) :
    ∀ c : Int, (c - 1).toNat = n → 1 ≤ c → c ≤ p.max_size_ →
      ((upTo 1 c).foldl (InternalPage.Split.fill p key bid)
          (true, arrSet [] 0 (arrGet p.array_ 0))).1 = decide (c ≤ pos) ∧
      ∀ m, 0 ≤ m → (m < c ∨ (pos < c ∧ m ≤ c)) →
        arrGet ((upTo 1 c).foldl (InternalPage.Split.fill p key bid)
          (true, arrSet [] 0 (arrGet p.array_ 0))).2 m = insAt p.array_ pos (key, bid) m := by
  induction n with
  | zero =>
    intro c hn h1 hmax
    have e : c = 1 := by omega
    subst e
    rw [upTo_nil _ _ (le_refl _)]
    simp only [List.foldl_nil]
    refine ⟨by simp [hpos], ?_⟩
    intro m hm0 hm
    have e : m = 0 := by omega
    subst e
    rw [arrGet_arrSet_same _ _ _ (le_refl _)]
    simp only [insAt]
    rw [if_pos (by omega)]
  | succ n ih =>
    intro c hn h1 hmax
    have hc : c = (c - 1) + 1 := by omega
    obtain ⟨ihf, iht⟩ := ih (c - 1) (by omega) (by omega) (by omega)
    rw [hc, upTo_snoc _ _ (by omega), List.foldl_append]
    simp only [List.foldl_cons, List.foldl_nil]
    generalize hst : (upTo 1 (c - 1)).foldl (InternalPage.Split.fill p key bid)
      (true, arrSet [] 0 (arrGet p.array_ 0)) = st at ihf iht
    rw [← hc]
    unfold InternalPage.Split.fill
    by_cases hlt : c - 1 < pos
    · have hk := hbelow (c - 1) (by omega) hlt
      rw [if_pos ((comparator_lt _ _).2 hk)]
      simp only
      refine ⟨?_, ?_⟩
      · rw [ihf]
        simp only [decide_eq_decide]
        omega
      · intro m hm0 hm
        by_cases e : m = c - 1
        · subst e
          rw [arrGet_arrSet_same _ _ _ hm0]
          simp only [insAt]
          rw [if_pos hlt]
        · rw [arrGet_arrSet_ne _ _ _ _ e]
          exact iht m hm0 (by omega)
    · have hk := habove (c - 1) (by omega) (by omega)
      have hn1 : ¬ comparator (arrGet p.array_ (c - 1)).1 key < 0 := by
        rw [comparator_lt]
        exact not_lt.2 (le_of_lt hk)
      rw [if_neg hn1]
      by_cases heq : c - 1 = pos
      · have hflag : st.1 = true := by
          rw [ihf]
          simp only [decide_eq_true_eq]
          omega
        rw [if_pos ⟨hflag, (comparator_gt _ _).2 hk⟩]
        simp only
        refine ⟨?_, ?_⟩
        · symm
          simp only [decide_eq_false_iff_not]
          omega
        · intro m hm0 hm
          by_cases e : m = c
          · have e2 : c - 1 + 1 = m := by omega
            rw [e2, arrGet_arrSet_same _ _ _ hm0]
            simp only [insAt]
            rw [if_neg (by omega), if_neg (by omega), e]
          · have e2 : m ≠ c - 1 + 1 := by omega
            rw [arrGet_arrSet_ne _ _ _ _ e2]
            by_cases e3 : m = c - 1
            · subst e3
              rw [arrGet_arrSet_same _ _ _ hm0]
              simp only [insAt]
              rw [if_neg (by omega), if_pos heq]
            · rw [arrGet_arrSet_ne _ _ _ _ e3]
              exact iht m hm0 (by omega)
      · have hflag : ¬ (st.1 = true ∧ comparator (arrGet p.array_ (c - 1)).1 key > 0) := by
          intro h
          have := h.1
          rw [ihf] at this
          simp only [decide_eq_true_eq] at this
          omega
        rw [if_neg hflag]
        simp only
        refine ⟨?_, ?_⟩
        · rw [ihf]
          simp only [decide_eq_decide]
          omega
        · intro m hm0 hm
          by_cases e : m = c
          · have e2 : c - 1 + 1 = m := by omega
            rw [e2, arrGet_arrSet_same _ _ _ hm0]
            simp only [insAt]
            rw [if_neg (by omega), if_neg (by omega), e]
          · have e2 : m ≠ c - 1 + 1 := by omega
            rw [arrGet_arrSet_ne _ _ _ _ e2]
            exact iht m hm0 (by omega)

/-- The scratch buffer of the internal `Split` holds the slots of the full page with the
new pair put in at its position `pos`. -/
theorem InternalPage.Split.tmp_get (p : InternalPage) (key : Int) (bid : Int) (pos : Int)
    (hpos : 1 ≤ pos) (hmax : pos ≤ p.max_size_)
    (hbelow : ∀ i, 1 ≤ i → i < pos → (arrGet p.array_ i).1 < key)
    (habove : ∀ i, pos ≤ i → i < p.max_size_ → key < (arrGet p.array_ i).1)
    (m : Int) (hm0 : 0 ≤ m) (hm : m ≤ p.max_size_) :
    arrGet (InternalPage.Split.tmp p key bid) m = insAt p.array_ pos (key, bid) m := by
  obtain ⟨hf, ht⟩ := InternalPage.Split.fill_spec p key bid pos hpos hbelow habove _
    p.max_size_ rfl (by omega) (le_refl _)
  unfold InternalPage.Split.tmp
  simp only
  by_cases hflag : ((upTo 1 p.max_size_).foldl (InternalPage.Split.fill p key bid)
      (true, arrSet [] 0 (arrGet p.array_ 0))).1 = true
  · rw [if_pos hflag]
    rw [hf] at hflag
    simp only [decide_eq_true_eq] at hflag
    by_cases e : m = p.max_size_
    · subst e
      rw [arrGet_arrSet_same _ _ _ hm0]
      simp only [insAt]
      rw [if_neg (by omega), if_pos (by omega)]
    · rw [arrGet_arrSet_ne _ _ _ _ e]
      exact ht m hm0 (by omega)
  · rw [if_neg hflag]
    rw [hf] at hflag
    simp only [decide_eq_true_eq] at hflag
    exact ht m hm0 (by omega)
/-! ## Engine: the page table under pins and writes, `FindLeafPage` -/

theorem BPlusTree.sameStore.refl (t : BPlusTree) : t.sameStore t := ⟨rfl, rfl, rfl, rfl, rfl⟩

theorem BPlusTree.sameStore.trans {t t1 t2 : BPlusTree} (h1 : t.sameStore t1)
    (h2 : t1.sameStore t2) : t.sameStore t2 :=
  ⟨h2.1.trans h1.1, h2.2.1.trans h1.2.1, h2.2.2.1.trans h1.2.2.1,
    h2.2.2.2.1.trans h1.2.2.2.1, h2.2.2.2.2.trans h1.2.2.2.2⟩

theorem BPlusTree.sameStore.symm {t t1 : BPlusTree} (h1 : t.sameStore t1) : t1.sameStore t :=
  ⟨h1.1.symm, h1.2.1.symm, h1.2.2.1.symm, h1.2.2.2.1.symm, h1.2.2.2.2.symm⟩

theorem BPlusTree.sameStore.pin (t : BPlusTree) (id : Int) : t.sameStore (t.Pin id) :=
  ⟨rfl, rfl, rfl, rfl, rfl⟩

theorem BPlusTree.sameStore.unpin (t : BPlusTree) (id : Int) : t.sameStore (t.UnpinPage id) :=
  ⟨rfl, rfl, rfl, rfl, rfl⟩

theorem BPlusTree.sameStore.fetch {t t' : BPlusTree} (h : t.sameStore t') (id : Int) :
    t'.FetchPage id = t.FetchPage id := by
  unfold BPlusTree.FetchPage
  rw [h.1]

theorem BPlusTree.sameStore.isEmpty {t t' : BPlusTree} (h : t.sameStore t') :
    t'.IsEmpty = t.IsEmpty := by
  unfold BPlusTree.IsEmpty
  rw [h.2.1]

theorem BPlusTree.FetchPage_write (t : BPlusTree) (id : Int) (p : Page) (j : Int) :
    (t.write id p).FetchPage j = if j = id then some p else t.FetchPage j := by
  unfold BPlusTree.FetchPage BPlusTree.write
  simp only
  by_cases h : j = id
  · rw [if_pos h, h, mapFind_mapSet_same]
  · rw [if_neg h, mapFind_mapSet_other _ _ _ _ h]

/-- The descent of `FindLeafPage` changes nothing but the pin log. -/
theorem BPlusTree.FindLeafPage.loop_sameStore (key : Int) :
    ∀ (fuel : Nat) (t : BPlusTree) (page id : Int) (t1 : BPlusTree),
      BPlusTree.FindLeafPage.loop key fuel t page = some (id, t1) → t.sameStore t1 := by
  intro fuel
  induction fuel with
  | zero =>
    intro t page id t1 h
    simp [BPlusTree.FindLeafPage.loop] at h
  | succ n ih =>
    intro t page id t1 h
    simp only [BPlusTree.FindLeafPage.loop] at h
    cases hp : t.FetchPage page with
    | none => simp [hp] at h
    | some pg =>
      cases pg with
      | leaf lp =>
        simp only [hp, Option.some.injEq, Prod.mk.injEq] at h
        rw [← h.2]
        exact BPlusTree.sameStore.refl t
      | internal ip =>
        simp only [hp] at h
        cases hc : t.FetchPage (ip.Lookup key) with
        | none => simp [hc] at h
        | some cp =>
          simp only [hc] at h
          exact ((BPlusTree.sameStore.pin t _).trans
            (BPlusTree.sameStore.unpin _ _)).trans (ih _ _ _ _ h)

/-- The descent of `FindLeafPage` reads only the page table. -/
theorem BPlusTree.FindLeafPage.loop_congr (key : Int) :
    ∀ (fuel : Nat) (t t' : BPlusTree) (page id : Int) (t1 : BPlusTree),
      t.sameStore t' → BPlusTree.FindLeafPage.loop key fuel t page = some (id, t1) →
      ∃ t1', BPlusTree.FindLeafPage.loop key fuel t' page = some (id, t1') := by
  intro fuel
  induction fuel with
  | zero =>
    intro t t' page id t1 hs h
    simp [BPlusTree.FindLeafPage.loop] at h
  | succ n ih =>
    intro t t' page id t1 hs h
    simp only [BPlusTree.FindLeafPage.loop] at h ⊢
    rw [hs.fetch page]
    cases hp : t.FetchPage page with
    | none => simp [hp] at h
    | some pg =>
      cases pg with
      | leaf lp =>
        simp only [hp, Option.some.injEq, Prod.mk.injEq] at h
        exact ⟨t', by simp [h.1]⟩
      | internal ip =>
        simp only [hp] at h ⊢
        rw [hs.fetch (ip.Lookup key)]
        cases hc : t.FetchPage (ip.Lookup key) with
        | none => simp [hc] at h
        | some cp =>
          simp only [hc] at h ⊢
          exact ih _ _ _ _ _
            (((BPlusTree.sameStore.unpin _ _).symm.trans
              (BPlusTree.sameStore.pin t _).symm).trans
              (hs.trans ((BPlusTree.sameStore.pin t' _).trans
                (BPlusTree.sameStore.unpin _ _)))) h

theorem BPlusTree.FindLeafPage_sameStore (t : BPlusTree) (key : Int) (r : Option Int)
    (t1 : BPlusTree) (h : t.FindLeafPage key = some (r, t1)) : t.sameStore t1 := by
  unfold BPlusTree.FindLeafPage at h
  by_cases he : t.IsEmpty = true
  · rw [if_pos he] at h
    simp only [Option.some.injEq, Prod.mk.injEq] at h
    rw [← h.2]
    exact BPlusTree.sameStore.refl t
  · rw [if_neg he] at h
    cases hp : t.FetchPage t.root_page_id_ with
    | none => simp [hp] at h
    | some pg =>
      simp only [hp] at h
      cases hl : BPlusTree.FindLeafPage.loop key (t.pages_.length + 1)
          (t.Pin t.root_page_id_) t.root_page_id_ with
      | none => simp [hl] at h
      | some res =>
        obtain ⟨id, t2⟩ := res
        simp only [hl, Option.some.injEq, Prod.mk.injEq] at h
        rw [← h.2]
        exact (BPlusTree.sameStore.pin t _).trans
          (BPlusTree.FindLeafPage.loop_sameStore key _ _ _ _ _ hl)

theorem BPlusTree.FindLeafPage_congr (t t' : BPlusTree) (key : Int) (r : Option Int)
    (t1 : BPlusTree) (hs : t.sameStore t') (h : t.FindLeafPage key = some (r, t1)) :
    ∃ t1', t'.FindLeafPage key = some (r, t1') := by
  unfold BPlusTree.FindLeafPage at h ⊢
  rw [hs.isEmpty, hs.fetch, hs.1, hs.2.1]
  by_cases he : t.IsEmpty = true
  · rw [if_pos he] at h ⊢
    simp only [Option.some.injEq, Prod.mk.injEq] at h
    exact ⟨t', by rw [← h.1]⟩
  · rw [if_neg he] at h ⊢
    cases hp : t.FetchPage t.root_page_id_ with
    | none => simp [hp] at h
    | some pg =>
      simp only [hp] at h ⊢
      cases hl : BPlusTree.FindLeafPage.loop key (t.pages_.length + 1)
          (t.Pin t.root_page_id_) t.root_page_id_ with
      | none => simp [hl] at h
      | some res =>
        obtain ⟨id, t2⟩ := res
        simp only [hl, Option.some.injEq, Prod.mk.injEq] at h
        have hs2 : (t.Pin t.root_page_id_).sameStore (t'.Pin t.root_page_id_) :=
          ((BPlusTree.sameStore.pin t _).symm.trans hs).trans (BPlusTree.sameStore.pin t' _)
        obtain ⟨t1', h1'⟩ := BPlusTree.FindLeafPage.loop_congr key _ _ _ _ _ _ hs2 hl
        rw [h1']
        exact ⟨t1', by rw [← h.1]⟩

/-- What `GetValue` finds: the leaf reached by `FindLeafPage` and the slot of the key. -/
theorem BPlusTree.GetValue_some (t : BPlusTree) (key : Int) (result : List ValueType)
    (b : Bool) (res : List ValueType) (t1 : BPlusTree)
    (h : t.GetValue key result = some (b, res, t1)) (hne : t.IsEmpty = false) :
    ∃ page t0 lp, t.FindLeafPage key = some (some page, t0) ∧
      t0.FetchPage page = some (.leaf lp) ∧
      ((lp.KeyIndex key < lp.size_ ∧ comparator (lp.KeyAt (lp.KeyIndex key)) key = 0 ∧
          b = true ∧ res = result ++ [lp.ValueAt (lp.KeyIndex key)]) ∨
       (¬ (lp.KeyIndex key < lp.size_ ∧ comparator (lp.KeyAt (lp.KeyIndex key)) key = 0) ∧
          b = false ∧ res = result)) := by
  unfold BPlusTree.GetValue at h
  rw [hne] at h
  simp only [Bool.false_eq_true, if_false] at h
  cases hf : t.FindLeafPage key with
  | none => simp [hf] at h
  | some r =>
    obtain ⟨pg, t0⟩ := r
    cases pg with
    | none =>
      unfold BPlusTree.FindLeafPage at hf
      rw [hne] at hf
      simp only [Bool.false_eq_true, if_false] at hf
      cases hp : t.FetchPage t.root_page_id_ with
      | none => simp [hp] at hf
      | some pg =>
        simp only [hp] at hf
        cases hl : BPlusTree.FindLeafPage.loop key (t.pages_.length + 1)
            (t.Pin t.root_page_id_) t.root_page_id_ with
        | none => simp [hl] at hf
        | some res => simp [hl] at hf
    | some page =>
      simp only [hf] at h
      cases hp : t0.FetchPage page with
      | none => simp [hp] at h
      | some pg =>
        cases pg with
        | internal ip => simp [hp] at h
        | leaf lp =>
          simp only [hp] at h
          refine ⟨page, t0, lp, rfl, hp, ?_⟩
          by_cases hc : lp.KeyIndex key < lp.size_
              ∧ comparator (lp.KeyAt (lp.KeyIndex key)) key = 0
          · rw [if_pos hc] at h
            simp only [Option.some.injEq, Prod.mk.injEq] at h
            exact Or.inl ⟨hc.1, hc.2, h.1.symm, h.2.1.symm⟩
          · rw [if_neg hc] at h
            simp only [Option.some.injEq, Prod.mk.injEq] at h
            exact Or.inr ⟨hc, h.1.symm, h.2.1.symm⟩

/-- The converse: `GetValue` is determined by the leaf that `FindLeafPage` reaches. -/
theorem BPlusTree.GetValue_of_leaf (t : BPlusTree) (key : Int) (result : List ValueType)
    (page : Int) (t0 : BPlusTree) (lp : LeafPage) (hne : t.IsEmpty = false)
    (hf : t.FindLeafPage key = some (some page, t0))
    (hp : t0.FetchPage page = some (.leaf lp)) :
    t.GetValue key result =
      if lp.KeyIndex key < lp.size_ ∧ comparator (lp.KeyAt (lp.KeyIndex key)) key = 0 then
        some (true, result ++ [lp.ValueAt (lp.KeyIndex key)], t0.UnpinPage lp.page_id_)
      else some (false, result, t0.UnpinPage lp.page_id_) := by
  unfold BPlusTree.GetValue
  rw [hne]
  simp only [Bool.false_eq_true, if_false, hf, hp]

/-- A duplicate key: `Insert` returns false, the page table and the root are unchanged and
`GetValue` finds the old value. -/
theorem BPlusTree.Insert_duplicate (t : BPlusTree) (k : Int) (v v' : ValueType)
    (t1 : BPlusTree) (h : t.GetValue k [] = some (true, [v], t1)) :
    ∃ t2, t.Insert k v' = some (false, t2) ∧ t.sameStore t2 ∧
      ∃ t3, t2.GetValue k [] = some (true, [v], t3) := by
  have hne : t.IsEmpty = false := by
    cases he : t.IsEmpty with
    | false => rfl
    | true =>
      unfold BPlusTree.GetValue at h
      rw [he] at h
      simp at h
  obtain ⟨page, t0, lp, hf, hp, hcase⟩ := BPlusTree.GetValue_some t k [] true [v] t1 h hne
  rcases hcase with ⟨h1, h2, -, h4⟩ | ⟨-, h3, -⟩
  · have hs0 := BPlusTree.FindLeafPage_sameStore t k _ _ hf
    have hins : t.Insert k v' = some (false, t0.UnpinPage page) := by
      unfold BPlusTree.Insert
      simp only [hf]
      unfold BPlusTree.Insert.atLeaf
      simp only [hp]
      have hc : lp.KeyIndex k < lp.size_
          ∧ comparator (k, v').1 (arrGet lp.array_ (lp.KeyIndex k)).1 = 0 := by
        refine ⟨h1, ?_⟩
        rw [comparator_eq]
        exact ((comparator_eq _ _).1 h2).symm
      unfold LeafPage.Insert
      rw [if_pos hc]
      simp only [if_true]
    refine ⟨_, hins, hs0.trans (BPlusTree.sameStore.unpin _ _), ?_⟩
    have hs2 : t.sameStore (t0.UnpinPage page) := hs0.trans (BPlusTree.sameStore.unpin _ _)
    obtain ⟨t3, hf3⟩ := BPlusTree.FindLeafPage_congr t _ k _ _ hs2 hf
    have hs3 := BPlusTree.FindLeafPage_sameStore _ k _ _ hf3
    have hp3 : t3.FetchPage page = some (.leaf lp) := by
      rw [hs3.fetch, hs2.fetch, ← hs0.fetch]
      exact hp
    have hne2 : (t0.UnpinPage page).IsEmpty = false := by
      rw [hs2.isEmpty]
      exact hne
    refine ⟨t3.UnpinPage lp.page_id_, ?_⟩
    rw [BPlusTree.GetValue_of_leaf _ k [] page t3 lp hne2 hf3 hp3, if_pos ⟨h1, h2⟩, h4]
  · simp at h3
/-! ## Consequences of the tree invariant -/

theorem NodeOk.frame {t t' : BPlusTree} {g g' : Ghost} {pend pend' : Option (Int × Int × Int)}
    {id n : Int} {f : Int → Int × Int} {lo hi : Option Int}
    (h : NodeOk t g pend id n f lo hi)
    (hc : ∀ i, 0 ≤ i → i < n → ∀ cp, t.FetchPage (f i).2 = some cp →
      (∃ cp', t'.FetchPage (f i).2 = some cp' ∧ cp'.GetParentPageId = cp.GetParentPageId) ∧
      g'.lvl (f i).2 = g.lvl (f i).2 ∧ g'.lo (f i).2 = g.lo (f i).2 ∧
      effHi g' pend' (f i).2 = effHi g pend (f i).2)
    (hl : g'.lvl id = g.lvl id) : NodeOk t' g' pend' id n f lo hi := by
  refine ⟨h.1, h.2.1, ?_⟩
  intro i h0 h1
  obtain ⟨cp, c1, c2, c3, c4, c5⟩ := h.2.2 i h0 h1
  obtain ⟨⟨cp', d1, d2⟩, d3, d4, d5⟩ := hc i h0 h1 cp c1
  exact ⟨cp', d1, d2.trans c2, by rw [d3, hl]; exact c3, by rw [d4]; exact c4,
    by rw [d5]; exact c5⟩

theorem ChainOk.frame_chain {t t' : BPlusTree} {g g' : Ghost} :
    ∀ l : List Int, ChainOk t g l →
      (∀ c, c ∈ l →
        (∀ p, t.FetchPage c = some (.leaf p) →
          ∃ p', t'.FetchPage c = some (.leaf p') ∧ p'.next_page_id_ = p.next_page_id_) ∧
        g'.lo c = g.lo c ∧ g'.hi c = g.hi c) →
      ChainOk t' g' l := by
  intro l
  induction l with
  | nil => intro h _; exact h
  | cons c rest ih =>
    intro h hf
    cases rest with
    | nil =>
      obtain ⟨p, h1, h2, h3⟩ := h
      obtain ⟨f1, f2, f3⟩ := hf c (List.mem_cons_self _ _)
      obtain ⟨p', e1, e2⟩ := f1 p h1
      exact ⟨p', e1, e2.trans h2, f3.trans h3⟩
    | cons d rest2 =>
      obtain ⟨⟨p, h1, h2⟩, h3, h4, h5⟩ := h
      obtain ⟨f1, f2, f3⟩ := hf c (List.mem_cons_self _ _)
      obtain ⟨-, g2, g3⟩ := hf d (List.mem_cons_of_mem _ (List.mem_cons_self _ _))
      obtain ⟨p', e1, e2⟩ := f1 p h1
      refine ⟨⟨p', e1, e2.trans h2⟩, ?_, ?_, ?_⟩
      · rw [f3, g2]
        exact h3
      · rw [g2]
        exact h4
      · exact ih h5 (fun x hx => hf x (List.mem_cons_of_mem _ hx))

/-- Every member of the chain is a leaf page of the table. -/
theorem ChainOk.leaf {t : BPlusTree} {g : Ghost} :
    ∀ l : List Int, ChainOk t g l → ∀ c, c ∈ l → ∃ p, t.FetchPage c = some (.leaf p) := by
  intro l
  induction l with
  | nil => intro h; exact h.elim
  | cons c rest ih =>
    intro h x hx
    cases rest with
    | nil =>
      obtain ⟨p, h1, -, -⟩ := h
      simp only [List.mem_singleton] at hx
      rw [hx]
      exact ⟨p, h1⟩
    | cons d rest2 =>
      obtain ⟨⟨p, h1, -⟩, -, -, h5⟩ := h
      rcases List.mem_cons.1 hx with e | e
      · rw [e]
        exact ⟨p, h1⟩
      · exact ih h5 x e

/-- The invariant does not read the pin log or the header records. -/
theorem TreeInv.of_sameStore {t t' : BPlusTree} {g : Ghost}
    {pend : Option (Int × Int × Int)} (h : TreeInv t g pend) (hs : t.sameStore t') :
    TreeInv t' g pend := by
  have hf : ∀ id, t'.FetchPage id = t.FetchPage id := hs.fetch
  refine ⟨?_, ?_, ?_, ?_, ?_, ?_, ?_, ?_, ?_, ?_, ?_⟩
  · rw [hs.2.2.2.1]
    exact h.leafMax
  · rw [hs.2.2.2.2]
    exact h.internalMax
  · intro id p hp
    rw [hf] at hp
    rw [hs.2.2.1]
    exact h.ids id p hp
  · rw [hs.2.1, hf]
    exact h.root
  · intro id p hp
    rw [hf] at hp
    rw [hs.2.1, hf]
    exact h.parent id p hp
  · intro id p hp
    rw [hf] at hp
    rw [hs.2.1, hs.2.2.2.1]
    exact h.leaf id p hp
  · intro id p hp
    rw [hf] at hp
    rw [hs.2.2.2.2]
    obtain ⟨a, b, c, d, e⟩ := h.internal id p hp
    refine ⟨a, b, c, d, e.frame ?_ rfl⟩
    intro i _ _ cp hcp
    exact ⟨⟨cp, by rw [hf]; exact hcp, rfl⟩, rfl, rfl, rfl⟩
  · refine ⟨ChainOk.frame_chain _ h.chain.1 ?_, h.chain.2⟩
    intro c _
    exact ⟨fun p hp => ⟨p, by rw [hf]; exact hp, rfl⟩, rfl, rfl⟩
  · rw [hs.2.1, hs.1]
    exact h.depth
  · intro id p hp
    rw [hf] at hp
    rw [hs.2.1]
    exact h.lvlRoot id p hp
  · intro l k r hpend
    obtain ⟨a, b, c, d⟩ := h.pending l k r hpend
    refine ⟨by rw [hf]; exact a, by rw [hf]; exact b, by rw [hs.2.1]; exact c, d.1, d.2.1,
      d.2.2.1, d.2.2.2.1, d.2.2.2.2.1, ?_, ?_⟩
    · intro id q hq
      rw [hf] at hq
      exact d.2.2.2.2.2.1 id q hq
    · intro lp hlp
      rw [hf] at hlp
      rw [hs.2.2.2.1]
      exact d.2.2.2.2.2.2 lp hlp

/-- Under the invariant the descent of `FindLeafPage` from a page whose range holds the
key ends in a leaf whose range holds the key. -/
theorem BPlusTree.FindLeafPage.loop_inv (key : Int) (g : Ghost) :
    ∀ (fuel : Nat) (t : BPlusTree) (page : Int), TreeInv t g none →
      (∃ p, t.FetchPage page = some p) → loLe (g.lo page) key → ltHi key (g.hi page) →
      g.lvl page < fuel →
      ∃ id t1 lp, BPlusTree.FindLeafPage.loop key fuel t page = some (id, t1) ∧
        t.FetchPage id = some (.leaf lp) ∧ loLe (g.lo id) key ∧ ltHi key (g.hi id) := by
  intro fuel
  induction fuel with
  | zero =>
    intro t page _ _ _ _ hl
    omega
  | succ n ih =>
    intro t page hinv hp hlo hhi hl
    obtain ⟨p, hp⟩ := hp
    simp only [BPlusTree.FindLeafPage.loop, hp]
    cases p with
    | leaf lp => exact ⟨page, t, lp, rfl, hp, hlo, hhi⟩
    | internal ip =>
      simp only
      obtain ⟨hl1, -, hsz, -, hsorted, hbounds, hchildren⟩ := hinv.internal page ip hp
      obtain ⟨x, hx1, hx2, hx3, hx4, hx5⟩ :=
        InternalPage.Lookup_spec ip key (by omega) hsorted
      obtain ⟨cp, c1, c2, c3, c4, c5⟩ := hchildren (x - 1) (by omega) (by omega)
      rw [hx3, c1]
      simp only
      have hs : t.sameStore ((t.Pin (arrGet ip.array_ (x - 1)).2).UnpinPage page) :=
        (BPlusTree.sameStore.pin t _).trans (BPlusTree.sameStore.unpin _ _)
      have hlo2 : loLe (g.lo (arrGet ip.array_ (x - 1)).2) key := by
        rw [c4]
        by_cases e : x - 1 = 0
        · rw [if_pos e]
          exact hlo
        · rw [if_neg e]
          intro y hy
          simp only [Option.some.injEq] at hy
          rw [← hy]
          exact hx4 (x - 1) (by omega) (by omega)
      have hhi2 : ltHi key (g.hi (arrGet ip.array_ (x - 1)).2) := by
        have e0 : effHi g none (arrGet ip.array_ (x - 1)).2
            = g.hi (arrGet ip.array_ (x - 1)).2 := rfl
        rw [← e0, c5]
        by_cases e : x - 1 = ip.size_ - 1
        · rw [if_pos e]
          exact hhi
        · rw [if_neg e]
          intro y hy
          simp only [Option.some.injEq] at hy
          rw [← hy]
          have e2 : x - 1 + 1 = x := by omega
          rw [e2]
          exact hx5 x (le_refl _) (by omega)
      obtain ⟨id, t1, lp, r1, r2, r3, r4⟩ := ih _ (arrGet ip.array_ (x - 1)).2
        (hinv.of_sameStore hs) ⟨cp, by rw [hs.fetch]; exact c1⟩ hlo2 hhi2 (by omega)
      exact ⟨id, t1, lp, r1, by rw [← hs.fetch]; exact r2, r3, r4⟩

/-- Under the invariant `FindLeafPage` returns a leaf whose range holds the key. -/
theorem BPlusTree.FindLeafPage_inv (t : BPlusTree) (g : Ghost) (key : Int)
    (hinv : TreeInv t g none) :
    ∃ id t1 lp, t.FindLeafPage key = some (some id, t1) ∧ t.sameStore t1 ∧
      t.FetchPage id = some (.leaf lp) ∧ loLe (g.lo id) key ∧ ltHi key (g.hi id) := by
  obtain ⟨rp, hr1, hr2, hr3, hr4⟩ := hinv.root
  have hne : t.IsEmpty = false := by
    unfold BPlusTree.IsEmpty
    have := (hinv.ids _ _ hr1).2.1
    simp only [decide_eq_false_iff_not]
    intro e
    rw [e] at this
    exact absurd this (by decide)
  have hs := BPlusTree.sameStore.pin t t.root_page_id_
  obtain ⟨id, t1, lp, r1, r2, r3, r4⟩ := BPlusTree.FindLeafPage.loop_inv key g
    (t.pages_.length + 1) (t.Pin t.root_page_id_) t.root_page_id_ (hinv.of_sameStore hs)
    ⟨rp, by rw [hs.fetch]; exact hr1⟩
    (by rw [hr3]; intro x hx; simp at hx)
    (by
      have e0 : effHi g none t.root_page_id_ = g.hi t.root_page_id_ := rfl
      rw [← e0, hr4]
      intro x hx
      simp at hx)
    (by have := hinv.depth; omega)
  have hf : t.FindLeafPage key = some (some id, t1) := by
    unfold BPlusTree.FindLeafPage
    rw [hne]
    simp only [Bool.false_eq_true, if_false, hr1, r1]
  exact ⟨id, t1, lp, hf, BPlusTree.FindLeafPage_sameStore t key _ _ hf,
    by rw [← hs.fetch]; exact r2, r3, r4⟩
/-! ## Insertion into a leaf that has room -/

theorem BPlusTree.write_length_of_mem (t : BPlusTree) (id : Int) (p p' : Page)
    (h : t.FetchPage id = some p) : (t.write id p').pages_.length = t.pages_.length := by
  unfold BPlusTree.write
  simp only
  apply mapSet_length_of_mem
  by_contra hn
  have := (mapFind_eq_none_iff t.pages_ id).2 hn
  unfold BPlusTree.FetchPage at h
  rw [this] at h
  exact Option.noConfusion h

theorem BPlusTree.write_length_of_not_mem (t : BPlusTree) (id : Int) (p' : Page)
    (h : t.FetchPage id = none) : (t.write id p').pages_.length = t.pages_.length + 1 := by
  unfold BPlusTree.write
  simp only
  rw [mapSet_of_not_mem _ _ _ ((mapFind_eq_none_iff t.pages_ id).1 h)]
  simp

/-- Replacing the slots of a leaf page by slots that still meet the leaf conditions keeps
the invariant. -/
theorem TreeInv.write_leaf {t : BPlusTree} {g : Ghost} (h : TreeInv t g none) (X : Int)
    (lp lp' : LeafPage) (hX : t.FetchPage X = some (.leaf lp))
    (hid : lp'.page_id_ = lp.page_id_) (hpar : lp'.parent_page_id_ = lp.parent_page_id_)
    (hmax : lp'.max_size_ = lp.max_size_) (hnext : lp'.next_page_id_ = lp.next_page_id_)
    (hsz0 : 0 ≤ lp'.size_) (hsz : 2 ≤ t.leaf_max_size_ → lp'.size_ < t.leaf_max_size_)
    (hsz1 : X ≠ t.root_page_id_ → 2 ≤ t.leaf_max_size_ ∨ g.lo X ≠ none → 1 ≤ lp'.size_)
    (hsorted : KeysSorted lp'.array_ 0 lp'.size_)
    (hbounds : ∀ i, 0 ≤ i → i < lp'.size_ →
      loLe (g.lo X) (arrGet lp'.array_ i).1 ∧ ltHi (arrGet lp'.array_ i).1 (g.hi X))
    (hlo : ∀ a, g.lo X = some a → (arrGet lp'.array_ 0).1 = a) :
    TreeInv (t.write X (.leaf lp')) g none := by
  have hf := BPlusTree.FetchPage_write t X (.leaf lp')
  have hkeep : ∀ id cp, t.FetchPage id = some cp →
      ∃ cp', (t.write X (.leaf lp')).FetchPage id = some cp' ∧
        cp'.GetParentPageId = cp.GetParentPageId ∧
        (∀ q, cp = .internal q → cp' = .internal q) := by
    intro id cp hcp
    rw [hf]
    by_cases e : id = X
    · rw [if_pos e]
      rw [e, hX] at hcp
      simp only [Option.some.injEq] at hcp
      rw [← hcp]
      exact ⟨_, rfl, hpar, fun q hq => Page.noConfusion hq⟩
    · rw [if_neg e]
      exact ⟨cp, hcp, rfl, fun q hq => hq⟩
  refine ⟨h.leafMax, h.internalMax, ?_, ?_, ?_, ?_, ?_, ?_, ?_, ?_, ?_⟩
  · intro id p hp
    rw [hf] at hp
    by_cases e : id = X
    · rw [if_pos e] at hp
      simp only [Option.some.injEq] at hp
      have := h.ids X _ hX
      rw [← hp, e]
      exact ⟨hid.trans this.1, this.2⟩
    · rw [if_neg e] at hp
      exact h.ids id p hp
  · obtain ⟨p, r1, r2, r3, r4⟩ := h.root
    obtain ⟨cp', c1, c2, -⟩ := hkeep _ _ r1
    exact ⟨cp', c1, c2.trans r2, r3, r4⟩
  · intro id p hp hne hpend
    have hold : ∃ p0, t.FetchPage id = some p0 ∧ p0.GetParentPageId = p.GetParentPageId := by
      rw [hf] at hp
      by_cases e : id = X
      · rw [if_pos e] at hp
        simp only [Option.some.injEq] at hp
        rw [e, ← hp]
        exact ⟨_, hX, hpar.symm⟩
      · rw [if_neg e] at hp
        exact ⟨p, hp, rfl⟩
    obtain ⟨p0, hp0, hpp⟩ := hold
    obtain ⟨q, i, q1, q2, q3, q4⟩ := h.parent id p0 hp0 hne hpend
    obtain ⟨cp', c1, -, c3⟩ := hkeep _ _ q1
    rw [← hpp]
    exact ⟨q, i, by rw [c1, c3 q rfl], q2, q3, q4⟩
  · intro id p hp
    rw [hf] at hp
    by_cases e : id = X
    · rw [if_pos e] at hp
      simp only [Option.some.injEq, Page.leaf.injEq] at hp
      obtain ⟨l1, l2, -, -, -, -, -, -, l9⟩ := h.leaf X lp hX
      rw [e, ← hp]
      exact ⟨l1, hmax.trans l2, hsz0, hsz, hsz1, hsorted, hbounds, hlo, l9⟩
    · rw [if_neg e] at hp
      exact h.leaf id p hp
  · intro id p hp
    rw [hf] at hp
    by_cases e : id = X
    · rw [if_pos e] at hp
      simp at hp
    · rw [if_neg e] at hp
      obtain ⟨a, b, c, d, e2⟩ := h.internal id p hp
      refine ⟨a, b, c, d, e2.frame ?_ rfl⟩
      intro i _ _ cp hcp
      obtain ⟨cp', c1, c2, -⟩ := hkeep _ _ hcp
      exact ⟨⟨cp', c1, c2⟩, rfl, rfl, rfl⟩
  · refine ⟨ChainOk.frame_chain _ h.chain.1 ?_, h.chain.2⟩
    intro c _
    refine ⟨?_, rfl, rfl⟩
    intro p hp
    rw [hf]
    by_cases e : c = X
    · rw [if_pos e]
      rw [e, hX] at hp
      simp only [Option.some.injEq, Page.leaf.injEq] at hp
      rw [← hp]
      exact ⟨lp', rfl, hnext⟩
    · rw [if_neg e]
      exact ⟨p, hp, rfl⟩
  · rw [BPlusTree.write_length_of_mem t X _ _ hX]
    exact h.depth
  · intro id p hp
    rw [hf] at hp
    by_cases e : id = X
    · rw [e]
      exact h.lvlRoot X _ hX
    · rw [if_neg e] at hp
      exact h.lvlRoot id p hp
  · intro l k r hpend
    simp at hpend

theorem BPlusTree.holds_congr {t t' : BPlusTree} (hs : t.sameStore t') (k : Int)
    (v : ValueType) : t'.holds k v ↔ t.holds k v := by
  unfold BPlusTree.holds
  simp only [hs.fetch]

/-- The pairs stored after one leaf page was rewritten. -/
theorem BPlusTree.holds_write_leaf (t : BPlusTree) (X : Int) (lp lp' : LeafPage)
    (hX : t.FetchPage X = some (.leaf lp)) (k : Int) (v : ValueType)
    (kv : Int × ValueType)
    (hhas : lp'.has k v ↔ ((k, v) = kv ∨ lp.has k v)) :
    (t.write X (.leaf lp')).holds k v ↔ ((k, v) = kv ∨ t.holds k v) := by
  unfold BPlusTree.holds
  constructor
  · rintro ⟨id, p, hp, hh⟩
    rw [BPlusTree.FetchPage_write] at hp
    by_cases e : id = X
    · rw [if_pos e] at hp
      simp only [Option.some.injEq, Page.leaf.injEq] at hp
      rw [← hp] at hh
      rcases hhas.1 hh with c | c
      · exact Or.inl c
      · exact Or.inr ⟨X, lp, hX, c⟩
    · rw [if_neg e] at hp
      exact Or.inr ⟨id, p, hp, hh⟩
  · rintro (c | ⟨id, p, hp, hh⟩)
    · exact ⟨X, lp', by rw [BPlusTree.FetchPage_write, if_pos rfl], hhas.2 (Or.inl c)⟩
    · by_cases e : id = X
      · rw [e, hX] at hp
        simp only [Option.some.injEq, Page.leaf.injEq] at hp
        rw [← hp] at hh
        exact ⟨X, lp', by rw [BPlusTree.FetchPage_write, if_pos rfl], hhas.2 (Or.inr hh)⟩
      · exact ⟨id, p, by rw [BPlusTree.FetchPage_write, if_neg e]; exact hp, hh⟩

/-- The slots of a leaf page after a successful `Insert`. -/
theorem LeafPage.Insert_has (p : LeafPage) (key : Int) (v : ValueType) (h0 : 0 ≤ p.size_)
    (hs : KeysSorted p.array_ 0 p.size_)
    (hnew : ¬ (p.KeyIndex key < p.size_ ∧
      comparator (p.KeyAt (p.KeyIndex key)) key = 0)) (k : Int) (w : ValueType) :
    (p.Insert (key, v) (p.KeyIndex key)).2.has k w ↔ ((k, w) = (key, v) ∨ p.has k w) := by
  obtain ⟨-, -, -, -, -, s6, s7, -, -⟩ := LeafPage.Insert_spec p key v h0 hs hnew
  obtain ⟨k1, k2, -, -⟩ := LeafPage.KeyIndex_spec p key h0 hs
  unfold LeafPage.has
  rw [s6, ← insAt_mem p.array_ 0 p.size_ (p.KeyIndex key) (key, v) (k, w) k1 k2]
  constructor
  · rintro ⟨i, a, b, c⟩
    exact ⟨i, a, b, by rw [← s7 i (by omega)]; exact c⟩
  · rintro ⟨i, a, b, c⟩
    exact ⟨i, a, b, by rw [s7 i (by omega)]; exact c⟩

/-- `Insert` of a new key into a leaf that stays below `leaf_max_size`. -/
theorem BPlusTree.Insert.atLeaf_room (t : BPlusTree) (g : Ghost) (X : Int) (lp : LeafPage)
    (key : Int) (v : ValueType) (hinv : TreeInv t g none)
    (hX : t.FetchPage X = some (.leaf lp)) (hlo : loLe (g.lo X) key)
    (hhi : ltHi key (g.hi X))
    (hnew : ¬ (lp.KeyIndex key < lp.size_ ∧
      comparator (lp.KeyAt (lp.KeyIndex key)) key = 0))
    (hroom : lp.size_ + 1 ≠ t.leaf_max_size_) :
    ∃ t', BPlusTree.Insert.atLeaf t X key v = some (true, t') ∧ TreeInv t' g none ∧
      ∀ k w, t'.holds k w ↔ ((k, w) = (key, v) ∨ t.holds k w) := by
  obtain ⟨l1, l2, l3, l4, l5, l6, l7, l8, l9⟩ := hinv.leaf X lp hX
  obtain ⟨s1, s2, s3, s4, s5, s6, s7, s8, s9⟩ := LeafPage.Insert_spec lp key v l3 l6 hnew
  obtain ⟨k1, k2, -, -⟩ := LeafPage.KeyIndex_spec lp key l3 l6
  have hrun : BPlusTree.Insert.atLeaf t X key v
      = some (true, (t.write X (.leaf (lp.Insert (key, v) (lp.KeyIndex key)).2)).UnpinPage X) := by
    unfold BPlusTree.Insert.atLeaf
    simp only [hX, s1, Bool.true_eq_false, if_false]
    rw [if_neg (by rw [s6]; exact hroom)]
  have hinv' : TreeInv (t.write X (.leaf (lp.Insert (key, v) (lp.KeyIndex key)).2)) g none := by
    apply hinv.write_leaf X lp _ hX s2 s3 s4 s5
    · rw [s6]
      omega
    · intro h2
      have := l4 h2
      rw [s6]
      omega
    · intro _ _
      rw [s6]
      omega
    · intro i j hi hij hj
      rw [s6] at hj
      rw [s7 i (by omega), s7 j (by omega)]
      exact insAt_sorted lp.array_ 0 lp.size_ _ (key, v) l6 k1 k2 s8 s9 i j hi hij hj
    · intro i hi0 hi1
      rw [s6] at hi1
      rw [s7 i (by omega)]
      rcases lt_trichotomy i (lp.KeyIndex key) with c | c | c
      · rw [insAt_lt _ _ _ _ c]
        exact l7 i hi0 (by omega)
      · rw [c, insAt_eq]
        exact ⟨hlo, hhi⟩
      · rw [insAt_gt _ _ _ _ c]
        exact l7 (i - 1) (by omega) (by omega)
    · intro a ha
      rw [s7 0 (by omega)]
      have hsz : 1 ≤ lp.size_ := by
        apply l5
        · intro e
          obtain ⟨_, _, _, r3, _⟩ := hinv.root
          rw [← e, ha] at r3
          exact Option.noConfusion r3
        · right
          rw [ha]
          exact Option.some_ne_none a
      have h0a := l8 a ha
      by_cases c : 0 < lp.KeyIndex key
      · rw [insAt_lt _ _ _ _ c]
        exact h0a
      · exfalso
        have e0 : lp.KeyIndex key = 0 := by omega
        have h1 := s9 0 (by omega) (by omega)
        have h2 := hlo a ha
        rw [h0a] at h1
        exact absurd h1 (not_lt.2 h2)
  refine ⟨_, hrun, hinv'.of_sameStore (BPlusTree.sameStore.unpin _ _), ?_⟩
  intro k w
  rw [BPlusTree.holds_congr (BPlusTree.sameStore.unpin _ X)]
  exact BPlusTree.holds_write_leaf t X lp _ hX k w (key, v)
    (LeafPage.Insert_has lp key v l3 l6 hnew k w)
/-! ## Splitting a leaf -/

theorem mem_insertAfter (x n : Int) (l : List Int) (c : Int) :
    c ∈ insertAfter x n l ↔ (c ∈ l ∨ (c = n ∧ x ∈ l)) := by
  induction l with
  | nil => simp [insertAfter]
  | cons d rest ih =>
    unfold insertAfter
    by_cases e : d = x
    · rw [if_pos e]
      simp only [List.mem_cons]
      constructor
      · rintro (h | h | h)
        · exact Or.inl (Or.inl h)
        · exact Or.inr ⟨h, Or.inl e.symm⟩
        · exact Or.inl (Or.inr h)
      · rintro ((h | h) | ⟨h, -⟩)
        · exact Or.inl h
        · exact Or.inr (Or.inr h)
        · exact Or.inr (Or.inl h)
    · rw [if_neg e]
      simp only [List.mem_cons, ih]
      constructor
      · rintro (h | h | ⟨h, h2⟩)
        · exact Or.inl (Or.inl h)
        · exact Or.inl (Or.inr h)
        · exact Or.inr ⟨h, Or.inr h2⟩
      · rintro ((h | h) | ⟨h, h2 | h2⟩)
        · exact Or.inl h
        · exact Or.inr (Or.inl h)
        · exact absurd h2.symm e
        · exact Or.inr (Or.inr ⟨h, h2⟩)

theorem insertAfter_of_not_mem (x n : Int) (l : List Int) (h : x ∉ l) :
    insertAfter x n l = l := by
  induction l with
  | nil => rfl
  | cons d rest ih =>
    unfold insertAfter
    have e : d ≠ x := fun e => h (by rw [e]; exact List.mem_cons_self _ _)
    rw [if_neg e, ih (fun hx => h (List.mem_cons_of_mem _ hx))]

theorem insertAfter_head (x n : Int) (l : List Int) :
    (insertAfter x n l).head? = l.head? := by
  cases l with
  | nil => rfl
  | cons d rest =>
    unfold insertAfter
    by_cases e : d = x
    · rw [if_pos e]
      rfl
    · rw [if_neg e]
      rfl

theorem insertAfter_cons (x n d : Int) (rest : List Int) :
    ∃ tl, insertAfter x n (d :: rest) = d :: tl := by
  unfold insertAfter
  by_cases e : d = x
  · rw [if_pos e]
    exact ⟨_, rfl⟩
  · rw [if_neg e]
    exact ⟨_, rfl⟩

theorem insertAfter_nodup (x n : Int) (l : List Int) (hnd : l.Nodup) (hn : n ∉ l) :
    (insertAfter x n l).Nodup := by
  induction l with
  | nil => exact List.nodup_nil
  | cons d rest ih =>
    have hd : d ∉ rest := (List.nodup_cons.1 hnd).1
    have hr : rest.Nodup := (List.nodup_cons.1 hnd).2
    have hn2 : n ∉ rest := fun h => hn (List.mem_cons_of_mem _ h)
    have hnd2 : n ≠ d := fun e => hn (by rw [e]; exact List.mem_cons_self _ _)
    unfold insertAfter
    by_cases e : d = x
    · rw [if_pos e]
      refine List.nodup_cons.2 ⟨?_, List.nodup_cons.2 ⟨hn2, hr⟩⟩
      intro h
      rcases List.mem_cons.1 h with h | h
      · exact hnd2 h.symm
      · exact hd h
    · rw [if_neg e]
      refine List.nodup_cons.2 ⟨?_, ih hr hn2⟩
      intro h
      rcases (mem_insertAfter x n rest d).1 h with h | ⟨h, -⟩
      · exact hd h
      · exact hnd2 h.symm

/-- Linking a new leaf `n` in after the leaf `x` keeps the chain well-formed. -/
theorem ChainOk.insert {t t' : BPlusTree} {g g' : Ghost} (x n : Int) (p p' pn : LeafPage)
    (hx : t.FetchPage x = some (.leaf p)) (hx' : t'.FetchPage x = some (.leaf p'))
    (hn' : t'.FetchPage n = some (.leaf pn)) (hnext : p'.next_page_id_ = n)
    (hnnext : pn.next_page_id_ = p.next_page_id_)
    (hlox : g'.lo x = g.lo x) (hhix : g'.hi x = g'.lo n) (hlon : g'.lo n ≠ none)
    (hhin : g'.hi n = g.hi x)
    (hother : ∀ c, c ≠ x → c ≠ n →
      (∀ q, t.FetchPage c = some (.leaf q) →
        ∃ q', t'.FetchPage c = some (.leaf q') ∧ q'.next_page_id_ = q.next_page_id_) ∧
      g'.lo c = g.lo c ∧ g'.hi c = g.hi c) :
    ∀ l : List Int, ChainOk t g l → l.Nodup → n ∉ l → ChainOk t' g' (insertAfter x n l) := by
  intro l
  induction l with
  | nil => intro h _ _; exact h.elim
  | cons c rest ih =>
    intro h hnd hnl
    have hcn : c ≠ n := fun e => hnl (by rw [e]; exact List.mem_cons_self _ _)
    have hframe : ∀ l2 : List Int, ChainOk t g l2 → x ∉ l2 → n ∉ l2 → ChainOk t' g' l2 := by
      intro l2 h2 hx2 hn2
      apply ChainOk.frame_chain l2 h2
      intro d hd
      exact hother d (fun e => hx2 (by rw [← e]; exact hd))
        (fun e => hn2 (by rw [← e]; exact hd))
    cases rest with
    | nil =>
      obtain ⟨q, h1, h2, h3⟩ := h
      unfold insertAfter
      by_cases e : c = x
      · rw [if_pos e]
        rw [e, hx] at h1
        simp only [Option.some.injEq, Page.leaf.injEq] at h1
        rw [e] at h3
        refine ⟨⟨p', by rw [e]; exact hx', hnext⟩, by rw [e]; exact hhix, hlon, ?_⟩
        exact ⟨pn, hn', by rw [hnnext, h1]; exact h2, by rw [hhin]; exact h3⟩
      · rw [if_neg e]
        simp only [insertAfter]
        obtain ⟨f1, f2, f3⟩ := hother c e hcn
        obtain ⟨q', e1, e2⟩ := f1 q h1
        exact ⟨q', e1, e2.trans h2, f3.trans h3⟩
    | cons d rest2 =>
      obtain ⟨⟨q, h1, h2⟩, h3, h4, h5⟩ := h
      have hcd : c ∉ d :: rest2 := (List.nodup_cons.1 hnd).1
      have hnd2 : (d :: rest2).Nodup := (List.nodup_cons.1 hnd).2
      have hnl2 : n ∉ d :: rest2 := fun hh => hnl (List.mem_cons_of_mem _ hh)
      have hdn : d ≠ n := fun e => hnl2 (by rw [e]; exact List.mem_cons_self _ _)
      have hlod : g'.lo d = g.lo d := by
        by_cases e : d = x
        · rw [e]
          exact hlox
        · exact (hother d e hdn).2.1
      by_cases e : c = x
      · have hxr : x ∉ d :: rest2 := by rw [← e]; exact hcd
        have hins : insertAfter x n (c :: d :: rest2) = c :: n :: d :: rest2 := by
          simp only [insertAfter, if_pos e]
        rw [hins]
        rw [e, hx] at h1
        simp only [Option.some.injEq, Page.leaf.injEq] at h1
        refine ⟨⟨p', by rw [e]; exact hx', hnext⟩, by rw [e]; exact hhix, hlon, ?_⟩
        refine ⟨⟨pn, hn', by rw [hnnext, h1]; exact h2⟩, ?_, by rw [hlod]; exact h4, ?_⟩
        · rw [hhin, hlod, ← e]
          exact h3
        · exact hframe _ h5 hxr hnl2
      · have hins : insertAfter x n (c :: d :: rest2)
            = c :: insertAfter x n (d :: rest2) := by
          simp only [insertAfter, if_neg e]
        obtain ⟨tl, htl⟩ := insertAfter_cons x n d rest2
        have ih2 := ih h5 hnd2 hnl2
        rw [hins]
        rw [htl] at ih2 ⊢
        obtain ⟨f1, f2, f3⟩ := hother c e hcn
        obtain ⟨q', e1, e2⟩ := f1 q h1
        refine ⟨⟨q', e1, e2.trans h2⟩, ?_, by rw [hlod]; exact h4, ih2⟩
        rw [f3, hlod]
        exact h3

theorem splitGhost_lvl (g : Ghost) (x n sep id : Int) (h : id ≠ n) :
    (splitGhost g x n sep).lvl id = g.lvl id := by
  simp only [splitGhost, if_neg h]

theorem splitGhost_lvl_new (g : Ghost) (x n sep : Int) :
    (splitGhost g x n sep).lvl n = g.lvl x := by
  simp only [splitGhost, if_true]

theorem splitGhost_lo (g : Ghost) (x n sep id : Int) (h : id ≠ n) :
    (splitGhost g x n sep).lo id = g.lo id := by
  simp only [splitGhost, if_neg h]

theorem splitGhost_lo_new (g : Ghost) (x n sep : Int) :
    (splitGhost g x n sep).lo n = some sep := by
  simp only [splitGhost, if_true]

theorem splitGhost_hi (g : Ghost) (x n sep id : Int) (h1 : id ≠ x) (h2 : id ≠ n) :
    (splitGhost g x n sep).hi id = g.hi id := by
  simp only [splitGhost, if_neg h1, if_neg h2]

theorem splitGhost_hi_left (g : Ghost) (x n sep : Int) :
    (splitGhost g x n sep).hi x = some sep := by
  simp only [splitGhost, if_true]

theorem splitGhost_hi_new (g : Ghost) (x n sep : Int) (h : n ≠ x) :
    (splitGhost g x n sep).hi n = g.hi x := by
  simp only [splitGhost, if_neg h, if_true]

/-- What the parent expects of an old page is not changed by a split. -/
theorem splitGhost_effHi (g : Ghost) (x n sep c : Int) (hxn : n ≠ x) (hc : c ≠ n) :
    effHi (splitGhost g x n sep) (some (x, sep, n)) c = g.hi c := by
  unfold effHi
  simp only
  by_cases e : c = x
  · rw [if_pos e, splitGhost_hi_new g x n sep hxn, e]
  · rw [if_neg e, splitGhost_hi g x n sep c e hc]

/-- The state after a full leaf was split into itself and the fresh page
`next_page_id_`, with the separator still to be entered in the parent. -/
theorem TreeInv.split_leaf {t t2 : BPlusTree} {g : Ghost} (hinv : TreeInv t g none) (X : Int)
    (lp pl pr : LeafPage) (sep : Int) (hX : t.FetchPage X = some (.leaf lp))
    (hfetch : ∀ id, t2.FetchPage id
      = if id = t.next_page_id_ then some (.leaf pr)
        else if id = X then some (.leaf pl) else t.FetchPage id)
    (hroot : t2.root_page_id_ = t.root_page_id_)
    (hnext : t2.next_page_id_ = t.next_page_id_ + 1)
    (hL : t2.leaf_max_size_ = t.leaf_max_size_)
    (hI : t2.internal_max_size_ = t.internal_max_size_)
    (hlen : t.pages_.length ≤ t2.pages_.length)
    (pl_id : pl.page_id_ = lp.page_id_) (pl_par : pl.parent_page_id_ = lp.parent_page_id_)
    (pl_max : pl.max_size_ = lp.max_size_) (pl_next : pl.next_page_id_ = t.next_page_id_)
    (pl_sz0 : 0 ≤ pl.size_)
    (pl_sz1 : 2 ≤ t.leaf_max_size_ ∨ g.lo X ≠ none → 1 ≤ pl.size_)
    (pl_sz : pl.size_ < t.leaf_max_size_)
    (pl_sorted : KeysSorted pl.array_ 0 pl.size_)
    (pl_bounds : ∀ i, 0 ≤ i → i < pl.size_ →
      loLe (g.lo X) (arrGet pl.array_ i).1 ∧ (arrGet pl.array_ i).1 < sep)
    (pl_first : ∀ a, g.lo X = some a → (arrGet pl.array_ 0).1 = a)
    (pr_id : pr.page_id_ = t.next_page_id_) (pr_max : pr.max_size_ = t.leaf_max_size_)
    (pr_next : pr.next_page_id_ = lp.next_page_id_)
    (pr_sz1 : 1 ≤ pr.size_) (pr_sz : 2 ≤ t.leaf_max_size_ → pr.size_ < t.leaf_max_size_)
    (pr_sorted : KeysSorted pr.array_ 0 pr.size_)
    (pr_bounds : ∀ i, 0 ≤ i → i < pr.size_ →
      sep ≤ (arrGet pr.array_ i).1 ∧ ltHi (arrGet pr.array_ i).1 (g.hi X))
    (pr_first : (arrGet pr.array_ 0).1 = sep) :
    TreeInv t2 (splitGhost g X t.next_page_id_ sep) (some (X, sep, t.next_page_id_)) := by
  have hXid := hinv.ids X _ hX
  have hfresh : ∀ id p, t.FetchPage id = some p → id ≠ t.next_page_id_ := by
    intro id p hp e
    have := (hinv.ids id p hp).2.2
    simp only [page_id_t] at *
    omega
  have hXN : X ≠ t.next_page_id_ := hfresh X _ hX
  have hNX : t.next_page_id_ ≠ X := fun e => hXN e.symm
  have hNnone : t.FetchPage t.next_page_id_ = none := by
    cases h : t.FetchPage t.next_page_id_ with
    | none => rfl
    | some p => exact absurd rfl (hfresh _ p h)
  have hkeep : ∀ id cp, t.FetchPage id = some cp →
      ∃ cp', t2.FetchPage id = some cp' ∧ cp'.GetParentPageId = cp.GetParentPageId ∧
        (∀ q, cp = .internal q → cp' = .internal q) := by
    intro id cp hcp
    rw [hfetch, if_neg (hfresh id cp hcp)]
    by_cases e : id = X
    · rw [if_pos e]
      rw [e, hX] at hcp
      simp only [Option.some.injEq] at hcp
      rw [← hcp]
      exact ⟨_, rfl, pl_par, fun q hq => Page.noConfusion hq⟩
    · rw [if_neg e]
      exact ⟨cp, hcp, rfl, fun q hq => hq⟩
  have hsep_lo : loLt (g.lo X) sep := by
    intro a ha
    have hne := pl_sz1 (Or.inr (by rw [ha]; exact Option.some_ne_none a))
    have := pl_bounds 0 (le_refl _) (by omega)
    exact lt_of_le_of_lt (this.1 a ha) this.2
  have hsep_hi : ltHi sep (g.hi X) := by
    intro b hb
    have := (pr_bounds 0 (le_refl _) (by omega)).2 b hb
    rw [pr_first] at this
    exact this
  obtain ⟨rp, r1, r2, r3, r4⟩ := hinv.root
  have hrootN : t.root_page_id_ ≠ t.next_page_id_ := hfresh _ _ r1
  refine ⟨by rw [hL]; exact hinv.leafMax, by rw [hI]; exact hinv.internalMax,
    ?_, ?_, ?_, ?_, ?_, ?_, ?_, ?_, ?_⟩
  · -- ids
    intro id p hp
    rw [hfetch] at hp
    rw [hnext]
    simp only [page_id_t] at *
    by_cases e1 : id = t.next_page_id_
    · rw [if_pos e1] at hp
      simp only [Option.some.injEq] at hp
      rw [← hp, e1]
      exact ⟨pr_id, by omega, by omega⟩
    · rw [if_neg e1] at hp
      by_cases e2 : id = X
      · rw [if_pos e2] at hp
        simp only [Option.some.injEq] at hp
        rw [← hp, e2]
        exact ⟨pl_id.trans hXid.1, hXid.2.1, by omega⟩
      · rw [if_neg e2] at hp
        have := hinv.ids id p hp
        simp only [page_id_t] at this
        exact ⟨this.1, this.2.1, by omega⟩
  · -- root
    rw [hroot]
    obtain ⟨cp', c1, c2, -⟩ := hkeep _ _ r1
    refine ⟨cp', c1, c2.trans r2, ?_, ?_⟩
    · rw [splitGhost_lo _ _ _ _ _ hrootN]
      exact r3
    · rw [splitGhost_effHi _ _ _ _ _ hNX hrootN]
      exact r4
  · -- parent
    intro id p hp hne hpend
    rw [hroot] at hne
    have hidN : id ≠ t.next_page_id_ := hpend X sep _ rfl
    have hold : ∃ p0, t.FetchPage id = some p0 ∧
        p0.GetParentPageId = p.GetParentPageId := by
      rw [hfetch, if_neg hidN] at hp
      by_cases e : id = X
      · rw [if_pos e] at hp
        simp only [Option.some.injEq] at hp
        rw [e, ← hp]
        exact ⟨_, hX, pl_par.symm⟩
      · rw [if_neg e] at hp
        exact ⟨p, hp, rfl⟩
    obtain ⟨p0, hp0, hpp⟩ := hold
    obtain ⟨q, i, q1, q2, q3, q4⟩ := hinv.parent id p0 hp0 hne (fun _ _ _ h => by simp at h)
    obtain ⟨cp', c1, -, c3⟩ := hkeep _ _ q1
    rw [← hpp]
    exact ⟨q, i, by rw [c1, c3 q rfl], q2, q3, q4⟩
  · -- leaf
    intro id p hp
    rw [hfetch] at hp
    rw [hroot, hL]
    obtain ⟨l1, l2, l3, l4, l5, l6, l7, l8, l9⟩ := hinv.leaf X lp hX
    by_cases e1 : id = t.next_page_id_
    · rw [if_pos e1] at hp
      simp only [Option.some.injEq, Page.leaf.injEq] at hp
      rw [← hp, e1]
      refine ⟨?_, pr_max, by omega, pr_sz, fun _ _ => pr_sz1, pr_sorted, ?_, ?_, ?_⟩
      · rw [splitGhost_lvl_new]
        exact l1
      · intro i hi0 hi1
        rw [splitGhost_lo_new, splitGhost_hi_new _ _ _ _ hNX]
        refine ⟨?_, (pr_bounds i hi0 hi1).2⟩
        intro a ha
        simp only [Option.some.injEq] at ha
        rw [← ha]
        exact (pr_bounds i hi0 hi1).1
      · intro a ha
        rw [splitGhost_lo_new] at ha
        simp only [Option.some.injEq] at ha
        rw [← ha]
        exact pr_first
      · exact (mem_insertAfter _ _ _ _).2 (Or.inr ⟨rfl, l9⟩)
    · rw [if_neg e1] at hp
      by_cases e2 : id = X
      · rw [if_pos e2] at hp
        simp only [Option.some.injEq, Page.leaf.injEq] at hp
        rw [← hp, e2]
        refine ⟨?_, pl_max.trans l2, pl_sz0, fun _ => pl_sz,
          fun _ h => pl_sz1 (h.imp (fun h1 => h1) (fun h2 => by rwa [splitGhost_lo _ _ _ _ _ hXN] at h2)),
          pl_sorted, ?_, ?_, ?_⟩
        · rw [splitGhost_lvl _ _ _ _ _ hXN]
          exact l1
        · intro i hi0 hi1
          rw [splitGhost_lo _ _ _ _ _ hXN, splitGhost_hi_left]
          refine ⟨(pl_bounds i hi0 hi1).1, ?_⟩
          intro b hb
          simp only [Option.some.injEq] at hb
          rw [← hb]
          exact (pl_bounds i hi0 hi1).2
        · intro a ha
          rw [splitGhost_lo _ _ _ _ _ hXN] at ha
          exact pl_first a ha
        · exact (mem_insertAfter _ _ _ _).2 (Or.inl l9)
      · rw [if_neg e2] at hp
        obtain ⟨m1, m2, m3, m4, m5, m6, m7, m8, m9⟩ := hinv.leaf id p hp
        refine ⟨?_, m2, m3, m4,
          fun hne h => m5 hne (h.imp (fun h1 => h1) (fun h2 => by rwa [splitGhost_lo _ _ _ _ _ e1] at h2)),
          m6, ?_, ?_, ?_⟩
        · rw [splitGhost_lvl _ _ _ _ _ e1]
          exact m1
        · rw [splitGhost_lo _ _ _ _ _ e1, splitGhost_hi _ _ _ _ _ e2 e1]
          exact m7
        · rw [splitGhost_lo _ _ _ _ _ e1]
          exact m8
        · exact (mem_insertAfter _ _ _ _).2 (Or.inl m9)
  · -- internal
    intro id p hp
    rw [hfetch] at hp
    rw [hI]
    by_cases e1 : id = t.next_page_id_
    · rw [if_pos e1] at hp
      simp at hp
    · rw [if_neg e1] at hp
      by_cases e2 : id = X
      · rw [if_pos e2] at hp
        simp at hp
      · rw [if_neg e2] at hp
        obtain ⟨a, b, c, d, e⟩ := hinv.internal id p hp
        rw [splitGhost_lvl _ _ _ _ _ e1, splitGhost_lo _ _ _ _ _ e1,
          splitGhost_hi _ _ _ _ _ e2 e1]
        refine ⟨a, b, c, d, e.frame ?_ (splitGhost_lvl _ _ _ _ _ e1)⟩
        intro i _ _ cp hcp
        have hcN := hfresh _ _ hcp
        obtain ⟨cp', c1, c2, -⟩ := hkeep _ _ hcp
        exact ⟨⟨cp', c1, c2⟩, splitGhost_lvl _ _ _ _ _ hcN, splitGhost_lo _ _ _ _ _ hcN,
          splitGhost_effHi _ _ _ _ _ hNX hcN⟩
  · -- chain
    obtain ⟨c1, c2, c3⟩ := hinv.chain
    have hNchain : t.next_page_id_ ∉ g.chain := by
      intro hmem
      obtain ⟨p, hp⟩ := ChainOk.leaf _ c1 _ hmem
      rw [hNnone] at hp
      exact Option.noConfusion hp
    refine ⟨?_, insertAfter_nodup _ _ _ c2 hNchain, ?_⟩
    · apply ChainOk.insert X t.next_page_id_ lp pl pr hX
        (by rw [hfetch, if_neg hXN, if_pos rfl]) (by rw [hfetch, if_pos rfl]) pl_next pr_next
        (splitGhost_lo _ _ _ _ _ hXN)
        (by rw [splitGhost_hi_left, splitGhost_lo_new])
        (by rw [splitGhost_lo_new]; exact fun h => Option.noConfusion h)
        (splitGhost_hi_new _ _ _ _ hNX) ?_ _ c1 c2 hNchain
      intro c hcx hcn
      refine ⟨?_, splitGhost_lo _ _ _ _ _ hcn, splitGhost_hi _ _ _ _ _ hcx hcn⟩
      intro q hq
      exact ⟨q, by rw [hfetch, if_neg hcn, if_neg hcx]; exact hq, rfl⟩
    · intro h hh
      have hh2 : g.chain.head? = some h := by
        have := insertAfter_head X t.next_page_id_ g.chain
        simp only [splitGhost] at hh
        rw [this] at hh
        exact hh
      have hmem : h ∈ g.chain := List.mem_of_mem_head? hh2
      have hhN : h ≠ t.next_page_id_ := fun e => hNchain (by rw [← e]; exact hmem)
      rw [splitGhost_lo _ _ _ _ _ hhN]
      exact c3 h hh2
  · -- depth
    rw [hroot, splitGhost_lvl _ _ _ _ _ hrootN]
    have := hinv.depth
    omega
  · -- levels
    intro id p hp
    rw [hroot, splitGhost_lvl _ _ _ _ _ hrootN]
    by_cases e1 : id = t.next_page_id_
    · rw [e1, splitGhost_lvl_new]
      exact hinv.lvlRoot X _ hX
    · rw [splitGhost_lvl _ _ _ _ _ e1]
      rw [hfetch, if_neg e1] at hp
      by_cases e2 : id = X
      · rw [e2]
        exact hinv.lvlRoot X _ hX
      · rw [if_neg e2] at hp
        exact hinv.lvlRoot id p hp
  · -- pending
    intro l k r hpend
    simp only [Option.some.injEq, Prod.mk.injEq] at hpend
    obtain ⟨hl, hk, hr⟩ := hpend
    rw [← hl, ← hk, ← hr, hroot]
    refine ⟨⟨_, by rw [hfetch, if_neg hXN, if_pos rfl]⟩, ⟨_, by rw [hfetch, if_pos rfl]⟩,
      fun e => hrootN e.symm, ?_, splitGhost_lo_new _ _ _ _, splitGhost_hi_left _ _ _ _,
      ?_, ?_, ?_, ?_⟩
    · rw [splitGhost_lvl_new, splitGhost_lvl _ _ _ _ _ hXN]
    · rw [splitGhost_lo _ _ _ _ _ hXN]
      exact hsep_lo
    · rw [splitGhost_hi_new _ _ _ _ hNX]
      exact hsep_hi
    · intro id q hq i hi0 hi1 hchild
      rw [hfetch] at hq
      by_cases e1 : id = t.next_page_id_
      · rw [if_pos e1] at hq
        simp at hq
      · rw [if_neg e1] at hq
        by_cases e2 : id = X
        · rw [if_pos e2] at hq
          simp at hq
        · rw [if_neg e2] at hq
          obtain ⟨-, -, -, -, -, -, hch⟩ := hinv.internal id q hq
          obtain ⟨cp, hcp, -⟩ := hch i hi0 hi1
          exact hfresh _ _ hcp hchild
    · intro lp2 hlp2
      rw [hfetch, if_neg hXN, if_pos rfl] at hlp2
      simp only [Option.some.injEq, Page.leaf.injEq] at hlp2
      rw [← hlp2]
      intro h
      apply pl_sz1
      rcases h with h | h
      · left
        rw [← hL]
        exact h
      · right
        rwa [splitGhost_lo _ _ _ _ _ hXN] at h
/-! ## Entering a split in the parent -/

/-- Children in different slots are different pages: their ranges begin at different
keys. -/
theorem child_inj (g : Ghost) (n : Int) (f : Int → Int × Int) (lo : Option Int)
    (hsorted : ∀ i j, 1 ≤ i → i < j → j < n → (f i).1 < (f j).1)
    (hbound : ∀ i, 1 ≤ i → i < n → loLt lo (f i).1)
    (hlo : ∀ i, 0 ≤ i → i < n → g.lo (f i).2 = (if i = 0 then lo else some (f i).1))
    (i j : Int) (hi : 0 ≤ i) (hij : i < j) (hj : j < n) : (f i).2 ≠ (f j).2 := by
  intro e
  have h1 := hlo i hi (by omega)
  have h2 := hlo j (by omega) hj
  rw [e, h2, if_neg (by omega)] at h1
  by_cases c : i = 0
  · rw [if_pos c] at h1
    exact absurd (hbound j (by omega) hj _ h1.symm) (lt_irrefl _)
  · rw [if_neg c] at h1
    simp only [Option.some.injEq] at h1
    have := hsorted i j (by omega) hij hj
    rw [h1] at this
    exact absurd this (lt_irrefl _)

/-- The slots of the parent `Q` of `left` with the pending pair `(key, right)` put in
right after the slot of `left`: keys, ranges and children are those of a well-formed
page, except that `right` does not name `Q` as its parent yet. -/
theorem TreeInv.parent_slots {t : BPlusTree} {g : Ghost} {l k r : Int}
    (hinv : TreeInv t g (some (l, k, r))) (Q : Int) (q : InternalPage) (j : Int)
    (hQ : t.FetchPage Q = some (.internal q)) (hj0 : 0 ≤ j) (hj1 : j < q.size_)
    (hjl : (arrGet q.array_ j).2 = l) :
    (∀ i, 1 ≤ i → i < j + 1 → (arrGet q.array_ i).1 < k) ∧
    (∀ i, j + 1 ≤ i → i < q.size_ → k < (arrGet q.array_ i).1) ∧
    (∀ i i', 1 ≤ i → i < i' → i' < q.size_ + 1 →
      (insAt q.array_ (j + 1) (k, r) i).1 < (insAt q.array_ (j + 1) (k, r) i').1) ∧
    (∀ i, 1 ≤ i → i < q.size_ + 1 →
      loLt (g.lo Q) (insAt q.array_ (j + 1) (k, r) i).1 ∧
      ltHi (insAt q.array_ (j + 1) (k, r) i).1 (g.hi Q)) ∧
    (∀ i, 0 ≤ i → i < q.size_ + 1 →
      ∃ cp, t.FetchPage (insAt q.array_ (j + 1) (k, r) i).2 = some cp ∧
        (i ≠ j + 1 → cp.GetParentPageId = Q) ∧
        g.lvl (insAt q.array_ (j + 1) (k, r) i).2 + 1 = g.lvl Q ∧
        g.lo (insAt q.array_ (j + 1) (k, r) i).2
          = (if i = 0 then g.lo Q else some (insAt q.array_ (j + 1) (k, r) i).1) ∧
        g.hi (insAt q.array_ (j + 1) (k, r) i).2
          = (if i = q.size_ then g.hi Q
             else some (insAt q.array_ (j + 1) (k, r) (i + 1)).1)) := by
  obtain ⟨-, -, hsz, -, hsorted, hbounds, hchildren⟩ := hinv.internal Q q hQ
  obtain ⟨-, ⟨rp, hrp⟩, -, hlvl, hlor, hhil, hlok, hkhi, -, -⟩ := hinv.pending l k r rfl
  have heff : ∀ c, effHi g (some (l, k, r)) c = if c = l then g.hi r else g.hi c := by
    intro c
    rfl
  have hlo_all : ∀ i, 0 ≤ i → i < q.size_ →
      g.lo (arrGet q.array_ i).2 = (if i = 0 then g.lo Q else some (arrGet q.array_ i).1) := by
    intro i h0 h1
    obtain ⟨cp, -, -, -, c4, -⟩ := hchildren i h0 h1
    exact c4
  have hinj := child_inj g q.size_ (arrGet q.array_) (g.lo Q) hsorted
    (fun i h0 h1 => (hbounds i h0 h1).1) hlo_all
  have hne : ∀ i, 0 ≤ i → i < q.size_ → i ≠ j → (arrGet q.array_ i).2 ≠ l := by
    intro i h0 h1 hij e
    rw [← hjl] at e
    rcases lt_or_gt_of_ne hij with c | c
    · exact hinj i j h0 c hj1 e
    · exact hinj j i hj0 c h1 e.symm
  obtain ⟨lp, l1, l2, l3, l4, l5⟩ := hchildren j hj0 hj1
  rw [hjl] at l1 l3 l4 l5
  rw [heff, if_pos rfl] at l5
  -- the new key lies between the separators around `left`
  have hbelow_j : 1 ≤ j → (arrGet q.array_ j).1 < k := by
    intro h1
    rw [if_neg (by omega)] at l4
    exact hlok _ l4
  have hbelow : ∀ i, 1 ≤ i → i < j + 1 → (arrGet q.array_ i).1 < k := by
    intro i h1 h2
    exact lt_of_le_of_lt (KeysSorted.mono hsorted i j h1 (by omega) hj1) (hbelow_j (by omega))
  have habove_j : j + 1 < q.size_ → k < (arrGet q.array_ (j + 1)).1 := by
    intro h1
    rw [if_neg (by omega)] at l5
    exact hkhi _ l5
  have habove : ∀ i, j + 1 ≤ i → i < q.size_ → k < (arrGet q.array_ i).1 := by
    intro i h1 h2
    exact lt_of_lt_of_le (habove_j (by omega))
      (KeysSorted.mono hsorted (j + 1) i (by omega) h1 h2)
  have hloQ : loLt (g.lo Q) k := by
    by_cases c : j = 0
    · rw [if_pos c] at l4
      rw [← l4]
      exact hlok
    · intro x hx
      exact lt_trans ((hbounds j (by omega) hj1).1 x hx) (hbelow_j (by omega))
  have hhiQ : ltHi k (g.hi Q) := by
    by_cases c : j = q.size_ - 1
    · rw [if_pos c] at l5
      rw [← l5]
      exact hkhi
    · intro x hx
      exact lt_trans (habove_j (by omega)) ((hbounds (j + 1) (by omega) (by omega)).2 x hx)
  refine ⟨hbelow, habove, ?_, ?_, ?_⟩
  · exact insAt_sorted q.array_ 1 q.size_ (j + 1) (k, r) hsorted (by omega) (by omega)
      hbelow habove
  · intro i h1 h2
    rcases lt_trichotomy i (j + 1) with c | c | c
    · rw [insAt_lt _ _ _ _ c]
      exact hbounds i h1 (by omega)
    · rw [c, insAt_eq]
      exact ⟨hloQ, hhiQ⟩
    · rw [insAt_gt _ _ _ _ c]
      exact hbounds (i - 1) (by omega) (by omega)
  · intro i h0 h1
    rcases lt_trichotomy i (j + 1) with c | c | c
    · rw [insAt_lt _ _ _ _ c]
      obtain ⟨cp, c1, c2, c3, c4, c5⟩ := hchildren i h0 (by omega)
      refine ⟨cp, c1, fun _ => c2, c3, c4, ?_⟩
      rw [if_neg (by omega)]
      by_cases e : i = j
      · rw [e, hjl, insAt_eq]
        exact hhil
      · rw [heff, if_neg (hne i h0 (by omega) e), if_neg (by omega)] at c5
        rw [insAt_lt _ _ _ _ (by omega)]
        exact c5
    · rw [c, insAt_eq]
      refine ⟨rp, hrp, fun h => absurd rfl h, by rw [hlvl]; exact l3, ?_, ?_⟩
      · rw [if_neg (by omega)]
        exact hlor
      · rw [l5]
        by_cases e : j = q.size_ - 1
        · rw [if_pos e, if_pos (by omega)]
        · rw [if_neg e, if_neg (by omega), insAt_gt _ _ _ _ (by omega)]
          have e2 : j + 1 + 1 - 1 = j + 1 := by omega
          rw [e2]
    · rw [insAt_gt _ _ _ _ c]
      obtain ⟨cp, c1, c2, c3, c4, c5⟩ := hchildren (i - 1) (by omega) (by omega)
      refine ⟨cp, c1, fun _ => c2, c3, ?_, ?_⟩
      · rw [c4, if_neg (by omega), if_neg (by omega)]
      · rw [heff, if_neg (hne (i - 1) (by omega) (by omega) (by omega))] at c5
        rw [c5]
        by_cases e : i = q.size_
        · rw [if_pos (by omega), if_pos e]
        · rw [if_neg (by omega), if_neg e, insAt_gt _ _ _ _ (by omega)]
          have e2 : i - 1 + 1 = i + 1 - 1 := by omega
          rw [e2]

theorem Page.GetPageId_SetParentPageId (p : Page) (x : Int) :
    (p.SetParentPageId x).GetPageId = p.GetPageId := by
  cases p <;> rfl

theorem Page.GetParentPageId_SetParentPageId (p : Page) (x : Int) :
    (p.SetParentPageId x).GetParentPageId = x := by
  cases p <;> rfl

theorem Page.SetParentPageId_leaf (p : Page) (x : Int) (lp : LeafPage)
    (h : p.SetParentPageId x = .leaf lp) :
    ∃ lp0, p = .leaf lp0 ∧ lp = { lp0 with parent_page_id_ := x } := by
  cases p with
  | leaf lp0 =>
    simp only [Page.SetParentPageId, Page.leaf.injEq] at h
    exact ⟨lp0, rfl, h.symm⟩
  | internal ip0 => simp [Page.SetParentPageId] at h

theorem Page.SetParentPageId_internal (p : Page) (x : Int) (ip : InternalPage)
    (h : p.SetParentPageId x = .internal ip) :
    ∃ ip0, p = .internal ip0 ∧ ip = { ip0 with parent_page_id_ := x } := by
  cases p with
  | leaf lp0 => simp [Page.SetParentPageId] at h
  | internal ip0 =>
    simp only [Page.SetParentPageId, Page.internal.injEq] at h
    exact ⟨ip0, rfl, h.symm⟩

theorem BPlusTree.sameLeaves.holds {t t' : BPlusTree} (h : t.sameLeaves t') (k : Int)
    (v : ValueType) : t'.holds k v ↔ t.holds k v := by
  unfold BPlusTree.holds LeafPage.has
  constructor
  · rintro ⟨id, p', hp', i, h0, h1, h2⟩
    obtain ⟨p, hp, e1, e2⟩ := (h id).2 p' hp'
    exact ⟨id, p, hp, i, h0, by rw [← e1]; exact h1, by rw [← e2]; exact h2⟩
  · rintro ⟨id, p, hp, i, h0, h1, h2⟩
    obtain ⟨p', hp', e1, e2⟩ := (h id).1 p hp
    exact ⟨id, p', hp', i, h0, by rw [e1]; exact h1, by rw [e2]; exact h2⟩

theorem BPlusTree.sameLeaves.trans_leaves {t t1 t2 : BPlusTree} (h1 : t.sameLeaves t1)
    (h2 : t1.sameLeaves t2) : t.sameLeaves t2 := by
  intro id
  constructor
  · intro p hp
    obtain ⟨p1, a1, a2, a3⟩ := (h1 id).1 p hp
    obtain ⟨p2, b1, b2, b3⟩ := (h2 id).1 p1 a1
    exact ⟨p2, b1, b2.trans a2, b3.trans a3⟩
  · intro p2 hp2
    obtain ⟨p1, a1, a2, a3⟩ := (h2 id).2 p2 hp2
    obtain ⟨p, b1, b2, b3⟩ := (h1 id).2 p1 a1
    exact ⟨p, b1, a2.trans b2, a3.trans b3⟩

theorem BPlusTree.sameLeaves.of_store {t t' : BPlusTree} (h : t.sameStore t') :
    t.sameLeaves t' := by
  intro id
  rw [h.fetch]
  exact ⟨fun p hp => ⟨p, hp, rfl, rfl⟩, fun p hp => ⟨p, hp, rfl, rfl⟩⟩

/-- Pages that change at most in their parent pointer keep the leaf slots. -/
theorem BPlusTree.sameLeaves.of_reparent {t t' : BPlusTree}
    (h : ∀ id, t'.FetchPage id = t.FetchPage id ∨
      (∃ q q', t.FetchPage id = some (.internal q) ∧ t'.FetchPage id = some (.internal q')) ∨
      (t.FetchPage id = none ∧ ∃ q', t'.FetchPage id = some (.internal q')) ∨
      (∃ cp x, t.FetchPage id = some cp ∧ t'.FetchPage id = some (cp.SetParentPageId x))) :
    t.sameLeaves t' := by
  intro id
  rcases h id with e | ⟨q, q', e1, e2⟩ | ⟨e1, q', e2⟩ | ⟨cp, x, e1, e2⟩
  · rw [e]
    exact ⟨fun p hp => ⟨p, hp, rfl, rfl⟩, fun p hp => ⟨p, hp, rfl, rfl⟩⟩
  · rw [e1, e2]
    exact ⟨fun p hp => by simp at hp, fun p hp => by simp at hp⟩
  · rw [e1, e2]
    exact ⟨fun p hp => by simp at hp, fun p hp => by simp at hp⟩
  · rw [e1, e2]
    constructor
    · intro p hp
      simp only [Option.some.injEq] at hp
      rw [hp]
      exact ⟨_, rfl, rfl, rfl⟩
    · intro p' hp'
      simp only [Option.some.injEq] at hp'
      obtain ⟨lp0, a, b⟩ := Page.SetParentPageId_leaf _ _ _ hp'
      rw [a, b]
      exact ⟨lp0, rfl, rfl, rfl⟩

/-- The parent of `left` has room: after the pending pair was entered and `right` was given
its parent, the invariant holds with nothing pending. -/
theorem TreeInv.parent_insert {t t' : BPlusTree} {g : Ghost} {l k r : Int}
    (hinv : TreeInv t g (some (l, k, r))) (Q : Int) (q q' : InternalPage) (j : Int)
    (rp : Page) (hQ : t.FetchPage Q = some (.internal q)) (hr : t.FetchPage r = some rp)
    (hj0 : 0 ≤ j) (hj1 : j < q.size_) (hjl : (arrGet q.array_ j).2 = l)
    (hroom : q.size_ < t.internal_max_size_)
    (hfetch : ∀ id, t'.FetchPage id
      = if id = r then some (rp.SetParentPageId Q)
        else if id = Q then some (.internal q') else t.FetchPage id)
    (hroot : t'.root_page_id_ = t.root_page_id_)
    (hnext : t'.next_page_id_ = t.next_page_id_)
    (hL : t'.leaf_max_size_ = t.leaf_max_size_)
    (hI : t'.internal_max_size_ = t.internal_max_size_)
    (hlen : t.pages_.length ≤ t'.pages_.length)
    (q_id : q'.page_id_ = q.page_id_) (q_par : q'.parent_page_id_ = q.parent_page_id_)
    (q_max : q'.max_size_ = q.max_size_) (q_sz : q'.size_ = q.size_ + 1)
    (q_arr : ∀ m, 0 ≤ m → m ≤ q.size_ →
      arrGet q'.array_ m = insAt q.array_ (j + 1) (k, r) m) :
    TreeInv t' g none := by
  obtain ⟨hbelow, habove, hsorted', hbounds', hchildren'⟩ :=
    hinv.parent_slots Q q j hQ hj0 hj1 hjl
  obtain ⟨i1, i2, i3, i4, hsortedQ, hboundsQ, hchildrenQ⟩ := hinv.internal Q q hQ
  obtain ⟨-, -, hrroot, hlvl, hlor, hhil, hlok, hkhi, hnochild, -⟩ := hinv.pending l k r rfl
  obtain ⟨lp, l1, l2, l3, l4, l5⟩ := hchildrenQ j hj0 hj1
  rw [hjl] at l1 l3
  have hrQ : r ≠ Q := by
    intro e
    rw [e] at hlvl
    omega
  have hQr : Q ≠ r := fun e => hrQ e.symm
  have heff : ∀ c, effHi g (some (l, k, r)) c = if c = l then g.hi r else g.hi c := by
    intro c
    rfl
  have heff0 : ∀ c, effHi g none c = g.hi c := fun c => rfl
  obtain ⟨rootp, r1, r2, r3, r4⟩ := hinv.root
  have hlroot : l ≠ t.root_page_id_ := by
    intro e
    rw [← e, l1] at r1
    simp only [Option.some.injEq] at r1
    rw [← r1, l2] at r2
    have := (hinv.ids Q _ hQ).2.1
    rw [r2] at this
    exact absurd this (by decide)
  -- old pages other than `Q` keep everything but, for `r`, the parent pointer
  have hkeep : ∀ id cp, t.FetchPage id = some cp → id ≠ Q →
      ∃ cp', t'.FetchPage id = some cp' ∧ cp'.GetPageId = cp.GetPageId ∧
        (id ≠ r → cp' = cp) ∧ (∃ x, cp' = cp.SetParentPageId x ∨ cp' = cp) := by
    intro id cp hcp hne
    rw [hfetch]
    by_cases e : id = r
    · rw [if_pos e]
      rw [e, hr] at hcp
      simp only [Option.some.injEq] at hcp
      rw [← hcp]
      exact ⟨_, rfl, Page.GetPageId_SetParentPageId _ _, fun h => absurd e h,
        ⟨Q, Or.inl rfl⟩⟩
    · rw [if_neg e, if_neg hne]
      exact ⟨cp, hcp, rfl, fun _ => rfl, ⟨Q, Or.inr rfl⟩⟩
  -- an old internal page keeps its slots, or is `Q` and gets the new pair
  have hslot : ∀ P0 q0 i, t.FetchPage P0 = some (.internal q0) → 0 ≤ i → i < q0.size_ →
      ∃ q1 i', t'.FetchPage P0 = some (.internal q1) ∧ 0 ≤ i' ∧ i' < q1.size_ ∧
        (arrGet q1.array_ i').2 = (arrGet q0.array_ i).2 := by
    intro P0 q0 i hP0 h0 h1
    by_cases e : P0 = Q
    · rw [e, hQ] at hP0
      simp only [Option.some.injEq, Page.internal.injEq] at hP0
      rw [← hP0] at h1 ⊢
      have hQ' : t'.FetchPage P0 = some (.internal q') := by
        rw [hfetch, e, if_neg hQr, if_pos rfl]
      by_cases c : i < j + 1
      · refine ⟨q', i, hQ', h0, by omega, ?_⟩
        rw [q_arr i h0 (by omega), insAt_lt _ _ _ _ c]
      · refine ⟨q', i + 1, hQ', by omega, by omega, ?_⟩
        rw [q_arr (i + 1) (by omega) (by omega), insAt_gt _ _ _ _ (by omega)]
        have e2 : i + 1 - 1 = i := by omega
        rw [e2]
    · obtain ⟨cp', c1, -, -, x, c4⟩ := hkeep P0 _ hP0 e
      rcases c4 with c4 | c4
      · rw [c4] at c1
        exact ⟨{ q0 with parent_page_id_ := x }, i, c1, h0, h1, rfl⟩
      · rw [c4] at c1
        exact ⟨q0, i, c1, h0, h1, rfl⟩
  refine ⟨by rw [hL]; exact hinv.leafMax, by rw [hI]; exact hinv.internalMax,
    ?_, ?_, ?_, ?_, ?_, ?_, ?_, ?_, ?_⟩
  · -- ids
    intro id p hp
    rw [hnext]
    by_cases e : id = Q
    · rw [hfetch, e, if_neg hQr, if_pos rfl] at hp
      simp only [Option.some.injEq] at hp
      rw [← hp, e]
      have := hinv.ids Q _ hQ
      exact ⟨q_id.trans this.1, this.2⟩
    · cases hold : t.FetchPage id with
      | none =>
        rw [hfetch, if_neg e, hold] at hp
        by_cases e2 : id = r
        · rw [e2, hr] at hold
          exact Option.noConfusion hold
        · rw [if_neg e2] at hp
          exact Option.noConfusion hp
      | some cp =>
        obtain ⟨cp', c1, c2, -, -⟩ := hkeep id cp hold e
        rw [c1] at hp
        simp only [Option.some.injEq] at hp
        rw [← hp, c2]
        exact hinv.ids id cp hold
  · -- root
    rw [hroot]
    have hr4 : g.hi t.root_page_id_ = none := by
      rw [heff, if_neg (fun e => hlroot e.symm)] at r4
      exact r4
    by_cases e : t.root_page_id_ = Q
    · refine ⟨.internal q', by rw [hfetch, e, if_neg hQr, if_pos rfl], ?_, r3, hr4⟩
      rw [e, hQ] at r1
      simp only [Option.some.injEq] at r1
      rw [← r1] at r2
      exact q_par.trans r2
    · obtain ⟨cp', c1, -, c3, -⟩ := hkeep _ _ r1 e
      rw [c3 (fun e2 => hrroot e2.symm)] at c1
      exact ⟨rootp, c1, r2, r3, hr4⟩
  · -- parent
    intro id p hp hne _
    rw [hroot] at hne
    by_cases e : id = r
    · rw [hfetch, if_pos e] at hp
      simp only [Option.some.injEq] at hp
      rw [← hp, Page.GetParentPageId_SetParentPageId]
      refine ⟨q', j + 1, by rw [hfetch, if_neg hQr, if_pos rfl], by omega, by omega, ?_⟩
      rw [q_arr (j + 1) (by omega) (by omega), insAt_eq, e]
    · have hold : ∃ p0, t.FetchPage id = some p0 ∧
          p0.GetParentPageId = p.GetParentPageId := by
        rw [hfetch, if_neg e] at hp
        by_cases e2 : id = Q
        · rw [if_pos e2] at hp
          simp only [Option.some.injEq] at hp
          rw [e2, ← hp]
          exact ⟨_, hQ, q_par.symm⟩
        · rw [if_neg e2] at hp
          exact ⟨p, hp, rfl⟩
      obtain ⟨p0, hp0, hpp⟩ := hold
      obtain ⟨q0, i, a1, a2, a3, a4⟩ :=
        hinv.parent id p0 hp0 hne (fun _ _ _ h => by
          simp only [Option.some.injEq, Prod.mk.injEq] at h
          rw [← h.2.2]
          exact e)
      obtain ⟨q1, i', b1, b2, b3, b4⟩ := hslot _ q0 i a1 a2 a3
      rw [← hpp]
      exact ⟨q1, i', b1, b2, b3, b4.trans a4⟩
  · -- leaf
    intro id p hp
    rw [hroot, hL]
    have hidQ : id ≠ Q := by
      intro e
      rw [hfetch, e, if_neg hQr, if_pos rfl] at hp
      simp at hp
    by_cases e : id = r
    · rw [hfetch, if_pos e] at hp
      simp only [Option.some.injEq] at hp
      obtain ⟨lp0, a, b⟩ := Page.SetParentPageId_leaf _ _ _ hp
      rw [a] at hr
      rw [b, e]
      exact hinv.leaf r lp0 hr
    · rw [hfetch, if_neg e, if_neg hidQ] at hp
      exact hinv.leaf id p hp
  · -- internal
    intro id p hp
    rw [hI]
    by_cases e : id = Q
    · rw [hfetch, e, if_neg hQr, if_pos rfl] at hp
      simp only [Option.some.injEq, Page.internal.injEq] at hp
      rw [← hp, e, q_sz]
      refine ⟨i1, q_max.trans i2, by omega, by omega, ?_, ?_, ?_⟩
      · intro a b ha hab hb
        rw [q_arr a (by omega) (by omega), q_arr b (by omega) (by omega)]
        exact hsorted' a b ha hab hb
      · intro a ha hb
        rw [q_arr a (by omega) (by omega)]
        exact hbounds' a ha hb
      · intro a ha hb
        rw [q_arr a ha (by omega)]
        obtain ⟨cp, c1, c2, c3, c4, c5⟩ := hchildren' a ha hb
        have c5' : effHi g none (insAt q.array_ (j + 1) (k, r) a).2
            = if a = q.size_ + 1 - 1 then g.hi Q
              else some (arrGet q'.array_ (a + 1)).1 := by
          rw [heff0, c5]
          by_cases e2 : a = q.size_
          · rw [if_pos e2, if_pos (by omega)]
          · rw [if_neg e2, if_neg (by omega), q_arr (a + 1) (by omega) (by omega)]
        by_cases e2 : a = j + 1
        · rw [e2, insAt_eq] at c1 c3 c4 c5' ⊢
          simp only at c1 c3 c4 c5' ⊢
          exact ⟨rp.SetParentPageId Q, by rw [hfetch, if_pos rfl],
            Page.GetParentPageId_SetParentPageId _ _, c3, c4, c5'⟩
        · have hcr : (insAt q.array_ (j + 1) (k, r) a).2 ≠ r := by
            rcases lt_or_gt_of_ne e2 with c | c
            · rw [insAt_lt _ _ _ _ c]
              exact hnochild Q q hQ a ha (by omega)
            · rw [insAt_gt _ _ _ _ c]
              exact hnochild Q q hQ (a - 1) (by omega) (by omega)
          have hcQ : (insAt q.array_ (j + 1) (k, r) a).2 ≠ Q := by
            intro e3
            rw [e3] at c3
            omega
          exact ⟨cp, by rw [hfetch, if_neg hcr, if_neg hcQ]; exact c1, c2 e2, c3, c4, c5'⟩
    · have hold : ∃ p0, t.FetchPage id = some (.internal p0) ∧ p.size_ = p0.size_ ∧
          p.array_ = p0.array_ ∧ p.max_size_ = p0.max_size_ := by
        rw [hfetch, if_neg e] at hp
        by_cases e2 : id = r
        · rw [if_pos e2] at hp
          simp only [Option.some.injEq] at hp
          obtain ⟨ip0, a, b⟩ := Page.SetParentPageId_internal _ _ _ hp
          rw [a] at hr
          rw [e2, b]
          exact ⟨ip0, hr, rfl, rfl, rfl⟩
        · rw [if_neg e2] at hp
          exact ⟨p, hp, rfl, rfl, rfl⟩
      obtain ⟨p0, hp0, e1, e2, e3⟩ := hold
      obtain ⟨a, b, c, d, hnode⟩ := hinv.internal id p0 hp0
      rw [e1, e2, e3]
      refine ⟨a, b, c, d, ?_⟩
      obtain ⟨n1, n2, n3⟩ := hnode
      refine ⟨n1, n2, ?_⟩
      intro i h0 h1
      obtain ⟨cp, c1, c2, c3, c4, c5⟩ := n3 i h0 h1
      have hcr : (arrGet p0.array_ i).2 ≠ r := hnochild id p0 hp0 i h0 h1
      have hcl : (arrGet p0.array_ i).2 ≠ l := by
        intro e4
        rw [e4, l1] at c1
        simp only [Option.some.injEq] at c1
        rw [← c1, l2] at c2
        exact e c2.symm
      rw [heff, if_neg hcl] at c5
      by_cases e4 : (arrGet p0.array_ i).2 = Q
      · refine ⟨.internal q', by rw [hfetch, if_neg hcr, if_pos e4], ?_, c3, c4, c5⟩
        rw [e4, hQ] at c1
        simp only [Option.some.injEq] at c1
        rw [← c1] at c2
        exact q_par.trans c2
      · exact ⟨cp, by rw [hfetch, if_neg hcr, if_neg e4]; exact c1, c2, c3, c4, c5⟩
  · -- chain
    refine ⟨ChainOk.frame_chain _ hinv.chain.1 ?_, hinv.chain.2⟩
    intro c _
    refine ⟨?_, rfl, rfl⟩
    intro p hp
    have hcQ : c ≠ Q := by
      intro e
      rw [e, hQ] at hp
      simp at hp
    rw [hfetch, if_neg hcQ]
    by_cases e : c = r
    · rw [if_pos e]
      rw [e, hr] at hp
      simp only [Option.some.injEq] at hp
      rw [hp]
      exact ⟨_, rfl, rfl⟩
    · rw [if_neg e]
      exact ⟨p, hp, rfl⟩
  · -- depth
    rw [hroot]
    have := hinv.depth
    omega
  · -- levels
    intro id p hp
    rw [hroot]
    by_cases e : id = Q
    · rw [e]
      exact hinv.lvlRoot Q _ hQ
    · cases hold : t.FetchPage id with
      | none =>
        rw [hfetch, if_neg e, hold] at hp
        by_cases e2 : id = r
        · rw [e2, hr] at hold
          exact Option.noConfusion hold
        · rw [if_neg e2] at hp
          exact Option.noConfusion hp
      | some cp => exact hinv.lvlRoot id cp hold
  · intro l k r hpend
    simp at hpend

/-- The old root was split: after the new root above `left` and `right` was written,
the invariant holds with nothing pending. -/
theorem TreeInv.new_root {t t' : BPlusTree} {g : Ghost} {l k r : Int}
    (hinv : TreeInv t g (some (l, k, r))) (hlroot : l = t.root_page_id_) (lp rp : Page)
    (nr : InternalPage) (hl : t.FetchPage l = some lp) (hr : t.FetchPage r = some rp)
    (hfetch : ∀ id, t'.FetchPage id
      = if id = r then some (rp.SetParentPageId t.next_page_id_)
        else if id = l then some (lp.SetParentPageId t.next_page_id_)
        else if id = t.next_page_id_ then some (.internal nr) else t.FetchPage id)
    (hroot : t'.root_page_id_ = t.next_page_id_)
    (hnext : t'.next_page_id_ = t.next_page_id_ + 1)
    (hL : t'.leaf_max_size_ = t.leaf_max_size_)
    (hI : t'.internal_max_size_ = t.internal_max_size_)
    (hlen : t.pages_.length + 1 ≤ t'.pages_.length)
    (nr_id : nr.page_id_ = t.next_page_id_) (nr_par : nr.parent_page_id_ = INVALID_PAGE_ID)
    (nr_max : nr.max_size_ = t.internal_max_size_) (nr_sz : nr.size_ = 2)
    (nr_0 : (arrGet nr.array_ 0).2 = l) (nr_1 : arrGet nr.array_ 1 = (k, r)) :
    TreeInv t' (rootGhost g l t.next_page_id_) none := by
  obtain ⟨-, -, hrroot, hlvl, hlor, hhil, hlok, hkhi, hnochild, hlsize⟩ :=
    hinv.pending l k r rfl
  obtain ⟨rootp, r1, r2, r3, r4⟩ := hinv.root
  rw [← hlroot] at r1 r3 r4 hrroot
  rw [hl] at r1
  simp only [Option.some.injEq] at r1
  rw [← r1] at r2
  have r4' : g.hi r = none := by
    have : effHi g (some (l, k, r)) l = g.hi r := by
      unfold effHi
      simp only [if_true]
    rw [← this]
    exact r4
  have hfresh : ∀ id p, t.FetchPage id = some p → id ≠ t.next_page_id_ := by
    intro id p hp e
    have := (hinv.ids id p hp).2.2
    simp only [page_id_t] at *
    omega
  have hlN := hfresh l _ hl
  have hrN := hfresh r _ hr
  have hlr : l ≠ r := fun e => hrroot e.symm
  have hNl : t.next_page_id_ ≠ l := fun e => hlN e.symm
  have hNr : t.next_page_id_ ≠ r := fun e => hrN e.symm
  have hg_lvl : ∀ id, id ≠ t.next_page_id_ →
      (rootGhost g l t.next_page_id_).lvl id = g.lvl id := by
    intro id h
    simp only [rootGhost, if_neg h]
  have hg_lo : ∀ id, id ≠ t.next_page_id_ →
      (rootGhost g l t.next_page_id_).lo id = g.lo id := by
    intro id h
    simp only [rootGhost, if_neg h]
  have hg_hi : ∀ id, id ≠ t.next_page_id_ →
      (rootGhost g l t.next_page_id_).hi id = g.hi id := by
    intro id h
    simp only [rootGhost, if_neg h]
  have hg_lvlN : (rootGhost g l t.next_page_id_).lvl t.next_page_id_ = g.lvl l + 1 := by
    simp only [rootGhost, if_true]
  have hg_loN : (rootGhost g l t.next_page_id_).lo t.next_page_id_ = none := by
    simp only [rootGhost, if_true]
  have hg_hiN : (rootGhost g l t.next_page_id_).hi t.next_page_id_ = none := by
    simp only [rootGhost, if_true]
  have heff0 : ∀ c, effHi (rootGhost g l t.next_page_id_) none c
      = (rootGhost g l t.next_page_id_).hi c := fun c => rfl
  have heff : ∀ c, effHi g (some (l, k, r)) c = if c = l then g.hi r else g.hi c := by
    intro c
    rfl
  have hN' : t'.FetchPage t.next_page_id_ = some (.internal nr) := by
    rw [hfetch, if_neg hNr, if_neg hNl, if_pos rfl]
  have hl' : t'.FetchPage l = some (lp.SetParentPageId t.next_page_id_) := by
    rw [hfetch, if_neg hlr, if_pos rfl]
  have hr' : t'.FetchPage r = some (rp.SetParentPageId t.next_page_id_) := by
    rw [hfetch, if_pos rfl]
  -- every old page is still there, up to the parent pointer of `left` and `right`
  have hkeep : ∀ id cp, t.FetchPage id = some cp →
      ∃ cp', t'.FetchPage id = some cp' ∧
        (cp' = cp.SetParentPageId t.next_page_id_ ∨ cp' = cp) ∧
        (id ≠ l → id ≠ r → cp' = cp) := by
    intro id cp hcp
    by_cases e1 : id = r
    · rw [e1, hr] at hcp
      simp only [Option.some.injEq] at hcp
      rw [e1, ← hcp]
      exact ⟨_, hr', Or.inl rfl, fun _ h => absurd rfl h⟩
    · by_cases e2 : id = l
      · rw [e2, hl] at hcp
        simp only [Option.some.injEq] at hcp
        rw [e2, ← hcp]
        exact ⟨_, hl', Or.inl rfl, fun h _ => absurd rfl h⟩
      · refine ⟨cp, ?_, Or.inr rfl, fun _ _ => rfl⟩
        rw [hfetch, if_neg e1, if_neg e2, if_neg (hfresh id cp hcp)]
        exact hcp
  -- and every page but the new root was there before
  have hback : ∀ id p, t'.FetchPage id = some p → id ≠ t.next_page_id_ →
      ∃ cp, t.FetchPage id = some cp ∧
        (p = cp.SetParentPageId t.next_page_id_ ∨ p = cp) ∧
        (id ≠ l → id ≠ r → p = cp) := by
    intro id p hp hne
    rw [hfetch] at hp
    by_cases e1 : id = r
    · rw [if_pos e1] at hp
      simp only [Option.some.injEq] at hp
      rw [e1, ← hp]
      exact ⟨rp, hr, Or.inl rfl, fun _ h => absurd rfl h⟩
    · rw [if_neg e1] at hp
      by_cases e2 : id = l
      · rw [if_pos e2] at hp
        simp only [Option.some.injEq] at hp
        rw [e2, ← hp]
        exact ⟨lp, hl, Or.inl rfl, fun h _ => absurd rfl h⟩
      · rw [if_neg e2, if_neg hne] at hp
        exact ⟨p, hp, Or.inr rfl, fun _ _ => rfl⟩
  have hslot : ∀ P0 q0, t.FetchPage P0 = some (.internal q0) →
      ∃ q1, t'.FetchPage P0 = some (.internal q1) ∧ q1.size_ = q0.size_ ∧
        q1.array_ = q0.array_ := by
    intro P0 q0 hP0
    obtain ⟨cp', c1, c2, -⟩ := hkeep P0 _ hP0
    rcases c2 with c2 | c2
    · rw [c2] at c1
      exact ⟨_, c1, rfl, rfl⟩
    · rw [c2] at c1
      exact ⟨q0, c1, rfl, rfl⟩
  refine ⟨by rw [hL]; exact hinv.leafMax, by rw [hI]; exact hinv.internalMax,
    ?_, ?_, ?_, ?_, ?_, ?_, ?_, ?_, ?_⟩
  · -- ids
    intro id p hp
    rw [hnext]
    by_cases e : id = t.next_page_id_
    · rw [e, hN'] at hp
      simp only [Option.some.injEq] at hp
      have h1 := (hinv.ids l _ hl).2
      rw [← hp, e]
      simp only [page_id_t] at *
      exact ⟨nr_id, by omega, by omega⟩
    · obtain ⟨cp, c1, c2, -⟩ := hback id p hp e
      have h1 := hinv.ids id cp c1
      have h2 : p.GetPageId = cp.GetPageId := by
        rcases c2 with c2 | c2
        · rw [c2, Page.GetPageId_SetParentPageId]
        · rw [c2]
      simp only [page_id_t] at *
      exact ⟨h2.trans h1.1, h1.2.1, by omega⟩
  · -- root
    rw [hroot]
    exact ⟨_, hN', nr_par, hg_loN, by rw [heff0]; exact hg_hiN⟩
  · -- parent
    intro id p hp hne _
    rw [hroot] at hne
    by_cases e1 : id = r
    · rw [e1, hr'] at hp
      simp only [Option.some.injEq] at hp
      rw [← hp, Page.GetParentPageId_SetParentPageId, e1]
      exact ⟨nr, 1, hN', by omega, by omega, by rw [nr_1]⟩
    · by_cases e2 : id = l
      · rw [e2, hl'] at hp
        simp only [Option.some.injEq] at hp
        rw [← hp, Page.GetParentPageId_SetParentPageId, e2]
        exact ⟨nr, 0, hN', by omega, by omega, nr_0⟩
      · obtain ⟨cp, c1, -, c3⟩ := hback id p hp hne
        rw [c3 e2 e1]
        obtain ⟨q0, i, a1, a2, a3, a4⟩ := hinv.parent id cp c1
          (by rw [← hlroot]; exact e2)
          (fun _ _ _ h => by
            simp only [Option.some.injEq, Prod.mk.injEq] at h
            rw [← h.2.2]
            exact e1)
        obtain ⟨q1, b1, b2, b3⟩ := hslot _ q0 a1
        exact ⟨q1, i, b1, a2, by rw [b2]; exact a3, by rw [b3]; exact a4⟩
  · -- leaf
    intro id p hp
    rw [hroot, hL]
    have hidN : id ≠ t.next_page_id_ := by
      intro e
      rw [e, hN'] at hp
      simp at hp
    obtain ⟨cp, c1, c2, -⟩ := hback id _ hp hidN
    have hold : ∃ p0, t.FetchPage id = some (.leaf p0) ∧ p.size_ = p0.size_ ∧
        p.array_ = p0.array_ ∧ p.max_size_ = p0.max_size_ := by
      rcases c2 with c2 | c2
      · obtain ⟨lp0, a, b⟩ := Page.SetParentPageId_leaf _ _ _ c2.symm
        rw [a] at c1
        rw [b]
        exact ⟨lp0, c1, rfl, rfl, rfl⟩
      · rw [← c2] at c1
        exact ⟨p, c1, rfl, rfl, rfl⟩
    obtain ⟨p0, hp0, e1, e2, e3⟩ := hold
    obtain ⟨m1, m2, m3, m4, m5, m6, m7, m8, m9⟩ := hinv.leaf id p0 hp0
    rw [e1, e2, e3, hg_lvl id hidN, hg_lo id hidN, hg_hi id hidN]
    refine ⟨m1, m2, m3, m4, ?_, m6, m7, m8, m9⟩
    intro _
    by_cases e : id = l
    · rw [e] at hp0 ⊢
      exact hlsize p0 hp0
    · exact m5 (by rw [← hlroot]; exact e)
  · -- internal
    intro id p hp
    rw [hI]
    by_cases e : id = t.next_page_id_
    · rw [e, hN'] at hp
      simp only [Option.some.injEq, Page.internal.injEq] at hp
      rw [← hp, e, hg_lvlN, hg_loN, hg_hiN, nr_sz]
      refine ⟨by omega, nr_max, by omega, by have := hinv.internalMax; omega, ?_, ?_, ?_⟩
      · intro a b ha hab hb
        omega
      · intro a ha hb
        exact ⟨fun x hx => Option.noConfusion hx, fun x hx => Option.noConfusion hx⟩
      · intro a ha hb
        by_cases e0 : a = 0
        · have e01 : arrGet nr.array_ (0 + 1) = (k, r) := nr_1
          rw [e0, nr_0, e01]
          refine ⟨_, hl', Page.GetParentPageId_SetParentPageId _ _, ?_, ?_, ?_⟩
          · rw [hg_lvl l hlN, hg_lvlN]
          · rw [hg_lo l hlN, if_pos rfl]
            exact r3
          · rw [heff0, hg_hi l hlN, if_neg (by omega)]
            exact hhil
        · have e1 : a = 1 := by omega
          rw [e1, nr_1]
          refine ⟨_, hr', Page.GetParentPageId_SetParentPageId _ _, ?_, ?_, ?_⟩
          · rw [hg_lvl r hrN, hlvl, hg_lvlN]
          · rw [hg_lo r hrN, if_neg (by omega)]
            exact hlor
          · rw [heff0, hg_hi r hrN, if_pos (by omega)]
            exact r4'
    · obtain ⟨cp, c1, c2, -⟩ := hback id _ hp e
      have hold : ∃ p0, t.FetchPage id = some (.internal p0) ∧ p.size_ = p0.size_ ∧
          p.array_ = p0.array_ ∧ p.max_size_ = p0.max_size_ := by
        rcases c2 with c2 | c2
        · obtain ⟨ip0, a, b⟩ := Page.SetParentPageId_internal _ _ _ c2.symm
          rw [a] at c1
          rw [b]
          exact ⟨ip0, c1, rfl, rfl, rfl⟩
        · rw [← c2] at c1
          exact ⟨p, c1, rfl, rfl, rfl⟩
      obtain ⟨p0, hp0, e1, e2, e3⟩ := hold
      obtain ⟨a, b, c, d, hnode⟩ := hinv.internal id p0 hp0
      rw [e1, e2, e3, hg_lvl id e, hg_lo id e, hg_hi id e]
      refine ⟨a, b, c, d, hnode.frame ?_ (hg_lvl id e)⟩
      intro i h0 h1 cp2 hcp2
      have hcN := hfresh _ _ hcp2
      have hcr : (arrGet p0.array_ i).2 ≠ r := hnochild id p0 hp0 i h0 h1
      have hcl : (arrGet p0.array_ i).2 ≠ l := by
        intro e4
        obtain ⟨cp3, d1, d2, -⟩ := hnode.2.2 i h0 h1
        rw [e4, hl] at d1
        simp only [Option.some.injEq] at d1
        rw [← d1, r2] at d2
        have := (hinv.ids id _ hp0).2.1
        rw [← d2] at this
        exact absurd this (by decide)
      obtain ⟨cp', k1, -, k3⟩ := hkeep _ _ hcp2
      rw [k3 hcl hcr] at k1
      refine ⟨⟨cp2, k1, rfl⟩, hg_lvl _ hcN, hg_lo _ hcN, ?_⟩
      rw [heff0, hg_hi _ hcN, heff, if_neg hcl]
  · -- chain
    obtain ⟨c1, c2, c3⟩ := hinv.chain
    have hmemN : ∀ c, c ∈ g.chain → c ≠ t.next_page_id_ := by
      intro c hc
      obtain ⟨p, hp⟩ := ChainOk.leaf _ c1 c hc
      exact hfresh c _ hp
    refine ⟨ChainOk.frame_chain _ c1 ?_, c2, ?_⟩
    · intro c hc
      refine ⟨?_, hg_lo c (hmemN c hc), hg_hi c (hmemN c hc)⟩
      intro p hp
      obtain ⟨cp', k1, k2, -⟩ := hkeep _ _ hp
      rcases k2 with k2 | k2
      · rw [k2] at k1
        exact ⟨_, k1, rfl⟩
      · rw [k2] at k1
        exact ⟨p, k1, rfl⟩
    · intro h hh
      have hh2 : g.chain.head? = some h := hh
      rw [hg_lo h (hmemN h (List.mem_of_mem_head? hh2))]
      exact c3 h hh2
  · -- depth
    rw [hroot, hg_lvlN]
    have := hinv.depth
    rw [← hlroot] at this
    omega
  · -- levels
    intro id p hp
    rw [hroot, hg_lvlN]
    by_cases e : id = t.next_page_id_
    · rw [e, hg_lvlN]
    · obtain ⟨cp, c1, -, -⟩ := hback id p hp e
      rw [hg_lvl id e]
      have := hinv.lvlRoot id cp c1
      rw [← hlroot] at this
      omega
  · intro l k r hpend
    simp at hpend
/-! ## Splitting a full parent -/

theorem Page.SetParentPageId_twice (p : Page) (x y : Int) :
    (p.SetParentPageId x).SetParentPageId y = p.SetParentPageId y := by
  cases p <;> rfl

theorem Page.SetParentPageId_cases (cp p : Page) (h : p = cp ∨ ∃ x, p = cp.SetParentPageId x) :
    p.GetPageId = cp.GetPageId ∧
    (∀ lp, p = .leaf lp → ∃ lp0, cp = .leaf lp0 ∧ lp.size_ = lp0.size_ ∧
      lp.array_ = lp0.array_ ∧ lp.max_size_ = lp0.max_size_ ∧
      lp.next_page_id_ = lp0.next_page_id_) ∧
    (∀ ip, p = .internal ip → ∃ ip0, cp = .internal ip0 ∧ ip.size_ = ip0.size_ ∧
      ip.array_ = ip0.array_ ∧ ip.max_size_ = ip0.max_size_) ∧
    (∀ lp0, cp = .leaf lp0 → ∃ lp, p = .leaf lp ∧ lp.size_ = lp0.size_ ∧
      lp.array_ = lp0.array_ ∧ lp.next_page_id_ = lp0.next_page_id_) ∧
    (∀ ip0, cp = .internal ip0 → ∃ ip, p = .internal ip ∧ ip.size_ = ip0.size_ ∧
      ip.array_ = ip0.array_) := by
  rcases h with h | ⟨x, h⟩
  · rw [h]
    exact ⟨rfl, fun lp e => ⟨lp, e, rfl, rfl, rfl, rfl⟩, fun ip e => ⟨ip, e, rfl, rfl, rfl⟩,
      fun lp e => ⟨lp, e, rfl, rfl, rfl⟩, fun ip e => ⟨ip, e, rfl, rfl⟩⟩
  · rw [h]
    refine ⟨Page.GetPageId_SetParentPageId _ _, ?_, ?_, ?_, ?_⟩
    · intro lp e
      obtain ⟨lp0, a, b⟩ := Page.SetParentPageId_leaf _ _ _ e
      rw [b]
      exact ⟨lp0, a, rfl, rfl, rfl, rfl⟩
    · intro ip e
      obtain ⟨ip0, a, b⟩ := Page.SetParentPageId_internal _ _ _ e
      rw [b]
      exact ⟨ip0, a, rfl, rfl, rfl⟩
    · intro lp0 e
      rw [e]
      exact ⟨_, rfl, rfl, rfl, rfl⟩
    · intro ip0 e
      rw [e]
      exact ⟨_, rfl, rfl, rfl⟩

/-- The parent `Q` of `left` is full: after `Q` was split into `Q` and the fresh page
`next_page_id_`, the children moved to the new page were given their parent and `right`
was given its parent, the invariant holds with the split of `Q` pending. -/
theorem TreeInv.parent_split {t t' : BPlusTree} {g : Ghost} {l k r : Int}
    (hinv : TreeInv t g (some (l, k, r))) (Q : Int) (q q' s : InternalPage) (j mid : Int)
    (rp : Page) (f' : Int → Int × Int)
    (hQ : t.FetchPage Q = some (.internal q)) (hr : t.FetchPage r = some rp)
    (hj0 : 0 ≤ j) (hj1 : j < q.size_) (hjl : (arrGet q.array_ j).2 = l)
    (hfull : q.size_ = t.internal_max_size_)
    (hf' : f' = insAt q.array_ (j + 1) (k, r))
    (hmid2 : 1 ≤ mid) (hmid23 : 3 ≤ t.internal_max_size_ → 2 ≤ mid)
    (hmid3 : mid + 1 ≤ q.size_ + 1)
    (hmid33 : 3 ≤ t.internal_max_size_ → mid + 2 ≤ q.size_ + 1)
    (hN : t'.FetchPage t.next_page_id_ = some (.internal s))
    (hQ' : t'.FetchPage Q = some (.internal q'))
    (hmoved : ∀ m, mid ≤ m → m ≤ q.size_ →
      ∃ cp, t.FetchPage (f' m).2 = some cp ∧
        t'.FetchPage (f' m).2 = some (cp.SetParentPageId t.next_page_id_))
    (hrstay : (∀ m, mid ≤ m → m ≤ q.size_ → (f' m).2 ≠ r) →
      t'.FetchPage r = some (rp.SetParentPageId Q))
    (hother : ∀ id, id ≠ t.next_page_id_ → id ≠ Q → id ≠ r →
      (∀ m, mid ≤ m → m ≤ q.size_ → (f' m).2 ≠ id) → t'.FetchPage id = t.FetchPage id)
    (hroot : t'.root_page_id_ = t.root_page_id_)
    (hnext : t'.next_page_id_ = t.next_page_id_ + 1)
    (hL : t'.leaf_max_size_ = t.leaf_max_size_)
    (hI : t'.internal_max_size_ = t.internal_max_size_)
    (hlen : t.pages_.length ≤ t'.pages_.length)
    (q_id : q'.page_id_ = q.page_id_) (q_par : q'.parent_page_id_ = q.parent_page_id_)
    (q_max : q'.max_size_ = q.max_size_) (q_sz : q'.size_ = mid)
    (q_arr : ∀ m, 0 ≤ m → m < mid → arrGet q'.array_ m = f' m)
    (s_id : s.page_id_ = t.next_page_id_) (s_max : s.max_size_ = t.internal_max_size_)
    (s_sz : s.size_ = q.size_ + 1 - mid)
    (s_arr : ∀ m, 0 ≤ m → m < q.size_ + 1 - mid → arrGet s.array_ m = f' (mid + m)) :
    TreeInv t' (splitGhost g Q t.next_page_id_ (f' mid).1)
      (some (Q, (f' mid).1, t.next_page_id_)) ∧ t.sameLeaves t' := by
  obtain ⟨hbelow, habove, hsorted', hbounds', hchildren'⟩ :=
    hinv.parent_slots Q q j hQ hj0 hj1 hjl
  rw [← hf'] at hsorted' hbounds' hchildren'
  obtain ⟨i1, i2, i3, i4, hsortedQ, hboundsQ, hchildrenQ⟩ := hinv.internal Q q hQ
  obtain ⟨-, -, hrroot, hlvl, hlor, hhil, hlok, hkhi, hnochild, -⟩ := hinv.pending l k r rfl
  obtain ⟨lp, l1, l2, l3, l4, l5⟩ := hchildrenQ j hj0 hj1
  rw [hjl] at l1 l3
  obtain ⟨rootp, r1, r2, r3, r4⟩ := hinv.root
  have hQid := hinv.ids Q _ hQ
  have hfresh : ∀ id p, t.FetchPage id = some p → id ≠ t.next_page_id_ := by
    intro id p hp e
    have := (hinv.ids id p hp).2.2
    simp only [page_id_t] at *
    omega
  have hQN : Q ≠ t.next_page_id_ := hfresh Q _ hQ
  have hNQ : t.next_page_id_ ≠ Q := fun e => hQN e.symm
  have hrN : r ≠ t.next_page_id_ := hfresh r _ hr
  have hrQ : r ≠ Q := by
    intro e
    rw [e] at hlvl
    omega
  have heff : ∀ c, effHi g (some (l, k, r)) c = if c = l then g.hi r else g.hi c := by
    intro c
    rfl
  have hlroot : l ≠ t.root_page_id_ := by
    intro e
    rw [← e, l1] at r1
    simp only [Option.some.injEq] at r1
    rw [← r1, l2] at r2
    have := hQid.2.1
    rw [r2] at this
    exact absurd this (by decide)
  have hrootN : t.root_page_id_ ≠ t.next_page_id_ := hfresh _ _ r1
  have hf'r : f' (j + 1) = (k, r) := by rw [hf', insAt_eq]
  have hinj' : ∀ a b, 0 ≤ a → a < b → b < q.size_ + 1 → (f' a).2 ≠ (f' b).2 :=
    child_inj g (q.size_ + 1) f' (g.lo Q) hsorted' (fun i h0 h1 => (hbounds' i h0 h1).1)
      (fun i h0 h1 => by
        obtain ⟨cp, -, -, -, c4, -⟩ := hchildren' i h0 h1
        exact c4)
  have hinj2 : ∀ a b, 0 ≤ a → a < q.size_ + 1 → 0 ≤ b → b < q.size_ + 1 →
      (f' a).2 = (f' b).2 → a = b := by
    intro a b ha0 ha1 hb0 hb1 e
    rcases lt_trichotomy a b with c | c | c
    · exact absurd e (hinj' a b ha0 c hb1)
    · exact c
    · exact absurd e.symm (hinj' b a hb0 c ha1)
  have hcN : ∀ m, 0 ≤ m → m < q.size_ + 1 → (f' m).2 ≠ t.next_page_id_ := by
    intro m h0 h1
    obtain ⟨cp, c1, -⟩ := hchildren' m h0 h1
    exact hfresh _ _ c1
  have hcQ : ∀ m, 0 ≤ m → m < q.size_ + 1 → (f' m).2 ≠ Q := by
    intro m h0 h1 e
    obtain ⟨cp, -, -, c3, -⟩ := hchildren' m h0 h1
    rw [e] at c3
    omega
  -- a page whose parent is not `Q` and which is not `right` is no slot of the split
  have hnotchild : ∀ c cp, t.FetchPage c = some cp → cp.GetParentPageId ≠ Q → c ≠ r →
      ∀ m, 0 ≤ m → m < q.size_ + 1 → (f' m).2 ≠ c := by
    intro c cp hcp hpar hcr m h0 h1 e
    by_cases e2 : m = j + 1
    · rw [e2, hf'r] at e
      exact hcr e.symm
    · obtain ⟨cp2, c1, c2, -⟩ := hchildren' m h0 h1
      rw [e, hcp] at c1
      simp only [Option.some.injEq] at c1
      rw [← c1] at c2
      exact hpar (c2 e2)
  have hunch : ∀ c cp, t.FetchPage c = some cp → cp.GetParentPageId ≠ Q → c ≠ r → c ≠ Q →
      t'.FetchPage c = some cp := by
    intro c cp hcp hpar hcr hcQ2
    rw [hother c (hfresh c cp hcp) hcQ2 hcr
      (fun m h0 h1 => hnotchild c cp hcp hpar hcr m (by omega) (by omega))]
    exact hcp
  have hclass : ∀ id, id ≠ t.next_page_id_ → id ≠ Q →
      t'.FetchPage id = t.FetchPage id ∨
      ∃ cp x, t.FetchPage id = some cp ∧ t'.FetchPage id = some (cp.SetParentPageId x) := by
    intro id h1 h2
    by_cases hm : ∃ m, mid ≤ m ∧ m ≤ q.size_ ∧ (f' m).2 = id
    · obtain ⟨m, m1, m2, m3⟩ := hm
      obtain ⟨cp, c1, c2⟩ := hmoved m m1 m2
      rw [m3] at c1 c2
      exact Or.inr ⟨cp, _, c1, c2⟩
    · have hm' : ∀ m, mid ≤ m → m ≤ q.size_ → (f' m).2 ≠ id :=
        fun m m1 m2 e => hm ⟨m, m1, m2, e⟩
      by_cases e : id = r
      · rw [e] at hm' ⊢
        exact Or.inr ⟨rp, Q, hr, hrstay hm'⟩
      · exact Or.inl (hother id h1 h2 e hm')
  have hkeep : ∀ id cp, t.FetchPage id = some cp → id ≠ Q →
      ∃ cp', t'.FetchPage id = some cp' ∧ (cp' = cp ∨ ∃ x, cp' = cp.SetParentPageId x) := by
    intro id cp hcp hne
    rcases hclass id (hfresh id cp hcp) hne with c | ⟨cp2, x, c1, c2⟩
    · exact ⟨cp, by rw [c]; exact hcp, Or.inl rfl⟩
    · rw [hcp] at c1
      simp only [Option.some.injEq] at c1
      rw [← c1] at c2
      exact ⟨_, c2, Or.inr ⟨x, rfl⟩⟩
  have hback : ∀ id p, t'.FetchPage id = some p → id ≠ t.next_page_id_ → id ≠ Q →
      ∃ cp, t.FetchPage id = some cp ∧ (p = cp ∨ ∃ x, p = cp.SetParentPageId x) := by
    intro id p hp h1 h2
    rcases hclass id h1 h2 with c | ⟨cp2, x, c1, c2⟩
    · exact ⟨p, by rw [← c]; exact hp, Or.inl rfl⟩
    · rw [hp] at c2
      simp only [Option.some.injEq] at c2
      exact ⟨cp2, c1, Or.inr ⟨x, c2⟩⟩
  have hchild_lo : ∀ m, 0 ≤ m → m < mid →
      ∃ cp, t'.FetchPage (f' m).2 = some cp ∧ cp.GetParentPageId = Q := by
    intro m h0 h1
    by_cases e : m = j + 1
    · rw [e, hf'r]
      refine ⟨_, hrstay ?_, Page.GetParentPageId_SetParentPageId _ _⟩
      intro m2 a b e2
      have : (f' m2).2 = (f' (j + 1)).2 := by rw [e2, hf'r]
      have := hinj2 m2 (j + 1) (by omega) (by omega) (by omega) (by omega) this
      omega
    · obtain ⟨cp, c1, c2, -⟩ := hchildren' m h0 (by omega)
      have hcr : (f' m).2 ≠ r := by
        intro e2
        have : (f' m).2 = (f' (j + 1)).2 := by rw [e2, hf'r]
        exact e (hinj2 m (j + 1) h0 (by omega) (by omega) (by omega) this)
      refine ⟨cp, ?_, c2 e⟩
      rw [hother _ (hcN m h0 (by omega)) (hcQ m h0 (by omega)) hcr ?_]
      · exact c1
      · intro m2 a b e2
        have := hinj2 m2 m (by omega) (by omega) h0 (by omega) e2
        omega
  have hchild_hi : ∀ m, mid ≤ m → m ≤ q.size_ →
      ∃ cp, t'.FetchPage (f' m).2 = some cp ∧ cp.GetParentPageId = t.next_page_id_ := by
    intro m h0 h1
    obtain ⟨cp, -, c2⟩ := hmoved m h0 h1
    exact ⟨_, c2, Page.GetParentPageId_SetParentPageId _ _⟩
  have hslot : ∀ P0 q0, t.FetchPage P0 = some (.internal q0) → P0 ≠ Q →
      ∃ q1, t'.FetchPage P0 = some (.internal q1) ∧ q1.size_ = q0.size_ ∧
        q1.array_ = q0.array_ := by
    intro P0 q0 hP0 hne
    obtain ⟨cp', c1, c2⟩ := hkeep P0 _ hP0 hne
    obtain ⟨ip, a, b, c⟩ := (Page.SetParentPageId_cases _ _ c2).2.2.2.2 q0 rfl
    rw [a] at c1
    exact ⟨ip, c1, b, c⟩
  have hg_lvl := fun id h => splitGhost_lvl g Q t.next_page_id_ (f' mid).1 id h
  have hg_lo := fun id h => splitGhost_lo g Q t.next_page_id_ (f' mid).1 id h
  have hg_hi := fun id h1 h2 => splitGhost_hi g Q t.next_page_id_ (f' mid).1 id h1 h2
  have hg_eff := fun c h => splitGhost_effHi g Q t.next_page_id_ (f' mid).1 c hNQ h
  refine ⟨⟨by rw [hL]; exact hinv.leafMax, by rw [hI]; exact hinv.internalMax,
    ?_, ?_, ?_, ?_, ?_, ?_, ?_, ?_, ?_⟩, ?_⟩
  · -- ids
    intro id p hp
    rw [hnext]
    by_cases e1 : id = t.next_page_id_
    · rw [e1, hN] at hp
      simp only [Option.some.injEq] at hp
      rw [← hp, e1]
      simp only [page_id_t] at *
      exact ⟨s_id, by omega, by omega⟩
    · by_cases e2 : id = Q
      · rw [e2, hQ'] at hp
        simp only [Option.some.injEq] at hp
        rw [← hp, e2]
        simp only [page_id_t] at *
        exact ⟨q_id.trans hQid.1, hQid.2.1, by omega⟩
      · obtain ⟨cp, c1, c2⟩ := hback id p hp e1 e2
        have h1 := hinv.ids id cp c1
        have h2 := (Page.SetParentPageId_cases _ _ c2).1
        simp only [page_id_t] at *
        exact ⟨h2.trans h1.1, h1.2.1, by omega⟩
  · -- root
    rw [hroot, hg_lo _ hrootN, hg_eff _ hrootN]
    have hr4 : g.hi t.root_page_id_ = none := by
      rw [heff, if_neg (fun e => hlroot e.symm)] at r4
      exact r4
    by_cases e : t.root_page_id_ = Q
    · rw [e, hQ] at r1
      simp only [Option.some.injEq] at r1
      rw [← r1] at r2
      rw [e] at r3 hr4 ⊢
      exact ⟨_, hQ', q_par.trans r2, r3, hr4⟩
    · refine ⟨rootp, hunch _ _ r1 ?_ (fun e2 => hrroot e2.symm) e, r2, r3, hr4⟩
      rw [r2]
      intro e2
      have := hQid.2.1
      rw [← e2] at this
      exact absurd this (by decide)
  · -- parent
    intro id p hp hne hpend
    rw [hroot] at hne
    have hidN : id ≠ t.next_page_id_ := hpend Q _ _ rfl
    by_cases hm : ∃ m, mid ≤ m ∧ m ≤ q.size_ ∧ (f' m).2 = id
    · obtain ⟨m, m1, m2, m3⟩ := hm
      obtain ⟨cp, c1, c2⟩ := hchild_hi m m1 m2
      rw [m3, hp] at c1
      simp only [Option.some.injEq] at c1
      rw [c1, c2]
      refine ⟨s, m - mid, hN, by omega, by omega, ?_⟩
      rw [s_arr (m - mid) (by omega) (by omega)]
      have e : mid + (m - mid) = m := by omega
      rw [e, m3]
    · have hm' : ∀ m, mid ≤ m → m ≤ q.size_ → (f' m).2 ≠ id :=
        fun m m1 m2 e => hm ⟨m, m1, m2, e⟩
      by_cases e1 : id = r
      · rw [e1] at hm' hp
        rw [hrstay hm'] at hp
        simp only [Option.some.injEq] at hp
        rw [← hp, Page.GetParentPageId_SetParentPageId]
        have hjm : j + 1 < mid := by
          by_contra c
          exact hm' (j + 1) (by omega) (by omega) (by rw [hf'r])
        refine ⟨q', j + 1, hQ', by omega, by omega, ?_⟩
        rw [q_arr (j + 1) (by omega) hjm, hf'r, e1]
      · have hold : ∃ p0, t.FetchPage id = some p0 ∧
            p0.GetParentPageId = p.GetParentPageId := by
          by_cases e2 : id = Q
          · rw [e2, hQ'] at hp
            simp only [Option.some.injEq] at hp
            rw [e2, ← hp]
            exact ⟨_, hQ, q_par.symm⟩
          · rw [hother id hidN e2 e1 hm'] at hp
            exact ⟨p, hp, rfl⟩
        obtain ⟨p0, hp0, hpp⟩ := hold
        obtain ⟨q0, i, a1, a2, a3, a4⟩ := hinv.parent id p0 hp0 hne (fun _ _ _ h => by
          simp only [Option.some.injEq, Prod.mk.injEq] at h
          rw [← h.2.2]
          exact e1)
        rw [← hpp]
        by_cases e3 : p0.GetParentPageId = Q
        · rw [e3] at a1 ⊢
          rw [hQ] at a1
          simp only [Option.some.injEq, Page.internal.injEq] at a1
          rw [← a1] at a3 a4
          -- the slot of `id` in the slots with the new pair
          have hex : ∃ i', 0 ≤ i' ∧ i' < q.size_ + 1 ∧ (f' i').2 = id := by
            by_cases c : i < j + 1
            · exact ⟨i, a2, by omega, by rw [hf', insAt_lt _ _ _ _ c]; exact a4⟩
            · refine ⟨i + 1, by omega, by omega, ?_⟩
              rw [hf', insAt_gt _ _ _ _ (by omega)]
              have e4 : i + 1 - 1 = i := by omega
              rw [e4]
              exact a4
          obtain ⟨i', b1, b2, b3⟩ := hex
          have hi'm : i' < mid := by
            by_contra c
            exact hm' i' (by omega) (by omega) b3
          exact ⟨q', i', hQ', b1, by omega, by rw [q_arr i' b1 hi'm]; exact b3⟩
        · obtain ⟨q1, b1, b2, b3⟩ := hslot _ q0 a1 e3
          exact ⟨q1, i, b1, a2, by rw [b2]; exact a3, by rw [b3]; exact a4⟩
  · -- leaf
    intro id p hp
    rw [hroot, hL]
    have hidN : id ≠ t.next_page_id_ := by
      intro e
      rw [e, hN] at hp
      simp at hp
    have hidQ : id ≠ Q := by
      intro e
      rw [e, hQ'] at hp
      simp at hp
    obtain ⟨cp, c1, c2⟩ := hback id _ hp hidN hidQ
    obtain ⟨p0, a, e1, e2, e3, -⟩ := (Page.SetParentPageId_cases _ _ c2).2.1 p rfl
    rw [a] at c1
    obtain ⟨m1, m2, m3, m4, m5, m6, m7, m8, m9⟩ := hinv.leaf id p0 c1
    rw [e1, e2, e3, hg_lvl id hidN, hg_lo id hidN, hg_hi id hidQ hidN]
    refine ⟨m1, m2, m3, m4, m5, m6, m7, m8, ?_⟩
    exact (mem_insertAfter _ _ _ _).2 (Or.inl m9)
  · -- internal
    intro id p hp
    rw [hI]
    by_cases e1 : id = t.next_page_id_
    · rw [e1, hN] at hp
      simp only [Option.some.injEq, Page.internal.injEq] at hp
      rw [← hp, e1, splitGhost_lvl_new, splitGhost_lo_new, splitGhost_hi_new _ _ _ _ hNQ, s_sz]
      refine ⟨i1, s_max, by omega, by omega, ?_, ?_, ?_⟩
      · intro a b ha hab hb
        rw [s_arr a (by omega) (by omega), s_arr b (by omega) (by omega)]
        exact hsorted' _ _ (by omega) (by omega) (by omega)
      · intro a ha hb
        rw [s_arr a (by omega) (by omega)]
        refine ⟨?_, (hbounds' (mid + a) (by omega) (by omega)).2⟩
        intro x hx
        simp only [Option.some.injEq] at hx
        rw [← hx]
        exact hsorted' mid (mid + a) (by omega) (by omega) (by omega)
      · intro a ha hb
        rw [s_arr a ha hb]
        obtain ⟨cp, c1, c2⟩ := hchild_hi (mid + a) (by omega) (by omega)
        obtain ⟨cp0, d1, d2, d3, d4, d5⟩ := hchildren' (mid + a) (by omega) (by omega)
        have hcN2 := hcN (mid + a) (by omega) (by omega)
        refine ⟨cp, c1, c2, ?_, ?_, ?_⟩
        · rw [hg_lvl _ hcN2, splitGhost_lvl_new]
          exact d3
        · rw [hg_lo _ hcN2, d4, if_neg (by omega)]
          by_cases e0 : a = 0
          · rw [if_pos e0, e0, add_zero]
          · rw [if_neg e0]
        · rw [hg_eff _ hcN2, d5]
          by_cases e0 : mid + a = q.size_
          · rw [if_pos e0, if_pos (by omega)]
          · rw [if_neg e0, if_neg (by omega), s_arr (a + 1) (by omega) (by omega)]
            have e5 : mid + (a + 1) = mid + a + 1 := by omega
            rw [e5]
    · by_cases e2 : id = Q
      · rw [e2, hQ'] at hp
        simp only [Option.some.injEq, Page.internal.injEq] at hp
        rw [← hp, e2, hg_lvl _ hQN, hg_lo _ hQN, splitGhost_hi_left, q_sz]
        refine ⟨i1, q_max.trans i2, by omega, by omega, ?_, ?_, ?_⟩
        · intro a b ha hab hb
          rw [q_arr a (by omega) (by omega), q_arr b (by omega) (by omega)]
          exact hsorted' _ _ (by omega) (by omega) (by omega)
        · intro a ha hb
          rw [q_arr a (by omega) (by omega)]
          refine ⟨(hbounds' a (by omega) (by omega)).1, ?_⟩
          intro x hx
          simp only [Option.some.injEq] at hx
          rw [← hx]
          exact hsorted' a mid (by omega) (by omega) (by omega)
        · intro a ha hb
          rw [q_arr a ha hb]
          obtain ⟨cp, c1, c2⟩ := hchild_lo a ha hb
          obtain ⟨cp0, d1, d2, d3, d4, d5⟩ := hchildren' a (by omega) (by omega)
          have hcN2 := hcN a (by omega) (by omega)
          refine ⟨cp, c1, c2, ?_, ?_, ?_⟩
          · rw [hg_lvl _ hcN2, hg_lvl _ hQN]
            exact d3
          · rw [hg_lo _ hcN2, d4]
          · rw [hg_eff _ hcN2, d5, if_neg (by omega)]
            by_cases e0 : a = mid - 1
            · rw [if_pos e0, e0]
              have e5 : mid - 1 + 1 = mid := by omega
              rw [e5]
            · rw [if_neg e0, q_arr (a + 1) (by omega) (by omega)]
      · obtain ⟨cp, c1, c2⟩ := hback id _ hp e1 e2
        obtain ⟨p0, a0, k1, k2, k3⟩ := (Page.SetParentPageId_cases _ _ c2).2.2.1 p rfl
        rw [a0] at c1
        obtain ⟨a, b, c, d, hnode⟩ := hinv.internal id p0 c1
        rw [k1, k2, k3, hg_lvl id e1, hg_lo id e1, hg_hi id e2 e1]
        refine ⟨a, b, c, d, hnode.1, hnode.2.1, ?_⟩
        intro i h0 h1
        obtain ⟨cp2, d1, d2, d3, d4, d5⟩ := hnode.2.2 i h0 h1
        have hcr : (arrGet p0.array_ i).2 ≠ r := hnochild id p0 c1 i h0 h1
        have hcN2 := hfresh _ _ d1
        have hcl : (arrGet p0.array_ i).2 ≠ l := by
          intro e4
          rw [e4, l1] at d1
          simp only [Option.some.injEq] at d1
          rw [← d1, l2] at d2
          exact e2 d2.symm
        rw [heff, if_neg hcl] at d5
        by_cases e4 : (arrGet p0.array_ i).2 = Q
        · refine ⟨.internal q', by rw [e4]; exact hQ', ?_, ?_, ?_, ?_⟩
          · rw [e4, hQ] at d1
            simp only [Option.some.injEq] at d1
            rw [← d1] at d2
            exact q_par.trans d2
          · rw [hg_lvl _ hcN2, hg_lvl id e1]
            exact d3
          · rw [hg_lo _ hcN2]
            exact d4
          · rw [hg_eff _ hcN2]
            exact d5
        · refine ⟨cp2, hunch _ _ d1 (by rw [d2]; exact e2) hcr e4, d2, ?_, ?_, ?_⟩
          · rw [hg_lvl _ hcN2, hg_lvl id e1]
            exact d3
          · rw [hg_lo _ hcN2]
            exact d4
          · rw [hg_eff _ hcN2]
            exact d5
  · -- chain
    obtain ⟨c1, c2, c3⟩ := hinv.chain
    have hQchain : Q ∉ g.chain := by
      intro hmem
      obtain ⟨p, hp⟩ := ChainOk.leaf _ c1 _ hmem
      rw [hQ] at hp
      simp at hp
    have hchain : (splitGhost g Q t.next_page_id_ (f' mid).1).chain = g.chain := by
      simp only [splitGhost]
      exact insertAfter_of_not_mem _ _ _ hQchain
    rw [hchain]
    have hmem : ∀ c, c ∈ g.chain → c ≠ t.next_page_id_ ∧ c ≠ Q := by
      intro c hc
      obtain ⟨p, hp⟩ := ChainOk.leaf _ c1 c hc
      exact ⟨hfresh c _ hp, fun e => hQchain (by rw [← e]; exact hc)⟩
    refine ⟨ChainOk.frame_chain _ c1 ?_, c2, ?_⟩
    · intro c hc
      obtain ⟨n1, n2⟩ := hmem c hc
      refine ⟨?_, hg_lo c n1, hg_hi c n2 n1⟩
      intro p hp
      obtain ⟨cp', k1, k2⟩ := hkeep _ _ hp n2
      obtain ⟨lp2, a, -, -, b⟩ := (Page.SetParentPageId_cases _ _ k2).2.2.2.1 p rfl
      rw [a] at k1
      exact ⟨lp2, k1, b⟩
    · intro h hh
      rw [hg_lo h (hmem h (List.mem_of_mem_head? hh)).1]
      exact c3 h hh
  · -- depth
    rw [hroot, hg_lvl _ hrootN]
    have := hinv.depth
    omega
  · -- levels
    intro id p hp
    rw [hroot, hg_lvl _ hrootN]
    by_cases e1 : id = t.next_page_id_
    · rw [e1, splitGhost_lvl_new]
      exact hinv.lvlRoot Q _ hQ
    · rw [hg_lvl _ e1]
      by_cases e2 : id = Q
      · rw [e2]
        exact hinv.lvlRoot Q _ hQ
      · obtain ⟨cp, c1, -⟩ := hback id p hp e1 e2
        exact hinv.lvlRoot id cp c1
  · -- pending
    intro l2 k2 r2 hpend
    simp only [Option.some.injEq, Prod.mk.injEq] at hpend
    obtain ⟨hl2, hk2, hr2⟩ := hpend
    rw [← hl2, ← hk2, ← hr2, hroot]
    refine ⟨⟨_, hQ'⟩, ⟨_, hN⟩, fun e => hrootN e.symm, ?_, splitGhost_lo_new _ _ _ _,
      splitGhost_hi_left _ _ _ _, ?_, ?_, ?_, ?_⟩
    · rw [splitGhost_lvl_new, hg_lvl _ hQN]
    · rw [hg_lo _ hQN]
      exact (hbounds' mid (by omega) (by omega)).1
    · rw [splitGhost_hi_new _ _ _ _ hNQ]
      exact (hbounds' mid (by omega) (by omega)).2
    · intro id p hp i h0 h1
      by_cases e1 : id = t.next_page_id_
      · rw [e1, hN] at hp
        simp only [Option.some.injEq, Page.internal.injEq] at hp
        rw [← hp] at h1 ⊢
        rw [s_arr i h0 (by omega)]
        exact hcN _ (by omega) (by omega)
      · by_cases e2 : id = Q
        · rw [e2, hQ'] at hp
          simp only [Option.some.injEq, Page.internal.injEq] at hp
          rw [← hp] at h1 ⊢
          rw [q_arr i h0 (by omega)]
          exact hcN _ (by omega) (by omega)
        · obtain ⟨cp, c1, c2⟩ := hback id _ hp e1 e2
          obtain ⟨p0, a0, k1, k2, k3⟩ := (Page.SetParentPageId_cases _ _ c2).2.2.1 p rfl
          rw [a0] at c1
          obtain ⟨-, -, -, -, hnode⟩ := hinv.internal id p0 c1
          rw [k1] at h1
          rw [k2]
          obtain ⟨cp2, d1, -⟩ := hnode.2.2 i h0 h1
          exact hfresh _ _ d1
    · intro lp2 hlp2
      rw [hQ'] at hlp2
      simp at hlp2
  · -- the leaves keep their slots
    apply BPlusTree.sameLeaves.of_reparent
    intro id
    by_cases e1 : id = t.next_page_id_
    · have hnone : t.FetchPage id = none := by
        cases h : t.FetchPage id with
        | none => rfl
        | some p => exact absurd e1 (hfresh _ p h)
      rw [e1] at hnone ⊢
      exact Or.inr (Or.inr (Or.inl ⟨hnone, _, hN⟩))
    · by_cases e2 : id = Q
      · rw [e2]
        exact Or.inr (Or.inl ⟨_, _, hQ, hQ'⟩)
      · rcases hclass id e1 e2 with c | c
        · exact Or.inl c
        · exact Or.inr (Or.inr (Or.inr c))

/-- The loop `for (i = 0; i < hi; ++i) array_[i] = tmp[i]`. -/
theorem copy_get {α : Type} [Inhabited α] (tmp : List α) (n : Nat) :
    ∀ (hi : Int) (a : List α), hi.toNat = n → ∀ x,
      arrGet ((upTo 0 hi).foldl (fun a i => arrSet a i (arrGet tmp i)) a) x
        = if 0 ≤ x ∧ x < hi then arrGet tmp x else arrGet a x := by
  induction n with
  | zero =>
    intro hi a hn x
    rw [upTo_nil _ _ (by omega), List.foldl_nil, if_neg (by omega)]
  | succ n ih =>
    intro hi a hn x
    have e : hi = (hi - 1) + 1 := by omega
    rw [e, upTo_snoc _ _ (by omega), List.foldl_append]
    simp only [List.foldl_cons, List.foldl_nil]
    by_cases c : x = hi - 1
    · rw [c, arrGet_arrSet_same _ _ _ (by omega), if_pos (by omega)]
    · rw [arrGet_arrSet_ne _ _ _ _ c, ih (hi - 1) a (by omega) x]
      by_cases c2 : 0 ≤ x ∧ x < hi - 1
      · rw [if_pos c2, if_pos (by omega)]
      · rw [if_neg c2, if_neg (by omega)]

/-- The second loop of the internal `Split` over the slots `[a, b)` of the scratch buffer:
the pages named in these slots get the sibling as parent, `self` shrinks and the sibling
receives the slots. -/
theorem InternalPage.Split.move_spec (tmp : List (Int × Int)) (sid mid0 : Int) (n : Nat) :
    ∀ (a b : Int) (t : BPlusTree) (self sibling : InternalPage), (b - a).toNat = n →
      mid0 ≤ a → a ≤ b →
      (∀ m, a ≤ m → m < b → ∃ cp, t.FetchPage (arrGet tmp m).2 = some cp) →
      ∃ t' sibling',
        InternalPage.Split.move tmp sid mid0 (upTo a b) t self sibling
          = some (t', { self with size_ := self.size_ - (b - a) }, sibling') ∧
        sibling'.page_id_ = sibling.page_id_ ∧
        sibling'.parent_page_id_ = sibling.parent_page_id_ ∧
        sibling'.max_size_ = sibling.max_size_ ∧
        sibling'.size_ = sibling.size_ + (b - a) ∧
        (∀ x, arrGet sibling'.array_ x
          = if a - mid0 ≤ x ∧ x < b - mid0 then arrGet tmp (x + mid0)
            else arrGet sibling.array_ x) ∧
        (∀ m, a ≤ m → m < b → ∃ cp, t.FetchPage (arrGet tmp m).2 = some cp ∧
          t'.FetchPage (arrGet tmp m).2 = some (cp.SetParentPageId sid)) ∧
        (∀ id, (∀ m, a ≤ m → m < b → (arrGet tmp m).2 ≠ id) →
          t'.FetchPage id = t.FetchPage id) ∧
        t'.root_page_id_ = t.root_page_id_ ∧ t'.next_page_id_ = t.next_page_id_ ∧
        t'.leaf_max_size_ = t.leaf_max_size_ ∧
        t'.internal_max_size_ = t.internal_max_size_ ∧
        t'.pages_.length = t.pages_.length := by
  induction n with
  | zero =>
    intro a b t self sibling hn ha hab hex
    have e : b = a := by omega
    rw [e, upTo_nil _ _ (le_refl _)]
    refine ⟨t, sibling, ?_, rfl, rfl, rfl, by omega, ?_, ?_, fun _ _ => rfl, rfl, rfl, rfl,
      rfl, rfl⟩
    · simp only [InternalPage.Split.move, sub_self, sub_zero]
    · intro x
      rw [if_neg (by omega)]
    · intro m h1 h2
      omega
  | succ n ih =>
    intro a b t self sibling hn ha hab hex
    have hlt : a < b := by omega
    obtain ⟨cp0, hcp0⟩ := hex a (le_refl _) hlt
    rw [upTo_cons _ _ hlt]
    simp only [InternalPage.Split.move, hcp0]
    have hw : ∀ id, (((t.Pin (arrGet tmp a).2).write (arrGet tmp a).2
        (cp0.SetParentPageId sid)).UnpinPage (arrGet tmp a).2).FetchPage id
        = if id = (arrGet tmp a).2 then some (cp0.SetParentPageId sid)
          else t.FetchPage id := by
      intro id
      exact BPlusTree.FetchPage_write _ _ _ _
    obtain ⟨t', sibling', h1, h2, h3, h4, h5, h6, h7, h8, h9, h10, h11, h12, h13⟩ :=
      ih (a + 1) b
        (((t.Pin (arrGet tmp a).2).write (arrGet tmp a).2
          (cp0.SetParentPageId sid)).UnpinPage (arrGet tmp a).2)
        { self with size_ := self.size_ - 1 }
        { sibling with array_ := arrSet sibling.array_ (a - mid0) (arrGet tmp a),
                       size_ := sibling.size_ + 1 }
        (by omega) (by omega) (by omega)
        (by
          intro m m1 m2
          rw [hw]
          by_cases e : (arrGet tmp m).2 = (arrGet tmp a).2
          · rw [if_pos e]
            exact ⟨_, rfl⟩
          · rw [if_neg e]
            exact hex m (by omega) m2)
    refine ⟨t', sibling', ?_, h2, h3, h4, ?_, ?_, ?_, ?_, h9, h10, h11, h12, ?_⟩
    · rw [h1]
      simp only [Option.some.injEq, Prod.mk.injEq, InternalPage.mk.injEq, true_and, and_true]
      omega
    · rw [h5]
      simp only
      omega
    · intro x
      rw [h6 x]
      simp only
      by_cases c : a + 1 - mid0 ≤ x ∧ x < b - mid0
      · rw [if_pos c, if_pos (by omega)]
      · rw [if_neg c]
        by_cases c2 : x = a - mid0
        · rw [c2, arrGet_arrSet_same _ _ _ (by omega), if_pos (by omega)]
          congr 1
          omega
        · rw [arrGet_arrSet_ne _ _ _ _ c2, if_neg (by omega)]
    · intro m m1 m2
      by_cases hm : ∃ m', a + 1 ≤ m' ∧ m' < b ∧ (arrGet tmp m').2 = (arrGet tmp m).2
      · obtain ⟨m', a1, a2, a3⟩ := hm
        obtain ⟨cp, c1, c2⟩ := h7 m' a1 a2
        rw [a3, hw] at c1
        rw [a3] at c2
        by_cases e : (arrGet tmp m).2 = (arrGet tmp a).2
        · rw [if_pos e] at c1
          simp only [Option.some.injEq] at c1
          rw [← c1, Page.SetParentPageId_twice] at c2
          exact ⟨cp0, by rw [e]; exact hcp0, c2⟩
        · rw [if_neg e] at c1
          exact ⟨cp, c1, c2⟩
      · have hm' : ∀ m', a + 1 ≤ m' → m' < b → (arrGet tmp m').2 ≠ (arrGet tmp m).2 :=
          fun m' a1 a2 e => hm ⟨m', a1, a2, e⟩
        have hma : m = a := by
          by_contra c
          exact hm' m (by omega) m2 rfl
        rw [h8 _ hm', hw, hma, if_pos rfl]
        exact ⟨cp0, hcp0, rfl⟩
    · intro id hid
      rw [h8 id (fun m m1 m2 => hid m (by omega) m2), hw,
        if_neg (fun e => hid a (le_refl _) hlt e.symm)]
    · rw [h13]
      exact BPlusTree.write_length_of_mem _ _ _ _ hcp0
/-! ## `InsertInParent` and `Insert` keep the invariant -/

theorem BPlusTree.InsertInParent.newRoot_spec (N I l k r : Int) :
    (BPlusTree.InsertInParent.newRoot N I l k r).page_id_ = N ∧
    (BPlusTree.InsertInParent.newRoot N I l k r).parent_page_id_ = INVALID_PAGE_ID ∧
    (BPlusTree.InsertInParent.newRoot N I l k r).max_size_ = I ∧
    (BPlusTree.InsertInParent.newRoot N I l k r).size_ = 2 ∧
    (arrGet (BPlusTree.InsertInParent.newRoot N I l k r).array_ 0).2 = l ∧
    arrGet (BPlusTree.InsertInParent.newRoot N I l k r).array_ 1 = (k, r) := by
  refine ⟨rfl, rfl, rfl, rfl, ?_, ?_⟩
  · simp only [BPlusTree.InsertInParent.newRoot, InternalPage.SetValueAt,
      InternalPage.SetKeyAt, InternalPage.Init]
    rw [arrGet_arrSet_ne _ _ _ _ (by decide), arrGet_arrSet_ne _ _ _ _ (by decide),
      arrGet_arrSet_same _ _ _ (by decide)]
  · simp only [BPlusTree.InsertInParent.newRoot, InternalPage.SetValueAt,
      InternalPage.SetKeyAt, InternalPage.Init]
    rw [arrGet_arrSet_same _ _ _ (by decide), arrGet_arrSet_same _ _ _ (by decide)]

theorem BPlusTree.write_length_le (t : BPlusTree) (id : Int) (p : Page) :
    t.pages_.length ≤ (t.write id p).pages_.length := by
  cases h : t.FetchPage id with
  | none =>
    rw [BPlusTree.write_length_of_not_mem t id p h]
    omega
  | some p0 =>
    rw [BPlusTree.write_length_of_mem t id p0 p h]

/-- The root case of `InsertInParent`. -/
theorem BPlusTree.InsertInParent_root (fuel : Nat) (t : BPlusTree) (g : Ghost) (l k r : Int)
    (hinv : TreeInv t g (some (l, k, r))) (hlroot : l = t.root_page_id_) :
    ∃ t' g', BPlusTree.InsertInParent (fuel + 1) t l k r = some t' ∧ TreeInv t' g' none ∧
      t.sameLeaves t' := by
  obtain ⟨⟨lp, hl⟩, ⟨rp, hr⟩, hrroot, -⟩ := hinv.pending l k r rfl
  have hlid := hinv.ids l lp hl
  have hfresh : ∀ id p, t.FetchPage id = some p → id ≠ t.next_page_id_ := by
    intro id p hp e
    have := (hinv.ids id p hp).2.2
    simp only [page_id_t] at *
    omega
  have hlN := hfresh l _ hl
  have hrN := hfresh r _ hr
  have hrl : r ≠ l := by rw [hlroot]; exact hrroot
  have hNnone : t.FetchPage t.next_page_id_ = none := by
    cases h : t.FetchPage t.next_page_id_ with
    | none => rfl
    | some p => exact absurd rfl (hfresh _ p h)
  obtain ⟨n1, n2, n3, n4, n5, n6⟩ :=
    BPlusTree.InsertInParent.newRoot_spec t.next_page_id_ t.internal_max_size_ l k r
  -- the state the code produces
  have hr1 : (((t.NewPage).2.write t.next_page_id_ (.internal
      (BPlusTree.InsertInParent.newRoot t.next_page_id_ t.internal_max_size_ l k r))).write l
      (lp.SetParentPageId t.next_page_id_)).FetchPage r = some rp := by
    rw [BPlusTree.FetchPage_write, if_neg hrl, BPlusTree.FetchPage_write, if_neg hrN]
    exact hr
  have hrun : ∃ t', BPlusTree.InsertInParent (fuel + 1) t l k r = some t' ∧
      (∀ id, t'.FetchPage id
        = if id = r then some (rp.SetParentPageId t.next_page_id_)
          else if id = l then some (lp.SetParentPageId t.next_page_id_)
          else if id = t.next_page_id_ then some (.internal
            (BPlusTree.InsertInParent.newRoot t.next_page_id_ t.internal_max_size_ l k r))
          else t.FetchPage id) ∧
      t'.root_page_id_ = t.next_page_id_ ∧ t'.next_page_id_ = t.next_page_id_ + 1 ∧
      t'.leaf_max_size_ = t.leaf_max_size_ ∧
      t'.internal_max_size_ = t.internal_max_size_ ∧
      t.pages_.length + 1 ≤ t'.pages_.length := by
    simp only [BPlusTree.InsertInParent, hl]
    rw [if_pos (by rw [hlid.1]; exact hlroot)]
    simp only [BPlusTree.NewPage] at hr1 ⊢
    rw [hr1]
    refine ⟨_, rfl, ?_, rfl, rfl, rfl, rfl, ?_⟩
    · intro id
      show (BPlusTree.write _ r _).FetchPage id = _
      rw [BPlusTree.FetchPage_write, BPlusTree.FetchPage_write, BPlusTree.FetchPage_write]
      rfl
    · show _ ≤ (BPlusTree.write (BPlusTree.write (BPlusTree.write _ _ _) _ _) r _).pages_.length
      refine le_trans ?_ (BPlusTree.write_length_le _ _ _)
      refine le_trans ?_ (BPlusTree.write_length_le _ _ _)
      exact le_of_eq (BPlusTree.write_length_of_not_mem t.NewPage.2 t.next_page_id_
        (.internal (BPlusTree.InsertInParent.newRoot t.next_page_id_ t.internal_max_size_
          l k r)) hNnone).symm
  obtain ⟨t', h1, h2, h3, h4, h5, h6, h7⟩ := hrun
  refine ⟨t', rootGhost g l t.next_page_id_, h1,
    hinv.new_root hlroot lp rp _ hl hr h2 h3 h4 h5 h6 h7 n1 n2 n3 n4 n5 n6, ?_⟩
  apply BPlusTree.sameLeaves.of_reparent
  intro id
  rw [h2]
  by_cases e1 : id = r
  · rw [if_pos e1, e1]
    exact Or.inr (Or.inr (Or.inr ⟨rp, _, hr, rfl⟩))
  · rw [if_neg e1]
    by_cases e2 : id = l
    · rw [if_pos e2, e2]
      exact Or.inr (Or.inr (Or.inr ⟨lp, _, hl, rfl⟩))
    · rw [if_neg e2]
      by_cases e3 : id = t.next_page_id_
      · rw [if_pos e3, e3]
        exact Or.inr (Or.inr (Or.inl ⟨hNnone, _, rfl⟩))
      · rw [if_neg e3]
        exact Or.inl rfl

/-- The parent of the left page of a pending split, when the left page is not the root. -/
theorem TreeInv.parent_of_left {t : BPlusTree} {g : Ghost} {l k r : Int}
    (hinv : TreeInv t g (some (l, k, r))) (hlroot : l ≠ t.root_page_id_) :
    ∃ lp rp q j, t.FetchPage l = some lp ∧ lp.GetPageId = l ∧ t.FetchPage r = some rp ∧
      t.FetchPage lp.GetParentPageId = some (.internal q) ∧ 0 ≤ j ∧ j < q.size_ ∧
      (arrGet q.array_ j).2 = l ∧ r ≠ lp.GetParentPageId ∧
      g.lvl lp.GetParentPageId = g.lvl l + 1 := by
  obtain ⟨⟨lp, hl⟩, ⟨rp, hr⟩, -, hlvl, hlor, -, hlok, -, -, -⟩ := hinv.pending l k r rfl
  have hlr : l ≠ r := by
    intro e
    rw [e] at hlok
    exact absurd (hlok k hlor) (lt_irrefl _)
  obtain ⟨q, j, a1, a2, a3, a4⟩ := hinv.parent l lp hl hlroot (fun _ _ _ h => by
    simp only [Option.some.injEq, Prod.mk.injEq] at h
    rw [← h.2.2]
    exact hlr)
  obtain ⟨-, -, -, -, -, -, hch⟩ := hinv.internal _ q a1
  obtain ⟨cp, c1, c2, c3, -⟩ := hch j a2 a3
  rw [a4] at c3
  refine ⟨lp, rp, q, j, hl, (hinv.ids l lp hl).1, hr, a1, a2, a3, a4, ?_, c3.symm⟩
  intro e
  rw [e] at hlvl
  omega

/-- The case of `InsertInParent` where the parent has room. -/
theorem BPlusTree.InsertInParent_room (fuel : Nat) (t : BPlusTree) (g : Ghost) (l k r : Int)
    (hinv : TreeInv t g (some (l, k, r))) (hlroot : l ≠ t.root_page_id_)
    (lp rp : Page) (q : InternalPage) (j : Int) (hl : t.FetchPage l = some lp)
    (hlid : lp.GetPageId = l) (hr : t.FetchPage r = some rp)
    (hQ : t.FetchPage lp.GetParentPageId = some (.internal q)) (hj0 : 0 ≤ j)
    (hj1 : j < q.size_) (hjl : (arrGet q.array_ j).2 = l) (hrQ : r ≠ lp.GetParentPageId)
    (hroom : q.size_ < q.max_size_) :
    ∃ t', BPlusTree.InsertInParent (fuel + 1) t l k r = some t' ∧ TreeInv t' g none ∧
      t.sameLeaves t' := by
  obtain ⟨hbelow, habove, -, -, -⟩ := hinv.parent_slots _ q j hQ hj0 hj1 hjl
  obtain ⟨-, i2, -, -, -⟩ := hinv.internal _ q hQ
  have hr1 : ((t.Pin lp.GetParentPageId).write lp.GetParentPageId
      (.internal (q.Insert (k, r)))).FetchPage r = some rp := by
    rw [BPlusTree.FetchPage_write, if_neg hrQ]
    exact hr
  have hrun : ∃ t', BPlusTree.InsertInParent (fuel + 1) t l k r = some t' ∧
      (∀ id, t'.FetchPage id
        = if id = r then some (rp.SetParentPageId lp.GetParentPageId)
          else if id = lp.GetParentPageId then some (.internal (q.Insert (k, r)))
          else t.FetchPage id) ∧
      t'.root_page_id_ = t.root_page_id_ ∧ t'.next_page_id_ = t.next_page_id_ ∧
      t'.leaf_max_size_ = t.leaf_max_size_ ∧
      t'.internal_max_size_ = t.internal_max_size_ ∧
      t.pages_.length ≤ t'.pages_.length := by
    simp only [BPlusTree.InsertInParent, hl]
    rw [if_neg (by rw [hlid]; exact hlroot)]
    simp only [hQ]
    rw [if_pos hroom]
    simp only [hr1]
    refine ⟨_, rfl, ?_, rfl, rfl, rfl, rfl, ?_⟩
    · intro id
      show (BPlusTree.write _ r _).FetchPage id = _
      rw [BPlusTree.FetchPage_write, BPlusTree.FetchPage_write]
      rfl
    · show _ ≤ (BPlusTree.write (BPlusTree.write (t.Pin _) _ _) r _).pages_.length
      refine le_trans ?_ (BPlusTree.write_length_le _ _ _)
      exact BPlusTree.write_length_le (t.Pin _) _ _
  obtain ⟨t', h1, h2, h3, h4, h5, h6, h7⟩ := hrun
  have hinv' : TreeInv t' g none :=
    hinv.parent_insert _ q (q.Insert (k, r)) j rp hQ hr hj0 hj1 hjl (by rw [← i2]; exact hroom)
      h2 h3 h4 h5 h6 h7 rfl rfl rfl rfl
      (fun m hm0 hm1 => InternalPage.Insert_slot q (k, r) (j + 1) (by omega) (by omega) habove
        (fun h => by
          have e : j + 1 - 1 = j := by omega
          rw [e]
          exact le_of_lt (hbelow j (by omega) (by omega))) m hm1)
  refine ⟨t', h1, hinv', ?_⟩
  apply BPlusTree.sameLeaves.of_reparent
  intro id
  rw [h2]
  by_cases e1 : id = r
  · rw [if_pos e1, e1]
    exact Or.inr (Or.inr (Or.inr ⟨rp, _, hr, rfl⟩))
  · rw [if_neg e1]
    by_cases e2 : id = lp.GetParentPageId
    · rw [if_pos e2, e2]
      exact Or.inr (Or.inl ⟨_, _, hQ, rfl⟩)
    · rw [if_neg e2]
      exact Or.inl rfl

/-- The case of `InsertInParent` where the parent is full: the state after the parent was
split, with the split of the parent pending. -/
theorem BPlusTree.InsertInParent_full (t : BPlusTree) (g : Ghost) (l k r : Int)
    (hinv : TreeInv t g (some (l, k, r)))
    (lp rp : Page) (q : InternalPage) (j : Int) (hl : t.FetchPage l = some lp)
    (hr : t.FetchPage r = some rp)
    (hQ : t.FetchPage lp.GetParentPageId = some (.internal q)) (hj0 : 0 ≤ j)
    (hj1 : j < q.size_) (hjl : (arrGet q.array_ j).2 = l) (hrQ : r ≠ lp.GetParentPageId)
    (hfull : ¬ q.size_ < q.max_size_) :
    ∃ t2 s,
      InternalPage.Split
        (((t.Pin lp.GetParentPageId).NewPage).2.write t.next_page_id_
          (.internal (InternalPage.Init t.next_page_id_ INVALID_PAGE_ID
            t.internal_max_size_)))
        lp.GetParentPageId k r t.next_page_id_ = some t2 ∧
      t2.FetchPage t.next_page_id_ = some (.internal s) ∧
      TreeInv t2 (splitGhost g lp.GetParentPageId t.next_page_id_ (s.KeyAt 0))
        (some (lp.GetParentPageId, s.KeyAt 0, t.next_page_id_)) ∧
      t.sameLeaves t2 ∧ t2.root_page_id_ = t.root_page_id_ := by
  obtain ⟨hbelow, habove, -, -, hchildren'⟩ := hinv.parent_slots _ q j hQ hj0 hj1 hjl
  obtain ⟨i1, i2, i3, i4, -⟩ := hinv.internal _ q hQ
  have hI := hinv.internalMax
  have hsz : q.size_ = q.max_size_ := by omega
  have hQid := hinv.ids _ _ hQ
  have hfresh : ∀ id p, t.FetchPage id = some p → id ≠ t.next_page_id_ := by
    intro id p hp e
    have := (hinv.ids id p hp).2.2
    simp only [page_id_t] at *
    omega
  have hQN := hfresh _ _ hQ
  have hrN := hfresh _ _ hr
  have hNQ : t.next_page_id_ ≠ lp.GetParentPageId := fun e => hQN e.symm
  have hNr : t.next_page_id_ ≠ r := fun e => hrN e.symm
  have hQr : lp.GetParentPageId ≠ r := fun e => hrQ e.symm
  -- the scratch buffer holds the slots with the new pair
  have htmp : ∀ m, 0 ≤ m → m ≤ q.max_size_ →
      arrGet (InternalPage.Split.tmp q k r) m = insAt q.array_ (j + 1) (k, r) m :=
    fun m h0 h1 => InternalPage.Split.tmp_get q k r (j + 1) (by omega) (by omega) hbelow
      (fun i a b => habove i a (by omega)) m h0 h1
  have hf1 : ∀ id, (((t.Pin lp.GetParentPageId).NewPage).2.write t.next_page_id_
      (.internal (InternalPage.Init t.next_page_id_ INVALID_PAGE_ID
        t.internal_max_size_))).FetchPage id
      = if id = t.next_page_id_ then some (.internal (InternalPage.Init t.next_page_id_
          INVALID_PAGE_ID t.internal_max_size_)) else t.FetchPage id := by
    intro id
    rw [BPlusTree.FetchPage_write]
    rfl
  have hbase : ∀ id, ((((t.Pin lp.GetParentPageId).NewPage).2.write t.next_page_id_
      (.internal (InternalPage.Init t.next_page_id_ INVALID_PAGE_ID
        t.internal_max_size_))).write r (rp.SetParentPageId q.page_id_)).FetchPage id
      = if id = r then some (rp.SetParentPageId lp.GetParentPageId)
        else if id = t.next_page_id_ then some (.internal (InternalPage.Init
          t.next_page_id_ INVALID_PAGE_ID t.internal_max_size_)) else t.FetchPage id := by
    intro id
    have hqid : q.page_id_ = lp.GetParentPageId := hQid.1
    rw [BPlusTree.FetchPage_write, hf1, hqid]
  obtain ⟨tm, sib, m1, m2, m3, m4, m5, m6, m7, m8, m9, m10, m11, m12, m13⟩ :=
    InternalPage.Split.move_spec (InternalPage.Split.tmp q k r) t.next_page_id_
      ((q.max_size_ + 1) / 2) _ ((q.max_size_ + 1) / 2) (q.max_size_ + 1)
      ((((t.Pin lp.GetParentPageId).NewPage).2.write t.next_page_id_
        (.internal (InternalPage.Init t.next_page_id_ INVALID_PAGE_ID
          t.internal_max_size_))).write r (rp.SetParentPageId q.page_id_))
      { q with
        size_ := q.size_ + 1,
        array_ := (upTo 0 ((q.max_size_ + 1) / 2)).foldl
          (fun a i => arrSet a i (arrGet (InternalPage.Split.tmp q k r) i)) q.array_ }
      (InternalPage.Init t.next_page_id_ INVALID_PAGE_ID t.internal_max_size_)
      rfl (le_refl _) (by omega)
      (by
        intro m a b
        rw [htmp m (by omega) (by omega), hbase]
        obtain ⟨cp, c1, -⟩ := hchildren' m (by omega) (by omega)
        by_cases e1 : (insAt q.array_ (j + 1) (k, r) m).2 = r
        · rw [if_pos e1]
          exact ⟨_, rfl⟩
        · rw [if_neg e1, if_neg (hfresh _ _ c1)]
          exact ⟨cp, c1⟩)
  have hsplit : InternalPage.Split
      (((t.Pin lp.GetParentPageId).NewPage).2.write t.next_page_id_
        (.internal (InternalPage.Init t.next_page_id_ INVALID_PAGE_ID
          t.internal_max_size_)))
      lp.GetParentPageId k r t.next_page_id_
      = some ((tm.write lp.GetParentPageId (.internal
          { q with
            size_ := q.size_ + 1 - (q.max_size_ + 1 - (q.max_size_ + 1) / 2),
            array_ := (upTo 0 ((q.max_size_ + 1) / 2)).foldl
              (fun a i => arrSet a i (arrGet (InternalPage.Split.tmp q k r) i))
              q.array_ })).write t.next_page_id_ (.internal sib)) := by
    unfold InternalPage.Split
    rw [hf1, hf1, hf1, if_neg hQN, if_neg hrN, if_pos rfl, hQ, hr]
    simp only
    have e : (InternalPage.Init t.next_page_id_ INVALID_PAGE_ID
        t.internal_max_size_).page_id_ = t.next_page_id_ := rfl
    rw [e, m1]
  refine ⟨_, sib, hsplit, by rw [BPlusTree.FetchPage_write, if_pos rfl], ?_⟩
  have hfin : ∀ id, ((tm.write lp.GetParentPageId (.internal
      { q with
        size_ := q.size_ + 1 - (q.max_size_ + 1 - (q.max_size_ + 1) / 2),
        array_ := (upTo 0 ((q.max_size_ + 1) / 2)).foldl
          (fun a i => arrSet a i (arrGet (InternalPage.Split.tmp q k r) i))
          q.array_ })).write t.next_page_id_ (.internal sib)).FetchPage id
      = if id = t.next_page_id_ then some (.internal sib)
        else if id = lp.GetParentPageId then some (.internal
          { q with
            size_ := q.size_ + 1 - (q.max_size_ + 1 - (q.max_size_ + 1) / 2),
            array_ := (upTo 0 ((q.max_size_ + 1) / 2)).foldl
              (fun a i => arrSet a i (arrGet (InternalPage.Split.tmp q k r) i))
              q.array_ })
        else tm.FetchPage id := by
    intro id
    rw [BPlusTree.FetchPage_write, BPlusTree.FetchPage_write]
  have hsep : sib.KeyAt 0 = (insAt q.array_ (j + 1) (k, r) ((q.max_size_ + 1) / 2)).1 := by
    unfold InternalPage.KeyAt
    rw [m6 0, if_pos (by omega), htmp _ (by omega) (by omega)]
    simp only [zero_add]
  rw [hsep]
  have hres := @TreeInv.parent_split t
    ((tm.write lp.GetParentPageId (.internal
      { q with
        size_ := q.size_ + 1 - (q.max_size_ + 1 - (q.max_size_ + 1) / 2),
        array_ := (upTo 0 ((q.max_size_ + 1) / 2)).foldl
          (fun a i => arrSet a i (arrGet (InternalPage.Split.tmp q k r) i))
          q.array_ })).write t.next_page_id_ (.internal sib))
    g l k r hinv lp.GetParentPageId q
    { q with
      size_ := q.size_ + 1 - (q.max_size_ + 1 - (q.max_size_ + 1) / 2),
      array_ := (upTo 0 ((q.max_size_ + 1) / 2)).foldl
        (fun a i => arrSet a i (arrGet (InternalPage.Split.tmp q k r) i)) q.array_ }
    sib j ((q.max_size_ + 1) / 2) rp (insAt q.array_ (j + 1) (k, r)) hQ hr hj0 hj1 hjl
    (by omega) rfl (by omega) (by omega) (by omega) (by omega)
    (by rw [hfin, if_pos rfl])
    (by rw [hfin, if_neg hQN, if_pos rfl])
    (by
      intro m a b
      obtain ⟨cp1, c1, c2⟩ := m7 m a (by omega)
      obtain ⟨cp, d1, d2, d3, -⟩ := hchildren' m (by omega) (by omega)
      rw [htmp m (by omega) (by omega)] at c1 c2
      have hcN := hfresh _ _ d1
      have hcQ : (insAt q.array_ (j + 1) (k, r) m).2 ≠ lp.GetParentPageId := by
        intro e
        rw [e] at d3
        omega
      refine ⟨cp, d1, ?_⟩
      rw [hfin, if_neg hcN, if_neg hcQ, c2]
      rw [hbase] at c1
      by_cases e1 : (insAt q.array_ (j + 1) (k, r) m).2 = r
      · rw [if_pos e1] at c1
        simp only [Option.some.injEq] at c1
        rw [← c1, Page.SetParentPageId_twice]
        rw [e1, hr] at d1
        simp only [Option.some.injEq] at d1
        rw [d1]
      · rw [if_neg e1, if_neg hcN, d1] at c1
        simp only [Option.some.injEq] at c1
        rw [← c1])
    (by
      intro hnot
      rw [hfin, if_neg hrN, if_neg hrQ, m8 r (fun m a b => by
        rw [htmp m (by omega) (by omega)]
        exact hnot m a (by omega)), hbase, if_pos rfl])
    (by
      intro id h1 h2 h3 hnot
      rw [hfin, if_neg h1, if_neg h2, m8 id (fun m a b => by
        rw [htmp m (by omega) (by omega)]
        exact hnot m a (by omega)), hbase, if_neg h3, if_neg h1])
    m9
    (by rw [show (BPlusTree.write (BPlusTree.write tm _ _) _ _).next_page_id_
          = tm.next_page_id_ from rfl, m10]; rfl)
    m11 m12
    (by
      refine le_trans ?_ (BPlusTree.write_length_le _ _ _)
      refine le_trans ?_ (BPlusTree.write_length_le _ _ _)
      rw [m13]
      refine le_trans ?_ (BPlusTree.write_length_le _ _ _)
      exact BPlusTree.write_length_le ((t.Pin lp.GetParentPageId).NewPage).2 _ _)
    rfl rfl rfl
    (by
      simp only
      omega)
    (by
      intro m a b
      simp only
      rw [copy_get _ _ _ q.array_ rfl m, if_pos ⟨a, b⟩, htmp m a (by omega)])
    m2 m4
    (by
      rw [m5]
      simp only [InternalPage.Init]
      omega)
    (by
      intro m a b
      rw [m6 m, if_pos (by omega), htmp _ (by omega) (by omega)]
      congr 1
      omega)
  exact ⟨hres.1, hres.2, m9⟩

/-- `InsertInParent` enters a pending split: it returns, and the invariant holds again
with nothing pending. -/
theorem BPlusTree.InsertInParent_inv :
    ∀ (fuel : Nat) (t : BPlusTree) (g : Ghost) (l k r : Int),
      TreeInv t g (some (l, k, r)) → g.lvl t.root_page_id_ < fuel + g.lvl l →
      ∃ t' g', BPlusTree.InsertInParent fuel t l k r = some t' ∧ TreeInv t' g' none ∧
        t.sameLeaves t' := by
  intro fuel
  induction fuel with
  | zero =>
    intro t g l k r hinv hfuel
    obtain ⟨⟨lp, hl⟩, -⟩ := hinv.pending l k r rfl
    have := hinv.lvlRoot l lp hl
    omega
  | succ n ih =>
    intro t g l k r hinv hfuel
    by_cases hlroot : l = t.root_page_id_
    · exact BPlusTree.InsertInParent_root n t g l k r hinv hlroot
    · obtain ⟨lp, rp, q, j, hl, hlid, hr, hQ, hj0, hj1, hjl, hrQ, hlvlQ⟩ :=
        hinv.parent_of_left hlroot
      by_cases hroom : q.size_ < q.max_size_
      · obtain ⟨t', h1, h2, h3⟩ := BPlusTree.InsertInParent_room n t g l k r hinv hlroot lp rp
          q j hl hlid hr hQ hj0 hj1 hjl hrQ hroom
        exact ⟨t', g, h1, h2, h3⟩
      · obtain ⟨t2, s, hsplit, hs, hinv2, hsl, hroot2⟩ :=
          BPlusTree.InsertInParent_full t g l k r hinv lp rp q j hl hr hQ hj0 hj1 hjl hrQ hroom
        have hfresh : ∀ id p, t.FetchPage id = some p → id ≠ t.next_page_id_ := by
          intro id p hp e
          have := (hinv.ids id p hp).2.2
          simp only [page_id_t] at *
          omega
        obtain ⟨rootp, hrootp, -⟩ := hinv.root
        have hfuel2 : (splitGhost g lp.GetParentPageId t.next_page_id_ (s.KeyAt 0)).lvl
              t2.root_page_id_
            < n + (splitGhost g lp.GetParentPageId t.next_page_id_ (s.KeyAt 0)).lvl
              lp.GetParentPageId := by
          rw [hroot2, splitGhost_lvl _ _ _ _ _ (hfresh _ _ hrootp),
            splitGhost_lvl _ _ _ _ _ (hfresh _ _ hQ), hlvlQ]
          omega
        obtain ⟨t3, g3, hrec, hinv3, hsl3⟩ := ih t2 _ _ _ _ hinv2 hfuel2
        refine ⟨(t3.UnpinPage t.next_page_id_).UnpinPage lp.GetParentPageId, g3, ?_, ?_, ?_⟩
        · simp only [BPlusTree.InsertInParent, hl]
          rw [if_neg (by rw [hlid]; exact hlroot)]
          simp only [hQ]
          rw [if_neg hroom]
          have e : ((t.Pin lp.GetParentPageId).NewPage).1 = t.next_page_id_ := rfl
          simp only [e, hsplit, hs, hrec]
        · exact hinv3.of_sameStore
            ((BPlusTree.sameStore.unpin _ _).trans (BPlusTree.sameStore.unpin _ _))
        · exact (hsl.trans_leaves hsl3).trans_leaves (BPlusTree.sameLeaves.of_store
            ((BPlusTree.sameStore.unpin _ _).trans (BPlusTree.sameStore.unpin _ _)))

/-- The slots of a leaf after a successful `Insert`: still increasing, inside the range of
the leaf, and the first key is still the lower bound of the range. -/
theorem LeafPage.Insert_keeps (p : LeafPage) (key : Int) (v : ValueType) (lo hi : Option Int)
    (h0 : 0 ≤ p.size_) (hs : KeysSorted p.array_ 0 p.size_)
    (hb : ∀ i, 0 ≤ i → i < p.size_ →
      loLe lo (arrGet p.array_ i).1 ∧ ltHi (arrGet p.array_ i).1 hi)
    (hfirst : ∀ a, lo = some a → 1 ≤ p.size_ ∧ (arrGet p.array_ 0).1 = a)
    (hlo : loLe lo key) (hhi : ltHi key hi)
    (hnew : ¬ (p.KeyIndex key < p.size_ ∧
      comparator (p.KeyAt (p.KeyIndex key)) key = 0)) :
    KeysSorted (p.Insert (key, v) (p.KeyIndex key)).2.array_ 0 (p.size_ + 1) ∧
    (∀ i, 0 ≤ i → i < p.size_ + 1 →
      loLe lo (arrGet (p.Insert (key, v) (p.KeyIndex key)).2.array_ i).1 ∧
      ltHi (arrGet (p.Insert (key, v) (p.KeyIndex key)).2.array_ i).1 hi) ∧
    (∀ a, lo = some a → (arrGet (p.Insert (key, v) (p.KeyIndex key)).2.array_ 0).1 = a) := by
  obtain ⟨s1, s2, s3, s4, s5, s6, s7, s8, s9⟩ := LeafPage.Insert_spec p key v h0 hs hnew
  obtain ⟨k1, k2, -, -⟩ := LeafPage.KeyIndex_spec p key h0 hs
  refine ⟨?_, ?_, ?_⟩
  · intro i j hi hij hj
    rw [s7 i (by omega), s7 j (by omega)]
    exact insAt_sorted p.array_ 0 p.size_ _ (key, v) hs k1 k2 s8 s9 i j hi hij hj
  · intro i hi0 hi1
    rw [s7 i (by omega)]
    rcases lt_trichotomy i (p.KeyIndex key) with c | c | c
    · rw [insAt_lt _ _ _ _ c]
      exact hb i hi0 (by omega)
    · rw [c, insAt_eq]
      exact ⟨hlo, hhi⟩
    · rw [insAt_gt _ _ _ _ c]
      exact hb (i - 1) (by omega) (by omega)
  · intro a ha
    rw [s7 0 (by omega)]
    obtain ⟨hsz, h0a⟩ := hfirst a ha
    by_cases c : 0 < p.KeyIndex key
    · rw [insAt_lt _ _ _ _ c]
      exact h0a
    · exfalso
      have h1 := s9 0 (by omega) (by omega)
      have h2 := hlo a ha
      rw [h0a] at h1
      exact absurd h1 (not_lt.2 h2)

/-- `Insert` of a new key into a leaf that becomes full: the leaf is split and the split
is entered in the parent. -/
theorem BPlusTree.Insert.atLeaf_split (t : BPlusTree) (g : Ghost) (X : Int) (lp : LeafPage)
    (key : Int) (v : ValueType) (hinv : TreeInv t g none)
    (hX : t.FetchPage X = some (.leaf lp)) (hlo : loLe (g.lo X) key)
    (hhi : ltHi key (g.hi X))
    (hnew : ¬ (lp.KeyIndex key < lp.size_ ∧
      comparator (lp.KeyAt (lp.KeyIndex key)) key = 0))
    (hfull : lp.size_ + 1 = t.leaf_max_size_) :
    ∃ t' g', BPlusTree.Insert.atLeaf t X key v = some (true, t') ∧ TreeInv t' g' none ∧
      ∀ k w, t'.holds k w ↔ ((k, w) = (key, v) ∨ t.holds k w) := by
  obtain ⟨l1, l2, l3, l4, l5, l6, l7, l8, l9⟩ := hinv.leaf X lp hX
  obtain ⟨s1, s2, s3, s4, s5, s6, s7, s8, s9⟩ := LeafPage.Insert_spec lp key v l3 l6 hnew
  obtain ⟨rootp, r1, r2, r3, r4⟩ := hinv.root
  have hLmax := hinv.leafMax
  obtain ⟨hsorted', hbounds', hfirst'⟩ := LeafPage.Insert_keeps lp key v (g.lo X) (g.hi X)
    l3 l6 l7 (fun a ha => ⟨l5 (fun e => by
      rw [← e, ha] at r3
      exact Option.noConfusion r3) (Or.inr (by rw [ha]; exact Option.some_ne_none a)),
      l8 a ha⟩) hlo hhi hnew
  have hfresh : ∀ id p, t.FetchPage id = some p → id ≠ t.next_page_id_ := by
    intro id p hp e
    have := (hinv.ids id p hp).2.2
    simp only [page_id_t] at *
    omega
  have hXN := hfresh X _ hX
  have hNnone : t.FetchPage t.next_page_id_ = none := by
    cases h : t.FetchPage t.next_page_id_ with
    | none => rfl
    | some p => exact absurd rfl (hfresh _ p h)
  generalize hlp' : (lp.Insert (key, v) (lp.KeyIndex key)).2 = lp' at *
  have hsz' : lp'.size_ = t.leaf_max_size_ := by rw [s6, hfull]
  have hmax' : lp'.max_size_ = t.leaf_max_size_ := by rw [s4, l2]
  obtain ⟨p1, p2, p3, p4, p5, p6, p7⟩ := LeafPage.Split_spec lp'
    (LeafPage.Init t.next_page_id_ INVALID_PAGE_ID t.leaf_max_size_) (by omega) (by omega)
  generalize hhalves : lp'.Split
    (LeafPage.Init t.next_page_id_ INVALID_PAGE_ID t.leaf_max_size_) = halves at *
  rw [hsz', hmax'] at p1 p7
  rw [hmax', hsz'] at p6
  have hp6 : halves.2.size_ = t.leaf_max_size_ - t.leaf_max_size_ / 2 := by
    rw [p6]
    simp only [LeafPage.Init]
    omega
  have hpr : ∀ i, 0 ≤ i → i < t.leaf_max_size_ - t.leaf_max_size_ / 2 →
      arrGet halves.2.array_ i = arrGet lp'.array_ (t.leaf_max_size_ / 2 + i) := by
    intro i h0 h1
    rw [p7 i, if_pos ⟨h0, h1⟩]
  have hsep : halves.2.KeyAt 0 = (arrGet lp'.array_ (t.leaf_max_size_ / 2)).1 := by
    unfold LeafPage.KeyAt
    rw [hpr 0 (le_refl _) (by omega), add_zero]
  rw [hfull] at hsorted' hbounds'
  -- the state before `InsertInParent`
  have hfetch : ∀ id, ((((t.write X (.leaf lp')).NewPage).2.write X (.leaf halves.1)).write
      t.next_page_id_ (.leaf halves.2)).FetchPage id
      = if id = t.next_page_id_ then some (.leaf halves.2)
        else if id = X then some (.leaf halves.1) else t.FetchPage id := by
    intro id
    rw [BPlusTree.FetchPage_write, BPlusTree.FetchPage_write]
    by_cases e1 : id = t.next_page_id_
    · rw [if_pos e1, if_pos e1]
    · rw [if_neg e1, if_neg e1]
      by_cases e2 : id = X
      · rw [if_pos e2, if_pos e2]
      · rw [if_neg e2, if_neg e2]
        show (t.write X (.leaf lp')).FetchPage id = _
        rw [BPlusTree.FetchPage_write, if_neg e2]
  have hinv2 := hinv.split_leaf X lp halves.1 halves.2 (halves.2.KeyAt 0) hX hfetch rfl rfl
    rfl rfl
    (by
      refine le_trans ?_ (BPlusTree.write_length_le _ _ _)
      refine le_trans ?_ (BPlusTree.write_length_le _ _ _)
      exact BPlusTree.write_length_le t _ _)
    (by rw [p1]; exact s2) (by rw [p1]; exact s3) (by rw [p1]; exact l2.symm)
    (by rw [p1]; rfl)
    (by rw [p1]; simp only; omega)
    (by
      rw [p1]
      simp only
      intro h
      rcases h with h | h
      · omega
      · have hne : X ≠ t.root_page_id_ := by
          intro e
          rw [e] at h
          exact h r3
        have := l5 hne (Or.inr h)
        omega)
    (by rw [p1]; simp only; omega)
    (by
      rw [p1]
      simp only
      intro i j hi hij hj
      exact hsorted' i j hi hij (by omega))
    (by
      rw [p1, hsep]
      simp only
      intro i hi0 hi1
      exact ⟨(hbounds' i hi0 (by omega)).1, hsorted' i _ hi0 (by omega) (by omega)⟩)
    (by rw [p1]; exact hfirst')
    p2 p4 (by rw [p5]; exact s5) (by rw [hp6]; omega) (by rw [hp6]; omega)
    (by
      rw [hp6]
      intro i j hi hij hj
      rw [hpr i (by omega) (by omega), hpr j (by omega) (by omega)]
      exact hsorted' _ _ (by omega) (by omega) (by omega))
    (by
      rw [hp6, hsep]
      intro i hi0 hi1
      rw [hpr i hi0 hi1]
      refine ⟨?_, (hbounds' _ (by omega) (by omega)).2⟩
      exact hsorted'.mono _ _ (by omega) (by omega) (by omega))
    rfl
  obtain ⟨t3, g3, hrec, hinv3, hsl3⟩ := BPlusTree.InsertInParent_inv
    (((((t.write X (.leaf lp')).NewPage).2.write X (.leaf halves.1)).write
      t.next_page_id_ (.leaf halves.2)).pages_.length + 1) _ _ X (halves.2.KeyAt 0)
    t.next_page_id_ hinv2 (by have := hinv2.depth; omega)
  refine ⟨(t3.UnpinPage t.next_page_id_).UnpinPage X, g3, ?_, ?_, ?_⟩
  · unfold BPlusTree.Insert.atLeaf
    simp only [hX, hlp', s1, Bool.true_eq_false, if_false]
    rw [if_pos hsz']
    have e : ((t.write X (.leaf lp')).NewPage).1 = t.next_page_id_ := rfl
    simp only [e, hhalves, hrec]
  · exact hinv3.of_sameStore
      ((BPlusTree.sameStore.unpin _ _).trans (BPlusTree.sameStore.unpin _ _))
  · intro k w
    rw [BPlusTree.holds_congr
      ((BPlusTree.sameStore.unpin t3 _).trans (BPlusTree.sameStore.unpin _ X)),
      hsl3.holds]
    have hhas' : lp'.has k w ↔ ((k, w) = (key, v) ∨ lp.has k w) := by
      rw [← hlp']
      exact LeafPage.Insert_has lp key v l3 l6 hnew k w
    unfold BPlusTree.holds
    constructor
    · rintro ⟨id, p, hp, i, i0, i1, i2⟩
      rw [hfetch] at hp
      by_cases e1 : id = t.next_page_id_
      · rw [if_pos e1] at hp
        simp only [Option.some.injEq, Page.leaf.injEq] at hp
        rw [← hp, hp6] at i1
        rw [← hp, hpr i i0 i1] at i2
        rcases hhas'.1 ⟨_, by omega, by rw [hsz']; omega, i2⟩ with c | c
        · exact Or.inl c
        · exact Or.inr ⟨X, lp, hX, c⟩
      · rw [if_neg e1] at hp
        by_cases e2 : id = X
        · rw [if_pos e2] at hp
          simp only [Option.some.injEq, Page.leaf.injEq] at hp
          rw [← hp, p1] at i1 i2
          simp only at i1 i2
          rcases hhas'.1 ⟨i, i0, by rw [hsz']; omega, i2⟩ with c | c
          · exact Or.inl c
          · exact Or.inr ⟨X, lp, hX, c⟩
        · rw [if_neg e2] at hp
          exact Or.inr ⟨id, p, hp, i, i0, i1, i2⟩
    · intro h
      have hcase : lp'.has k w ∨ ∃ id p, id ≠ X ∧ t.FetchPage id = some (.leaf p) ∧
          p.has k w := by
        rcases h with c | ⟨id, p, hp, hh⟩
        · exact Or.inl (hhas'.2 (Or.inl c))
        · by_cases e : id = X
          · rw [e, hX] at hp
            simp only [Option.some.injEq, Page.leaf.injEq] at hp
            rw [← hp] at hh
            exact Or.inl (hhas'.2 (Or.inr hh))
          · exact Or.inr ⟨id, p, e, hp, hh⟩
      rcases hcase with ⟨i, i0, i1, i2⟩ | ⟨id, p, e, hp, hh⟩
      · rw [hsz'] at i1
        by_cases c : i < t.leaf_max_size_ / 2
        · refine ⟨X, halves.1, by rw [hfetch, if_neg hXN, if_pos rfl], i, i0, ?_, ?_⟩
          · rw [p1]
            simp only
            omega
          · rw [p1]
            exact i2
        · refine ⟨t.next_page_id_, halves.2, by rw [hfetch, if_pos rfl],
            i - t.leaf_max_size_ / 2, by omega, by rw [hp6]; omega, ?_⟩
          rw [hpr _ (by omega) (by omega)]
          have e : t.leaf_max_size_ / 2 + (i - t.leaf_max_size_ / 2) = i := by omega
          rw [e]
          exact i2
      · exact ⟨id, p, by rw [hfetch, if_neg (hfresh _ _ hp), if_neg e]; exact hp, hh⟩
/-! ## `Insert` and `GetValue` on a well-formed tree -/

/-- In a well-formed chain the range of the first leaf ends at or before the beginning of
the range of every later leaf. -/
theorem ChainOk.head_le {t : BPlusTree} {g : Ghost} :
    ∀ (rest : List Int) (c : Int), ChainOk t g (c :: rest) →
      (∀ d, d ∈ c :: rest → ∀ a b, g.lo d = some a → g.hi d = some b → a < b) →
      ∀ d, d ∈ rest → ∃ a b, g.hi c = some a ∧ g.lo d = some b ∧ a ≤ b := by
  intro rest
  induction rest with
  | nil =>
    intro c _ _ d hd
    simp at hd
  | cons e rest2 ih =>
    intro c h hne d hd
    obtain ⟨-, h2, h3, h4⟩ := h
    obtain ⟨a, ha⟩ := Option.ne_none_iff_exists'.1 h3
    rcases List.mem_cons.1 hd with e1 | e1
    · rw [e1]
      exact ⟨a, a, by rw [h2]; exact ha, ha, le_refl _⟩
    · obtain ⟨a', b', k1, k2, k3⟩ :=
        ih e h4 (fun x hx => hne x (List.mem_cons_of_mem _ hx)) d e1
      have := hne e (List.mem_cons_of_mem _ (List.mem_cons_self _ _)) a a' ha k1
      exact ⟨a, b', by rw [h2]; exact ha, k2, by omega⟩

theorem ChainOk.unique {t : BPlusTree} {g : Ghost} (key : Int) :
    ∀ (l : List Int), ChainOk t g l →
      (∀ d, d ∈ l → ∀ a b, g.lo d = some a → g.hi d = some b → a < b) →
      ∀ X Y, X ∈ l → Y ∈ l → loLe (g.lo X) key → ltHi key (g.hi X) →
        loLe (g.lo Y) key → ltHi key (g.hi Y) → X = Y := by
  intro l
  induction l with
  | nil =>
    intro h
    exact h.elim
  | cons c rest ih =>
    intro h hne X Y hX hY x1 x2 y1 y2
    have hcross : ∀ Z, Z ∈ rest → loLe (g.lo Z) key → ltHi key (g.hi c) → False := by
      intro Z hZ z1 z2
      obtain ⟨a, b, k1, k2, k3⟩ := ChainOk.head_le rest c h hne Z hZ
      have := z1 b k2
      have := z2 a k1
      omega
    have htail : ∀ Z, Z ∈ rest → ChainOk t g rest := by
      intro Z hZ
      cases rest with
      | nil => simp at hZ
      | cons d rest2 => exact h.2.2.2
    rcases List.mem_cons.1 hX with e1 | e1
    · rcases List.mem_cons.1 hY with e2 | e2
      · rw [e1, e2]
      · rw [e1] at x2
        exact (hcross Y e2 y1 x2).elim
    · rcases List.mem_cons.1 hY with e2 | e2
      · rw [e2] at y2
        exact (hcross X e1 x1 y2).elim
      · exact ih (htail X e1) (fun d hd => hne d (List.mem_cons_of_mem _ hd)) X Y e1 e2 x1 x2
          y1 y2

/-- The range of a leaf page of a well-formed tree is not empty. -/
theorem TreeInv.leaf_range {t : BPlusTree} {g : Ghost} (hinv : TreeInv t g none) (d : Int)
    (p : LeafPage) (hp : t.FetchPage d = some (.leaf p)) (a b : Int) (ha : g.lo d = some a)
    (hb : g.hi d = some b) : a < b := by
  obtain ⟨-, -, -, -, l5, -, l7, -, -⟩ := hinv.leaf d p hp
  obtain ⟨rootp, r1, r2, r3, r4⟩ := hinv.root
  have hsz : 1 ≤ p.size_ := l5 (fun e => by
    rw [← e, ha] at r3
    exact Option.noConfusion r3) (Or.inr (by rw [ha]; exact Option.some_ne_none a))
  obtain ⟨h1, h2⟩ := l7 0 (le_refl _) (by omega)
  exact lt_of_le_of_lt (h1 a ha) (h2 b hb)

/-- A key belongs to the range of one leaf only. -/
theorem TreeInv.leaf_unique {t : BPlusTree} {g : Ghost} (hinv : TreeInv t g none)
    (key : Int) (X Y : Int) (px py : LeafPage) (hX : t.FetchPage X = some (.leaf px))
    (hY : t.FetchPage Y = some (.leaf py)) (x1 : loLe (g.lo X) key)
    (x2 : ltHi key (g.hi X)) (y1 : loLe (g.lo Y) key) (y2 : ltHi key (g.hi Y)) : X = Y := by
  have hXc := (hinv.leaf X px hX).2.2.2.2.2.2.2.2
  have hYc := (hinv.leaf Y py hY).2.2.2.2.2.2.2.2
  refine ChainOk.unique key _ hinv.chain.1 ?_ X Y hXc hYc x1 x2 y1 y2
  intro d hd a b ha hb
  obtain ⟨p, hp⟩ := ChainOk.leaf _ hinv.chain.1 d hd
  exact hinv.leaf_range d p hp a b ha hb

/-- A pair stored in the tree is in the leaf that `FindLeafPage` reaches for its key, at
the slot that `KeyIndex` returns. -/
theorem TreeInv.holds_at {t : BPlusTree} {g : Ghost} (hinv : TreeInv t g none) (key : Int)
    (v : ValueType) (X : Int) (px : LeafPage) (hX : t.FetchPage X = some (.leaf px))
    (x1 : loLe (g.lo X) key) (x2 : ltHi key (g.hi X)) (hh : t.holds key v) :
    px.KeyIndex key < px.size_ ∧ arrGet px.array_ (px.KeyIndex key) = (key, v) := by
  obtain ⟨Y, py, hY, i, i0, i1, i2⟩ := hh
  obtain ⟨-, -, l3, -, -, l6, l7, -, -⟩ := hinv.leaf Y py hY
  obtain ⟨y1, y2⟩ := l7 i i0 i1
  rw [i2] at y1 y2
  have e := hinv.leaf_unique key X Y px py hX hY x1 x2 y1 y2
  rw [← e, hX] at hY
  simp only [Option.some.injEq, Page.leaf.injEq] at hY
  rw [← hY] at i1 i2 l3 l6
  have hk : (arrGet px.array_ i).1 = key := by rw [i2]
  have hidx := LeafPage.KeyIndex_hit px key l3 l6 i i0 i1 hk
  rw [hidx]
  exact ⟨i1, i2⟩

/-- On a well-formed tree `GetValue` finds exactly the pairs stored in the leaves. -/
theorem TreeInv.GetValue_holds {t : BPlusTree} {g : Ghost} (hinv : TreeInv t g none)
    (key : Int) (v : ValueType) (hh : t.holds key v) :
    ∃ t1, t.GetValue key [] = some (true, [v], t1) := by
  obtain ⟨X, t1, px, hf, hs, hX, x1, x2⟩ := BPlusTree.FindLeafPage_inv t g key hinv
  obtain ⟨h1, h2⟩ := hinv.holds_at key v X px hX x1 x2 hh
  have hne : t.IsEmpty = false := by
    cases he : t.IsEmpty with
    | false => rfl
    | true =>
      unfold BPlusTree.FindLeafPage at hf
      rw [he] at hf
      simp at hf
  have hX1 : t1.FetchPage X = some (.leaf px) := by rw [hs.fetch]; exact hX
  rw [BPlusTree.GetValue_of_leaf t key [] X t1 px hne hf hX1]
  have hc : px.KeyIndex key < px.size_ ∧ comparator (px.KeyAt (px.KeyIndex key)) key = 0 := by
    refine ⟨h1, ?_⟩
    unfold LeafPage.KeyAt
    rw [h2]
    exact (comparator_eq _ _).2 rfl
  rw [if_pos hc]
  unfold LeafPage.ValueAt
  rw [h2]
  exact ⟨_, rfl⟩

/-- On a well-formed tree `Insert` of a key that is not stored returns true, keeps the
tree well-formed and adds exactly the new pair. -/
theorem TreeInv.Insert_new {t : BPlusTree} {g : Ghost} (hinv : TreeInv t g none) (key : Int)
    (v : ValueType) (hnew : ∀ w, ¬ t.holds key w) :
    ∃ t' g', t.Insert key v = some (true, t') ∧ TreeInv t' g' none ∧
      ∀ k w, t'.holds k w ↔ ((k, w) = (key, v) ∨ t.holds k w) := by
  obtain ⟨X, t1, px, hf, hs, hX, x1, x2⟩ := BPlusTree.FindLeafPage_inv t g key hinv
  have hinv1 := hinv.of_sameStore hs
  have hX1 : t1.FetchPage X = some (.leaf px) := by rw [hs.fetch]; exact hX
  have hnodup : ¬ (px.KeyIndex key < px.size_ ∧
      comparator (px.KeyAt (px.KeyIndex key)) key = 0) := by
    intro hc
    apply hnew (px.ValueAt (px.KeyIndex key))
    obtain ⟨-, -, l3, -, -, l6, -⟩ := hinv.leaf X px hX
    obtain ⟨k1, -⟩ := LeafPage.KeyIndex_spec px key l3 l6
    refine ⟨X, px, hX, px.KeyIndex key, k1, hc.1, ?_⟩
    have := (comparator_eq _ _).1 hc.2
    unfold LeafPage.KeyAt at this
    unfold LeafPage.ValueAt
    exact Prod.ext this rfl
  have hins : t.Insert key v = BPlusTree.Insert.atLeaf t1 X key v := by
    unfold BPlusTree.Insert
    simp only [hf]
  rw [hins]
  by_cases hroom : px.size_ + 1 = t1.leaf_max_size_
  · obtain ⟨t', g', h1, h2, h3⟩ :=
      BPlusTree.Insert.atLeaf_split t1 g X px key v hinv1 hX1 x1 x2 hnodup hroom
    refine ⟨t', g', h1, h2, ?_⟩
    intro k w
    rw [h3 k w, BPlusTree.holds_congr hs]
  · obtain ⟨t', h1, h2, h3⟩ :=
      BPlusTree.Insert.atLeaf_room t1 g X px key v hinv1 hX1 x1 x2 hnodup hroom
    refine ⟨t', g, h1, h2, ?_⟩
    intro k w
    rw [h3 k w, BPlusTree.holds_congr hs]
/-! ## Insert-only runs -/

/-- The first `Insert` into an empty tree: the state after the root leaf was created. -/
theorem BPlusTree.StartNewTree_inv (t : BPlusTree) (hroot : t.root_page_id_ = INVALID_PAGE_ID)
    (hpages : t.pages_ = []) (hnext : (1 : Int) ≤ t.next_page_id_)
    (hL : 1 ≤ t.leaf_max_size_) (hI : 2 ≤ t.internal_max_size_) :
    TreeInv t.StartNewTree
      { lvl := fun _ => 0, lo := fun _ => none, hi := fun _ => none,
        chain := [t.next_page_id_] } none ∧
    ∀ k w, ¬ t.StartNewTree.holds k w := by
  have hfetch : ∀ id, t.StartNewTree.FetchPage id
      = if id = t.next_page_id_ then
          some (.leaf (LeafPage.Init t.next_page_id_ INVALID_PAGE_ID t.leaf_max_size_))
        else none := by
    intro id
    show (BPlusTree.write t.NewPage.2 _ _).FetchPage id = _
    rw [BPlusTree.FetchPage_write]
    have : t.NewPage.2.FetchPage id = none := by
      show mapFind t.pages_ id = none
      rw [hpages]
      rfl
    rw [this]
    rfl
  have hrootN : t.StartNewTree.root_page_id_ = t.next_page_id_ := rfl
  have hpage : ∀ id p, t.StartNewTree.FetchPage id = some p →
      id = t.next_page_id_ ∧
      p = .leaf (LeafPage.Init t.next_page_id_ INVALID_PAGE_ID t.leaf_max_size_) := by
    intro id p hp
    rw [hfetch] at hp
    by_cases e : id = t.next_page_id_
    · rw [if_pos e] at hp
      simp only [Option.some.injEq] at hp
      exact ⟨e, hp.symm⟩
    · rw [if_neg e] at hp
      exact Option.noConfusion hp
  refine ⟨⟨hL, hI, ?_, ?_, ?_, ?_, ?_, ?_, ?_, ?_, ?_⟩, ?_⟩
  · intro id p hp
    obtain ⟨e1, e2⟩ := hpage id p hp
    rw [e1, e2]
    refine ⟨rfl, hnext, ?_⟩
    show t.next_page_id_ < t.next_page_id_ + 1
    simp only [page_id_t] at *
    omega
  · rw [hrootN, hfetch, if_pos rfl]
    exact ⟨_, rfl, rfl, rfl, rfl⟩
  · intro id p hp hne _
    exact absurd (hpage id p hp).1 (by rw [hrootN] at hne; exact hne)
  · intro id p hp
    obtain ⟨e1, e2⟩ := hpage id _ hp
    simp only [Page.leaf.injEq] at e2
    rw [e1, e2]
    refine ⟨rfl, rfl, le_refl _, ?_, fun h => absurd hrootN.symm h, ?_, ?_, ?_, ?_⟩
    · intro _
      show (0 : Int) < t.leaf_max_size_
      omega
    · intro i j hi hij hj
      simp only [LeafPage.Init] at hj
      omega
    · intro i hi0 hi1
      simp only [LeafPage.Init] at hi1
      omega
    · intro a ha
      exact Option.noConfusion ha
    · exact List.mem_singleton.2 rfl
  · intro id p hp
    obtain ⟨-, e2⟩ := hpage id _ hp
    exact Page.noConfusion e2
  · refine ⟨⟨_, by rw [hfetch, if_pos rfl], rfl, rfl⟩, List.nodup_singleton _, ?_⟩
    intro h _
    rfl
  · show 0 + 1 ≤ (BPlusTree.write t.NewPage.2 _ _).pages_.length
    rw [BPlusTree.write_length_of_not_mem]
    · omega
    · show mapFind t.pages_ _ = none
      rw [hpages]
      rfl
  · intro id p _
    exact le_refl _
  · intro l k r h
    exact Option.noConfusion h
  · rintro k w ⟨id, p, hp, i, i0, i1, -⟩
    obtain ⟨-, e2⟩ := hpage id _ hp
    simp only [Page.leaf.injEq] at e2
    rw [e2] at i1
    simp only [LeafPage.Init] at i1
    omega

/-- `Insert` on an empty tree creates the root leaf and goes on as on a non-empty tree. -/
theorem BPlusTree.Insert_empty (t : BPlusTree) (hroot : t.root_page_id_ = INVALID_PAGE_ID)
    (key : Int) (v : ValueType) (page : Int) (t3 : BPlusTree)
    (h : t.StartNewTree.FindLeafPage key = some (some page, t3)) :
    t.Insert key v = t.StartNewTree.Insert key v := by
  have he : t.IsEmpty = true := by
    unfold BPlusTree.IsEmpty
    rw [hroot]
    rfl
  have hf : t.FindLeafPage key = some (none, t) := by
    unfold BPlusTree.FindLeafPage
    rw [he]
    rfl
  unfold BPlusTree.Insert
  simp only [hf, he, if_true, h]

/-- One `Insert` call keeps the state invariant. -/
theorem StateInv.insert_step {t : BPlusTree} {m : List (Int × ValueType)} (h : StateInv t m)
    (hnd : (m.map Prod.fst).Nodup) (k : Int) (v : ValueType) :
    ∃ b t', t.Insert k v = some (b, t') ∧
      (b = true ↔ k ∉ m.map Prod.fst) ∧
      StateInv t' (if b = true then (k, v) :: m else m) ∧
      ((if b = true then (k, v) :: m else m).map Prod.fst).Nodup ∧
      (b = false → t.sameStore t') := by
  have hnonempty : ∀ g, TreeInv t g none → (∀ k w, t.holds k w ↔ (k, w) ∈ m) →
      ∃ b t', t.Insert k v = some (b, t') ∧
        (b = true ↔ k ∉ m.map Prod.fst) ∧
        StateInv t' (if b = true then (k, v) :: m else m) ∧
        ((if b = true then (k, v) :: m else m).map Prod.fst).Nodup ∧
        (b = false → t.sameStore t') := by
    intro g hinv hholds
    by_cases hk : k ∈ m.map Prod.fst
    · obtain ⟨⟨k', w⟩, hmem, hfst⟩ := List.mem_map.1 hk
      simp only at hfst
      rw [hfst] at hmem
      obtain ⟨t1, hget⟩ := hinv.GetValue_holds k w ((hholds k w).2 hmem)
      obtain ⟨t2, h1, h2, -⟩ := BPlusTree.Insert_duplicate t k w v t1 hget
      refine ⟨false, t2, h1, ?_, ?_, ?_, fun _ => h2⟩
      · simp [hk]
      · simp only [Bool.false_eq_true, if_false]
        refine Or.inr ⟨g, hinv.of_sameStore h2, ?_⟩
        intro k2 w2
        rw [BPlusTree.holds_congr h2]
        exact hholds k2 w2
      · simp only [Bool.false_eq_true, if_false]
        exact hnd
    · have hnew : ∀ w, ¬ t.holds k w := by
        intro w hw
        exact hk (List.mem_map.2 ⟨(k, w), (hholds k w).1 hw, rfl⟩)
      obtain ⟨t', g', h1, h2, h3⟩ := hinv.Insert_new k v hnew
      refine ⟨true, t', h1, ?_, ?_, ?_, fun e => Bool.noConfusion e⟩
      · simp [hk]
      · simp only [if_true]
        refine Or.inr ⟨g', h2, ?_⟩
        intro k2 w2
        rw [h3 k2 w2, hholds k2 w2, List.mem_cons]
      · simp only [if_true, List.map_cons]
        exact List.nodup_cons.2 ⟨hk, hnd⟩
  rcases h with ⟨e1, e2, e3, e4, e5, e6⟩ | ⟨g, hinv, hholds⟩
  · obtain ⟨hinv0, hholds0⟩ := BPlusTree.StartNewTree_inv t e1 e2 e3 e4 e5
    obtain ⟨X, t1, px, hf, -⟩ := BPlusTree.FindLeafPage_inv _ _ k hinv0
    rw [BPlusTree.Insert_empty t e1 k v X t1 hf]
    obtain ⟨t', g', h1, h2, h3⟩ := hinv0.Insert_new k v (hholds0 k)
    rw [e6]
    refine ⟨true, t', h1, by simp, ?_, ?_, fun e => Bool.noConfusion e⟩
    · simp only [if_true]
      refine Or.inr ⟨g', h2, ?_⟩
      intro k2 w2
      rw [h3 k2 w2]
      constructor
      · rintro (c | c)
        · rw [c]
          exact List.mem_singleton.2 rfl
        · exact absurd c (hholds0 k2 w2)
      · intro c
        exact Or.inl (List.mem_singleton.1 c)
    · simp
  · exact hnonempty g hinv hholds

/-- Every state of an insert-only run satisfies the state invariant. -/
theorem InsertReach.state_inv {name : String} {L I : Int} {t : BPlusTree}
    {m : List (Int × ValueType)} (h : InsertReach name L I t m) (hL : 1 ≤ L) (hI : 2 ≤ I) :
    StateInv t m ∧ (m.map Prod.fst).Nodup := by
  induction h with
  | init =>
    exact ⟨Or.inl ⟨rfl, rfl, le_refl _, hL, hI, rfl⟩, List.nodup_nil⟩
  | step k v b t' hreach hins ih =>
    obtain ⟨b2, t2, h1, -, h3, h4, -⟩ := ih.1.insert_step ih.2 k v
    rw [hins] at h1
    simp only [Option.some.injEq, Prod.mk.injEq] at h1
    rw [h1.1, h1.2]
    exact ⟨h3, h4⟩
/-! ## The iterator walk on a well-formed tree -/

theorem LeafPage.length_slots (p : LeafPage) : p.slots.length = p.size_.toNat := by
  simp [LeafPage.slots]

theorem LeafPage.mem_slots (p : LeafPage) (x : Int × ValueType) :
    x ∈ p.slots ↔ ∃ i, 0 ≤ i ∧ i < p.size_ ∧ arrGet p.array_ i = x := by
  simp only [LeafPage.slots, List.mem_map, List.mem_range]
  constructor
  · rintro ⟨n, hn, e⟩
    exact ⟨n, by omega, by omega, e⟩
  · rintro ⟨i, h0, h1, e⟩
    refine ⟨i.toNat, by omega, ?_⟩
    have : ((i.toNat : Nat) : Int) = i := Int.toNat_of_nonneg h0
    rw [this]
    exact e

theorem LeafPage.drop_slots (p : LeafPage) (i : Int) (h0 : 0 ≤ i) (h1 : i < p.size_) :
    p.slots.drop i.toNat = arrGet p.array_ i :: p.slots.drop (i + 1).toNat := by
  have hlen : i.toNat < p.slots.length := by
    rw [LeafPage.length_slots]
    omega
  rw [List.drop_eq_getElem_cons hlen]
  have e1 : (i + 1).toNat = i.toNat + 1 := by omega
  rw [e1]
  congr 1
  simp only [LeafPage.slots, List.getElem_map, List.getElem_range]
  have : ((i.toNat : Nat) : Int) = i := Int.toNat_of_nonneg h0
  rw [this]

theorem LeafPage.drop_slots_end (p : LeafPage) (i : Int) (h1 : p.size_ ≤ i) :
    p.slots.drop i.toNat = [] := by
  apply List.drop_eq_nil_of_le
  rw [LeafPage.length_slots]
  omega

theorem BPlusTree.leafSlots_leaf (t : BPlusTree) (c : Int) (p : LeafPage)
    (h : t.FetchPage c = some (.leaf p)) : t.leafSlots c = p.slots := by
  unfold BPlusTree.leafSlots
  rw [h]

/-- The iteration loop from slot `i` of the leaf `c` reads the rest of `c` and then the
leaves after `c` in the chain. -/
theorem BPlusTree.iterate.loop_walk (t : BPlusTree) (g : Ghost) :
    ∀ (fuel : Nat) (c : Int) (rest : List Int) (p : LeafPage) (i : Int)
      (out : List (Int × ValueType)),
      ChainOk t g (c :: rest) → t.FetchPage c = some (.leaf p) → 0 ≤ i → i ≤ p.size_ →
      (i < p.size_ ∨ rest = []) →
      (∀ d, d ∈ rest → ∀ pd, t.FetchPage d = some (.leaf pd) → 1 ≤ pd.size_) →
      (∀ d, d ∈ rest → d ≠ INVALID_PAGE_ID) →
      (p.size_ - i).toNat + ((rest.map (fun d => (t.leafSlots d).length)).sum + 1) ≤ fuel →
      BPlusTree.iterate.loop t fuel { page_id_ := c, page_ := some c, index_ := i } out
        = some (out ++ p.slots.drop i.toNat ++ rest.bind t.leafSlots) := by
  intro fuel
  induction fuel with
  | zero =>
    intro c rest p i out _ _ _ _ _ _ _ hf
    omega
  | succ n ih =>
    intro c rest p i out hchain hp h0 h1 hlast hsz hvalid hf
    simp only [BPlusTree.iterate.loop, IndexIterator.IsEnd, hp]
    by_cases hend : i = p.size_
    · have hrest : rest = [] := by
        rcases hlast with c1 | c1
        · omega
        · exact c1
      rw [hrest] at hchain ⊢
      obtain ⟨p2, a1, a2, -⟩ := hchain
      rw [hp] at a1
      simp only [Option.some.injEq, Page.leaf.injEq] at a1
      rw [← a1] at a2
      have hd : decide (i = p.size_ ∧ p.next_page_id_ = INVALID_PAGE_ID) = true := by
        simp only [decide_eq_true_eq]
        exact ⟨hend, a2⟩
      rw [hd]
      simp only
      rw [LeafPage.drop_slots_end p i (by omega)]
      simp
    · have hlt : i < p.size_ := by omega
      have hd : decide (i = p.size_ ∧ p.next_page_id_ = INVALID_PAGE_ID) = false := by
        simp only [decide_eq_false_iff_not]
        intro hh
        exact hend hh.1
      rw [hd]
      simp only [IndexIterator.deref, IndexIterator.next, hp]
      by_cases hjump : i + 1 = p.size_ ∧ p.next_page_id_ ≠ INVALID_PAGE_ID
      · rw [if_pos hjump]
        cases rest with
        | nil =>
          obtain ⟨p2, a1, a2, -⟩ := hchain
          rw [hp] at a1
          simp only [Option.some.injEq, Page.leaf.injEq] at a1
          rw [← a1] at a2
          exact absurd a2 hjump.2
        | cons d rest2 =>
          obtain ⟨⟨p2, a1, a2⟩, -, -, htail⟩ := hchain
          rw [hp] at a1
          simp only [Option.some.injEq, Page.leaf.injEq] at a1
          rw [← a1] at a2
          have hpd : ∃ pd, t.FetchPage d = some (.leaf pd) := by
            cases rest2 with
            | nil =>
              obtain ⟨pd, b1, -⟩ := htail
              exact ⟨pd, b1⟩
            | cons e rest3 =>
              obtain ⟨⟨pd, b1, -⟩, -⟩ := htail
              exact ⟨pd, b1⟩
          obtain ⟨pd, hpd⟩ := hpd
          rw [a2, hpd]
          simp only
          have hpd1 := hsz d (List.mem_cons_self _ _) pd hpd
          rw [ih d rest2 pd 0 (out ++ [arrGet p.array_ i]) htail hpd (le_refl _) (by omega)
            (Or.inl (by omega))
            (fun x hx => hsz x (List.mem_cons_of_mem _ hx))
            (fun x hx => hvalid x (List.mem_cons_of_mem _ hx))
            (by
              simp only [List.map_cons, List.sum_cons] at hf
              rw [BPlusTree.leafSlots_leaf t d pd hpd, LeafPage.length_slots] at hf
              omega)]
          rw [LeafPage.drop_slots p i h0 hlt, LeafPage.drop_slots_end p (i + 1) (by omega)]
          simp only [List.cons_bind, BPlusTree.leafSlots_leaf t d pd hpd]
          simp
      · rw [if_neg hjump]
        simp only
        have hlast2 : i + 1 < p.size_ ∨ rest = [] := by
          by_cases e : i + 1 < p.size_
          · exact Or.inl e
          · right
            cases rest with
            | nil => rfl
            | cons d rest2 =>
              exfalso
              obtain ⟨⟨p2, a1, a2⟩, -⟩ := hchain
              rw [hp] at a1
              simp only [Option.some.injEq, Page.leaf.injEq] at a1
              rw [← a1] at a2
              apply hjump
              refine ⟨by omega, ?_⟩
              rw [a2]
              exact hvalid d (List.mem_cons_self _ _)
        rw [ih c rest p (i + 1) (out ++ [arrGet p.array_ i]) hchain hp (by omega) (by omega)
          hlast2 hsz hvalid (by omega)]
        rw [LeafPage.drop_slots p i h0 hlt]
        simp

theorem ChainOk.tail_lo {t : BPlusTree} {g : Ghost} :
    ∀ (rest : List Int) (c : Int), ChainOk t g (c :: rest) → ∀ d, d ∈ rest → g.lo d ≠ none := by
  intro rest
  induction rest with
  | nil =>
    intro c _ d hd
    simp at hd
  | cons e rest2 ih =>
    intro c h d hd
    obtain ⟨-, -, h3, h4⟩ := h
    rcases List.mem_cons.1 hd with e1 | e1
    · rw [e1]
      exact h3
    · exact ih e h4 d e1

/-- The descent of `Begin()` along slot 0 ends in the leaf whose range has no lower
bound. -/
theorem BPlusTree.Begin.loop_leftmost (t : BPlusTree) (g : Ghost) (hinv : TreeInv t g none) :
    ∀ (fuel : Nat) (page : Int), (∃ p, t.FetchPage page = some p) → g.lo page = none →
      g.lvl page < fuel →
      ∃ c p, BPlusTree.Begin.loop t fuel page = some c ∧ t.FetchPage c = some (.leaf p) ∧
        g.lo c = none := by
  intro fuel
  induction fuel with
  | zero =>
    intro page _ _ hl
    omega
  | succ n ih =>
    intro page hp hlo hl
    obtain ⟨p, hp⟩ := hp
    simp only [BPlusTree.Begin.loop, hp]
    cases p with
    | leaf lp => exact ⟨page, lp, rfl, hp, hlo⟩
    | internal ip =>
      simp only
      obtain ⟨-, -, hsz, -, -, -, hchildren⟩ := hinv.internal page ip hp
      obtain ⟨cp, c1, -, c3, c4, -⟩ := hchildren 0 (le_refl _) (by omega)
      rw [if_pos rfl, hlo] at c4
      exact ih (ip.ValueAt 0) ⟨cp, c1⟩ c4 (by
        have e : ip.ValueAt 0 = (arrGet ip.array_ 0).2 := rfl
        rw [e]
        omega)

/-- The sum of a weight over distinct page ids is at most its sum over the page table. -/
theorem sum_erase_le {β : Type} (w : β → Nat) :
    ∀ (m : List (Int × β)) (c : Int) (p : β), mapFind m c = some p →
      w p + ((mapErase m c).map (fun e => w e.2)).sum ≤ (m.map (fun e => w e.2)).sum := by
  intro m
  induction m with
  | nil =>
    intro c p h
    simp [mapFind] at h
  | cons e rest ih =>
    intro c p h
    obtain ⟨key, val⟩ := e
    have hle : ∀ (l : List (Int × β)),
        ((mapErase l c).map (fun e => w e.2)).sum ≤ (l.map (fun e => w e.2)).sum := by
      intro l
      induction l with
      | nil => simp [mapErase]
      | cons e2 rest2 ih2 =>
        obtain ⟨k2, v2⟩ := e2
        by_cases e3 : k2 = c
        · simp only [mapErase, if_pos e3, List.map_cons, List.sum_cons]
          omega
        · simp only [mapErase, if_neg e3, List.map_cons, List.sum_cons]
          omega
    by_cases e1 : key = c
    · simp only [mapFind, if_pos e1, Option.some.injEq] at h
      simp only [mapErase, if_pos e1, List.map_cons, List.sum_cons]
      rw [h]
      have := hle rest
      omega
    · simp only [mapFind, if_neg e1] at h
      simp only [mapErase, if_neg e1, List.map_cons, List.sum_cons]
      have := ih c p h
      omega

theorem sum_nodup_le {β : Type} (w : β → Nat) :
    ∀ (l : List Int) (m : List (Int × β)), l.Nodup →
      (l.map (fun c => ((mapFind m c).map w).getD 0)).sum
        ≤ (m.map (fun e => w e.2)).sum := by
  intro l
  induction l with
  | nil =>
    intro m _
    simp
  | cons c rest ih =>
    intro m hnd
    have hc : c ∉ rest := (List.nodup_cons.1 hnd).1
    have hr : rest.Nodup := (List.nodup_cons.1 hnd).2
    simp only [List.map_cons, List.sum_cons]
    have hrest : (rest.map (fun d => ((mapFind m d).map w).getD 0))
        = rest.map (fun d => ((mapFind (mapErase m c) d).map w).getD 0) := by
      apply List.map_congr_left
      intro d hd
      have hdc : d ≠ c := fun e => hc (by rw [← e]; exact hd)
      rw [mapFind_mapErase_other m c d hdc]
    rw [hrest]
    have h1 := ih (mapErase m c) hr
    cases hf : mapFind m c with
    | none =>
      simp only [Option.map_none', Option.getD_none]
      have : ((mapErase m c).map (fun e => w e.2)).sum ≤ (m.map (fun e => w e.2)).sum := by
        rw [mapErase_of_not_mem m c ((mapFind_eq_none_iff m c).1 hf)]
      omega
    | some p =>
      simp only [Option.map_some', Option.getD_some]
      have := sum_erase_le w m c p hf
      omega

/-- The fuel of `iterate` covers every slot of the leaves of the chain. -/
theorem BPlusTree.iterate.fuel_le (t : BPlusTree) (l : List Int) (hnd : l.Nodup) :
    (l.map (fun d => (t.leafSlots d).length)).sum + 1 ≤ BPlusTree.iterate.fuel t := by
  unfold BPlusTree.iterate.fuel
  have h := sum_nodup_le (fun p : Page => p.GetSize.toNat + 1) l t.pages_ hnd
  have h2 : (l.map (fun d => (t.leafSlots d).length)).sum
      ≤ (l.map (fun c => ((mapFind t.pages_ c).map
          (fun p : Page => p.GetSize.toNat + 1)).getD 0)).sum := by
    apply List.sum_le_sum
    intro d _
    unfold BPlusTree.leafSlots BPlusTree.FetchPage
    cases hf : mapFind t.pages_ d with
    | none => simp
    | some p =>
      cases p with
      | leaf lp => simp [LeafPage.length_slots, Page.GetSize]
      | internal ip => simp
  exact Nat.succ_le_succ (le_trans h2 h)

/-- The keys in the slots of a leaf with increasing keys form an increasing list. -/
theorem LeafPage.slots_sorted (p : LeafPage) (hs : KeysSorted p.array_ 0 p.size_) :
    (p.slots.map Prod.fst).Pairwise (· < ·) := by
  rw [List.pairwise_iff_getElem]
  intro i j hi hj hij
  simp only [List.length_map, LeafPage.length_slots] at hi hj
  simp only [LeafPage.slots, List.getElem_map, List.getElem_range]
  exact hs i j (by omega) (by omega) (by omega)

/-- The keys read along the chain are increasing. -/
theorem ChainOk.sorted {t : BPlusTree} {g : Ghost} (hinv : TreeInv t g none) :
    ∀ (l : List Int), ChainOk t g l →
      ((l.bind t.leafSlots).map Prod.fst).Pairwise (· < ·) := by
  intro l
  induction l with
  | nil =>
    intro h
    exact h.elim
  | cons c rest ih =>
    intro h
    have hne : ∀ d, d ∈ c :: rest → ∀ a b, g.lo d = some a → g.hi d = some b → a < b := by
      intro d hd a b ha hb
      obtain ⟨p, hp⟩ := ChainOk.leaf _ h d hd
      exact hinv.leaf_range d p hp a b ha hb
    obtain ⟨pc, hpc⟩ := ChainOk.leaf _ h c (List.mem_cons_self _ _)
    obtain ⟨-, -, -, -, -, c6, c7, -, -⟩ := hinv.leaf c pc hpc
    simp only [List.cons_bind, List.map_append]
    rw [List.pairwise_append]
    refine ⟨?_, ?_, ?_⟩
    · rw [BPlusTree.leafSlots_leaf t c pc hpc]
      exact LeafPage.slots_sorted pc c6
    · cases rest with
      | nil => simp
      | cons d rest2 => exact ih h.2.2.2
    · intro a ha b hb
      rw [BPlusTree.leafSlots_leaf t c pc hpc] at ha
      obtain ⟨⟨ka, va⟩, hmem, hfst⟩ := List.mem_map.1 ha
      obtain ⟨i, i0, i1, i2⟩ := (LeafPage.mem_slots pc _).1 hmem
      obtain ⟨⟨kb, vb⟩, hmemb, hfstb⟩ := List.mem_map.1 hb
      obtain ⟨d, hd, hmemd⟩ := List.mem_bind.1 hmemb
      obtain ⟨pd, hpd⟩ := ChainOk.leaf _ h d (List.mem_cons_of_mem _ hd)
      rw [BPlusTree.leafSlots_leaf t d pd hpd] at hmemd
      obtain ⟨i', i0', i1', i2'⟩ := (LeafPage.mem_slots pd _).1 hmemd
      obtain ⟨-, -, -, -, -, -, d7, -, -⟩ := hinv.leaf d pd hpd
      obtain ⟨x, y, k1, k2, k3⟩ := ChainOk.head_le rest c h hne d hd
      have h1 := (c7 i i0 i1).2 x k1
      have h2 := (d7 i' i0' i1').1 y k2
      rw [i2] at h1
      rw [i2'] at h2
      simp only at hfst hfstb h1 h2
      rw [← hfst, ← hfstb]
      exact lt_of_lt_of_le h1 (le_trans k3 h2)

/-- On a well-formed tree the iterator walk from `Begin()` returns, reads the stored pairs
and reads their keys in increasing order. -/
theorem TreeInv.iterate_spec {t : BPlusTree} {g : Ghost} (hinv : TreeInv t g none)
    (hL2 : 2 ≤ t.leaf_max_size_) :
    ∃ out, t.iterate = some out ∧ (out.map Prod.fst).Pairwise (· < ·) ∧
      ∀ k w, (k, w) ∈ out ↔ t.holds k w := by
  obtain ⟨hchain, hnd, hhead⟩ := hinv.chain
  obtain ⟨rootp, r1, r2, r3, r4⟩ := hinv.root
  have hne : t.IsEmpty = false := by
    unfold BPlusTree.IsEmpty
    have := (hinv.ids _ _ r1).2.1
    simp only [decide_eq_false_iff_not]
    intro e
    rw [e] at this
    exact absurd this (by decide)
  obtain ⟨c, pc, hb, hc, hclo⟩ := BPlusTree.Begin.loop_leftmost t g hinv (t.pages_.length + 1)
    t.root_page_id_ ⟨rootp, r1⟩ r3 (by have := hinv.depth; omega)
  have hcmem : c ∈ g.chain := (hinv.leaf c pc hc).2.2.2.2.2.2.2.2
  cases hg : g.chain with
  | nil =>
    rw [hg] at hchain
    exact hchain.elim
  | cons h rest =>
    rw [hg] at hchain hnd hcmem
    have hch : c = h := by
      rcases List.mem_cons.1 hcmem with e | e
      · exact e
      · exact absurd hclo (ChainOk.tail_lo rest h hchain c e)
    rw [← hch] at hchain hnd
    have hrest_ne : ∀ d, d ∈ rest → d ≠ t.root_page_id_ := by
      intro d hd e
      rw [e] at hd
      exact ChainOk.tail_lo rest c hchain _ hd r3
    have hlast : 0 < pc.size_ ∨ rest = [] := by
      by_cases e : 0 < pc.size_
      · exact Or.inl e
      · right
        obtain ⟨-, -, c3, -, c5, -⟩ := hinv.leaf c pc hc
        have hroot : c = t.root_page_id_ := by
          by_contra hcr
          have := c5 hcr (Or.inl hL2)
          omega
        cases rest with
        | nil => rfl
        | cons d rest2 =>
          exfalso
          obtain ⟨-, h2, h3, -⟩ := hchain
          have e0 : effHi g none t.root_page_id_ = g.hi t.root_page_id_ := rfl
          rw [e0, ← hroot, h2] at r4
          exact h3 r4
    have hloop := BPlusTree.iterate.loop_walk t g (BPlusTree.iterate.fuel t) c rest pc 0 []
      hchain hc (le_refl _) (hinv.leaf c pc hc).2.2.1 hlast
      (fun d hd pd hpd => (hinv.leaf d pd hpd).2.2.2.2.1 (hrest_ne d hd) (Or.inl hL2))
      (fun d hd e => by
        obtain ⟨pd, hpd⟩ := ChainOk.leaf _ hchain d (List.mem_cons_of_mem _ hd)
        have := (hinv.ids d _ hpd).2.1
        rw [e] at this
        exact absurd this (by decide))
      (by
        have := BPlusTree.iterate.fuel_le t (c :: rest) hnd
        simp only [List.map_cons, List.sum_cons] at this
        rw [BPlusTree.leafSlots_leaf t c pc hc, LeafPage.length_slots] at this
        omega)
    have hout : t.iterate = some ((c :: rest).bind t.leafSlots) := by
      unfold BPlusTree.iterate BPlusTree.Begin
      rw [hne]
      simp only [Bool.false_eq_true, if_false, hb, hloop]
      simp only [Int.toNat_zero, List.drop_zero, List.nil_append, List.cons_bind,
        BPlusTree.leafSlots_leaf t c pc hc]
    refine ⟨_, hout, ChainOk.sorted hinv _ hchain, ?_⟩
    intro k w
    rw [List.mem_bind]
    constructor
    · rintro ⟨d, hd, hmem⟩
      obtain ⟨pd, hpd⟩ := ChainOk.leaf _ hchain d hd
      rw [BPlusTree.leafSlots_leaf t d pd hpd] at hmem
      exact ⟨d, pd, hpd, (LeafPage.mem_slots pd _).1 hmem⟩
    · rintro ⟨d, pd, hpd, hh⟩
      have hdm : d ∈ g.chain := (hinv.leaf d pd hpd).2.2.2.2.2.2.2.2
      rw [hg, ← hch] at hdm
      refine ⟨d, hdm, ?_⟩
      rw [BPlusTree.leafSlots_leaf t d pd hpd]
      exact (LeafPage.mem_slots pd _).2 hh
/-! ## Runs of `Insert` calls; separators and subtrees -/

/-- A run of `Insert` calls from a reachable state is defined; the keys inserted with
success are the old keys and the keys of the run. -/
theorem InsertReach.run {name : String} {L I : Int} (hL : 1 ≤ L) (hI : 2 ≤ I) :
    ∀ (kvs : List (Int × ValueType)) (t : BPlusTree) (m : List (Int × ValueType)),
      InsertReach name L I t m →
      ∃ t' m', t.run (insertPairs kvs) = some t' ∧ InsertReach name L I t' m' ∧
        ∀ k, k ∈ m'.map Prod.fst ↔ (k ∈ m.map Prod.fst ∨ k ∈ kvs.map Prod.fst) := by
  intro kvs
  induction kvs with
  | nil =>
    intro t m h
    exact ⟨t, m, rfl, h, fun k => by simp⟩
  | cons e rest ih =>
    intro t m h
    obtain ⟨k, v⟩ := e
    obtain ⟨hst, hnd⟩ := h.state_inv hL hI
    obtain ⟨b, t1, h1, h2, -, -, -⟩ := hst.insert_step hnd k v
    obtain ⟨t', m', r1, r2, r3⟩ := ih t1 _ (InsertReach.step k v b t1 h h1)
    refine ⟨t', m', ?_, r2, ?_⟩
    · simp only [insertPairs, List.map_cons, BPlusTree.run, TreeOp.apply, h1, Option.map_some']
      exact r1
    · intro k2
      rw [r3 k2]
      by_cases hb : b = true
      · rw [if_pos hb]
        simp only [List.map_cons, List.mem_cons]
        tauto
      · rw [if_neg hb]
        have hk : k ∈ m.map Prod.fst := by
          by_contra hc
          exact hb (h2.2 hc)
        simp only [List.map_cons, List.mem_cons]
        constructor
        · rintro (c | c)
          · exact Or.inl c
          · exact Or.inr (Or.inr c)
        · rintro (c | c | c)
          · exact Or.inl c
          · rw [c]
            exact Or.inl hk
          · exact Or.inr c

theorem InternalPage.mem_slots_iff (p : InternalPage) (x : Int × Int) :
    x ∈ p.slots ↔ ∃ i, 0 ≤ i ∧ i < p.size_ ∧ arrGet p.array_ i = x := by
  simp only [InternalPage.slots, List.mem_map, List.mem_range]
  constructor
  · rintro ⟨n, hn, e⟩
    exact ⟨n, by omega, by omega, e⟩
  · rintro ⟨i, h0, h1, e⟩
    refine ⟨i.toNat, by omega, ?_⟩
    have : ((i.toNat : Nat) : Int) = i := Int.toNat_of_nonneg h0
    rw [this]
    exact e

/-- Every key below a page is at or above the lower bound of the range of the page. -/
theorem TreeInv.subtree_ge {t : BPlusTree} {g : Ghost} (hinv : TreeInv t g none) :
    ∀ (fuel : Nat) (c : Int) (k : Int), k ∈ t.subtreeKeys fuel c → loLe (g.lo c) k := by
  intro fuel
  induction fuel with
  | zero =>
    intro c k hk
    simp [BPlusTree.subtreeKeys] at hk
  | succ n ih =>
    intro c k hk
    simp only [BPlusTree.subtreeKeys] at hk
    cases hp : t.FetchPage c with
    | none =>
      rw [hp] at hk
      simp at hk
    | some pg =>
      rw [hp] at hk
      cases pg with
      | leaf lp =>
        simp only at hk
        obtain ⟨⟨k2, v2⟩, hmem, hfst⟩ := List.mem_map.1 hk
        obtain ⟨i, i0, i1, i2⟩ := (LeafPage.mem_slots lp _).1 hmem
        have := ((hinv.leaf c lp hp).2.2.2.2.2.2.1 i i0 i1).1
        rw [i2] at this
        simp only at hfst this
        rw [← hfst]
        exact this
      | internal ip =>
        simp only at hk
        obtain ⟨child, hchild, hkc⟩ := List.mem_bind.1 hk
        obtain ⟨⟨k2, c2⟩, hmem, hsnd⟩ := List.mem_map.1 hchild
        obtain ⟨j, j0, j1, j2⟩ := (InternalPage.mem_slots_iff ip _).1 hmem
        simp only at hsnd
        obtain ⟨-, -, -, -, hsorted, hbounds, hchildren⟩ := hinv.internal c ip hp
        obtain ⟨cp, -, -, -, c4, -⟩ := hchildren j j0 j1
        have h1 := ih child k hkc
        rw [← hsnd] at h1
        have e2 : (arrGet ip.array_ j).2 = c2 := by rw [j2]
        rw [← e2, c4] at h1
        by_cases e : j = 0
        · rw [if_pos e] at h1
          exact h1
        · rw [if_neg e] at h1
          intro x hx
          have h3 := (hbounds j (by omega) j1).1 x hx
          have h4 := h1 _ rfl
          exact le_of_lt (lt_of_lt_of_le h3 h4)

/-- The lower bound of the range of a page is a key stored below the page. -/
theorem TreeInv.subtree_has_lo {t : BPlusTree} {g : Ghost} (hinv : TreeInv t g none) :
    ∀ (fuel : Nat) (c : Int) (a : Int), (∃ p, t.FetchPage c = some p) → g.lo c = some a →
      g.lvl c < fuel → a ∈ t.subtreeKeys fuel c := by
  intro fuel
  induction fuel with
  | zero =>
    intro c a _ _ hl
    omega
  | succ n ih =>
    intro c a hp hlo hl
    obtain ⟨pg, hp⟩ := hp
    simp only [BPlusTree.subtreeKeys, hp]
    obtain ⟨rootp, r1, r2, r3, r4⟩ := hinv.root
    cases pg with
    | leaf lp =>
      simp only
      obtain ⟨-, -, -, -, l5, -, -, l8, -⟩ := hinv.leaf c lp hp
      have hsz : 1 ≤ lp.size_ := l5 (fun e => by
        rw [← e, hlo] at r3
        exact Option.noConfusion r3) (Or.inr (by rw [hlo]; exact Option.some_ne_none a))
      exact List.mem_map.2 ⟨arrGet lp.array_ 0,
        (LeafPage.mem_slots lp _).2 ⟨0, le_refl _, by omega, rfl⟩, l8 a hlo⟩
    | internal ip =>
      simp only
      obtain ⟨-, -, hsz, -, -, -, hchildren⟩ := hinv.internal c ip hp
      obtain ⟨cp, c1, -, c3, c4, -⟩ := hchildren 0 (le_refl _) (by omega)
      rw [if_pos rfl, hlo] at c4
      refine List.mem_bind.2 ⟨(arrGet ip.array_ 0).2, ?_, ih _ a ⟨cp, c1⟩ c4 (by omega)⟩
      exact List.mem_map.2 ⟨arrGet ip.array_ 0,
        (InternalPage.mem_slots_iff ip _).2 ⟨0, le_refl _, by omega, rfl⟩, rfl⟩

/-- In a well-formed tree the key of a slot `i > 0` of an internal page is the least key
stored below the child of the slot. -/
theorem TreeInv.separator_least {t : BPlusTree} {g : Ghost} (hinv : TreeInv t g none)
    (id : Int) (p : InternalPage) (i : Int) (hp : t.FetchPage id = some (.internal p))
    (hi1 : 1 ≤ i) (hi2 : i < p.size_) (fuel : Nat) (hfuel : t.pages_.length ≤ fuel) :
    p.KeyAt i ∈ t.subtreeKeys fuel (p.ValueAt i) ∧
    ∀ k, k ∈ t.subtreeKeys fuel (p.ValueAt i) → p.KeyAt i ≤ k := by
  unfold InternalPage.KeyAt InternalPage.ValueAt
  obtain ⟨-, -, -, -, -, -, hchildren⟩ := hinv.internal id p hp
  obtain ⟨cp, c1, -, c3, c4, -⟩ := hchildren i (by omega) hi2
  rw [if_neg (by omega)] at c4
  have hlvl := hinv.lvlRoot id _ hp
  have hdepth := hinv.depth
  refine ⟨hinv.subtree_has_lo fuel _ _ ⟨cp, c1⟩ c4 (by omega), ?_⟩
  intro k hk
  exact hinv.subtree_ge fuel _ k hk _ c4
/-! ## Slot lists against slot arrays -/

theorem rangeMap_split {α : Type} (f : Nat → α) (i n : Nat) (h : i ≤ n) :
    (List.range n).map f
      = (List.range i).map f ++ (List.range (n - i)).map (fun j => f (i + j)) := by
  obtain ⟨m, rfl⟩ := Nat.exists_eq_add_of_le h
  rw [List.range_add, List.map_append, List.map_map, Nat.add_sub_cancel_left]
  rfl

theorem rangeMap_take {α : Type} (f : Nat → α) (i n : Nat) (h : i ≤ n) :
    ((List.range n).map f).take i = (List.range i).map f := by
  rw [rangeMap_split f i n h]
  exact List.take_left' (by simp)

theorem rangeMap_drop {α : Type} (f : Nat → α) (i n : Nat) (h : i ≤ n) :
    ((List.range n).map f).drop i = (List.range (n - i)).map (fun j => f (i + j)) := by
  rw [rangeMap_split f i n h]
  exact List.drop_left' (by simp)

theorem rangeMap_congr {α : Type} (f g : Nat → α) (n : Nat) (h : ∀ i, i < n → f i = g i) :
    (List.range n).map f = (List.range n).map g := by
  apply List.map_congr_left
  intro i hi
  exact h i (List.mem_range.1 hi)

theorem rangeMap_succ {α : Type} (f : Nat → α) (n : Nat) :
    (List.range (n + 1)).map f = f 0 :: (List.range n).map (fun j => f (1 + j)) := by
  rw [rangeMap_split f 1 (n + 1) (by omega)]
  simp [List.range_succ]

/-- The keys of a slot array are strictly increasing from slot `lo` on when the key list of
its slots `[lo, n)` is. -/
theorem KeysSorted.of_pairwise {α : Type} [Inhabited α] (a : List (Int × α)) (lo : Nat)
    (n : Int)
    (h : ((((List.range n.toNat).map (fun (i : Nat) => arrGet a (i : Int))).drop lo).map
      Prod.fst).Pairwise (· < ·)) :
    KeysSorted a lo n := by
  intro i j hi hij hj
  by_cases hlo : lo ≤ n.toNat
  · rw [rangeMap_drop _ lo _ hlo, List.map_map, List.pairwise_iff_getElem] at h
    have hlen : ((List.range (n.toNat - lo)).map
        (Prod.fst ∘ fun (j : Nat) => arrGet a ((lo + j : Nat) : Int))).length = n.toNat - lo := by
      simp
    have := h (i.toNat - lo) (j.toNat - lo) (by rw [hlen]; omega) (by rw [hlen]; omega)
      (by omega)
    simp only [List.getElem_map, List.getElem_range, Function.comp] at this
    have ei : ((lo + (i.toNat - lo) : Nat) : Int) = i := by omega
    have ej : ((lo + (j.toNat - lo) : Nat) : Int) = j := by omega
    rw [ei, ej] at this
    exact this
  · omega

/-- The key list of the slots `[lo, n)` of a slot array whose keys are strictly increasing
from slot `lo` on. -/
theorem KeysSorted.pairwise {α : Type} [Inhabited α] (a : List (Int × α)) (lo : Nat) (n : Int)
    (h : KeysSorted a lo n) :
    ((((List.range n.toNat).map (fun (i : Nat) => arrGet a (i : Int))).drop lo).map
      Prod.fst).Pairwise (· < ·) := by
  by_cases hlo : lo ≤ n.toNat
  · rw [rangeMap_drop _ lo _ hlo, List.map_map, List.pairwise_iff_getElem]
    intro i j hi hj hij
    simp only [List.length_map, List.length_range] at hi hj
    simp only [List.getElem_map, List.getElem_range, Function.comp]
    exact h _ _ (by omega) (by omega) (by omega)
  · rw [List.drop_eq_nil_of_le (by simp; omega)]
    exact List.Pairwise.nil

theorem LeafPage.sorted_of_slots (p : LeafPage)
    (hs : (p.slots.map Prod.fst).Pairwise (· < ·)) : KeysSorted p.array_ 0 p.size_ := by
  have := KeysSorted.of_pairwise p.array_ 0 p.size_ (by simpa [LeafPage.slots] using hs)
  simpa using this

theorem InternalPage.sorted_of_tail (p : InternalPage)
    (hs : ((p.slots.drop 1).map Prod.fst).Pairwise (· < ·)) :
    KeysSorted p.array_ 1 p.size_ := by
  have := KeysSorted.of_pairwise p.array_ 1 p.size_ (by simpa [InternalPage.slots] using hs)
  simpa using this

theorem InternalPage.tail_sorted (p : InternalPage) (hs : KeysSorted p.array_ 1 p.size_) :
    ((p.slots.drop 1).map Prod.fst).Pairwise (· < ·) := by
  have := KeysSorted.pairwise p.array_ 1 p.size_ (by simpa using hs)
  simpa [InternalPage.slots] using this

theorem LeafPage.mem_keys (p : LeafPage) (k : Int) :
    k ∈ p.slots.map Prod.fst ↔ ∃ i, 0 ≤ i ∧ i < p.size_ ∧ (arrGet p.array_ i).1 = k := by
  constructor
  · intro h
    obtain ⟨x, hx, rfl⟩ := List.mem_map.1 h
    obtain ⟨i, h0, h1, h2⟩ := (LeafPage.mem_slots p x).1 hx
    exact ⟨i, h0, h1, by rw [h2]⟩
  · rintro ⟨i, h0, h1, rfl⟩
    exact List.mem_map.2 ⟨_, (LeafPage.mem_slots p _).2 ⟨i, h0, h1, rfl⟩, rfl⟩
/-! ## Page operations on slot lists -/

theorem LeafPage.KeyIndex_slots (p : LeafPage) (k : Int) (h0 : 0 ≤ p.size_)
    (hs : (p.slots.map Prod.fst).Pairwise (· < ·)) :
    0 ≤ p.KeyIndex k ∧ p.KeyIndex k ≤ p.size_ ∧
    (∀ j, 0 ≤ j → j < p.KeyIndex k → p.KeyAt j < k) ∧
    (∀ j, p.KeyIndex k ≤ j → j < p.size_ → k ≤ p.KeyAt j) :=
  LeafPage.KeyIndex_spec p k h0 (LeafPage.sorted_of_slots p hs)

theorem LeafPage.slots_take (p : LeafPage) (i : Int) (h : i ≤ p.size_) :
    p.slots.take i.toNat = (List.range i.toNat).map (fun (j : Nat) => arrGet p.array_ (j : Int)) :=
  rangeMap_take _ _ _ (by omega)

theorem LeafPage.slots_drop (p : LeafPage) (i : Int) (h0 : 0 ≤ i) (h : i ≤ p.size_) :
    p.slots.drop i.toNat
      = (List.range (p.size_ - i).toNat).map (fun (j : Nat) => arrGet p.array_ (i + (j : Int))) := by
  unfold LeafPage.slots
  rw [rangeMap_drop _ _ _ (by omega)]
  have e : p.size_.toNat - i.toNat = (p.size_ - i).toNat := by omega
  rw [e]
  apply rangeMap_congr
  intro j _
  have e2 : ((i.toNat + j : Nat) : Int) = i + (j : Int) := by omega
  rw [e2]

theorem LeafPage.not_hit_of_not_mem (p : LeafPage) (k : Int)
    (hk : k ∉ p.slots.map Prod.fst) (h0 : 0 ≤ p.KeyIndex k) :
    ¬ (p.KeyIndex k < p.size_ ∧ comparator (p.KeyAt (p.KeyIndex k)) k = 0) := by
  rintro ⟨h1, h2⟩
  exact hk ((LeafPage.mem_keys p k).2 ⟨_, h0, h1, (comparator_eq _ _).1 h2⟩)

theorem LeafPage.hit_of_mem (p : LeafPage) (k : Int) (h0 : 0 ≤ p.size_)
    (hs : (p.slots.map Prod.fst).Pairwise (· < ·)) (hk : k ∈ p.slots.map Prod.fst) :
    p.KeyIndex k < p.size_ ∧ (arrGet p.array_ (p.KeyIndex k)).1 = k := by
  obtain ⟨i, i0, i1, i2⟩ := (LeafPage.mem_keys p k).1 hk
  have := LeafPage.KeyIndex_hit p k h0 (LeafPage.sorted_of_slots p hs) i i0 i1 i2
  rw [this]
  exact ⟨i1, i2⟩

/-- The slots of a leaf page after a successful `Insert` at `KeyIndex`. -/
theorem LeafPage.Insert_slots (p : LeafPage) (key : Int) (v : ValueType) (h0 : 0 ≤ p.size_)
    (hs : (p.slots.map Prod.fst).Pairwise (· < ·)) (hk : key ∉ p.slots.map Prod.fst) :
    (p.Insert (key, v) (p.KeyIndex key)).2.slots
      = p.slots.take (p.KeyIndex key).toNat ++ (key, v) :: p.slots.drop (p.KeyIndex key).toNat ∧
    KeysSorted (p.Insert (key, v) (p.KeyIndex key)).2.array_ 0 (p.size_ + 1) := by
  have hs' := LeafPage.sorted_of_slots p hs
  obtain ⟨k0, k1, -, -⟩ := LeafPage.KeyIndex_spec p key h0 hs'
  obtain ⟨-, -, -, -, -, e6, e7, e8, e9⟩ :=
    LeafPage.Insert_spec p key v h0 hs' (LeafPage.not_hit_of_not_mem p key hk k0)
  constructor
  · rw [LeafPage.slots_take p _ k1, LeafPage.slots_drop p _ k0 k1]
    unfold LeafPage.slots
    rw [e6]
    have en : (p.size_ + 1).toNat = (p.size_ - p.KeyIndex key).toNat + 1 + (p.KeyIndex key).toNat := by
      omega
    rw [en, rangeMap_split _ (p.KeyIndex key).toNat _ (by omega), Nat.add_sub_cancel,
      rangeMap_succ]
    congr 1
    · apply rangeMap_congr
      intro j hj
      rw [e7 _ (by omega), insAt_lt _ _ _ _ (by omega)]
    · congr 1
      · have e : (((p.KeyIndex key).toNat + 0 : Nat) : Int) = p.KeyIndex key := by omega
        rw [e, e7 _ k1, insAt_eq]
      · apply rangeMap_congr
        intro j hj
        rw [e7 _ (by omega), insAt_gt _ _ _ _ (by omega)]
        congr 1
        omega
  · intro i j hi hij hj
    rw [e7 i (by omega), e7 j (by omega)]
    exact insAt_sorted p.array_ 0 p.size_ (p.KeyIndex key) (key, v) hs' k0 k1 e8 e9 i j hi hij hj

/-- The slot array of a leaf page after a successful `Delete`. -/
theorem LeafPage.Delete_get (p : LeafPage) (key : Int) (h0 : 0 ≤ p.KeyIndex key) (j : Int) :
    arrGet ((upTo (p.KeyIndex key + 1) p.size_).foldl
        (fun a i => arrSet a (i - 1) (arrGet a i)) p.array_) j
      = if p.KeyIndex key ≤ j ∧ j < p.size_ - 1 then arrGet p.array_ (j + 1)
        else arrGet p.array_ j := by
  rw [shiftDown_get _ (p.KeyIndex key + 1) p.size_ p.array_ (by omega) rfl j]
  simp only [add_sub_cancel_right]

/-- The slots of a leaf page after `Delete` of a key that is on the page. -/
theorem LeafPage.Delete_slots (p : LeafPage) (key : Int) (h0 : 0 ≤ p.size_)
    (hs : (p.slots.map Prod.fst).Pairwise (· < ·)) (hk : key ∈ p.slots.map Prod.fst) :
    (p.Delete key).1 = true ∧ (p.Delete key).2.size_ = p.size_ - 1 ∧
    p.slots = p.slots.take (p.KeyIndex key).toNat
      ++ (key, p.ValueAt (p.KeyIndex key)) :: p.slots.drop ((p.KeyIndex key).toNat + 1) ∧
    (p.Delete key).2.slots = p.slots.take (p.KeyIndex key).toNat
      ++ p.slots.drop ((p.KeyIndex key).toNat + 1) := by
  have hs' := LeafPage.sorted_of_slots p hs
  obtain ⟨k0, k1, -, -⟩ := LeafPage.KeyIndex_spec p key h0 hs'
  obtain ⟨h1, h2⟩ := LeafPage.hit_of_mem p key h0 hs hk
  have hdel : p.Delete key = (true,
      { p with
        array_ := (upTo (p.KeyIndex key + 1) p.size_).foldl
          (fun a i => arrSet a (i - 1) (arrGet a i)) p.array_,
        size_ := p.size_ - 1 }) := by
    unfold LeafPage.Delete
    rw [if_neg]
    rintro (h | h)
    · omega
    · exact h ((comparator_eq _ _).2 h2)
  have e1 : (p.KeyIndex key).toNat + 1 = (p.KeyIndex key + 1).toNat := by omega
  rw [hdel]
  refine ⟨rfl, rfl, ?_, ?_⟩
  · conv_lhs => rw [← List.take_append_drop (p.KeyIndex key).toNat p.slots]
    congr 1
    rw [LeafPage.drop_slots p _ k0 h1, e1]
    congr 1
    exact Prod.ext h2 rfl
  · rw [LeafPage.slots_take p _ k1, e1, LeafPage.slots_drop p _ (by omega) (by omega)]
    unfold LeafPage.slots
    simp only
    have en : (p.size_ - 1).toNat = (p.size_ - (p.KeyIndex key + 1)).toNat + (p.KeyIndex key).toNat := by
      omega
    rw [en, rangeMap_split _ (p.KeyIndex key).toNat _ (by omega), Nat.add_sub_cancel]
    congr 1
    · apply rangeMap_congr
      intro j hj
      rw [LeafPage.Delete_get p key k0, if_neg (by omega)]
    · apply rangeMap_congr
      intro j hj
      rw [LeafPage.Delete_get p key k0, if_pos (by omega)]
      congr 1
      omega
/-! ## Leaf split, sibling search and removal of a missing key -/

/-- The two halves after the `Split` of a full leaf page into a fresh page. -/
theorem LeafPage.Split_slots (p : LeafPage) (page_id parent_id max_size : Int)
    (h0 : 0 < p.size_) (hfull : p.size_ = p.max_size_) :
    (p.Split (LeafPage.Init page_id parent_id max_size)).1.size_ = p.size_ / 2 ∧
    (p.Split (LeafPage.Init page_id parent_id max_size)).1.slots
      = p.slots.take (p.size_ / 2).toNat ∧
    (p.Split (LeafPage.Init page_id parent_id max_size)).2.size_ = p.size_ - p.size_ / 2 ∧
    (p.Split (LeafPage.Init page_id parent_id max_size)).2.slots
      = p.slots.drop (p.size_ / 2).toNat ∧
    (p.Split (LeafPage.Init page_id parent_id max_size)).2.next_page_id_ = p.next_page_id_ ∧
    (p.Split (LeafPage.Init page_id parent_id max_size)).1.next_page_id_ = page_id := by
  obtain ⟨e1, -, -, -, e5, e6, e7⟩ :=
    LeafPage.Split_spec p (LeafPage.Init page_id parent_id max_size) (by omega) (by omega)
  have hsz : p.size_ - (p.max_size_ - p.size_ / 2) = p.size_ / 2 := by omega
  have hsz2 : (LeafPage.Init page_id parent_id max_size).size_ + (p.max_size_ - p.size_ / 2)
      = p.size_ - p.size_ / 2 := by
    simp only [LeafPage.Init]
    omega
  rw [hsz] at e1
  rw [hsz2] at e6
  refine ⟨by rw [e1], ?_, e6, ?_, e5, by rw [e1]; rfl⟩
  · rw [e1, LeafPage.slots_take p _ (by omega)]
    rfl
  · rw [LeafPage.slots_drop p _ (by omega) (by omega)]
    unfold LeafPage.slots
    rw [e6]
    apply rangeMap_congr
    intro j hj
    rw [e7, if_pos (by omega)]

theorem InternalPage.GetBotherPage.find_first (p : InternalPage) (child i : Int) (n : Nat) :
    ∀ c : Int, (i - c).toNat = n → c ≤ i → i < p.size_ → (arrGet p.array_ i).2 = child →
      (∀ j, c ≤ j → j < i → (arrGet p.array_ j).2 ≠ child) →
      InternalPage.GetBotherPage.find p child (upTo c p.size_) = i := by
  induction n with
  | zero =>
    intro c hn hc hi hv _
    have e : c = i := by omega
    rw [e, upTo_cons _ _ hi]
    simp only [InternalPage.GetBotherPage.find, hv, if_true]
  | succ n ih =>
    intro c hn hc hi hv hfirst
    rw [upTo_cons _ _ (by omega)]
    simp only [InternalPage.GetBotherPage.find]
    rw [if_neg (hfirst c (le_refl _) (by omega))]
    exact ih (c + 1) (by omega) (by omega) hi hv
      (fun j h1 h2 => hfirst j (by omega) h2)

/-- The sibling, key and flag that `GetBotherPage` returns for the child first stored at
slot `i`. -/
theorem InternalPage.GetBotherPage_at (p : InternalPage) (child i : Int) (hi0 : 0 ≤ i)
    (hi : i < p.size_) (hv : p.ValueAt i = child)
    (hfirst : ∀ e, e ∈ p.slots.take i.toNat → e.2 ≠ child) :
    p.GetBotherPage child
      = if 1 ≤ i then (p.ValueAt (i - 1), p.KeyAt (i - 1), true)
        else (p.ValueAt 1, p.KeyAt 1, false) := by
  have hf : ∀ j, 0 ≤ j → j < i → (arrGet p.array_ j).2 ≠ child := by
    intro j h0 h1
    apply hfirst
    unfold InternalPage.slots
    rw [rangeMap_take _ _ _ (by omega)]
    refine List.mem_map.2 ⟨j.toNat, List.mem_range.2 (by omega), ?_⟩
    congr 1
    omega
  have hfind := InternalPage.GetBotherPage.find_first p child i i.toNat 0 (by omega) hi0 hi hv hf
  unfold InternalPage.GetBotherPage
  simp only [hfind, InternalPage.ValueAt, InternalPage.KeyAt]
  by_cases h1 : 1 ≤ i
  · rw [if_pos h1, if_pos h1]
  · have e : i = 0 := by omega
    rw [if_neg h1, if_neg h1, e]
    rfl

/-- A key that `GetValue` does not find: `Remove` returns and leaves the page table and the
root as they are. -/
theorem BPlusTree.Remove_absent (t : BPlusTree) (k : Int)
    (h : (t.GetValue k []).map Prod.fst = some false) :
    ∃ t', t.Remove k = some t' ∧ t.sameStore t' := by
  cases he : t.IsEmpty with
  | true =>
    refine ⟨t, ?_, BPlusTree.sameStore.refl t⟩
    unfold BPlusTree.Remove
    rw [he]
    rfl
  | false =>
    cases hg : t.GetValue k [] with
    | none =>
      rw [hg] at h
      simp at h
    | some r =>
      obtain ⟨b, res, t1⟩ := r
      rw [hg] at h
      simp only [Option.map_some', Option.some.injEq] at h
      rw [h] at hg
      obtain ⟨page, t0, lp, hf, hp, hcase⟩ := BPlusTree.GetValue_some t k [] false res t1 hg he
      rcases hcase with ⟨-, -, h3, -⟩ | ⟨h1, -, -⟩
      · exact absurd h3 (by decide)
      · have hs0 := BPlusTree.FindLeafPage_sameStore t k _ _ hf
        have hdel : (lp.Delete k).1 = false := by
          unfold LeafPage.Delete
          rw [if_pos]
          by_cases hlt : lp.KeyIndex k < lp.size_
          · exact Or.inr (fun hc => h1 ⟨hlt, hc⟩)
          · exact Or.inl (not_lt.1 hlt)
        refine ⟨t0.UnpinPage page, ?_, hs0.trans (BPlusTree.sameStore.unpin _ _)⟩
        unfold BPlusTree.Remove
        rw [he]
        simp only [Bool.false_eq_true, if_false, hf]
        simp only [BPlusTree.DeleteEntry, hp, Page.Delete, hdel, if_true]
/-! ## The internal `Split` on a store -/

theorem rangeMap_pairwise {α : Type} (R : α → α → Prop) (f : Nat → α) (lo n : Nat)
    (h : ∀ i j, lo ≤ i → i < j → j < n → R (f i) (f j)) :
    (((List.range n).map f).drop lo).Pairwise R := by
  by_cases hlo : lo ≤ n
  · rw [rangeMap_drop _ lo _ hlo, List.pairwise_iff_getElem]
    intro i j hi hj hij
    simp only [List.length_map, List.length_range] at hi hj
    simp only [List.getElem_map, List.getElem_range]
    exact h _ _ (by omega) (by omega) (by omega)
  · rw [List.drop_eq_nil_of_le (by simp; omega)]
    exact List.Pairwise.nil

/-- The slot sequence with a pair put in at position `pos`, as a list. -/
theorem insAt_slots {α : Type} [Inhabited α] (a : List α) (n pos : Nat) (v : α)
    (h : pos ≤ n) :
    (List.range (n + 1)).map (fun (j : Nat) => insAt a (pos : Int) v (j : Int))
      = ((List.range n).map (fun (j : Nat) => arrGet a (j : Int))).take pos
        ++ v :: ((List.range n).map (fun (j : Nat) => arrGet a (j : Int))).drop pos := by
  rw [rangeMap_take _ _ _ h, rangeMap_drop _ _ _ h]
  have en : n + 1 = (n - pos) + 1 + pos := by omega
  rw [en, rangeMap_split _ pos _ (by omega), Nat.add_sub_cancel, rangeMap_succ]
  congr 1
  · apply rangeMap_congr
    intro j hj
    rw [insAt_lt _ _ _ _ (by omega)]
  · congr 1
    · have e : ((pos + 0 : Nat) : Int) = (pos : Int) := by omega
      rw [e, insAt_eq]
    · apply rangeMap_congr
      intro j hj
      rw [insAt_gt _ _ _ _ (by omega)]
      congr 1
      omega

theorem InternalPage.key_ne_of_not_mem (p : InternalPage) (key : Int)
    (hkey : key ∉ (p.slots.drop 1).map Prod.fst) (i : Int) (h1 : 1 ≤ i) (h2 : i < p.size_) :
    (arrGet p.array_ i).1 ≠ key := by
  intro e
  apply hkey
  unfold InternalPage.slots
  rw [rangeMap_drop _ 1 _ (by omega)]
  refine List.mem_map.2 ⟨arrGet p.array_ i, List.mem_map.2 ⟨(i - 1).toNat,
    List.mem_range.2 (by omega), ?_⟩, e⟩
  congr 1
  omega

/-- The position at which a new key goes among the slots from 1 on. -/
theorem InternalPage.insert_pos (p : InternalPage) (key : Int) (h1 : 1 ≤ p.size_)
    (hs : ((p.slots.drop 1).map Prod.fst).Pairwise (· < ·))
    (hkey : key ∉ (p.slots.drop 1).map Prod.fst) :
    ∃ pos : Int, 1 ≤ pos ∧ pos ≤ p.size_ ∧
      (∀ i, 1 ≤ i → i < pos → (arrGet p.array_ i).1 < key) ∧
      (∀ i, pos ≤ i → i < p.size_ → key < (arrGet p.array_ i).1) := by
  obtain ⟨x, x1, x2, -, x4, x5⟩ :=
    InternalPage.Lookup_spec p key h1 (InternalPage.sorted_of_tail p hs)
  refine ⟨x, x1, x2, ?_, x5⟩
  intro i i1 i2
  exact lt_of_le_of_ne (x4 i i1 i2) (InternalPage.key_ne_of_not_mem p key hkey i i1 (by omega))
/-! ## The internal `Merge` on a store -/

theorem BPlusTree.FetchPage_DeletePage (t : BPlusTree) (id j : Int) :
    (t.DeletePage id).FetchPage j = if j = id then none else t.FetchPage j := by
  unfold BPlusTree.FetchPage BPlusTree.DeletePage
  simp only
  by_cases h : j = id
  · rw [if_pos h, h, mapFind_mapErase_same]
  · rw [if_neg h, mapFind_mapErase_other _ _ _ h]

/-- The append loop of the internal `Merge`. -/
theorem InternalPage.Merge.append_spec (right : InternalPage) (n : Nat) :
    ∀ (c : Int) (q : InternalPage), (c - 1).toNat = n → 1 ≤ c → 0 ≤ q.size_ →
      ((upTo 1 c).foldl
        (fun (q : InternalPage) j =>
          { q with array_ := arrSet q.array_ q.size_ (arrGet right.array_ j),
                   size_ := q.size_ + 1 }) q).size_ = q.size_ + (c - 1) ∧
      ((upTo 1 c).foldl
        (fun (q : InternalPage) j =>
          { q with array_ := arrSet q.array_ q.size_ (arrGet right.array_ j),
                   size_ := q.size_ + 1 }) q).page_id_ = q.page_id_ ∧
      ∀ x, arrGet ((upTo 1 c).foldl
        (fun (q : InternalPage) j =>
          { q with array_ := arrSet q.array_ q.size_ (arrGet right.array_ j),
                   size_ := q.size_ + 1 }) q).array_ x
        = if q.size_ ≤ x ∧ x < q.size_ + (c - 1) then arrGet right.array_ (x - q.size_ + 1)
          else arrGet q.array_ x := by
  induction n with
  | zero =>
    intro c q hn hc hq
    rw [upTo_nil _ _ (by omega), List.foldl_nil]
    refine ⟨by omega, rfl, ?_⟩
    intro x
    rw [if_neg (by omega)]
  | succ n ih =>
    intro c q hn hc hq
    have e : c = (c - 1) + 1 := by omega
    obtain ⟨i1, i2, i3⟩ := ih (c - 1) q (by omega) (by omega) hq
    rw [e, upTo_snoc _ _ (by omega), List.foldl_append]
    simp only [List.foldl_cons, List.foldl_nil]
    refine ⟨by rw [i1]; omega, i2, ?_⟩
    intro x
    rw [arrGet_arrSet _ _ _ _ (by rw [i1]; omega), i1, i3]
    by_cases hx : x = q.size_ + (c - 1 - 1)
    · rw [if_pos hx, if_pos (by omega)]
      congr 1
      omega
    · rw [if_neg hx]
      by_cases hx2 : q.size_ ≤ x ∧ x < q.size_ + (c - 1 - 1)
      · rw [if_pos hx2, if_pos (by omega)]
      · rw [if_neg hx2, if_neg (by omega)]

/-- The re-parenting loop of the internal `Merge`: every child named in the slots `[a, b)`
of `self` gets the page id of `self` as parent, no other page changes. -/
theorem InternalPage.Merge.reparent_spec (self_id : Int) (self : InternalPage) (n : Nat) :
    ∀ (a b : Int) (t : BPlusTree), (b - a).toNat = n → a ≤ b →
      t.FetchPage self_id = some (.internal self) →
      (∀ m, a ≤ m → m < b → (arrGet self.array_ m).2 ≠ self_id ∧
        ∃ cp, t.FetchPage (arrGet self.array_ m).2 = some cp) →
      ∃ t', InternalPage.Merge.reparent self_id (upTo a b) t = some t' ∧
        (∀ id, (∃ m, a ≤ m ∧ m < b ∧ (arrGet self.array_ m).2 = id) →
          t'.FetchPage id
            = (t.FetchPage id).map (fun cp => cp.SetParentPageId self.page_id_)) ∧
        (∀ id, (∀ m, a ≤ m → m < b → (arrGet self.array_ m).2 ≠ id) →
          t'.FetchPage id = t.FetchPage id) := by
  induction n with
  | zero =>
    intro a b t hn hab hself hch
    rw [upTo_nil _ _ (by omega)]
    refine ⟨t, rfl, ?_, fun _ _ => rfl⟩
    rintro id ⟨m, h1, h2, -⟩
    omega
  | succ n ih =>
    intro a b t hn hab hself hch
    have hlt : a < b := by omega
    obtain ⟨hne0, cp0, hcp0⟩ := hch a (le_refl _) hlt
    rw [upTo_cons _ _ hlt]
    simp only [InternalPage.Merge.reparent, hself, hcp0]
    have hw : ∀ id, (((t.Pin (arrGet self.array_ a).2).write (arrGet self.array_ a).2
        (cp0.SetParentPageId self.page_id_)).UnpinPage (arrGet self.array_ a).2).FetchPage id
        = if id = (arrGet self.array_ a).2 then some (cp0.SetParentPageId self.page_id_)
          else t.FetchPage id := by
      intro id
      have := BPlusTree.FetchPage_write (t.Pin (arrGet self.array_ a).2)
        (arrGet self.array_ a).2 (cp0.SetParentPageId self.page_id_) id
      exact this
    obtain ⟨t', r1, r2, r3⟩ := ih (a + 1) b _ (by omega) (by omega)
      (by rw [hw, if_neg (fun e => hne0 e.symm), hself])
      (by
        intro m m1 m2
        obtain ⟨c1, cp, c2⟩ := hch m (by omega) m2
        refine ⟨c1, ?_⟩
        rw [hw]
        by_cases e : (arrGet self.array_ m).2 = (arrGet self.array_ a).2
        · rw [if_pos e]
          exact ⟨_, rfl⟩
        · rw [if_neg e]
          exact ⟨cp, c2⟩)
    refine ⟨t', r1, ?_, ?_⟩
    · rintro id ⟨m, m1, m2, m3⟩
      by_cases hin : ∃ m', a + 1 ≤ m' ∧ m' < b ∧ (arrGet self.array_ m').2 = id
      · rw [r2 id hin, hw]
        by_cases e : id = (arrGet self.array_ a).2
        · rw [if_pos e, e, hcp0]
          simp only [Option.map_some', Page.SetParentPageId_twice]
        · rw [if_neg e]
      · have hm : m = a := by
          by_contra hma
          exact hin ⟨m, by omega, m2, m3⟩
        have e : id = (arrGet self.array_ a).2 := by rw [← m3, hm]
        rw [r3 id (fun m' h1 h2 h3 => hin ⟨m', h1, h2, h3⟩), hw, if_pos e, e, hcp0]
        rfl
    · intro id hid
      rw [r3 id (fun m' h1 h2 => hid m' (by omega) h2), hw,
        if_neg (fun e => hid a (le_refl _) hlt e.symm)]
/-! ## The depth of the leaves in insert-only states -/

theorem TreeInv.child_lvl {t : BPlusTree} {g : Ghost} (hinv : TreeInv t g none) (id : Int)
    (ip : InternalPage) (hp : t.FetchPage id = some (.internal ip)) (i : Int) (h0 : 0 ≤ i)
    (h1 : i < ip.size_) :
    g.lvl (arrGet ip.array_ i).2 + 1 = g.lvl id ∧
    ∃ cp, t.FetchPage (arrGet ip.array_ i).2 = some cp := by
  obtain ⟨-, -, -, -, -, -, hchildren⟩ := hinv.internal id ip hp
  obtain ⟨cp, c1, -, c3, -⟩ := hchildren i h0 h1
  exact ⟨c3, cp, c1⟩

/-- A page on the level of the root is the root. -/
theorem TreeInv.root_of_lvl {t : BPlusTree} {g : Ghost} (hinv : TreeInv t g none) (x : Int)
    (px : Page) (hx : t.FetchPage x = some px) (hl : g.lvl x = g.lvl t.root_page_id_) :
    x = t.root_page_id_ := by
  by_contra hne
  obtain ⟨q, i, hq, i0, i1, i2⟩ := hinv.parent x px hx hne (fun l k r h => by simp at h)
  have := (hinv.child_lvl _ q hq i i0 i1).1
  rw [i2] at this
  have := hinv.lvlRoot _ _ hq
  omega

/-- Every leaf found below a page is as deep below it as the level of the page says. -/
theorem TreeInv.leafDepths_lvl {t : BPlusTree} {g : Ghost} (hinv : TreeInv t g none) :
    ∀ (fuel : Nat) (c : Int) (e : Int × Nat), e ∈ t.leafDepths fuel c → e.2 = g.lvl c := by
  intro fuel
  induction fuel with
  | zero =>
    intro c e he
    simp [BPlusTree.leafDepths] at he
  | succ n ih =>
    intro c e he
    simp only [BPlusTree.leafDepths] at he
    cases hp : t.FetchPage c with
    | none =>
      rw [hp] at he
      simp at he
    | some pg =>
      rw [hp] at he
      cases pg with
      | leaf lp =>
        simp only [List.mem_singleton] at he
        rw [he]
        exact (hinv.leaf c lp hp).1.symm
      | internal ip =>
        simp only at he
        obtain ⟨e2, he2, hee⟩ := List.mem_map.1 he
        obtain ⟨child, hchild, hkc⟩ := List.mem_bind.1 he2
        obtain ⟨⟨k2, c2⟩, hmem, hsnd⟩ := List.mem_map.1 hchild
        obtain ⟨j, j0, j1, j2⟩ := (InternalPage.mem_slots_iff ip _).1 hmem
        have h1 := ih child e2 hkc
        have h2 := (hinv.child_lvl c ip hp j j0 j1).1
        rw [j2] at h2
        simp only at hsnd h2
        rw [hsnd] at h2
        rw [← hee]
        simp only
        omega

theorem BPlusTree.leafDepths_mono (t : BPlusTree) :
    ∀ (fuel : Nat) (c : Int) (e : Int × Nat), e ∈ t.leafDepths fuel c →
      e ∈ t.leafDepths (fuel + 1) c := by
  intro fuel
  induction fuel with
  | zero =>
    intro c e he
    simp [BPlusTree.leafDepths] at he
  | succ n ih =>
    intro c e he
    have eq : ∀ (f : Nat) (c : Int), t.leafDepths (f + 1) c
        = match t.FetchPage c with
          | some (.leaf _) => [(c, 0)]
          | some (.internal p) =>
            ((p.slots.map Prod.snd).bind (BPlusTree.leafDepths t f)).map
              (fun e => (e.1, e.2 + 1))
          | none => [] := fun _ _ => rfl
    rw [eq] at he ⊢
    cases hp : t.FetchPage c with
    | none =>
      rw [hp] at he
      simp at he
    | some pg =>
      rw [hp] at he
      cases pg with
      | leaf lp => exact he
      | internal ip =>
        simp only at he ⊢
        obtain ⟨e2, he2, hee⟩ := List.mem_map.1 he
        obtain ⟨child, hchild, hkc⟩ := List.mem_bind.1 he2
        exact List.mem_map.2 ⟨e2, List.mem_bind.2 ⟨child, hchild, ih child e2 hkc⟩, hee⟩

theorem BPlusTree.leafDepths_mono_le (t : BPlusTree) (c : Int) (e : Int × Nat) (f : Nat) :
    ∀ d : Nat, e ∈ t.leafDepths f c → e ∈ t.leafDepths (f + d) c := by
  intro d
  induction d with
  | zero => exact fun h => h
  | succ d ih => exact fun h => BPlusTree.leafDepths_mono t (f + d) c e (ih h)

/-- Every leaf page of the table has an ancestor on every level up to that of the root,
and is found below it at that depth. -/
theorem TreeInv.leafDepths_up {t : BPlusTree} {g : Ghost} (hinv : TreeInv t g none)
    (l : Int) (lp : LeafPage) (hl : t.FetchPage l = some (.leaf lp)) :
    ∀ j : Nat, j ≤ g.lvl t.root_page_id_ →
      ∃ x px, t.FetchPage x = some px ∧ g.lvl x = j ∧ (l, j) ∈ t.leafDepths (j + 1) x := by
  intro j
  induction j with
  | zero =>
    intro _
    refine ⟨l, _, hl, (hinv.leaf l lp hl).1, ?_⟩
    simp only [BPlusTree.leafDepths, hl, List.mem_singleton]
  | succ j ih =>
    intro hj
    obtain ⟨x, px, hx, hlx, hmem⟩ := ih (by omega)
    have hne : x ≠ t.root_page_id_ := by
      intro e
      rw [e] at hlx
      omega
    obtain ⟨q, i, hq, i0, i1, i2⟩ := hinv.parent x px hx hne (fun l k r h => by simp at h)
    have hlv := (hinv.child_lvl _ q hq i i0 i1).1
    rw [i2] at hlv
    refine ⟨px.GetParentPageId, _, hq, by omega, ?_⟩
    rw [BPlusTree.leafDepths, hq]
    simp only
    refine List.mem_map.2 ⟨(l, j), List.mem_bind.2 ⟨x, ?_, hmem⟩, rfl⟩
    exact List.mem_map.2 ⟨arrGet q.array_ i,
      (InternalPage.mem_slots_iff q _).2 ⟨i, i0, i1, rfl⟩, i2⟩

/-- Under the invariant the descent of `FindLeafPage` from a page makes as many `Lookup`
calls as the level of the page says. -/
theorem BPlusTree.FindLeafPage.steps_inv (key : Int) (g : Ghost) :
    ∀ (fuel : Nat) (t : BPlusTree) (page : Int), TreeInv t g none →
      (∃ p, t.FetchPage page = some p) → g.lvl page < fuel →
      BPlusTree.FindLeafPage.steps key fuel t page = some (g.lvl page) := by
  intro fuel
  induction fuel with
  | zero =>
    intro t page _ _ hl
    omega
  | succ n ih =>
    intro t page hinv hp hl
    obtain ⟨p, hp⟩ := hp
    simp only [BPlusTree.FindLeafPage.steps, hp]
    cases p with
    | leaf lp =>
      simp only
      rw [(hinv.leaf page lp hp).1]
    | internal ip =>
      simp only
      obtain ⟨hl1, -, hsz, -, hsorted, -, -⟩ := hinv.internal page ip hp
      obtain ⟨x, hx1, hx2, hx3, -, -⟩ :=
        InternalPage.Lookup_spec ip key (by omega) hsorted
      obtain ⟨c3, cp, c1⟩ := hinv.child_lvl page ip hp (x - 1) (by omega) (by omega)
      rw [hx3, c1]
      simp only
      have hs : t.sameStore ((t.Pin (arrGet ip.array_ (x - 1)).2).UnpinPage page) :=
        (BPlusTree.sameStore.pin t _).trans (BPlusTree.sameStore.unpin _ _)
      rw [ih _ (arrGet ip.array_ (x - 1)).2 (hinv.of_sameStore hs)
        ⟨cp, by rw [hs.fetch]; exact c1⟩ (by omega)]
      simp only [Option.map_some', Option.some.injEq]
      omega

/-- On a well-formed tree every leaf page is found at the depth `lvl root` below the root,
no leaf is found at another depth, and `FindLeafPage` makes that many `Lookup` calls. -/
theorem TreeInv.depth_spec {t : BPlusTree} {g : Ghost} (hinv : TreeInv t g none) :
    (∀ e, e ∈ t.leafDepths (t.pages_.length + 1) t.root_page_id_ →
      e.2 = g.lvl t.root_page_id_) ∧
    (∀ id p, t.FetchPage id = some (.leaf p) →
      (id, g.lvl t.root_page_id_) ∈ t.leafDepths (t.pages_.length + 1) t.root_page_id_) ∧
    (∀ key, t.lookupSteps key = some (g.lvl t.root_page_id_)) ∧
    t.IsEmpty = false := by
  obtain ⟨rp, hr1, -, -, -⟩ := hinv.root
  have hne : t.IsEmpty = false := by
    unfold BPlusTree.IsEmpty
    have := (hinv.ids _ _ hr1).2.1
    simp only [decide_eq_false_iff_not]
    intro e
    rw [e] at this
    exact absurd this (by decide)
  have hd := hinv.depth
  refine ⟨hinv.leafDepths_lvl _ _, ?_, ?_, hne⟩
  · intro id p hp
    obtain ⟨x, px, hx, hlx, hmem⟩ := hinv.leafDepths_up id p hp (g.lvl t.root_page_id_)
      (le_refl _)
    have e := hinv.root_of_lvl x px hx hlx
    rw [e] at hmem
    have := BPlusTree.leafDepths_mono_le t t.root_page_id_ (id, g.lvl t.root_page_id_)
      (g.lvl t.root_page_id_ + 1) (t.pages_.length - g.lvl t.root_page_id_) hmem
    have e2 : g.lvl t.root_page_id_ + 1 + (t.pages_.length - g.lvl t.root_page_id_)
        = t.pages_.length + 1 := by omega
    rw [e2] at this
    exact this
  · intro key
    unfold BPlusTree.lookupSteps
    rw [hne]
    simp only [Bool.false_eq_true, if_false, hr1]
    have hs := BPlusTree.sameStore.pin t t.root_page_id_
    exact BPlusTree.FindLeafPage.steps_inv key g _ _ _ (hinv.of_sameStore hs)
      ⟨rp, by rw [hs.fetch]; exact hr1⟩ (by omega)
/-! ## `Evict` and the iteration order of the frame map -/

theorem mapErase_eq_filter {β : Type} (m : List (Int × β)) (id : Int) :
    mapErase m id = m.filter (fun e => decide (e.1 ≠ id)) := by
  induction m with
  | nil => rfl
  | cons e rest ih =>
    obtain ⟨key, value⟩ := e
    by_cases hk : key = id
    · simp only [mapErase, hk, if_true, ih, ne_eq, not_true_eq_false, decide_False,
        Bool.false_eq_true, not_false_eq_true, List.filter_cons_of_neg]
    · simp only [mapErase, hk, if_false, ih, ne_eq, not_false_eq_true, decide_True,
        List.filter_cons_of_pos]

theorem mapErase_perm {β : Type} (m m2 : List (Int × β)) (hp : m.Perm m2) (id : Int) :
    (mapErase m id).Perm (mapErase m2 id) := by
  rw [mapErase_eq_filter, mapErase_eq_filter]
  exact hp.filter _

theorem judge_congr (r : LRUKReplacer) (m : List (Int × FrameInfo))
    (hf : ∀ id, mapFind m id = mapFind r.frame_map_ id) (s t : frame_id_t) :
    judge { r with frame_map_ := m } s t = judge r s t := by
  unfold judge mapAt
  simp only [hf]

theorem Evict.scan_congr (r r2 : LRUKReplacer) (hj : ∀ s t, judge r2 s t = judge r s t) :
    ∀ (l : List (Int × FrameInfo)) (fid : frame_id_t),
      Evict.scan r2 l fid = Evict.scan r l fid := by
  intro l
  induction l with
  | nil => intro fid; rfl
  | cons e rest ih =>
    intro fid
    obtain ⟨key, value⟩ := e
    simp only [Evict.scan, hj, ih]

/-- The comparison of `Evict` decides between any two tracked frames. -/
theorem judge_total (n k : Nat) (r : LRUKReplacer) (h : ReplacerInv n k r) (hk : 1 ≤ k)
    (f g : frame_id_t) (i1 i2 : FrameInfo) (h1 : mapFind r.frame_map_ f = some i1)
    (h2 : mapFind r.frame_map_ g = some i2) (hne : f ≠ g) :
    judge r f g = true ∨ judge r g f = true := by
  have hfront := ReplacerInv.front_ne n k r h f g i1 i2 h1 h2 (fun e => hne e.symm)
  rw [judge_eq_true_iff, judge_eq_true_iff]
  by_cases ha : (history r f).length < r.k_ ∧ (history r g).length = r.k_
  · exact Or.inl (Or.inl ha)
  · by_cases hb : (history r f).length = r.k_ ∧ (history r g).length < r.k_
    · exact Or.inr (Or.inl ⟨hb.2, hb.1⟩)
    · rcases Nat.lt_or_gt_of_ne hfront with hlt | hgt
      · exact Or.inl (Or.inr ⟨hb, hlt⟩)
      · exact Or.inr (Or.inr ⟨fun hc => ha ⟨hc.2, hc.1⟩, hgt⟩)

/-- The frame that the scan of `Evict` ends with is the same for every order of the frame
map, when no evictable frame has the id `-1`. -/
theorem Evict.scan_perm (n k : Nat) (r : LRUKReplacer) (m : List (Int × FrameInfo))
    (h : ReplacerInv n k r) (hk : 1 ≤ k) (hm : r.frame_map_.Perm m)
    (hneg : (-1 : frame_id_t) ∉ evictableFrames r) :
    Evict.scan r m (-1) = Evict.scan r r.frame_map_ (-1) := by
  have hlen := ReplacerInv.history_le n k r h hk
  have hneg1 : ∀ e ∈ r.frame_map_, e.2.evictable_ = true → e.1 ≠ -1 := by
    intro e he hee heq
    apply hneg
    rw [← heq]
    simp only [evictableFrames, List.mem_map, List.mem_filter]
    exact ⟨e, ⟨he, hee⟩, rfl⟩
  have hneg2 : ∀ e ∈ m, e.2.evictable_ = true → e.1 ≠ -1 :=
    fun e he => hneg1 e (hm.mem_iff.2 he)
  rcases Evict.scan_from_none r r.frame_map_ hlen hneg1 with ⟨a1, a2⟩ | ⟨⟨e1, a1, a2, a3⟩, a4, a5⟩
  · rcases Evict.scan_from_none r m hlen hneg2 with ⟨b1, b2⟩ | ⟨⟨e2, b1, b2, b3⟩, -, -⟩
    · rw [a2, b2]
    · exact absurd b2 (a1 e2 (hm.mem_iff.2 b1))
  · rcases Evict.scan_from_none r m hlen hneg2 with ⟨b1, b2⟩ | ⟨⟨e2, b1, b2, b3⟩, b4, b5⟩
    · exact absurd a2 (b1 e1 (hm.mem_iff.1 a1))
    · by_contra hne
      have hf1 := mapFind_of_mem r.frame_map_ e1.1 e1.2 h.nodup a1
      have hf2 := mapFind_of_mem r.frame_map_ e2.1 e2.2 h.nodup (hm.mem_iff.2 b1)
      rw [a3] at hf1
      rw [b3] at hf2
      rcases judge_total n k r h hk _ _ _ _ hf2 hf1 hne with hj | hj
      · have := a5 e2 (hm.mem_iff.2 b1) b2
        rw [b3] at this
        exact this hj
      · have := b5 e1 (hm.mem_iff.1 a1) a2
        rw [a3] at this
        exact this hj
/-! ## When `Insert` returns false -/

/-- The part of `Insert` at the leaf returns false only when the key is in the slot that
`KeyIndex` finds. -/
theorem BPlusTree.Insert.atLeaf_false (t : BPlusTree) (page : Int) (k : Int) (v : ValueType)
    (t' : BPlusTree) (h : BPlusTree.Insert.atLeaf t page k v = some (false, t')) :
    ∃ lp, t.FetchPage page = some (.leaf lp) ∧ lp.KeyIndex k < lp.size_ ∧
      (arrGet lp.array_ (lp.KeyIndex k)).1 = k := by
  unfold BPlusTree.Insert.atLeaf at h
  cases hp : t.FetchPage page with
  | none => simp [hp] at h
  | some pg =>
    cases pg with
    | internal q => simp [hp] at h
    | leaf lp =>
      simp only [hp] at h
      by_cases c : lp.KeyIndex k < lp.size_
          ∧ comparator (k, v).1 (arrGet lp.array_ (lp.KeyIndex k)).1 = 0
      · exact ⟨lp, rfl, c.1, ((comparator_eq _ _).1 c.2).symm⟩
      · exfalso
        unfold LeafPage.Insert at h
        rw [if_neg c] at h
        simp only [Bool.true_eq_false, if_false] at h
        split at h
        · split at h
          · exact Option.noConfusion h
          · simp at h
        · simp at h

/-- `Insert(k, v')` returns false only for a key that `GetValue(k)` finds. -/
theorem BPlusTree.Insert_false_found (t : BPlusTree) (k : Int) (v' : ValueType)
    (t' : BPlusTree) (h : t.Insert k v' = some (false, t')) :
    ∃ v t1, t.GetValue k [] = some (true, [v], t1) := by
  unfold BPlusTree.Insert at h
  cases hf : t.FindLeafPage k with
  | none => simp [hf] at h
  | some r =>
    obtain ⟨o, t1⟩ := r
    cases o with
    | some page =>
      simp only [hf] at h
      have hne : t.IsEmpty = false := by
        cases he : t.IsEmpty with
        | false => rfl
        | true =>
          unfold BPlusTree.FindLeafPage at hf
          rw [he] at hf
          simp at hf
      obtain ⟨lp, hp, c1, c2⟩ := BPlusTree.Insert.atLeaf_false t1 page k v' t' h
      rw [BPlusTree.GetValue_of_leaf t k [] page t1 lp hne hf hp,
        if_pos ⟨c1, (comparator_eq _ _).2 c2⟩]
      exact ⟨_, _, rfl⟩
    | none =>
      exfalso
      have he : t.IsEmpty = true := by
        cases he : t.IsEmpty with
        | true => rfl
        | false =>
          unfold BPlusTree.FindLeafPage at hf
          rw [he] at hf
          simp only [Bool.false_eq_true, if_false] at hf
          cases hp : t.FetchPage t.root_page_id_ with
          | none => simp [hp] at hf
          | some pg =>
            simp only [hp] at hf
            cases hl : BPlusTree.FindLeafPage.loop k (t.pages_.length + 1)
                (t.Pin t.root_page_id_) t.root_page_id_ with
            | none => simp [hl] at hf
            | some r => simp [hl] at hf
      have ht1 : t1 = t := by
        unfold BPlusTree.FindLeafPage at hf
        rw [he] at hf
        simp only [if_true, Option.some.injEq, Prod.mk.injEq] at hf
        exact hf.2.symm
      rw [ht1] at hf
      simp only [hf, he, if_true] at h
      have hfetch : ∀ id, t.StartNewTree.FetchPage id
          = if id = t.next_page_id_ then
              some (.leaf (LeafPage.Init t.next_page_id_ INVALID_PAGE_ID t.leaf_max_size_))
            else t.FetchPage id := by
        intro id
        show (BPlusTree.write t.NewPage.2 _ _).FetchPage id = _
        rw [BPlusTree.FetchPage_write]
        rfl
      have hrootN : t.StartNewTree.root_page_id_ = t.next_page_id_ := rfl
      cases hf2 : t.StartNewTree.FindLeafPage k with
      | none => simp [hf2] at h
      | some r =>
        obtain ⟨o, t3⟩ := r
        cases o with
        | none => simp [hf2] at h
        | some page =>
          simp only [hf2] at h
          obtain ⟨lp, hp, c1, -⟩ := BPlusTree.Insert.atLeaf_false t3 page k v' t' h
          have hs := BPlusTree.FindLeafPage_sameStore _ _ _ _ hf2
          rw [hs.fetch page] at hp
          have hpage : page = t.next_page_id_ := by
            unfold BPlusTree.FindLeafPage at hf2
            by_cases he2 : t.StartNewTree.IsEmpty = true
            · rw [if_pos he2] at hf2
              simp at hf2
            · rw [if_neg he2, hrootN, hfetch, if_pos rfl] at hf2
              simp only [BPlusTree.FindLeafPage.loop] at hf2
              have hpin : (t.StartNewTree.Pin t.next_page_id_).FetchPage t.next_page_id_
                  = some (.leaf (LeafPage.Init t.next_page_id_ INVALID_PAGE_ID
                      t.leaf_max_size_)) := by
                show t.StartNewTree.FetchPage t.next_page_id_ = _
                rw [hfetch, if_pos rfl]
              simp only [hpin, Option.some.injEq, Prod.mk.injEq] at hf2
              exact hf2.1.symm
          rw [hpage, hfetch, if_pos rfl] at hp
          simp only [Option.some.injEq, Page.leaf.injEq] at hp
          rw [← hp] at c1
          simp [LeafPage.KeyIndex, LeafPage.Init, LeafPage.KeyIndex.loop] at c1
/-! ## No call changes the two `max_size` of the tree -/

theorem BPlusTree.UpdateRootPageId_sizes (t : BPlusTree) (r : Int) :
    (t.UpdateRootPageId r).leaf_max_size_ = t.leaf_max_size_ ∧
    (t.UpdateRootPageId r).internal_max_size_ = t.internal_max_size_ := by
  unfold BPlusTree.UpdateRootPageId
  split <;> exact ⟨rfl, rfl⟩

theorem InternalPage.Split.move_sizes (tmp : List (KeyType × page_id_t)) (sid mid0 : Int) :
    ∀ (l : List Int) (t : BPlusTree) (self sib : InternalPage) (t2 : BPlusTree)
      (r : InternalPage × InternalPage),
      InternalPage.Split.move tmp sid mid0 l t self sib = some (t2, r) →
      t2.leaf_max_size_ = t.leaf_max_size_ ∧ t2.internal_max_size_ = t.internal_max_size_ := by
  intro l
  induction l with
  | nil =>
    intro t self sib t2 r h
    simp only [InternalPage.Split.move, Option.some.injEq, Prod.mk.injEq] at h
    rw [← h.1]
    exact ⟨rfl, rfl⟩
  | cons m rest ih =>
    intro t self sib t2 r h
    simp only [InternalPage.Split.move] at h
    cases hc : t.FetchPage (arrGet tmp m).2 with
    | none => simp [hc] at h
    | some child =>
      simp only [hc] at h
      have a := ih _ _ _ _ _ h
      exact a

theorem InternalPage.Split_sizes (t : BPlusTree) (self_id : Int) (key : Int)
    (page_bother sibling_id : Int) (t2 : BPlusTree)
    (h : InternalPage.Split t self_id key page_bother sibling_id = some t2) :
    t2.leaf_max_size_ = t.leaf_max_size_ ∧ t2.internal_max_size_ = t.internal_max_size_ := by
  unfold InternalPage.Split at h
  split at h
  · split at h
    · exact Option.noConfusion h
    · rename_i t3 s3 b3 hm
      simp only [Option.some.injEq] at h
      rw [← h]
      have a := InternalPage.Split.move_sizes _ _ _ _ _ _ _ _ _ hm
      exact a
  · exact Option.noConfusion h

theorem BPlusTree.InsertInParent_sizes :
    ∀ (fuel : Nat) (t : BPlusTree) (l : Int) (k : Int) (r : Int) (t2 : BPlusTree),
      BPlusTree.InsertInParent fuel t l k r = some t2 →
      t2.leaf_max_size_ = t.leaf_max_size_ ∧ t2.internal_max_size_ = t.internal_max_size_ := by
  intro fuel
  induction fuel with
  | zero =>
    intro t l k r t2 h
    simp [BPlusTree.InsertInParent] at h
  | succ n ih =>
    intro t l k r t2 h
    simp only [BPlusTree.InsertInParent] at h
    split at h
    · exact Option.noConfusion h
    · split at h
      · split at h
        · exact Option.noConfusion h
        · simp only [Option.some.injEq] at h
          rw [← h]
          exact BPlusTree.UpdateRootPageId_sizes _ 0
      · split at h
        · split at h
          · split at h
            · exact Option.noConfusion h
            · simp only [Option.some.injEq] at h
              rw [← h]
              exact ⟨rfl, rfl⟩
          · split at h
            · exact Option.noConfusion h
            · rename_i t3 hs
              split at h
              · split at h
                · exact Option.noConfusion h
                · rename_i t4 hrec
                  simp only [Option.some.injEq] at h
                  rw [← h]
                  have a := InternalPage.Split_sizes _ _ _ _ _ _ hs
                  have b := ih _ _ _ _ _ hrec
                  have c : t3.leaf_max_size_ = t.leaf_max_size_ ∧
                      t3.internal_max_size_ = t.internal_max_size_ := a
                  exact ⟨b.1.trans c.1, b.2.trans c.2⟩
              · exact Option.noConfusion h
        · exact Option.noConfusion h

theorem BPlusTree.Insert.atLeaf_sizes (t : BPlusTree) (page : Int) (k : Int) (v : ValueType)
    (b : Bool) (t2 : BPlusTree) (h : BPlusTree.Insert.atLeaf t page k v = some (b, t2)) :
    t2.leaf_max_size_ = t.leaf_max_size_ ∧ t2.internal_max_size_ = t.internal_max_size_ := by
  unfold BPlusTree.Insert.atLeaf at h
  split at h
  · simp only at h
    split at h
    · simp only [Option.some.injEq, Prod.mk.injEq] at h
      rw [← h.2]
      exact ⟨rfl, rfl⟩
    · split at h
      · split at h
        · exact Option.noConfusion h
        · rename_i t3 hrec
          simp only [Option.some.injEq, Prod.mk.injEq] at h
          rw [← h.2]
          have a := BPlusTree.InsertInParent_sizes _ _ _ _ _ _ hrec
          exact a
      · simp only [Option.some.injEq, Prod.mk.injEq] at h
        rw [← h.2]
        exact ⟨rfl, rfl⟩
  · exact Option.noConfusion h

/-- `Insert` leaves `leaf_max_size_` and `internal_max_size_` as they are. -/
theorem BPlusTree.Insert_sizes (t : BPlusTree) (k : Int) (v : ValueType) (b : Bool)
    (t2 : BPlusTree) (h : t.Insert k v = some (b, t2)) :
    t2.leaf_max_size_ = t.leaf_max_size_ ∧ t2.internal_max_size_ = t.internal_max_size_ := by
  unfold BPlusTree.Insert at h
  cases hf : t.FindLeafPage k with
  | none => simp [hf] at h
  | some r =>
    obtain ⟨o, t1⟩ := r
    have hs := BPlusTree.FindLeafPage_sameStore t k o t1 hf
    cases o with
    | some page =>
      simp only [hf] at h
      have a := BPlusTree.Insert.atLeaf_sizes _ _ _ _ _ _ h
      exact ⟨a.1.trans hs.2.2.2.1, a.2.trans hs.2.2.2.2⟩
    | none =>
      simp only [hf] at h
      have hs2 : (if t1.IsEmpty = true then t1.StartNewTree else t1).leaf_max_size_
            = t.leaf_max_size_ ∧
          (if t1.IsEmpty = true then t1.StartNewTree else t1).internal_max_size_
            = t.internal_max_size_ := by
        split
        · have a := BPlusTree.UpdateRootPageId_sizes
            { (t1.NewPage.2.write t1.NewPage.1
                (.leaf (LeafPage.Init t1.NewPage.1 INVALID_PAGE_ID t1.leaf_max_size_))) with
              root_page_id_ := t1.NewPage.1 } 1
          exact ⟨a.1.trans hs.2.2.2.1, a.2.trans hs.2.2.2.2⟩
        · exact ⟨hs.2.2.2.1, hs.2.2.2.2⟩
      cases hf2 : (if t1.IsEmpty = true then t1.StartNewTree else t1).FindLeafPage k with
      | none => simp [hf2] at h
      | some r2 =>
        obtain ⟨o2, t3⟩ := r2
        have hs3 := BPlusTree.FindLeafPage_sameStore _ k o2 t3 hf2
        cases o2 with
        | none => simp [hf2] at h
        | some page =>
          simp only [hf2] at h
          have a := BPlusTree.Insert.atLeaf_sizes _ _ _ _ _ _ h
          exact ⟨(a.1.trans hs3.2.2.2.1).trans hs2.1, (a.2.trans hs3.2.2.2.2).trans hs2.2⟩

/-- Every state of an insert-only run has the two `max_size` the tree was created with. -/
theorem InsertReach.sizes {name : String} {L I : Int} {t : BPlusTree}
    {m : List (Int × ValueType)} (h : InsertReach name L I t m) :
    t.leaf_max_size_ = L ∧ t.internal_max_size_ = I := by
  induction h with
  | init => exact ⟨rfl, rfl⟩
  | step k v b t' _ hins ih =>
    have a := BPlusTree.Insert_sizes _ k v b t' hins
    exact ⟨a.1.trans ih.1, a.2.trans ih.2⟩
/-! ## Insert-only runs with `internal_max_size` 0 or 1 -/

theorem InternalPage.Split.tmp_small (q : InternalPage) (k r : Int) (h0 : 0 ≤ q.max_size_)
    (h1 : q.max_size_ ≤ 1) :
    InternalPage.Split.tmp q k r
      = arrSet (arrSet [] 0 (arrGet q.array_ 0)) q.max_size_ (k, r) := by
  unfold InternalPage.Split.tmp
  rw [upTo_nil 1 q.max_size_ h1]
  rfl

/-- The internal `Split` of a page with `max_size` 0 or 1: the page keeps its slots and the
new page holds the new pair alone. -/
theorem InternalPage.Split_small (t : BPlusTree) (Q k r n : Int) (q : InternalPage)
    (rp : Page) (I : Int) (hI0 : 0 ≤ I) (hI1 : I ≤ 1)
    (hQ : t.FetchPage Q = some (.internal q)) (hr : t.FetchPage r = some rp)
    (hn : t.FetchPage n = some (.internal (InternalPage.Init n INVALID_PAGE_ID I)))
    (hmax : q.max_size_ = I) (hQr : Q ≠ r) (hnr : n ≠ r) (hnQ : n ≠ Q) :
    ∃ t2 q' s, InternalPage.Split t Q k r n = some t2 ∧
      (∀ id, t2.FetchPage id
        = if id = n then some (.internal s)
          else if id = Q then some (.internal q')
          else if id = r then some (rp.SetParentPageId n) else t.FetchPage id) ∧
      s.page_id_ = n ∧ s.max_size_ = I ∧ s.size_ = 1 ∧ arrGet s.array_ 0 = (k, r) ∧
      q'.page_id_ = q.page_id_ ∧ q'.parent_page_id_ = q.parent_page_id_ ∧
      q'.max_size_ = q.max_size_ ∧ q'.size_ = q.size_ ∧
      (∀ i, arrGet q'.array_ i = arrGet q.array_ i) ∧
      t2.root_page_id_ = t.root_page_id_ ∧ t2.next_page_id_ = t.next_page_id_ ∧
      t2.leaf_max_size_ = t.leaf_max_size_ ∧
      t2.internal_max_size_ = t.internal_max_size_ ∧
      t.pages_.length ≤ t2.pages_.length := by
  have htmp := InternalPage.Split.tmp_small q k r (by omega) (by omega)
  have hget : arrGet (InternalPage.Split.tmp q k r) q.max_size_ = (k, r) := by
    rw [htmp]
    exact arrGet_arrSet_same _ _ _ (by omega)
  have hmid : (q.max_size_ + 1) / 2 = q.max_size_ := by omega
  have hlist : upTo ((q.max_size_ + 1) / 2) (q.max_size_ + 1) = [q.max_size_] := by
    rw [hmid, upTo_cons _ _ (by omega), upTo_nil _ _ (le_refl _)]
  have hfr : (t.write r (rp.SetParentPageId q.page_id_)).FetchPage r
      = some (rp.SetParentPageId q.page_id_) := by
    rw [BPlusTree.FetchPage_write, if_pos rfl]
  have hrun : InternalPage.Split t Q k r n
      = some ((((((t.write r (rp.SetParentPageId q.page_id_)).Pin r).write r
            ((rp.SetParentPageId q.page_id_).SetParentPageId n)).UnpinPage r).write Q
          (.internal
            { q with
              size_ := q.size_ + 1 - 1,
              array_ := (upTo 0 ((q.max_size_ + 1) / 2)).foldl
                (fun a i => arrSet a i (arrGet (InternalPage.Split.tmp q k r) i))
                q.array_ })).write n
        (.internal
          { (InternalPage.Init n INVALID_PAGE_ID I) with
            array_ := arrSet [] (q.max_size_ - (q.max_size_ + 1) / 2) (k, r),
            size_ := 0 + 1 })) := by
    unfold InternalPage.Split
    rw [hQ, hr, hn]
    simp only
    rw [hlist]
    simp only [InternalPage.Split.move, hget, hfr]
    rfl
  refine ⟨_,
    { q with
      size_ := q.size_ + 1 - 1,
      array_ := (upTo 0 ((q.max_size_ + 1) / 2)).foldl
        (fun a i => arrSet a i (arrGet (InternalPage.Split.tmp q k r) i)) q.array_ },
    { (InternalPage.Init n INVALID_PAGE_ID I) with
      array_ := arrSet [] (q.max_size_ - (q.max_size_ + 1) / 2) (k, r),
      size_ := 0 + 1 },
    hrun, ?_, rfl, rfl, ?_, ?_, rfl, rfl, rfl, ?_, ?_, rfl, rfl, rfl, rfl, ?_⟩
  · intro id
    rw [BPlusTree.FetchPage_write, BPlusTree.FetchPage_write]
    by_cases e1 : id = n
    · rw [if_pos e1, if_pos e1]
    · rw [if_neg e1, if_neg e1]
      by_cases e2 : id = Q
      · rw [if_pos e2, if_pos e2]
      · rw [if_neg e2, if_neg e2]
        show (BPlusTree.write _ r _).FetchPage id = _
        rw [BPlusTree.FetchPage_write]
        by_cases e3 : id = r
        · rw [if_pos e3, if_pos e3, Page.SetParentPageId_twice]
        · rw [if_neg e3, if_neg e3]
          show (t.write r _).FetchPage id = _
          rw [BPlusTree.FetchPage_write, if_neg e3]
  · show (0 : Int) + 1 = 1
    rfl
  · simp only
    rw [hmid, sub_self]
    exact arrGet_arrSet_same _ _ _ (le_refl _)
  · simp only
    omega
  · intro i
    simp only
    rw [hmid]
    rcases (show q.max_size_ = 0 ∨ q.max_size_ = 1 by omega) with e | e
    · rw [e, upTo_nil 0 0 (le_refl _)]
      rfl
    · rw [e, upTo_cons 0 1 (by omega), upTo_nil _ _ (by omega)]
      simp only [List.foldl_cons, List.foldl_nil]
      have h0 : arrGet (InternalPage.Split.tmp q k r) 0 = arrGet q.array_ 0 := by
        rw [htmp, e, arrGet_arrSet_ne _ _ _ _ (by omega),
          arrGet_arrSet_same _ _ _ (le_refl _)]
      rw [h0]
      by_cases hi : 0 ≤ i
      · rw [arrGet_arrSet _ _ _ _ (le_refl _)]
        by_cases e0 : i = 0
        · rw [if_pos e0, e0]
        · rw [if_neg e0]
      · unfold arrGet
        rw [if_neg hi, if_neg hi]
  · refine le_trans ?_ (BPlusTree.write_length_le _ _ _)
    refine le_trans ?_ (BPlusTree.write_length_le _ _ _)
    show t.pages_.length ≤ (BPlusTree.write _ r _).pages_.length
    refine le_trans ?_ (BPlusTree.write_length_le _ _ _)
    exact BPlusTree.write_length_le t _ _

/-- The invariant does not read the pin log or the header records. -/
theorem DegInv.of_equal_store {t t' : BPlusTree} {g : Ghost} {pend : Option (Int × Int × Int)}
    (h : DegInv t g pend) (hs : t.sameStore t') : DegInv t' g pend := by
  have hf : ∀ id, t'.FetchPage id = t.FetchPage id := hs.fetch
  refine ⟨?_, ?_, ?_, ?_, ?_, ?_, ?_, ?_, ?_, ?_⟩
  · rw [hs.2.2.2.1]
    exact h.leafMax
  · rw [hs.2.2.2.2]
    exact h.internalMax
  · intro id p hp
    rw [hf] at hp
    rw [hs.2.2.1]
    exact h.ids id p hp
  · rw [hs.2.1, hf]
    exact h.root
  · intro id p hp
    rw [hf] at hp
    rw [hs.2.1, hf]
    exact h.parent id p hp
  · intro id p hp
    rw [hf] at hp
    rw [hs.2.2.2.1]
    exact h.leaf id p hp
  · intro id p hp
    rw [hf] at hp
    rw [hs.2.2.2.2]
    obtain ⟨a, b, c, d, e⟩ := h.internal id p hp
    refine ⟨a, b, c, d, ?_⟩
    intro i hi0 hi1
    rw [hf]
    exact e i hi0 hi1
  · rw [hs.2.1, hs.1]
    exact h.depth
  · intro id p hp
    rw [hf] at hp
    rw [hs.2.1]
    exact h.lvlRoot id p hp
  · intro l k r hpend
    rw [hf, hf, hs.2.1]
    exact h.pending l k r hpend

/-- Under `DegInv` the descent of `FindLeafPage` from a page whose lower bound is at or
below the key ends in a leaf whose lower bound is at or below the key. -/
theorem BPlusTree.FindLeafPage.loop_small (key : Int) (g : Ghost) :
    ∀ (fuel : Nat) (t : BPlusTree) (page id : Int) (t1 : BPlusTree), DegInv t g none →
      (∃ p, t.FetchPage page = some p) → loLe (g.lo page) key →
      BPlusTree.FindLeafPage.loop key fuel t page = some (id, t1) →
      ∃ lp, t.FetchPage id = some (.leaf lp) ∧ loLe (g.lo id) key := by
  intro fuel
  induction fuel with
  | zero =>
    intro t page id t1 _ _ _ h
    simp [BPlusTree.FindLeafPage.loop] at h
  | succ n ih =>
    intro t page id t1 hinv hp hlo h
    obtain ⟨p, hp⟩ := hp
    simp only [BPlusTree.FindLeafPage.loop, hp] at h
    cases p with
    | leaf lp =>
      simp only [Option.some.injEq, Prod.mk.injEq] at h
      rw [← h.1]
      exact ⟨lp, hp, hlo⟩
    | internal ip =>
      simp only at h
      obtain ⟨-, -, hsz, hsz2, hchildren⟩ := hinv.internal page ip hp
      obtain ⟨x, hx1, hx2, hx3, hx4, -⟩ :=
        InternalPage.Lookup_spec ip key hsz (fun i j hi hij hj => by omega)
      obtain ⟨cp, c1, -, c4, -⟩ := hchildren (x - 1) (by omega) (by omega)
      rw [hx3, c1] at h
      simp only at h
      have hs : t.sameStore ((t.Pin (arrGet ip.array_ (x - 1)).2).UnpinPage page) :=
        (BPlusTree.sameStore.pin t _).trans (BPlusTree.sameStore.unpin _ _)
      have hlo2 : loLe (g.lo (arrGet ip.array_ (x - 1)).2) key := by
        rw [c4]
        by_cases e : x - 1 = 0
        · rw [if_pos e]
          exact hlo
        · rw [if_neg e]
          intro y hy
          simp only [Option.some.injEq] at hy
          rw [← hy]
          exact hx4 (x - 1) (by omega) (by omega)
      obtain ⟨lp, r1, r2⟩ := ih _ (arrGet ip.array_ (x - 1)).2 id t1
        (hinv.of_equal_store hs) ⟨cp, by rw [hs.fetch]; exact c1⟩ hlo2 h
      exact ⟨lp, by rw [← hs.fetch]; exact r1, r2⟩

/-- Under `DegInv` the leaf that `FindLeafPage` returns has a lower bound at or below the
key. -/
theorem BPlusTree.FindLeafPage_small (t : BPlusTree) (g : Ghost) (key : Int)
    (hinv : DegInv t g none) (o : Option Int) (t1 : BPlusTree)
    (h : t.FindLeafPage key = some (o, t1)) :
    ∃ id lp, o = some id ∧ t.FetchPage id = some (.leaf lp) ∧ loLe (g.lo id) key := by
  obtain ⟨rp, hr1, hr3⟩ := hinv.root
  have hne : t.IsEmpty = false := by
    unfold BPlusTree.IsEmpty
    have := (hinv.ids _ _ hr1).2.1
    simp only [decide_eq_false_iff_not]
    intro e
    rw [e] at this
    exact absurd this (by decide)
  unfold BPlusTree.FindLeafPage at h
  rw [hne] at h
  simp only [Bool.false_eq_true, if_false, hr1] at h
  have hs := BPlusTree.sameStore.pin t t.root_page_id_
  cases hl : BPlusTree.FindLeafPage.loop key (t.pages_.length + 1) (t.Pin t.root_page_id_)
      t.root_page_id_ with
  | none => simp [hl] at h
  | some r =>
    obtain ⟨id, t2⟩ := r
    simp only [hl, Option.some.injEq, Prod.mk.injEq] at h
    obtain ⟨lp, r1, r2⟩ := BPlusTree.FindLeafPage.loop_small key g _ _ _ id t2
      (hinv.of_equal_store hs) ⟨rp, by rw [hs.fetch]; exact hr1⟩
      (by rw [hr3]; intro x hx; simp at hx) hl
    exact ⟨id, lp, h.1.symm, by rw [← hs.fetch]; exact r1, r2⟩

/-- Replacing the slots of a leaf page by slots that still meet the leaf conditions keeps
`DegInv`. -/
theorem DegInv.write_leaf_small {t : BPlusTree} {g : Ghost} (h : DegInv t g none) (X : Int)
    (lp lp' : LeafPage) (hX : t.FetchPage X = some (.leaf lp))
    (hid : lp'.page_id_ = lp.page_id_) (hpar : lp'.parent_page_id_ = lp.parent_page_id_)
    (hmax : lp'.max_size_ = lp.max_size_)
    (hsz0 : 0 ≤ lp'.size_) (hsz : 2 ≤ t.leaf_max_size_ → lp'.size_ < t.leaf_max_size_)
    (hsz1 : g.lo X ≠ none → 1 ≤ lp'.size_)
    (hsorted : KeysSorted lp'.array_ 0 lp'.size_)
    (hbounds : ∀ i, 0 ≤ i → i < lp'.size_ → loLe (g.lo X) (arrGet lp'.array_ i).1)
    (hlo : ∀ a, g.lo X = some a → (arrGet lp'.array_ 0).1 = a) :
    DegInv (t.write X (.leaf lp')) g none := by
  have hf := BPlusTree.FetchPage_write t X (.leaf lp')
  have hkeep : ∀ id cp, t.FetchPage id = some cp →
      ∃ cp', (t.write X (.leaf lp')).FetchPage id = some cp' ∧
        cp'.GetParentPageId = cp.GetParentPageId ∧
        (∀ q, cp = .internal q → cp' = .internal q) := by
    intro id cp hcp
    rw [hf]
    by_cases e : id = X
    · rw [if_pos e]
      rw [e, hX] at hcp
      simp only [Option.some.injEq] at hcp
      rw [← hcp]
      exact ⟨_, rfl, hpar, fun q hq => Page.noConfusion hq⟩
    · rw [if_neg e]
      exact ⟨cp, hcp, rfl, fun q hq => hq⟩
  refine ⟨h.leafMax, h.internalMax, ?_, ?_, ?_, ?_, ?_, ?_, ?_, ?_⟩
  · intro id p hp
    rw [hf] at hp
    by_cases e : id = X
    · rw [if_pos e] at hp
      simp only [Option.some.injEq] at hp
      have := h.ids X _ hX
      rw [← hp, e]
      exact ⟨hid.trans this.1, this.2⟩
    · rw [if_neg e] at hp
      exact h.ids id p hp
  · obtain ⟨p, r1, r3⟩ := h.root
    obtain ⟨p', c1, -, -⟩ := hkeep _ _ r1
    exact ⟨p', c1, r3⟩
  · intro id p hp hne hpend
    have hpar2 : ∃ p0, t.FetchPage id = some p0 ∧ p.GetParentPageId = p0.GetParentPageId := by
      rw [hf] at hp
      by_cases e : id = X
      · rw [if_pos e] at hp
        simp only [Option.some.injEq] at hp
        rw [← hp, e]
        exact ⟨_, hX, hpar⟩
      · rw [if_neg e] at hp
        exact ⟨p, hp, rfl⟩
    obtain ⟨p0, hp0, e0⟩ := hpar2
    obtain ⟨q, q1, q2⟩ := h.parent id p0 hp0 hne hpend
    obtain ⟨q', c1, -, c3⟩ := hkeep _ _ q1
    rw [e0]
    rw [c3 q rfl] at c1
    exact ⟨q, c1, q2⟩
  · intro id p hp
    rw [hf] at hp
    by_cases e : id = X
    · rw [if_pos e] at hp
      simp only [Option.some.injEq, Page.leaf.injEq] at hp
      obtain ⟨l1, l2, -⟩ := h.leaf X lp hX
      rw [e, ← hp]
      exact ⟨l1, hmax.trans l2, hsz0, hsz, hsz1, hsorted, hbounds, hlo⟩
    · rw [if_neg e] at hp
      exact h.leaf id p hp
  · intro id p hp
    rw [hf] at hp
    by_cases e : id = X
    · rw [if_pos e] at hp
      simp at hp
    · rw [if_neg e] at hp
      obtain ⟨a, b, c, d, e2⟩ := h.internal id p hp
      refine ⟨a, b, c, d, ?_⟩
      intro i hi0 hi1
      obtain ⟨cp, c1, c2⟩ := e2 i hi0 hi1
      obtain ⟨cp', d1, -⟩ := hkeep _ _ c1
      exact ⟨cp', d1, c2⟩
  · show _ ≤ (t.write X (.leaf lp')).pages_.length
    exact le_trans h.depth (BPlusTree.write_length_le _ _ _)
  · intro id p hp
    have : ∃ p0, t.FetchPage id = some p0 := by
      rw [hf] at hp
      by_cases e : id = X
      · rw [e]
        exact ⟨_, hX⟩
      · rw [if_neg e] at hp
        exact ⟨p, hp⟩
    obtain ⟨p0, hp0⟩ := this
    exact h.lvlRoot id p0 hp0
  · intro l k r hpend
    exact Option.noConfusion hpend

/-- A leaf `X` was split: the lower slots stay in `X`, the upper slots are in the fresh page
`next_page_id_` and the pair for it is still to be entered above `X`. -/
theorem DegInv.split_leaf_small {t t2 : BPlusTree} {g : Ghost} (hinv : DegInv t g none)
    (X : Int) (lp pl pr : LeafPage) (sep : Int) (hX : t.FetchPage X = some (.leaf lp))
    (hfetch : ∀ id, t2.FetchPage id
      = if id = t.next_page_id_ then some (.leaf pr)
        else if id = X then some (.leaf pl) else t.FetchPage id)
    (hroot : t2.root_page_id_ = t.root_page_id_)
    (hnext : t2.next_page_id_ = t.next_page_id_ + 1)
    (hL : t2.leaf_max_size_ = t.leaf_max_size_)
    (hI : t2.internal_max_size_ = t.internal_max_size_)
    (hlen : t.pages_.length ≤ t2.pages_.length)
    (pl_id : pl.page_id_ = lp.page_id_) (pl_par : pl.parent_page_id_ = lp.parent_page_id_)
    (pl_max : pl.max_size_ = lp.max_size_) (pl_sz0 : 0 ≤ pl.size_)
    (pl_sz1 : g.lo X ≠ none → 1 ≤ pl.size_)
    (pl_sz : pl.size_ < t.leaf_max_size_)
    (pl_sorted : KeysSorted pl.array_ 0 pl.size_)
    (pl_bounds : ∀ i, 0 ≤ i → i < pl.size_ → loLe (g.lo X) (arrGet pl.array_ i).1)
    (pl_first : ∀ a, g.lo X = some a → (arrGet pl.array_ 0).1 = a)
    (pr_id : pr.page_id_ = t.next_page_id_) (pr_max : pr.max_size_ = t.leaf_max_size_)
    (pr_sz1 : 1 ≤ pr.size_) (pr_sz : 2 ≤ t.leaf_max_size_ → pr.size_ < t.leaf_max_size_)
    (pr_sorted : KeysSorted pr.array_ 0 pr.size_)
    (pr_bounds : ∀ i, 0 ≤ i → i < pr.size_ → sep ≤ (arrGet pr.array_ i).1)
    (pr_first : (arrGet pr.array_ 0).1 = sep) :
    DegInv t2 (splitGhost g X t.next_page_id_ sep) (some (X, sep, t.next_page_id_)) := by
  have hXid := hinv.ids X _ hX
  have hfresh : ∀ id p, t.FetchPage id = some p → id ≠ t.next_page_id_ := by
    intro id p hp e
    have := (hinv.ids id p hp).2.2
    simp only [page_id_t] at *
    omega
  have hXN : X ≠ t.next_page_id_ := hfresh X _ hX
  have hNX : t.next_page_id_ ≠ X := fun e => hXN e.symm
  obtain ⟨rootp, r1, r3⟩ := hinv.root
  have hrootN : t.root_page_id_ ≠ t.next_page_id_ := hfresh _ _ r1
  have hkeep : ∀ id cp, t.FetchPage id = some cp →
      ∃ cp', t2.FetchPage id = some cp' ∧ cp'.GetParentPageId = cp.GetParentPageId ∧
        (∀ q, cp = .internal q → cp' = .internal q) := by
    intro id cp hcp
    rw [hfetch, if_neg (hfresh id cp hcp)]
    by_cases e : id = X
    · rw [if_pos e]
      rw [e, hX] at hcp
      simp only [Option.some.injEq] at hcp
      rw [← hcp]
      exact ⟨_, rfl, pl_par, fun q hq => Page.noConfusion hq⟩
    · rw [if_neg e]
      exact ⟨cp, hcp, rfl, fun q hq => hq⟩
  have hold : ∀ id p, t2.FetchPage id = some p → id ≠ t.next_page_id_ →
      ∃ p0, t.FetchPage id = some p0 ∧ p.GetParentPageId = p0.GetParentPageId := by
    intro id p hp hne
    rw [hfetch, if_neg hne] at hp
    by_cases e : id = X
    · rw [if_pos e] at hp
      simp only [Option.some.injEq] at hp
      rw [← hp, e]
      exact ⟨_, hX, pl_par⟩
    · rw [if_neg e] at hp
      exact ⟨p, hp, rfl⟩
  obtain ⟨l1, l2, -⟩ := hinv.leaf X lp hX
  refine ⟨by rw [hL]; exact hinv.leafMax, by rw [hI]; exact hinv.internalMax,
    ?_, ?_, ?_, ?_, ?_, ?_, ?_, ?_⟩
  · -- ids
    intro id p hp
    rw [hnext]
    by_cases e1 : id = t.next_page_id_
    · rw [hfetch, if_pos e1] at hp
      simp only [Option.some.injEq] at hp
      rw [← hp, e1]
      have := hXid.2
      simp only [page_id_t] at *
      exact ⟨pr_id, by omega, by omega⟩
    · obtain ⟨p0, hp0, -⟩ := hold id p hp e1
      have a := hinv.ids id p0 hp0
      have b : p.GetPageId = id := by
        rw [hfetch, if_neg e1] at hp
        by_cases e2 : id = X
        · rw [if_pos e2] at hp
          simp only [Option.some.injEq] at hp
          rw [← hp, e2]
          exact pl_id.trans hXid.1
        · rw [if_neg e2] at hp
          exact (hinv.ids id p hp).1
      have := a.2
      simp only [page_id_t] at *
      exact ⟨b, by omega, by omega⟩
  · -- root
    rw [hroot]
    obtain ⟨p', c1, -⟩ := hkeep _ _ r1
    exact ⟨p', c1, by rw [splitGhost_lo _ _ _ _ _ hrootN]; exact r3⟩
  · -- parent
    intro id p hp hne hpend
    have e1 : id ≠ t.next_page_id_ := hpend X sep _ rfl
    rw [hroot] at hne
    obtain ⟨p0, hp0, e0⟩ := hold id p hp e1
    obtain ⟨q, q1, q2⟩ := hinv.parent id p0 hp0 hne (fun l k r hh => Option.noConfusion hh)
    obtain ⟨q', c1, -, c3⟩ := hkeep _ _ q1
    rw [c3 q rfl] at c1
    rw [e0, splitGhost_lvl _ _ _ _ _ (hfresh _ _ q1), splitGhost_lvl _ _ _ _ _ e1]
    exact ⟨q, c1, q2⟩
  · -- leaf
    intro id p hp
    rw [hfetch] at hp
    rw [hL]
    by_cases e1 : id = t.next_page_id_
    · rw [if_pos e1] at hp
      simp only [Option.some.injEq, Page.leaf.injEq] at hp
      rw [← hp, e1, splitGhost_lvl_new, splitGhost_lo_new]
      refine ⟨l1, pr_max, by omega, pr_sz, fun _ => pr_sz1, pr_sorted, ?_, ?_⟩
      · intro i hi0 hi1 a ha
        simp only [Option.some.injEq] at ha
        rw [← ha]
        exact pr_bounds i hi0 hi1
      · intro a ha
        simp only [Option.some.injEq] at ha
        rw [← ha]
        exact pr_first
    · rw [if_neg e1] at hp
      rw [splitGhost_lvl _ _ _ _ _ e1, splitGhost_lo _ _ _ _ _ e1]
      by_cases e2 : id = X
      · rw [if_pos e2] at hp
        simp only [Option.some.injEq, Page.leaf.injEq] at hp
        rw [← hp, e2]
        exact ⟨l1, pl_max.trans l2, pl_sz0, fun _ => pl_sz, pl_sz1, pl_sorted, pl_bounds,
          pl_first⟩
      · rw [if_neg e2] at hp
        exact hinv.leaf id p hp
  · -- internal
    intro id p hp
    rw [hfetch] at hp
    rw [hI]
    by_cases e1 : id = t.next_page_id_
    · rw [if_pos e1] at hp
      simp at hp
    · rw [if_neg e1] at hp
      by_cases e2 : id = X
      · rw [if_pos e2] at hp
        simp at hp
      · rw [if_neg e2] at hp
        obtain ⟨a, b, c, d, e⟩ := hinv.internal id p hp
        rw [splitGhost_lvl _ _ _ _ _ e1, splitGhost_lo _ _ _ _ _ e1]
        refine ⟨a, b, c, d, ?_⟩
        intro i hi0 hi1
        obtain ⟨cp, c1, c2, c3, c4⟩ := e i hi0 hi1
        have hcN := hfresh _ _ c1
        obtain ⟨cp', d1, -⟩ := hkeep _ _ c1
        rw [splitGhost_lvl _ _ _ _ _ hcN, splitGhost_lo _ _ _ _ _ hcN]
        exact ⟨cp', d1, c2, c3, c4⟩
  · -- depth
    rw [hroot, splitGhost_lvl _ _ _ _ _ hrootN]
    have := hinv.depth
    omega
  · -- levels
    intro id p hp
    rw [hroot, splitGhost_lvl _ _ _ _ _ hrootN]
    by_cases e1 : id = t.next_page_id_
    · rw [e1, splitGhost_lvl_new]
      exact hinv.lvlRoot X _ hX
    · rw [splitGhost_lvl _ _ _ _ _ e1]
      obtain ⟨p0, hp0, -⟩ := hold id p hp e1
      exact hinv.lvlRoot id p0 hp0
  · -- pending
    intro l k r hpend
    simp only [Option.some.injEq, Prod.mk.injEq] at hpend
    obtain ⟨hl, hk, hr⟩ := hpend
    rw [← hl, ← hk, ← hr, hroot]
    refine ⟨⟨_, by rw [hfetch, if_neg hXN, if_pos rfl]⟩, ⟨_, by rw [hfetch, if_pos rfl]⟩,
      fun e => hrootN e.symm, hXN, ?_, splitGhost_lo_new _ _ _ _⟩
    rw [splitGhost_lvl_new, splitGhost_lvl _ _ _ _ _ hXN]

theorem rootGhost_lvl_old (g : Ghost) (l n id : Int) (h : id ≠ n) :
    (rootGhost g l n).lvl id = g.lvl id := by
  simp only [rootGhost, if_neg h]

theorem rootGhost_lvl_top (g : Ghost) (l n : Int) : (rootGhost g l n).lvl n = g.lvl l + 1 := by
  simp only [rootGhost, if_true]

theorem rootGhost_lo_old (g : Ghost) (l n id : Int) (h : id ≠ n) :
    (rootGhost g l n).lo id = g.lo id := by
  simp only [rootGhost, if_neg h]

theorem rootGhost_lo_top (g : Ghost) (l n : Int) : (rootGhost g l n).lo n = none := by
  simp only [rootGhost, if_true]

/-- The root was split: the fresh page `next_page_id_` is the new root above the old root
`l` and the page `r`. -/
theorem DegInv.new_root_small {t t' : BPlusTree} {g : Ghost} {l k r : Int}
    (hinv : DegInv t g (some (l, k, r))) (hlroot : l = t.root_page_id_) (lp rp : Page)
    (nr : InternalPage) (hl : t.FetchPage l = some lp) (hr : t.FetchPage r = some rp)
    (hfetch : ∀ id, t'.FetchPage id
      = if id = r then some (rp.SetParentPageId t.next_page_id_)
        else if id = l then some (lp.SetParentPageId t.next_page_id_)
        else if id = t.next_page_id_ then some (.internal nr) else t.FetchPage id)
    (hroot : t'.root_page_id_ = t.next_page_id_)
    (hnext : t'.next_page_id_ = t.next_page_id_ + 1)
    (hL : t'.leaf_max_size_ = t.leaf_max_size_)
    (hI : t'.internal_max_size_ = t.internal_max_size_)
    (hlen : t.pages_.length + 1 ≤ t'.pages_.length)
    (n1 : nr.page_id_ = t.next_page_id_) (n3 : nr.max_size_ = t.internal_max_size_)
    (n4 : nr.size_ = 2) (n5 : (arrGet nr.array_ 0).2 = l) (n6 : arrGet nr.array_ 1 = (k, r)) :
    DegInv t' (rootGhost g l t.next_page_id_) none := by
  obtain ⟨-, -, hrroot, hlr, hlvl, hlor⟩ := hinv.pending l k r rfl
  have hfresh : ∀ id p, t.FetchPage id = some p → id ≠ t.next_page_id_ := by
    intro id p hp e
    have := (hinv.ids id p hp).2.2
    simp only [page_id_t] at *
    omega
  have hlN := hfresh l _ hl
  have hrN := hfresh r _ hr
  have hrl : r ≠ l := fun e => hlr e.symm
  obtain ⟨rootp, r1, r3⟩ := hinv.root
  -- every old page is still there, with the same content up to its parent id
  have hkeep : ∀ id cp, t.FetchPage id = some cp →
      ∃ cp', t'.FetchPage id = some cp' ∧ (cp' = cp ∨ ∃ x, cp' = cp.SetParentPageId x) := by
    intro id cp hcp
    rw [hfetch]
    by_cases e1 : id = r
    · rw [if_pos e1]
      rw [e1, hr] at hcp
      simp only [Option.some.injEq] at hcp
      rw [← hcp]
      exact ⟨_, rfl, Or.inr ⟨_, rfl⟩⟩
    · rw [if_neg e1]
      by_cases e2 : id = l
      · rw [if_pos e2]
        rw [e2, hl] at hcp
        simp only [Option.some.injEq] at hcp
        rw [← hcp]
        exact ⟨_, rfl, Or.inr ⟨_, rfl⟩⟩
      · rw [if_neg e2, if_neg (hfresh id cp hcp)]
        exact ⟨cp, hcp, Or.inl rfl⟩
  have hold : ∀ id p, t'.FetchPage id = some p → id ≠ t.next_page_id_ →
      ∃ cp, t.FetchPage id = some cp ∧ (p = cp ∨ ∃ x, p = cp.SetParentPageId x) := by
    intro id p hp hne
    rw [hfetch] at hp
    by_cases e1 : id = r
    · rw [if_pos e1] at hp
      simp only [Option.some.injEq] at hp
      rw [e1, ← hp]
      exact ⟨rp, hr, Or.inr ⟨_, rfl⟩⟩
    · rw [if_neg e1] at hp
      by_cases e2 : id = l
      · rw [if_pos e2] at hp
        simp only [Option.some.injEq] at hp
        rw [e2, ← hp]
        exact ⟨lp, hl, Or.inr ⟨_, rfl⟩⟩
      · rw [if_neg e2, if_neg hne] at hp
        exact ⟨p, hp, Or.inl rfl⟩
  have hN' : t'.FetchPage t.next_page_id_ = some (.internal nr) := by
    rw [hfetch, if_neg (fun e => hrN e.symm), if_neg (fun e => hlN e.symm), if_pos rfl]
  have hkeepI : ∀ id q, t.FetchPage id = some (.internal q) →
      ∃ q', t'.FetchPage id = some (.internal q') := by
    intro id q hq
    obtain ⟨cp', c1, c2⟩ := hkeep id _ hq
    obtain ⟨-, -, -, -, c3⟩ := Page.SetParentPageId_cases _ _ c2
    obtain ⟨ip, e, -⟩ := c3 q rfl
    rw [e] at c1
    exact ⟨ip, c1⟩
  refine ⟨by rw [hL]; exact hinv.leafMax, by rw [hI]; exact hinv.internalMax,
    ?_, ?_, ?_, ?_, ?_, ?_, ?_, ?_⟩
  · -- ids
    intro id p hp
    rw [hnext]
    by_cases e : id = t.next_page_id_
    · rw [e, hN'] at hp
      simp only [Option.some.injEq] at hp
      have := (hinv.ids l lp hl).2
      rw [← hp, e]
      simp only [page_id_t] at *
      exact ⟨n1, by omega, by omega⟩
    · obtain ⟨cp, c1, c2⟩ := hold id p hp e
      have a := hinv.ids id cp c1
      have b := (Page.SetParentPageId_cases _ _ c2).1
      have := a.2
      simp only [page_id_t] at *
      exact ⟨b.trans a.1, by omega, by omega⟩
  · -- root
    rw [hroot]
    exact ⟨_, hN', rootGhost_lo_top _ _ _⟩
  · -- parent
    intro id p hp hne _
    rw [hroot] at hne
    rw [rootGhost_lvl_old _ _ _ _ hne]
    have hp0 := hp
    rw [hfetch] at hp
    by_cases e1 : id = r
    · rw [if_pos e1] at hp
      simp only [Option.some.injEq] at hp
      rw [← hp, Page.GetParentPageId_SetParentPageId, rootGhost_lvl_top, e1, hlvl]
      exact ⟨nr, hN', rfl⟩
    · rw [if_neg e1] at hp
      by_cases e2 : id = l
      · rw [if_pos e2] at hp
        simp only [Option.some.injEq] at hp
        rw [← hp, Page.GetParentPageId_SetParentPageId, rootGhost_lvl_top, e2]
        exact ⟨nr, hN', rfl⟩
      · rw [if_neg e2, if_neg hne] at hp
        obtain ⟨q, q1, q2⟩ := hinv.parent id p hp (by rw [← hlroot]; exact e2)
          (fun l2 k2 r2 hh => by
            simp only [Option.some.injEq, Prod.mk.injEq] at hh
            rw [← hh.2.2]
            exact e1)
        obtain ⟨q', c1⟩ := hkeepI _ q q1
        rw [rootGhost_lvl_old _ _ _ _ (hfresh _ _ q1)]
        exact ⟨q', c1, q2⟩
  · -- leaf
    intro id p hp
    have e : id ≠ t.next_page_id_ := by
      intro e
      rw [e, hN'] at hp
      simp at hp
    obtain ⟨cp, c1, c2⟩ := hold id _ hp e
    obtain ⟨-, c3, -⟩ := Page.SetParentPageId_cases _ _ c2
    obtain ⟨lp0, e0, e1, e2, e3, -⟩ := c3 p rfl
    rw [e0] at c1
    rw [hL, e1, e2, e3, rootGhost_lvl_old _ _ _ _ e, rootGhost_lo_old _ _ _ _ e]
    exact hinv.leaf id lp0 c1
  · -- internal
    intro id p hp
    rw [hI]
    by_cases e : id = t.next_page_id_
    · rw [e, hN'] at hp
      simp only [Option.some.injEq, Page.internal.injEq] at hp
      rw [← hp, e, rootGhost_lvl_top, rootGhost_lo_top, n4]
      refine ⟨by omega, n3, by omega, le_refl _, ?_⟩
      intro i hi0 hi1
      by_cases e0 : i = 0
      · rw [e0, n5, if_pos rfl, rootGhost_lvl_old _ _ _ _ hlN, rootGhost_lo_old _ _ _ _ hlN]
        obtain ⟨cp', c1, -⟩ := hkeep l _ hl
        refine ⟨cp', c1, rfl, ?_, fun h => absurd h (by decide)⟩
        rw [hlroot]
        exact r3
      · have e1 : i = 1 := by omega
        rw [e1, n6, if_neg (by decide), rootGhost_lvl_old _ _ _ _ hrN,
          rootGhost_lo_old _ _ _ _ hrN]
        obtain ⟨cp', c1, -⟩ := hkeep r _ hr
        refine ⟨cp', c1, by rw [hlvl], hlor, ?_⟩
        intro _ x hx
        exact Option.noConfusion hx
    · obtain ⟨cp, c1, c2⟩ := hold id _ hp e
      obtain ⟨-, -, c3, -⟩ := Page.SetParentPageId_cases _ _ c2
      obtain ⟨ip0, e0, e1, e2, e3⟩ := c3 p rfl
      rw [e0] at c1
      rw [e1, e2, e3, rootGhost_lvl_old _ _ _ _ e, rootGhost_lo_old _ _ _ _ e]
      obtain ⟨a, b, c, d, hch⟩ := hinv.internal id ip0 c1
      refine ⟨a, b, c, d, ?_⟩
      intro i hi0 hi1
      obtain ⟨cp1, d1, d2, d3, d4⟩ := hch i hi0 hi1
      have hcN := hfresh _ _ d1
      obtain ⟨cp', f1, -⟩ := hkeep _ _ d1
      rw [rootGhost_lvl_old _ _ _ _ hcN, rootGhost_lo_old _ _ _ _ hcN]
      exact ⟨cp', f1, d2, d3, d4⟩
  · -- depth
    rw [hroot, rootGhost_lvl_top]
    have := hinv.depth
    rw [← hlroot] at this
    omega
  · -- levels
    intro id p hp
    rw [hroot, rootGhost_lvl_top]
    by_cases e : id = t.next_page_id_
    · rw [e, rootGhost_lvl_top]
    · rw [rootGhost_lvl_old _ _ _ _ e]
      obtain ⟨cp, c1, -⟩ := hold id p hp e
      have := hinv.lvlRoot id cp c1
      rw [← hlroot] at this
      omega
  · intro l2 k2 r2 hpend
    exact Option.noConfusion hpend

/-- The internal page above the left page of a pending split was split: the new page `n`
holds the pending pair alone, the old parent `Q` kept its slots, and the pair `(k, n)` is
pending above `Q`. -/
theorem DegInv.parent_small {t t2 : BPlusTree} {g : Ghost} {l k r Q : Int}
    (hinv : DegInv t g (some (l, k, r))) (rp : Page) (q q' s : InternalPage)
    (hr : t.FetchPage r = some rp) (hQ : t.FetchPage Q = some (.internal q))
    (hlvlQ : g.lvl Q = g.lvl l + 1)
    (hfetch : ∀ id, t2.FetchPage id
      = if id = t.next_page_id_ then some (.internal s)
        else if id = Q then some (.internal q')
        else if id = r then some (rp.SetParentPageId t.next_page_id_) else t.FetchPage id)
    (s1 : s.page_id_ = t.next_page_id_) (s2 : s.max_size_ = t.internal_max_size_)
    (s3 : s.size_ = 1) (s4 : arrGet s.array_ 0 = (k, r))
    (q1 : q'.page_id_ = q.page_id_) (q2 : q'.parent_page_id_ = q.parent_page_id_)
    (q3 : q'.max_size_ = q.max_size_) (q4 : q'.size_ = q.size_)
    (q5 : ∀ i, arrGet q'.array_ i = arrGet q.array_ i)
    (hroot : t2.root_page_id_ = t.root_page_id_)
    (hnext : t2.next_page_id_ = t.next_page_id_ + 1)
    (hL : t2.leaf_max_size_ = t.leaf_max_size_)
    (hI : t2.internal_max_size_ = t.internal_max_size_)
    (hlen : t.pages_.length ≤ t2.pages_.length) :
    DegInv t2 (splitGhost g Q t.next_page_id_ k) (some (Q, k, t.next_page_id_)) := by
  obtain ⟨⟨lp, hl⟩, -, hrroot, hlr, hlvl, hlor⟩ := hinv.pending l k r rfl
  have hfresh : ∀ id p, t.FetchPage id = some p → id ≠ t.next_page_id_ := by
    intro id p hp e
    have := (hinv.ids id p hp).2.2
    simp only [page_id_t] at *
    omega
  have hQN := hfresh Q _ hQ
  have hrN := hfresh r _ hr
  have hQr : Q ≠ r := by
    intro e
    rw [e] at hlvlQ
    omega
  obtain ⟨rootp, r1, r3⟩ := hinv.root
  have hrootN := hfresh _ _ r1
  have hN2 : t2.FetchPage t.next_page_id_ = some (.internal s) := by
    rw [hfetch, if_pos rfl]
  have hQ2 : t2.FetchPage Q = some (.internal q') := by
    rw [hfetch, if_neg hQN, if_pos rfl]
  have hr2 : t2.FetchPage r = some (rp.SetParentPageId t.next_page_id_) := by
    rw [hfetch, if_neg hrN, if_neg (fun e => hQr e.symm), if_pos rfl]
  have hold : ∀ id p, t2.FetchPage id = some p → id ≠ t.next_page_id_ →
      ∃ cp, t.FetchPage id = some cp ∧ p.GetPageId = cp.GetPageId ∧
        (∀ lp1, p = .leaf lp1 → ∃ lp0, cp = .leaf lp0 ∧ lp1.size_ = lp0.size_ ∧
          lp1.array_ = lp0.array_ ∧ lp1.max_size_ = lp0.max_size_) ∧
        (∀ ip, p = .internal ip → ∃ ip0, cp = .internal ip0 ∧ ip.size_ = ip0.size_ ∧
          ip.max_size_ = ip0.max_size_ ∧ ∀ i, arrGet ip.array_ i = arrGet ip0.array_ i) ∧
        (id ≠ r → p.GetParentPageId = cp.GetParentPageId) := by
    intro id p hp hne
    rw [hfetch, if_neg hne] at hp
    by_cases e2 : id = Q
    · rw [if_pos e2] at hp
      simp only [Option.some.injEq] at hp
      rw [e2, ← hp]
      refine ⟨_, hQ, q1, ?_, ?_, fun _ => q2⟩
      · intro lp1 e
        exact Page.noConfusion e
      · intro ip e
        simp only [Page.internal.injEq] at e
        rw [← e]
        exact ⟨q, rfl, q4, q3, q5⟩
    · rw [if_neg e2] at hp
      by_cases e3 : id = r
      · rw [if_pos e3] at hp
        simp only [Option.some.injEq] at hp
        obtain ⟨c1, c2, c3, -, -⟩ :=
          Page.SetParentPageId_cases rp p (Or.inr ⟨_, hp.symm⟩)
        rw [e3]
        refine ⟨rp, hr, c1, ?_, ?_, fun h => absurd rfl h⟩
        · intro lp1 e
          obtain ⟨lp0, a, b, c, d, -⟩ := c2 lp1 e
          exact ⟨lp0, a, b, c, d⟩
        · intro ip e
          obtain ⟨ip0, a, b, c, d⟩ := c3 ip e
          exact ⟨ip0, a, b, d, fun i => by rw [c]⟩
      · rw [if_neg e3] at hp
        exact ⟨p, hp, rfl, fun lp1 e => ⟨lp1, e, rfl, rfl, rfl⟩,
          fun ip e => ⟨ip, e, rfl, rfl, fun _ => rfl⟩, fun _ => rfl⟩
  have hkeep : ∀ id cp, t.FetchPage id = some cp → ∃ cp', t2.FetchPage id = some cp' := by
    intro id cp hcp
    rw [hfetch, if_neg (hfresh id cp hcp)]
    by_cases e2 : id = Q
    · rw [if_pos e2]
      exact ⟨_, rfl⟩
    · rw [if_neg e2]
      by_cases e3 : id = r
      · rw [if_pos e3]
        exact ⟨_, rfl⟩
      · rw [if_neg e3]
        exact ⟨cp, hcp⟩
  have hkeepI : ∀ id q0, t.FetchPage id = some (.internal q0) →
      ∃ q1, t2.FetchPage id = some (.internal q1) := by
    intro id q0 hq0
    rw [hfetch, if_neg (hfresh id _ hq0)]
    by_cases e2 : id = Q
    · rw [if_pos e2]
      exact ⟨_, rfl⟩
    · rw [if_neg e2]
      by_cases e3 : id = r
      · rw [if_pos e3]
        rw [e3, hr] at hq0
        simp only [Option.some.injEq] at hq0
        rw [hq0]
        exact ⟨_, rfl⟩
      · rw [if_neg e3]
        exact ⟨q0, hq0⟩
  refine ⟨by rw [hL]; exact hinv.leafMax, by rw [hI]; exact hinv.internalMax,
    ?_, ?_, ?_, ?_, ?_, ?_, ?_, ?_⟩
  · -- ids
    intro id p hp
    rw [hnext]
    by_cases e : id = t.next_page_id_
    · rw [e, hN2] at hp
      simp only [Option.some.injEq] at hp
      have := (hinv.ids l lp hl).2
      rw [← hp, e]
      simp only [page_id_t] at *
      exact ⟨s1, by omega, by omega⟩
    · obtain ⟨cp, c1, c2, -⟩ := hold id p hp e
      have a := hinv.ids id cp c1
      have := a.2
      simp only [page_id_t] at *
      exact ⟨c2.trans a.1, by omega, by omega⟩
  · -- root
    rw [hroot, splitGhost_lo _ _ _ _ _ hrootN]
    obtain ⟨cp', c1⟩ := hkeep _ _ r1
    exact ⟨cp', c1, r3⟩
  · -- parent
    intro id p hp hne hpend
    rw [hroot] at hne
    have hidN : id ≠ t.next_page_id_ := hpend _ _ _ rfl
    rw [splitGhost_lvl _ _ _ _ _ hidN]
    by_cases e3 : id = r
    · rw [e3, hr2] at hp
      simp only [Option.some.injEq] at hp
      rw [← hp, Page.GetParentPageId_SetParentPageId, splitGhost_lvl_new, e3, hlvl, hlvlQ]
      exact ⟨s, hN2, rfl⟩
    · obtain ⟨cp, c1, -, -, -, c5⟩ := hold id p hp hidN
      rw [c5 e3]
      obtain ⟨qq, a, b⟩ := hinv.parent id cp c1 hne (fun l2 k2 r2 hh => by
        simp only [Option.some.injEq, Prod.mk.injEq] at hh
        rw [← hh.2.2]
        exact e3)
      obtain ⟨qq', c⟩ := hkeepI _ qq a
      rw [splitGhost_lvl _ _ _ _ _ (hfresh _ _ a)]
      exact ⟨qq', c, b⟩
  · -- leaf
    intro id p hp
    have e : id ≠ t.next_page_id_ := by
      intro e
      rw [e, hN2] at hp
      simp at hp
    obtain ⟨cp, c1, -, c3, -⟩ := hold id _ hp e
    obtain ⟨lp0, e0, e1, e2, e3⟩ := c3 p rfl
    rw [e0] at c1
    rw [hL, e1, e2, e3, splitGhost_lvl _ _ _ _ _ e, splitGhost_lo _ _ _ _ _ e]
    exact hinv.leaf id lp0 c1
  · -- internal
    intro id p hp
    rw [hI]
    by_cases e : id = t.next_page_id_
    · rw [e, hN2] at hp
      simp only [Option.some.injEq, Page.internal.injEq] at hp
      rw [← hp, e, splitGhost_lvl_new, splitGhost_lo_new, s3]
      have hQlvl := (hinv.internal Q q hQ).1
      refine ⟨hQlvl, s2, le_refl _, by omega, ?_⟩
      intro i hi0 hi1
      have e0 : i = 0 := by omega
      rw [e0, s4, if_pos rfl, splitGhost_lvl _ _ _ _ _ hrN, splitGhost_lo _ _ _ _ _ hrN]
      exact ⟨_, hr2, by omega, hlor, fun h => absurd h (by decide)⟩
    · obtain ⟨cp, c1, -, -, c4, -⟩ := hold id _ hp e
      obtain ⟨ip0, e0, e1, e2, e3⟩ := c4 p rfl
      rw [e0] at c1
      rw [e1, e2, splitGhost_lvl _ _ _ _ _ e, splitGhost_lo _ _ _ _ _ e]
      obtain ⟨a, b, c, d, hch⟩ := hinv.internal id ip0 c1
      refine ⟨a, b, c, d, ?_⟩
      intro i hi0 hi1
      rw [e3 i]
      obtain ⟨cp1, d1, d2, d3, d4⟩ := hch i hi0 hi1
      have hcN := hfresh _ _ d1
      obtain ⟨cp', f1⟩ := hkeep _ _ d1
      rw [splitGhost_lvl _ _ _ _ _ hcN, splitGhost_lo _ _ _ _ _ hcN]
      exact ⟨cp', f1, d2, d3, d4⟩
  · -- depth
    rw [hroot, splitGhost_lvl _ _ _ _ _ hrootN]
    have := hinv.depth
    omega
  · -- levels
    intro id p hp
    rw [hroot, splitGhost_lvl _ _ _ _ _ hrootN]
    by_cases e : id = t.next_page_id_
    · rw [e, splitGhost_lvl_new]
      exact hinv.lvlRoot Q _ hQ
    · rw [splitGhost_lvl _ _ _ _ _ e]
      obtain ⟨cp, c1, -⟩ := hold id p hp e
      exact hinv.lvlRoot id cp c1
  · intro l2 k2 r2 hpend
    simp only [Option.some.injEq, Prod.mk.injEq] at hpend
    obtain ⟨a, b, c⟩ := hpend
    rw [← a, ← b, ← c, hroot, splitGhost_lvl_new, splitGhost_lvl _ _ _ _ _ hQN,
      splitGhost_lo_new]
    exact ⟨⟨_, hQ2⟩, ⟨_, hN2⟩, fun e => hrootN e.symm, hQN, rfl, rfl⟩

/-- The root case of `InsertInParent`, as a run of the code: the fresh page is the new
root with the two pages below it. -/
theorem BPlusTree.InsertInParent_root_run (fuel : Nat) (t : BPlusTree) (l k r : Int)
    (lp rp : Page) (hl : t.FetchPage l = some lp) (hlid : lp.GetPageId = l)
    (hlroot : l = t.root_page_id_) (hr : t.FetchPage r = some rp) (hrl : r ≠ l)
    (hrN : r ≠ t.next_page_id_) (hNnone : t.FetchPage t.next_page_id_ = none) :
    ∃ t', BPlusTree.InsertInParent (fuel + 1) t l k r = some t' ∧
      (∀ id, t'.FetchPage id
        = if id = r then some (rp.SetParentPageId t.next_page_id_)
          else if id = l then some (lp.SetParentPageId t.next_page_id_)
          else if id = t.next_page_id_ then some (.internal
            (BPlusTree.InsertInParent.newRoot t.next_page_id_ t.internal_max_size_ l k r))
          else t.FetchPage id) ∧
      t'.root_page_id_ = t.next_page_id_ ∧ t'.next_page_id_ = t.next_page_id_ + 1 ∧
      t'.leaf_max_size_ = t.leaf_max_size_ ∧
      t'.internal_max_size_ = t.internal_max_size_ ∧
      t.pages_.length + 1 ≤ t'.pages_.length := by
  have hr1 : (((t.NewPage).2.write t.next_page_id_ (.internal
      (BPlusTree.InsertInParent.newRoot t.next_page_id_ t.internal_max_size_ l k r))).write l
      (lp.SetParentPageId t.next_page_id_)).FetchPage r = some rp := by
    rw [BPlusTree.FetchPage_write, if_neg hrl, BPlusTree.FetchPage_write, if_neg hrN]
    exact hr
  simp only [BPlusTree.InsertInParent, hl]
  rw [if_pos (by rw [hlid]; exact hlroot)]
  simp only [BPlusTree.NewPage] at hr1 ⊢
  rw [hr1]
  refine ⟨_, rfl, ?_, rfl, rfl, rfl, rfl, ?_⟩
  · intro id
    show (BPlusTree.write _ r _).FetchPage id = _
    rw [BPlusTree.FetchPage_write, BPlusTree.FetchPage_write, BPlusTree.FetchPage_write]
    rfl
  · show _ ≤ (BPlusTree.write (BPlusTree.write (BPlusTree.write _ _ _) _ _) r _).pages_.length
    refine le_trans ?_ (BPlusTree.write_length_le _ _ _)
    refine le_trans ?_ (BPlusTree.write_length_le _ _ _)
    exact le_of_eq (BPlusTree.write_length_of_not_mem t.NewPage.2 t.next_page_id_
      (.internal (BPlusTree.InsertInParent.newRoot t.next_page_id_ t.internal_max_size_
        l k r)) hNnone).symm

/-- With `internal_max_size` 0 or 1, `InsertInParent` enters a pending split: it returns,
and the invariant holds again with nothing pending. -/
theorem BPlusTree.InsertInParent_small :
    ∀ (fuel : Nat) (t : BPlusTree) (g : Ghost) (l k r : Int),
      DegInv t g (some (l, k, r)) → g.lvl t.root_page_id_ < fuel + g.lvl l →
      ∃ t' g', BPlusTree.InsertInParent fuel t l k r = some t' ∧ DegInv t' g' none := by
  intro fuel
  induction fuel with
  | zero =>
    intro t g l k r hinv hfuel
    obtain ⟨⟨lp, hl⟩, -⟩ := hinv.pending l k r rfl
    have := hinv.lvlRoot l lp hl
    omega
  | succ n ih =>
    intro t g l k r hinv hfuel
    obtain ⟨⟨lp, hl⟩, ⟨rp, hr⟩, hrroot, hlr, hlvl, hlor⟩ := hinv.pending l k r rfl
    have hlid := (hinv.ids l lp hl).1
    have hfresh : ∀ id p, t.FetchPage id = some p → id ≠ t.next_page_id_ := by
      intro id p hp e
      have := (hinv.ids id p hp).2.2
      simp only [page_id_t] at *
      omega
    have hNnone : t.FetchPage t.next_page_id_ = none := by
      cases h : t.FetchPage t.next_page_id_ with
      | none => rfl
      | some p => exact absurd rfl (hfresh _ p h)
    have hrN := hfresh r _ hr
    by_cases hlroot : l = t.root_page_id_
    · obtain ⟨t', h1, h2, h3, h4, h5, h6, h7⟩ := BPlusTree.InsertInParent_root_run n t l k r
        lp rp hl hlid hlroot hr (fun e => hlr e.symm) hrN hNnone
      obtain ⟨n1, -, n3, n4, n5, n6⟩ :=
        BPlusTree.InsertInParent.newRoot_spec t.next_page_id_ t.internal_max_size_ l k r
      exact ⟨t', rootGhost g l t.next_page_id_, h1,
        hinv.new_root_small hlroot lp rp _ hl hr h2 h3 h4 h5 h6 h7 n1 n3 n4 n5 n6⟩
    · obtain ⟨q, hQ, hlvlQ⟩ := hinv.parent l lp hl hlroot (fun l2 k2 r2 hh => by
        simp only [Option.some.injEq, Prod.mk.injEq] at hh
        rw [← hh.2.2]
        exact hlr)
      obtain ⟨i1, i2, i3, i4, -⟩ := hinv.internal _ q hQ
      have hI := hinv.internalMax
      have hroom : ¬ q.size_ < q.max_size_ := by omega
      have hQN := hfresh _ _ hQ
      have hQr : lp.GetParentPageId ≠ r := by
        intro e
        rw [e] at hlvlQ
        omega
      have hf1 : ∀ id, (((t.Pin lp.GetParentPageId).NewPage).2.write t.next_page_id_
          (.internal (InternalPage.Init t.next_page_id_ INVALID_PAGE_ID
            t.internal_max_size_))).FetchPage id
          = if id = t.next_page_id_ then some (.internal (InternalPage.Init t.next_page_id_
              INVALID_PAGE_ID t.internal_max_size_)) else t.FetchPage id := by
        intro id
        rw [BPlusTree.FetchPage_write]
        rfl
      obtain ⟨t2, q', s, hsplit, hfetch, s1, s2, s3, s4, q1, q2, q3, q4, q5, e1, e2, e3, e4,
          e5⟩ :=
        InternalPage.Split_small
          (((t.Pin lp.GetParentPageId).NewPage).2.write t.next_page_id_
            (.internal (InternalPage.Init t.next_page_id_ INVALID_PAGE_ID
              t.internal_max_size_)))
          lp.GetParentPageId k r t.next_page_id_ q rp t.internal_max_size_ hI.1 hI.2
          (by rw [hf1, if_neg hQN]; exact hQ) (by rw [hf1, if_neg hrN]; exact hr)
          (by rw [hf1, if_pos rfl]) i2 hQr (fun e => hrN e.symm) (fun e => hQN e.symm)
      have hfetch2 : ∀ id, t2.FetchPage id
          = if id = t.next_page_id_ then some (.internal s)
            else if id = lp.GetParentPageId then some (.internal q')
            else if id = r then some (rp.SetParentPageId t.next_page_id_)
            else t.FetchPage id := by
        intro id
        rw [hfetch id, hf1]
        by_cases c1 : id = t.next_page_id_
        · rw [if_pos c1, if_pos c1]
        · rw [if_neg c1, if_neg c1, if_neg c1]
      have hs0 : s.KeyAt 0 = k := by
        show (arrGet s.array_ 0).1 = k
        rw [s4]
      have hlen : t.pages_.length ≤ t2.pages_.length := by
        refine le_trans ?_ e5
        exact BPlusTree.write_length_le ((t.Pin lp.GetParentPageId).NewPage).2 _ _
      have hinv2 := hinv.parent_small rp q q' s hr hQ hlvlQ hfetch2 s1 s2 s3 s4 q1 q2 q3 q4 q5
        e1 e2 e3 e4 hlen
      obtain ⟨rootp, hrootp, -⟩ := hinv.root
      have hfuel2 : (splitGhost g lp.GetParentPageId t.next_page_id_ k).lvl t2.root_page_id_
          < n + (splitGhost g lp.GetParentPageId t.next_page_id_ k).lvl
            lp.GetParentPageId := by
        have e1' : t2.root_page_id_ = t.root_page_id_ := e1
        rw [e1', splitGhost_lvl _ _ _ _ _ (hfresh _ _ hrootp),
          splitGhost_lvl _ _ _ _ _ hQN, hlvlQ]
        omega
      obtain ⟨t3, g3, hrec, hinv3⟩ := ih t2 _ _ _ _ hinv2 hfuel2
      refine ⟨(t3.UnpinPage t.next_page_id_).UnpinPage lp.GetParentPageId, g3, ?_, ?_⟩
      · simp only [BPlusTree.InsertInParent, hl]
        rw [if_neg (by rw [hlid]; exact hlroot)]
        simp only [hQ]
        rw [if_neg hroom]
        have e : ((t.Pin lp.GetParentPageId).NewPage).1 = t.next_page_id_ := rfl
        have hN2 : t2.FetchPage t.next_page_id_ = some (.internal s) := by
          rw [hfetch2, if_pos rfl]
        simp only [e, hsplit, hN2, hs0, hrec]
      · exact hinv3.of_equal_store
          ((BPlusTree.sameStore.unpin _ _).trans (BPlusTree.sameStore.unpin _ _))

/-- With `internal_max_size` 0 or 1, the part of `Insert` at the leaf keeps `DegInv`
whenever it returns. -/
theorem BPlusTree.Insert.atLeaf_small (t : BPlusTree) (g : Ghost) (X : Int) (lp : LeafPage)
    (key : Int) (v : ValueType) (b : Bool) (t' : BPlusTree) (hinv : DegInv t g none)
    (hX : t.FetchPage X = some (.leaf lp)) (hlo : loLe (g.lo X) key)
    (h : BPlusTree.Insert.atLeaf t X key v = some (b, t')) :
    ∃ g', DegInv t' g' none := by
  obtain ⟨l1, l2, l3, l4, l5, l6, l7, l8⟩ := hinv.leaf X lp hX
  by_cases hdup : lp.KeyIndex key < lp.size_
      ∧ comparator (key, v).1 (arrGet lp.array_ (lp.KeyIndex key)).1 = 0
  · unfold BPlusTree.Insert.atLeaf at h
    simp only [hX] at h
    unfold LeafPage.Insert at h
    rw [if_pos hdup] at h
    simp only [if_true, Option.some.injEq, Prod.mk.injEq] at h
    rw [← h.2]
    exact ⟨g, hinv.of_equal_store (BPlusTree.sameStore.unpin _ _)⟩
  · have hnew : ¬ (lp.KeyIndex key < lp.size_ ∧
        comparator (lp.KeyAt (lp.KeyIndex key)) key = 0) := by
      intro hh
      apply hdup
      refine ⟨hh.1, ?_⟩
      rw [comparator_eq] at hh ⊢
      exact hh.2.symm
    obtain ⟨s1, s2, s3, s4, s5, s6, s7, s8, s9⟩ := LeafPage.Insert_spec lp key v l3 l6 hnew
    obtain ⟨hsorted', hbounds', hfirst'⟩ := LeafPage.Insert_keeps lp key v (g.lo X) none
      l3 l6 (fun i hi0 hi1 => ⟨l7 i hi0 hi1, fun x hx => Option.noConfusion hx⟩)
      (fun a ha => ⟨l5 (by rw [ha]; exact Option.some_ne_none a), l8 a ha⟩) hlo
      (fun x hx => Option.noConfusion hx) hnew
    have hLmax := hinv.leafMax
    by_cases hfull : lp.size_ + 1 = t.leaf_max_size_
    · have hfresh : ∀ id p, t.FetchPage id = some p → id ≠ t.next_page_id_ := by
        intro id p hp e
        have := (hinv.ids id p hp).2.2
        simp only [page_id_t] at *
        omega
      have hXN := hfresh X _ hX
      generalize hlp' : (lp.Insert (key, v) (lp.KeyIndex key)).2 = lp' at *
      have hsz' : lp'.size_ = t.leaf_max_size_ := by rw [s6, hfull]
      have hmax' : lp'.max_size_ = t.leaf_max_size_ := by rw [s4, l2]
      obtain ⟨p1, p2, p3, p4, p5, p6, p7⟩ := LeafPage.Split_spec lp'
        (LeafPage.Init t.next_page_id_ INVALID_PAGE_ID t.leaf_max_size_) (by omega) (by omega)
      generalize hhalves : lp'.Split
        (LeafPage.Init t.next_page_id_ INVALID_PAGE_ID t.leaf_max_size_) = halves at *
      rw [hsz', hmax'] at p1 p7
      rw [hmax', hsz'] at p6
      have hp6 : halves.2.size_ = t.leaf_max_size_ - t.leaf_max_size_ / 2 := by
        rw [p6]
        simp only [LeafPage.Init]
        omega
      have hpr : ∀ i, 0 ≤ i → i < t.leaf_max_size_ - t.leaf_max_size_ / 2 →
          arrGet halves.2.array_ i = arrGet lp'.array_ (t.leaf_max_size_ / 2 + i) := by
        intro i h0 h1
        rw [p7 i, if_pos ⟨h0, h1⟩]
      have hsep : halves.2.KeyAt 0 = (arrGet lp'.array_ (t.leaf_max_size_ / 2)).1 := by
        unfold LeafPage.KeyAt
        rw [hpr 0 (le_refl _) (by omega), add_zero]
      rw [hfull] at hsorted' hbounds'
      have hfetch : ∀ id, ((((t.write X (.leaf lp')).NewPage).2.write X
          (.leaf halves.1)).write t.next_page_id_ (.leaf halves.2)).FetchPage id
          = if id = t.next_page_id_ then some (.leaf halves.2)
            else if id = X then some (.leaf halves.1) else t.FetchPage id := by
        intro id
        rw [BPlusTree.FetchPage_write, BPlusTree.FetchPage_write]
        by_cases e1 : id = t.next_page_id_
        · rw [if_pos e1, if_pos e1]
        · rw [if_neg e1, if_neg e1]
          by_cases e2 : id = X
          · rw [if_pos e2, if_pos e2]
          · rw [if_neg e2, if_neg e2]
            show (t.write X (.leaf lp')).FetchPage id = _
            rw [BPlusTree.FetchPage_write, if_neg e2]
      have hinv2 := hinv.split_leaf_small X lp halves.1 halves.2 (halves.2.KeyAt 0) hX hfetch
        rfl rfl rfl rfl
        (by
          refine le_trans ?_ (BPlusTree.write_length_le _ _ _)
          refine le_trans ?_ (BPlusTree.write_length_le _ _ _)
          exact BPlusTree.write_length_le t _ _)
        (by rw [p1]; exact s2) (by rw [p1]; exact s3) (by rw [p1]; exact l2.symm)
        (by rw [p1]; simp only; omega)
        (by
          rw [p1]
          simp only
          intro hne
          have := l5 hne
          omega)
        (by rw [p1]; simp only; omega)
        (by
          rw [p1]
          simp only
          intro i j hi hij hj
          exact hsorted' i j hi hij (by omega))
        (by
          rw [p1]
          simp only
          intro i hi0 hi1
          exact (hbounds' i hi0 (by omega)).1)
        (by rw [p1]; exact hfirst')
        p2 p4 (by rw [hp6]; omega) (by rw [hp6]; omega)
        (by
          rw [hp6]
          intro i j hi hij hj
          rw [hpr i (by omega) (by omega), hpr j (by omega) (by omega)]
          exact hsorted' _ _ (by omega) (by omega) (by omega))
        (by
          rw [hp6, hsep]
          intro i hi0 hi1
          rw [hpr i hi0 hi1]
          exact hsorted'.mono _ _ (by omega) (by omega) (by omega))
        rfl
      obtain ⟨t3, g3, hrec, hinv3⟩ := BPlusTree.InsertInParent_small
        (((((t.write X (.leaf lp')).NewPage).2.write X (.leaf halves.1)).write
          t.next_page_id_ (.leaf halves.2)).pages_.length + 1) _ _ X (halves.2.KeyAt 0)
        t.next_page_id_ hinv2 (by have := hinv2.depth; omega)
      have hrun : BPlusTree.Insert.atLeaf t X key v
          = some (true, (t3.UnpinPage t.next_page_id_).UnpinPage X) := by
        unfold BPlusTree.Insert.atLeaf
        simp only [hX, hlp', s1, Bool.true_eq_false, if_false]
        rw [if_pos hsz']
        have e : ((t.write X (.leaf lp')).NewPage).1 = t.next_page_id_ := rfl
        simp only [e, hhalves, hrec]
      rw [hrun] at h
      simp only [Option.some.injEq, Prod.mk.injEq] at h
      rw [← h.2]
      exact ⟨g3, hinv3.of_equal_store
        ((BPlusTree.sameStore.unpin _ _).trans (BPlusTree.sameStore.unpin _ _))⟩
    · have hrun : BPlusTree.Insert.atLeaf t X key v
          = some (true,
            (t.write X (.leaf (lp.Insert (key, v) (lp.KeyIndex key)).2)).UnpinPage X) := by
        unfold BPlusTree.Insert.atLeaf
        simp only [hX, s1, Bool.true_eq_false, if_false]
        rw [if_neg (by rw [s6]; exact hfull)]
      rw [hrun] at h
      simp only [Option.some.injEq, Prod.mk.injEq] at h
      rw [← h.2]
      refine ⟨g, DegInv.of_equal_store ?_ (BPlusTree.sameStore.unpin _ _)⟩
      apply hinv.write_leaf_small X lp _ hX s2 s3 s4
      · rw [s6]
        omega
      · intro h2
        have := l4 h2
        rw [s6]
        omega
      · intro _
        rw [s6]
        omega
      · rw [s6]
        exact hsorted'
      · rw [s6]
        intro i hi0 hi1
        exact (hbounds' i hi0 hi1).1
      · exact hfirst'

/-- The first `Insert` into an empty tree with `internal_max_size` 0 or 1: the state after
the root leaf was created. -/
theorem BPlusTree.StartNewTree_small (t : BPlusTree)
    (hroot : t.root_page_id_ = INVALID_PAGE_ID) (hpages : t.pages_ = [])
    (hnext : (1 : Int) ≤ t.next_page_id_) (hL : 1 ≤ t.leaf_max_size_)
    (hI0 : 0 ≤ t.internal_max_size_) (hI1 : t.internal_max_size_ ≤ 1) :
    DegInv t.StartNewTree
      { lvl := fun _ => 0, lo := fun _ => none, hi := fun _ => none,
        chain := [t.next_page_id_] } none := by
  have hfetch : ∀ id, t.StartNewTree.FetchPage id
      = if id = t.next_page_id_ then
          some (.leaf (LeafPage.Init t.next_page_id_ INVALID_PAGE_ID t.leaf_max_size_))
        else none := by
    intro id
    show (BPlusTree.write t.NewPage.2 _ _).FetchPage id = _
    rw [BPlusTree.FetchPage_write]
    have : t.NewPage.2.FetchPage id = none := by
      show mapFind t.pages_ id = none
      rw [hpages]
      rfl
    rw [this]
    rfl
  have hrootN : t.StartNewTree.root_page_id_ = t.next_page_id_ := rfl
  have hpage : ∀ id p, t.StartNewTree.FetchPage id = some p →
      id = t.next_page_id_ ∧
      p = .leaf (LeafPage.Init t.next_page_id_ INVALID_PAGE_ID t.leaf_max_size_) := by
    intro id p hp
    rw [hfetch] at hp
    by_cases e : id = t.next_page_id_
    · rw [if_pos e] at hp
      simp only [Option.some.injEq] at hp
      exact ⟨e, hp.symm⟩
    · rw [if_neg e] at hp
      exact Option.noConfusion hp
  refine ⟨hL, ⟨hI0, hI1⟩, ?_, ?_, ?_, ?_, ?_, ?_, ?_, ?_⟩
  · intro id p hp
    obtain ⟨e1, e2⟩ := hpage id p hp
    rw [e1, e2]
    refine ⟨rfl, hnext, ?_⟩
    show t.next_page_id_ < t.next_page_id_ + 1
    simp only [page_id_t] at *
    omega
  · rw [hrootN, hfetch, if_pos rfl]
    exact ⟨_, rfl, rfl⟩
  · intro id p hp hne _
    exact absurd (hpage id p hp).1 (by rw [hrootN] at hne; exact hne)
  · intro id p hp
    obtain ⟨e1, e2⟩ := hpage id _ hp
    simp only [Page.leaf.injEq] at e2
    rw [e1, e2]
    refine ⟨rfl, rfl, le_refl _, ?_, fun h => absurd rfl h, ?_, ?_, ?_⟩
    · intro _
      show (0 : Int) < t.leaf_max_size_
      omega
    · intro i j hi hij hj
      simp only [LeafPage.Init] at hj
      omega
    · intro i hi0 hi1
      simp only [LeafPage.Init] at hi1
      omega
    · intro a ha
      exact Option.noConfusion ha
  · intro id p hp
    obtain ⟨-, e2⟩ := hpage id _ hp
    exact Page.noConfusion e2
  · show 0 + 1 ≤ (BPlusTree.write t.NewPage.2 _ _).pages_.length
    rw [BPlusTree.write_length_of_not_mem]
    · omega
    · show mapFind t.pages_ _ = none
      rw [hpages]
      rfl
  · intro id p _
    exact le_refl _
  · intro l k r h
    exact Option.noConfusion h

/-- One `Insert` call that returns keeps the state invariant of small internal sizes. -/
theorem DegState.insert_small {t : BPlusTree} (h : DegState t) (k : Int) (v : ValueType)
    (b : Bool) (t' : BPlusTree) (hins : t.Insert k v = some (b, t')) : DegState t' := by
  have hnonempty : ∀ (t0 : BPlusTree) (g : Ghost), DegInv t0 g none →
      t0.Insert k v = some (b, t') → DegState t' := by
    intro t0 g hinv h0
    unfold BPlusTree.Insert at h0
    cases hf : t0.FindLeafPage k with
    | none => simp [hf] at h0
    | some r =>
      obtain ⟨o, t1⟩ := r
      obtain ⟨id, lp, e1, e2, e3⟩ := BPlusTree.FindLeafPage_small t0 g k hinv o t1 hf
      have hs := BPlusTree.FindLeafPage_sameStore t0 k _ _ hf
      rw [e1] at hf
      simp only [hf] at h0
      exact Or.inr (BPlusTree.Insert.atLeaf_small t1 g id lp k v b t' (hinv.of_equal_store hs)
        (by rw [hs.fetch]; exact e2) e3 h0)
  rcases h with ⟨e1, e2, e3, e4, e5, e6⟩ | ⟨g, hinv⟩
  · have hinv0 := BPlusTree.StartNewTree_small t e1 e2 e3 e4 e5 e6
    have he : t.IsEmpty = true := by
      unfold BPlusTree.IsEmpty
      rw [e1]
      rfl
    have hf : t.FindLeafPage k = some (none, t) := by
      unfold BPlusTree.FindLeafPage
      rw [he]
      rfl
    cases hf2 : t.StartNewTree.FindLeafPage k with
    | none =>
      unfold BPlusTree.Insert at hins
      simp [hf, he, hf2] at hins
    | some r =>
      obtain ⟨o, t3⟩ := r
      obtain ⟨id, lp, c1, c2, c3⟩ := BPlusTree.FindLeafPage_small _ _ k hinv0 o t3 hf2
      rw [c1] at hf2
      rw [BPlusTree.Insert_empty t e1 k v id t3 hf2] at hins
      exact hnonempty _ _ hinv0 hins
  · exact hnonempty t g hinv hins

/-- Every state of an insert-only run with a leaf size of at least 1 and
`internal_max_size` 0 or 1 satisfies `DegState`. -/
theorem InsertReach.small_state {name : String} {L I : Int} {t : BPlusTree}
    {m : List (Int × ValueType)} (h : InsertReach name L I t m) (hL : 1 ≤ L) (hI0 : 0 ≤ I)
    (hI1 : I ≤ 1) : DegState t := by
  induction h with
  | init =>
    exact Or.inl ⟨rfl, rfl, le_refl _, hL, hI0, hI1⟩
  | step k v b t' hreach hins ih =>
    exact ih.insert_small k v b t' hins

/-- Under `DegInv` every key below a page is at or above the lower bound of the page. -/
theorem DegInv.subtree_ge_small {t : BPlusTree} {g : Ghost} (hinv : DegInv t g none) :
    ∀ (fuel : Nat) (c : Int) (k : Int), k ∈ t.subtreeKeys fuel c → loLe (g.lo c) k := by
  intro fuel
  induction fuel with
  | zero =>
    intro c k hk
    simp [BPlusTree.subtreeKeys] at hk
  | succ n ih =>
    intro c k hk
    simp only [BPlusTree.subtreeKeys] at hk
    cases hp : t.FetchPage c with
    | none =>
      rw [hp] at hk
      simp at hk
    | some pg =>
      rw [hp] at hk
      cases pg with
      | leaf lp =>
        simp only at hk
        obtain ⟨⟨k2, v2⟩, hmem, hfst⟩ := List.mem_map.1 hk
        obtain ⟨i, i0, i1, i2⟩ := (LeafPage.mem_slots lp _).1 hmem
        have := (hinv.leaf c lp hp).2.2.2.2.2.2.1 i i0 i1
        rw [i2] at this
        simp only at hfst this
        rw [← hfst]
        exact this
      | internal ip =>
        simp only at hk
        obtain ⟨child, hchild, hkc⟩ := List.mem_bind.1 hk
        obtain ⟨⟨k2, c2⟩, hmem, hsnd⟩ := List.mem_map.1 hchild
        obtain ⟨j, j0, j1, j2⟩ := (InternalPage.mem_slots_iff ip _).1 hmem
        simp only at hsnd
        obtain ⟨-, -, -, -, hchildren⟩ := hinv.internal c ip hp
        obtain ⟨cp, -, -, c4, c5⟩ := hchildren j j0 j1
        have h1 := ih child k hkc
        rw [← hsnd] at h1
        have e2 : (arrGet ip.array_ j).2 = c2 := by rw [j2]
        rw [← e2, c4] at h1
        by_cases e : j = 0
        · rw [if_pos e] at h1
          exact h1
        · rw [if_neg e] at h1
          intro x hx
          have h3 := c5 (by omega) x hx
          have h4 := h1 _ rfl
          exact le_trans h3 h4

/-- Under `DegInv` the lower bound of a page is a key stored below the page. -/
theorem DegInv.subtree_has_lo_small {t : BPlusTree} {g : Ghost} (hinv : DegInv t g none) :
    ∀ (fuel : Nat) (c : Int) (a : Int), (∃ p, t.FetchPage c = some p) → g.lo c = some a →
      g.lvl c < fuel → a ∈ t.subtreeKeys fuel c := by
  intro fuel
  induction fuel with
  | zero =>
    intro c a _ _ hl
    omega
  | succ n ih =>
    intro c a hp hlo hl
    obtain ⟨pg, hp⟩ := hp
    simp only [BPlusTree.subtreeKeys, hp]
    cases pg with
    | leaf lp =>
      simp only
      obtain ⟨-, -, -, -, l5, -, -, l8⟩ := hinv.leaf c lp hp
      have hsz : 1 ≤ lp.size_ := l5 (by rw [hlo]; exact Option.some_ne_none a)
      exact List.mem_map.2 ⟨arrGet lp.array_ 0,
        (LeafPage.mem_slots lp _).2 ⟨0, le_refl _, by omega, rfl⟩, l8 a hlo⟩
    | internal ip =>
      simp only
      obtain ⟨-, -, hsz, -, hchildren⟩ := hinv.internal c ip hp
      obtain ⟨cp, c1, c3, c4, -⟩ := hchildren 0 (le_refl _) (by omega)
      rw [if_pos rfl, hlo] at c4
      refine List.mem_bind.2 ⟨(arrGet ip.array_ 0).2, ?_, ih _ a ⟨cp, c1⟩ c4 (by omega)⟩
      exact List.mem_map.2 ⟨arrGet ip.array_ 0,
        (InternalPage.mem_slots_iff ip _).2 ⟨0, le_refl _, by omega, rfl⟩, rfl⟩

/-- Under `DegInv` the key of a slot `i > 0` of an internal page is the least key stored
below the child of the slot. -/
theorem DegInv.separator_least_small {t : BPlusTree} {g : Ghost} (hinv : DegInv t g none)
    (id : Int) (p : InternalPage) (i : Int) (hp : t.FetchPage id = some (.internal p))
    (hi1 : 1 ≤ i) (hi2 : i < p.size_) (fuel : Nat) (hfuel : t.pages_.length ≤ fuel) :
    p.KeyAt i ∈ t.subtreeKeys fuel (p.ValueAt i) ∧
    ∀ k, k ∈ t.subtreeKeys fuel (p.ValueAt i) → p.KeyAt i ≤ k := by
  unfold InternalPage.KeyAt InternalPage.ValueAt
  obtain ⟨-, -, -, -, hchildren⟩ := hinv.internal id p hp
  obtain ⟨cp, c1, c3, c4, -⟩ := hchildren i (by omega) hi2
  rw [if_neg (by omega)] at c4
  have hlvl := hinv.lvlRoot id _ hp
  have hdepth := hinv.depth
  refine ⟨hinv.subtree_has_lo_small fuel _ _ ⟨cp, c1⟩ c4 (by omega), ?_⟩
  intro k hk
  exact hinv.subtree_ge_small fuel _ k hk _ c4

/-! ## Insert-only runs with `leaf_max_size` below 1 -/

/-- With `leaf_max_size` below 1, the part of `Insert` at the leaf keeps `LeafOnly`
whenever it returns: the leaf never has `leaf_max_size` slots after a slot was added. -/
theorem BPlusTree.Insert.atLeaf_leafOnly (t : BPlusTree) (X : Int) (key : Int)
    (v : ValueType) (b : Bool) (t' : BPlusTree) (hinv : LeafOnly t)
    (hL : t.leaf_max_size_ ≤ 0)
    (h : BPlusTree.Insert.atLeaf t X key v = some (b, t')) : LeafOnly t' := by
  unfold BPlusTree.Insert.atLeaf at h
  cases hX : t.FetchPage X with
  | none => simp [hX] at h
  | some pg =>
    cases pg with
    | internal q => simp [hX] at h
    | leaf lp =>
      simp only [hX] at h
      obtain ⟨lp0, e0, hsz⟩ := hinv X _ hX
      simp only [Page.leaf.injEq] at e0
      rw [← e0] at hsz
      by_cases hdup : lp.KeyIndex key < lp.size_
          ∧ comparator (key, v).1 (arrGet lp.array_ (lp.KeyIndex key)).1 = 0
      · unfold LeafPage.Insert at h
        rw [if_pos hdup] at h
        simp only [if_true, Option.some.injEq, Prod.mk.injEq] at h
        rw [← h.2]
        intro id p hp
        rw [(BPlusTree.sameStore.unpin t X).fetch] at hp
        exact hinv id p hp
      · unfold LeafPage.Insert at h
        rw [if_neg hdup] at h
        simp only [Bool.true_eq_false, if_false] at h
        rw [if_neg (by omega)] at h
        simp only [Option.some.injEq, Prod.mk.injEq] at h
        rw [← h.2]
        intro id p hp
        rw [(BPlusTree.sameStore.unpin _ X).fetch, BPlusTree.FetchPage_write] at hp
        by_cases e : id = X
        · rw [if_pos e] at hp
          simp only [Option.some.injEq] at hp
          rw [← hp]
          exact ⟨_, rfl, by show 0 ≤ lp.size_ + 1; omega⟩
        · rw [if_neg e] at hp
          exact hinv id p hp

theorem LeafOnly.of_same {t t' : BPlusTree} (h : LeafOnly t) (hs : t.sameStore t') :
    LeafOnly t' := by
  intro id p hp
  rw [hs.fetch] at hp
  exact h id p hp

theorem LeafOnly.start {t : BPlusTree} (h : LeafOnly t) : LeafOnly t.StartNewTree := by
  intro id p hp
  have hf : t.StartNewTree.FetchPage id
      = if id = t.next_page_id_ then
          some (.leaf (LeafPage.Init t.next_page_id_ INVALID_PAGE_ID t.leaf_max_size_))
        else t.FetchPage id := by
    show (BPlusTree.write t.NewPage.2 _ _).FetchPage id = _
    rw [BPlusTree.FetchPage_write]
    rfl
  rw [hf] at hp
  by_cases e : id = t.next_page_id_
  · rw [if_pos e] at hp
    simp only [Option.some.injEq] at hp
    rw [← hp]
    exact ⟨_, rfl, le_refl _⟩
  · rw [if_neg e] at hp
    exact h id p hp

/-- With `leaf_max_size` below 1, one `Insert` call that returns keeps `LeafOnly`. -/
theorem LeafOnly.insert_leaf_only {t : BPlusTree} (h : LeafOnly t)
    (hL : t.leaf_max_size_ ≤ 0) (k : Int) (v : ValueType) (b : Bool) (t' : BPlusTree)
    (hins : t.Insert k v = some (b, t')) : LeafOnly t' := by
  unfold BPlusTree.Insert at hins
  cases hf : t.FindLeafPage k with
  | none => simp [hf] at hins
  | some r =>
    obtain ⟨o, t1⟩ := r
    have hs := BPlusTree.FindLeafPage_sameStore t k _ _ hf
    cases o with
    | some page =>
      simp only [hf] at hins
      exact BPlusTree.Insert.atLeaf_leafOnly t1 page k v b t' (h.of_same hs)
        (by rw [hs.2.2.2.1]; exact hL) hins
    | none =>
      simp only [hf] at hins
      have h1 := h.of_same hs
      have hL1 : t1.leaf_max_size_ ≤ 0 := by rw [hs.2.2.2.1]; exact hL
      cases he : t1.IsEmpty with
      | true =>
        rw [he] at hins
        simp only [if_true] at hins
        cases hf2 : t1.StartNewTree.FindLeafPage k with
        | none => simp [hf2] at hins
        | some r2 =>
          obtain ⟨o2, t3⟩ := r2
          have hs2 := BPlusTree.FindLeafPage_sameStore _ k _ _ hf2
          cases o2 with
          | none => simp [hf2] at hins
          | some page =>
            simp only [hf2] at hins
            exact BPlusTree.Insert.atLeaf_leafOnly t3 page k v b t' (h1.start.of_same hs2)
              (by rw [hs2.2.2.2.1]; exact hL1) hins
      | false =>
        rw [he] at hins
        simp only [Bool.false_eq_true, if_false] at hins
        cases hf2 : t1.FindLeafPage k with
        | none => simp [hf2] at hins
        | some r2 =>
          obtain ⟨o2, t3⟩ := r2
          have hs2 := BPlusTree.FindLeafPage_sameStore _ k _ _ hf2
          cases o2 with
          | none => simp [hf2] at hins
          | some page =>
            simp only [hf2] at hins
            exact BPlusTree.Insert.atLeaf_leafOnly t3 page k v b t' (h1.of_same hs2)
              (by rw [hs2.2.2.2.1]; exact hL1) hins

/-- Every state of an insert-only run with `leaf_max_size` below 1 holds leaf pages only:
no leaf is ever split. -/
theorem InsertReach.leaf_only {name : String} {L I : Int} {t : BPlusTree}
    {m : List (Int × ValueType)} (h : InsertReach name L I t m) (hL : L ≤ 0) :
    LeafOnly t := by
  induction h with
  | init =>
    intro id p hp
    exact Option.noConfusion hp
  | step k v b t' hreach hins ih =>
    exact ih.insert_leaf_only (by rw [hreach.sizes.1]; exact hL) k v b t' hins
/-! ## LRU-K replacer: the claims -/

/-- C5 (as amended): in every reachable state with `K ≥ 1` in which some tracked frame
is evictable and no evictable frame carries the id `-1` (the value `Evict` uses for "no
candidate yet"), `Evict` returns an evictable frame `f` such that (a) if some evictable
frame has fewer than `K` recorded accesses then `f` has fewer than `K` accesses and its
oldest recorded timestamp is strictly smaller than that of every other evictable frame
with fewer than `K` accesses; (b) otherwise the `K`-th most recent access of `f` is
strictly older than that of every other evictable frame. -/
theorem Evict_returns_lru_k_victim (n k : Nat) (r : LRUKReplacer) (hn : n < SIZE_MOD)
    (hk : 1 ≤ k) (hr : Reachable n k r) (hev : evictableFrames r ≠ [])
    (hneg : (-1 : frame_id_t) ∉ evictableFrames r) :
    ∃ f, (Evict r).1 = some f ∧ f ∈ evictableFrames r ∧
      ((∃ g ∈ evictableFrames r, (history r g).length < k) →
        (history r f).length < k ∧
        ∀ g ∈ evictableFrames r, (history r g).length < k → g ≠ f →
          front (history r f) < front (history r g)) ∧
      ((∀ g ∈ evictableFrames r, ¬ (history r g).length < k) →
        ∃ tf, kthRecent k (history r f) = some tf ∧
          ∀ g ∈ evictableFrames r, g ≠ f →
            ∃ tg, kthRecent k (history r g) = some tg ∧ tf < tg) := by
  have hinv := Reachable.inv n k r hn hr
  have hlen := hinv.history_le n k r hk
  have hke := hinv.k_eq
  have hneg2 : ∀ e ∈ r.frame_map_, e.2.evictable_ = true → e.1 ≠ -1 := by
    intro e he hee heq
    apply hneg
    rw [← heq]
    simp only [evictableFrames, List.mem_map, List.mem_filter]
    exact ⟨e, ⟨he, hee⟩, rfl⟩
  rcases Evict.scan_from_none r r.frame_map_ hlen hneg2 with ⟨h1, _⟩ | ⟨⟨e, he, h3, h4⟩, h5, h6⟩
  · exfalso
    apply hev
    simp only [evictableFrames, List.map_eq_nil_iff, List.filter_eq_nil_iff]
    exact h1
  · have hfe : e.1 ∈ evictableFrames r := by
      simp only [evictableFrames, List.mem_map, List.mem_filter]
      exact ⟨e, ⟨he, h3⟩, rfl⟩
    have hres : (Evict r).1 = some e.1 := by
      unfold Evict
      simp only
      rw [← h4] at h5 ⊢
      simp [h5]
    have hfi : mapFind r.frame_map_ e.1 = some e.2 := mapFind_of_mem _ _ _ hinv.nodup he
    have hnb : ∀ g ∈ evictableFrames r, ¬ judge r g e.1 = true := by
      intro g hg
      simp only [evictableFrames, List.mem_map, List.mem_filter] at hg
      obtain ⟨e2, ⟨he2, hee2⟩, rfl⟩ := hg
      rw [h4]
      exact h6 e2 he2 hee2
    have hfne : ∀ g ∈ evictableFrames r, g ≠ e.1 →
        front (history r e.1) ≠ front (history r g) := by
      intro g hg hne
      obtain ⟨i2, hgi, _⟩ := (mem_evictableFrames r hinv.nodup g).1 hg
      exact hinv.front_ne n k r e.1 g e.2 i2 hfi hgi hne
    refine ⟨e.1, hres, hfe, ?_, ?_⟩
    · rintro ⟨g, hg, hgl⟩
      have hfl : (history r e.1).length < k := by
        have := hnb g hg
        rw [judge_eq_true_iff] at this
        have := hlen e.1
        omega
      refine ⟨hfl, ?_⟩
      intro g2 hg2 hg2l hne
      have h7 := hnb g2 hg2
      rw [judge_eq_true_iff] at h7
      have h8 := hfne g2 hg2 hne
      omega
    · intro hall
      have hfl : (history r e.1).length = k := by
        have := hall e.1 hfe
        have := hlen e.1
        omega
      refine ⟨front (history r e.1), kthRecent_full k _ hk hfl, ?_⟩
      intro g hg hne
      have hgl : (history r g).length = k := by
        have := hall g hg
        have := hlen g
        omega
      refine ⟨front (history r g), kthRecent_full k _ hk hgl, ?_⟩
      have h7 := hnb g hg
      rw [judge_eq_true_iff] at h7
      have h8 := hfne g hg hne
      omega

/-- C6: after every finite sequence of public calls on a freshly constructed replacer
(in whatever order the frame map is iterated), `Size()` is the number of tracked frames
whose evictable flag is set. -/
theorem Size_counts_evictable_frames (n k : Nat) (r : LRUKReplacer) (hn : n < SIZE_MOD)
    (hr : Reachable n k r) : Size r = (evictableFrames r).length :=
  (Reachable.inv n k r hn hr).curr

theorem sampleReplacer_reachable : Reachable 7 2 sampleReplacer :=
  Reachable.runOps 7 2 _ _ Reachable.init

/-- Witness of C5 on the sample run: frame 2 (one access) is preferred to frame 1 (two
accesses). -/
theorem Evict_returns_lru_k_victim_witness :
    (7 < SIZE_MOD ∧ 1 ≤ 2 ∧ evictableFrames sampleReplacer ≠ [] ∧
      (-1 : frame_id_t) ∉ evictableFrames sampleReplacer) ∧
    ∃ f, (Evict sampleReplacer).1 = some f ∧ f ∈ evictableFrames sampleReplacer ∧
      ((∃ g ∈ evictableFrames sampleReplacer, (history sampleReplacer g).length < 2) →
        (history sampleReplacer f).length < 2 ∧
        ∀ g ∈ evictableFrames sampleReplacer, (history sampleReplacer g).length < 2 → g ≠ f →
          front (history sampleReplacer f) < front (history sampleReplacer g)) ∧
      ((∀ g ∈ evictableFrames sampleReplacer, ¬ (history sampleReplacer g).length < 2) →
        ∃ tf, kthRecent 2 (history sampleReplacer f) = some tf ∧
          ∀ g ∈ evictableFrames sampleReplacer, g ≠ f →
            ∃ tg, kthRecent 2 (history sampleReplacer g) = some tg ∧ tf < tg) :=
  ⟨⟨by decide, by decide, by decide, by decide⟩,
    Evict_returns_lru_k_victim 7 2 sampleReplacer (by decide) (by decide)
      sampleReplacer_reachable (by decide) (by decide)⟩

/-- Counterexample to C5 as stated: with frames `-1` and `3` both evictable and both
accessed once, frame `-1` first, `Evict` returns frame `3` although frame `-1` has the
older access: a candidate `-1` is taken for "no candidate yet". -/
theorem Evict_sentinel_frame_loses :
    evictableFrames (runOps (LRUKReplacer.new 7 2)
        [.recordAccess (-1), .recordAccess 3, .setEvictable (-1) true, .setEvictable 3 true])
      = [-1, 3] ∧
    history (runOps (LRUKReplacer.new 7 2)
        [.recordAccess (-1), .recordAccess 3, .setEvictable (-1) true, .setEvictable 3 true])
      (-1) = [0] ∧
    history (runOps (LRUKReplacer.new 7 2)
        [.recordAccess (-1), .recordAccess 3, .setEvictable (-1) true, .setEvictable 3 true])
      3 = [1] ∧
    (Evict (runOps (LRUKReplacer.new 7 2)
        [.recordAccess (-1), .recordAccess 3, .setEvictable (-1) true, .setEvictable 3 true])).1
      = some 3 := by
  decide

/-- Witness of C6 on the sample run. -/
theorem Size_counts_evictable_frames_witness :
    7 < SIZE_MOD ∧ Size sampleReplacer = (evictableFrames sampleReplacer).length :=
  ⟨by decide, Size_counts_evictable_frames 7 2 sampleReplacer (by decide)
    sampleReplacer_reachable⟩

/-- C7 (as amended): in every reachable state in which no evictable frame carries the id
`-1`, `Evict` returns no frame exactly when no tracked frame is evictable, and then
leaves the whole state unchanged; when it returns frame `f`, that frame was tracked and
evictable, its record is erased, `Size` drops by exactly one, the clock is unchanged and
the record of every other frame (flag and history) is unchanged. -/
theorem Evict_effect (n k : Nat) (r : LRUKReplacer) (hn : n < SIZE_MOD)
    (hr : Reachable n k r) (hneg : (-1 : frame_id_t) ∉ evictableFrames r) :
    ((Evict r).1 = none ↔ evictableFrames r = []) ∧
    ((Evict r).1 = none → (Evict r).2 = r) ∧
    (∀ f, (Evict r).1 = some f →
      f ∈ evictableFrames r ∧
      mapFind (Evict r).2.frame_map_ f = none ∧
      Size (Evict r).2 + 1 = Size r ∧
      (Evict r).2.current_timestamp_ = r.current_timestamp_ ∧
      ∀ g, g ≠ f → mapFind (Evict r).2.frame_map_ g = mapFind r.frame_map_ g) := by
  have hinv := Reachable.inv n k r hn hr
  refine ⟨?_, ?_, ?_⟩
  · constructor
    · intro hnone
      by_contra hne
      obtain ⟨e, he⟩ := List.exists_mem_of_ne_nil _ hne
      simp only [evictableFrames, List.mem_map, List.mem_filter] at he
      obtain ⟨a, ⟨ha, hae⟩, rfl⟩ := he
      have hneg2 : ∀ e ∈ r.frame_map_, e.2.evictable_ = true → e.1 ≠ -1 := by
        intro e he hee heq
        apply hneg
        rw [← heq]
        simp only [evictableFrames, List.mem_map, List.mem_filter]
        exact ⟨e, ⟨he, hee⟩, rfl⟩
      -- the scan takes the first evictable entry and never returns to `-1`
      have key : ∀ (l : List (Int × FrameInfo)) (fid : frame_id_t),
          (∀ e ∈ l, e.2.evictable_ = true → e.1 ≠ -1) →
          (fid ≠ -1 ∨ ∃ e ∈ l, e.2.evictable_ = true) → Evict.scan r l fid ≠ -1 := by
        intro l
        induction l with
        | nil =>
          intro fid _ h
          rcases h with h | ⟨e, he, _⟩
          · exact h
          · simp at he
        | cons b rest ih =>
          intro fid hl h
          obtain ⟨key, value⟩ := b
          have hl2 : ∀ e ∈ rest, e.2.evictable_ = true → e.1 ≠ -1 :=
            fun e he => hl e (List.mem_cons_of_mem _ he)
          simp only [Evict.scan]
          by_cases hev : value.evictable_ = true
          · have hkey : key ≠ -1 := hl (key, value) (List.mem_cons_self _ _) hev
            simp only [hev, if_true]
            split
            · exact ih key hl2 (Or.inl hkey)
            · rename_i hc
              simp only [not_or] at hc
              exact ih fid hl2 (Or.inl hc.1)
          · simp only [hev]
            apply ih fid hl2
            rcases h with h | ⟨e, he, hee⟩
            · exact Or.inl h
            · rcases List.mem_cons.1 he with he | he
              · subst he
                exact absurd hee hev
              · exact Or.inr ⟨e, he, hee⟩
      have := key r.frame_map_ (-1) hneg2 (Or.inr ⟨a, ha, hae⟩)
      unfold Evict at hnone
      simp [this] at hnone
    · intro hnil
      cases hf : (Evict r).1 with
      | none => rfl
      | some f =>
        obtain ⟨_, _, info, hfi, hev⟩ := Evict.some_evictable n k r f hinv hf
        have : f ∈ evictableFrames r := (mem_evictableFrames r hinv.nodup f).2 ⟨info, hfi, hev⟩
        rw [hnil] at this
        simp at this
  · intro hnone
    unfold Evict at hnone ⊢
    simp only at hnone ⊢
    split
    · rename_i hne
      simp [hne] at hnone
    · rfl
  · intro f hf
    obtain ⟨hscan, hne, info, hfi, hev⟩ := Evict.some_evictable n k r f hinv hf
    have hmem : f ∈ evictableFrames r := (mem_evictableFrames r hinv.nodup f).2 ⟨info, hfi, hev⟩
    have h2 : (Evict r).2 =
        { r with frame_map_ := mapErase r.frame_map_ f, curr_size_ := decSize r.curr_size_ } := by
      unfold Evict
      simp only
      rw [← hscan]
      simp [hne]
    have hc := hinv.curr
    have hpos : 1 ≤ (evictableFrames r).length := by
      cases hl : evictableFrames r with
      | nil => rw [hl] at hmem; simp at hmem
      | cons a b => simp
    have hlt := hinv.count_lt n k r hn
    rw [← evictableFrames_length] at hlt
    refine ⟨hmem, ?_, ?_, ?_, ?_⟩
    · rw [h2]
      exact mapFind_mapErase_same _ _
    · rw [h2]
      simp only [Size]
      have h3 : 1 ≤ r.curr_size_ := by omega
      have h4 : r.curr_size_ < SIZE_MOD := by omega
      rw [decSize_eq r.curr_size_ h3 h4]
      omega
    · rw [h2]
    · intro g hg
      rw [h2]
      exact mapFind_mapErase_other _ _ _ hg

/-- Witness of C7 on the sample run. -/
theorem Evict_effect_witness :
    (7 < SIZE_MOD ∧ (-1 : frame_id_t) ∉ evictableFrames sampleReplacer) ∧
    ((Evict sampleReplacer).1 = none ↔ evictableFrames sampleReplacer = []) ∧
    ((Evict sampleReplacer).1 = none → (Evict sampleReplacer).2 = sampleReplacer) ∧
    (∀ f, (Evict sampleReplacer).1 = some f →
      f ∈ evictableFrames sampleReplacer ∧
      mapFind (Evict sampleReplacer).2.frame_map_ f = none ∧
      Size (Evict sampleReplacer).2 + 1 = Size sampleReplacer ∧
      (Evict sampleReplacer).2.current_timestamp_ = sampleReplacer.current_timestamp_ ∧
      ∀ g, g ≠ f →
        mapFind (Evict sampleReplacer).2.frame_map_ g = mapFind sampleReplacer.frame_map_ g) :=
  ⟨⟨by decide, by decide⟩,
    Evict_effect 7 2 sampleReplacer (by decide) sampleReplacer_reachable (by decide)⟩

/-- Counterexample to C7 as stated: after `RecordAccess(-1)` and `SetEvictable(-1, true)`
a tracked frame is evictable and `Size()` is 1, yet `Evict` returns no frame. -/
theorem Evict_none_with_evictable_frame :
    evictableFrames (runOps (LRUKReplacer.new 7 2)
        [.recordAccess (-1), .setEvictable (-1) true]) = [-1] ∧
    Size (runOps (LRUKReplacer.new 7 2) [.recordAccess (-1), .setEvictable (-1) true]) = 1 ∧
    (Evict (runOps (LRUKReplacer.new 7 2)
        [.recordAccess (-1), .setEvictable (-1) true])).1 = none := by
  decide

/-- The relation kept between the stored histories and the access log. -/
theorem history_log_step (k : Nat) (hk : 1 ≤ k) (r : LRUKReplacer) (hrk : r.k_ = k)
    (log : frame_id_t → List Nat) (op : ReplacerOp)
    (h : ∀ f info, mapFind r.frame_map_ f = some info →
      info.access_history_ = (log f).drop ((log f).length - min (log f).length k)) :
    (op.apply r).k_ = k ∧
    ∀ f info, mapFind (op.apply r).frame_map_ f = some info →
      info.access_history_ =
        (logStep r log op f).drop
          ((logStep r log op f).length - min (logStep r log op f).length k) := by
  cases op with
  | recordAccess g =>
    simp only [ReplacerOp.apply, logStep, RecordAccess]
    by_cases hdrop : mapFind r.frame_map_ g = none ∧ r.frame_map_.length = r.replacer_size_
    · simp only [hdrop, and_self, if_true]
      exact ⟨hrk, h⟩
    · simp only [hdrop, if_false]
      refine ⟨hrk, ?_⟩
      intro f info hfi
      simp only [mapFind_mapSet] at hfi
      by_cases hfg : f = g
      · subst hfg
        simp only [if_true, Option.some.injEq] at hfi
        subst hfi
        simp only
        cases hold : mapFind r.frame_map_ f with
        | none =>
          have hcap : ¬ r.frame_map_.length = r.replacer_size_ := fun hx => hdrop ⟨hold, hx⟩
          have hk0 : ¬ (0 = r.k_) := by omega
          have hm : min 1 k = 1 := by omega
          simp [hcap, mapAt, hold, FrameInfo.fresh, hk0, hm]
        | some old =>
          have ho := h f old hold
          simp only [mapAt, hold, Option.getD_some, if_false, Function.update_same,
            reduceCtorEq, List.length_append, List.length_singleton]
          have hlen : old.access_history_.length = min (log f).length k := by
            rw [ho, List.length_drop]
            omega
          by_cases hfull : old.access_history_.length = r.k_
          · simp only [hfull, if_true]
            have hge : k ≤ (log f).length := by omega
            have e1 : min (log f).length k = k := by omega
            have e2 : min ((log f).length + 1) k = k := by omega
            rw [e2, ho, e1, List.tail_drop]
            have e3 : (log f).length + 1 - k = ((log f).length - k) + 1 := by omega
            rw [e3]
            rw [List.drop_append_of_le_length (by omega)]
          · simp only [hfull, if_false]
            have hlt : (log f).length < k := by omega
            have e1 : min (log f).length k = (log f).length := by omega
            have e2 : min ((log f).length + 1) k = (log f).length + 1 := by omega
            rw [e2, ho, e1]
            simp
      · simp only [hfg, if_false] at hfi
        have := h f info hfi
        by_cases hnone : mapFind r.frame_map_ g = none
        · have hcap : ¬ r.frame_map_.length = r.replacer_size_ := fun hx => hdrop ⟨hnone, hx⟩
          simp only [hnone, if_true, hcap, if_false, Function.update_noteq hfg]
          exact this
        · simp only [hnone, if_false, Function.update_noteq hfg]
          exact this
  | setEvictable g b =>
    simp only [ReplacerOp.apply, logStep, SetEvictable]
    cases hg : mapFind r.frame_map_ g with
    | none => exact ⟨hrk, h⟩
    | some old =>
      simp only
      have hcore : ∀ f info,
          mapFind (mapSet r.frame_map_ g { old with evictable_ := b }) f = some info →
          info.access_history_ = (log f).drop ((log f).length - min (log f).length k) := by
        intro f info hfi
        simp only [mapFind_mapSet] at hfi
        split at hfi
        · rename_i hfg
          simp only [Option.some.injEq] at hfi
          subst hfi
          subst hfg
          exact h f old hg
        · exact h f info hfi
      split
      · exact ⟨hrk, hcore⟩
      · split
        · exact ⟨hrk, hcore⟩
        · exact ⟨hrk, hcore⟩
  | remove g =>
    simp only [ReplacerOp.apply, logStep, Remove]
    split
    · exact ⟨hrk, h⟩
    · refine ⟨hrk, ?_⟩
      intro f info hfi
      simp only [mapFind_mapErase] at hfi
      split at hfi
      · exact Option.noConfusion hfi
      · exact h f info hfi
  | evict =>
    simp only [ReplacerOp.apply, logStep, Evict]
    split
    · refine ⟨hrk, ?_⟩
      intro f info hfi
      simp only [mapFind_mapErase] at hfi
      split at hfi
      · exact Option.noConfusion hfi
      · exact h f info hfi
    · exact ⟨hrk, h⟩

theorem history_log_run (k : Nat) (hk : 1 ≤ k) (ops : List ReplacerOp) (r : LRUKReplacer)
    (hrk : r.k_ = k) (log : frame_id_t → List Nat)
    (h : ∀ f info, mapFind r.frame_map_ f = some info →
      info.access_history_ = (log f).drop ((log f).length - min (log f).length k)) :
    ∀ f info, mapFind (runLog r log ops).1.frame_map_ f = some info →
      info.access_history_ =
        ((runLog r log ops).2 f).drop
          (((runLog r log ops).2 f).length - min ((runLog r log ops).2 f).length k) := by
  induction ops generalizing r log with
  | nil => exact h
  | cons op rest ih =>
    obtain ⟨h1, h2⟩ := history_log_step k hk r hrk log op h
    exact ih (op.apply r) h1 (logStep r log op) h2

theorem runLog_fst (ops : List ReplacerOp) (r : LRUKReplacer) (log : frame_id_t → List Nat) :
    (runLog r log ops).1 = runOps r ops := by
  induction ops generalizing r log with
  | nil => rfl
  | cons op rest ih => exact ih (op.apply r) (logStep r log op)

theorem kthRecent_drop (k : Nat) (l : List Nat) (hk : 1 ≤ k) (h : k ≤ l.length) :
    kthRecent k l = some (front (l.drop (l.length - k))) := by
  simp only [kthRecent, List.get?_eq_getElem?]
  rw [List.getElem?_reverse (by omega)]
  have hlt : l.length - k < l.length := by omega
  have e1 : l.length - 1 - (k - 1) = l.length - k := by omega
  rw [e1, List.getElem?_eq_getElem hlt]
  have e2 : (l.drop (l.length - k)).head? = some (l[l.length - k]) := by
    rw [List.head?_drop, List.getElem?_eq_getElem hlt]
  cases hd : l.drop (l.length - k) with
  | nil => rw [hd] at e2; simp at e2
  | cons a rest =>
    rw [hd] at e2
    simp only [List.head?_cons, Option.some.injEq] at e2
    simp [front, e2]

/-- C8: for `K ≥ 1` and every sequence of public calls on a fresh replacer, the history
stored for a tracked frame is the list of the timestamps of its most recent `min(n, K)`
successful `RecordAccess` calls since its record was last created (`n` being the number
of such calls), oldest first; hence for a frame with at least `K` such accesses the
front of the stored history is the timestamp of its `K`-th most recent access. -/
theorem history_is_recent_accesses (num_frames k : Nat) (hk : 1 ≤ k) (ops : List ReplacerOp)
    (f : frame_id_t) (info : FrameInfo)
    (hf : mapFind (runOps (LRUKReplacer.new num_frames k) ops).frame_map_ f = some info) :
    info.access_history_ =
      ((runLog (LRUKReplacer.new num_frames k) (fun _ => []) ops).2 f).drop
        (((runLog (LRUKReplacer.new num_frames k) (fun _ => []) ops).2 f).length -
          min ((runLog (LRUKReplacer.new num_frames k) (fun _ => []) ops).2 f).length k) ∧
    (k ≤ ((runLog (LRUKReplacer.new num_frames k) (fun _ => []) ops).2 f).length →
      kthRecent k ((runLog (LRUKReplacer.new num_frames k) (fun _ => []) ops).2 f)
        = some (front info.access_history_)) := by
  have h0 : ∀ f info, mapFind (LRUKReplacer.new num_frames k).frame_map_ f = some info →
      info.access_history_ = (([] : List Nat)).drop
        (([] : List Nat).length - min ([] : List Nat).length k) := by
    intro f info h
    simp [LRUKReplacer.new, mapFind] at h
  have h1 := history_log_run k hk ops (LRUKReplacer.new num_frames k) rfl (fun _ => []) h0
    f info (by rw [runLog_fst]; exact hf)
  refine ⟨h1, ?_⟩
  intro hge
  rw [h1]
  have e1 : min ((runLog (LRUKReplacer.new num_frames k) (fun _ => []) ops).2 f).length k = k := by
    omega
  rw [e1]
  exact kthRecent_drop k _ hk hge

/-- Witness of C8: with `K = 2`, frame 1 accessed at times 0, 2 and 3 keeps `[2, 3]`. -/
theorem history_is_recent_accesses_witness :
    (1 ≤ 2 ∧
      mapFind (runOps (LRUKReplacer.new 7 2)
        [.recordAccess 1, .recordAccess 2, .recordAccess 1, .recordAccess 1]).frame_map_ 1
        = some { evictable_ := false, access_history_ := [2, 3] }) ∧
    ([2, 3] =
      ((runLog (LRUKReplacer.new 7 2) (fun _ => [])
        [.recordAccess 1, .recordAccess 2, .recordAccess 1, .recordAccess 1]).2 1).drop
        (((runLog (LRUKReplacer.new 7 2) (fun _ => [])
          [.recordAccess 1, .recordAccess 2, .recordAccess 1, .recordAccess 1]).2 1).length -
          min ((runLog (LRUKReplacer.new 7 2) (fun _ => [])
            [.recordAccess 1, .recordAccess 2, .recordAccess 1, .recordAccess 1]).2 1).length 2) ∧
    (2 ≤ ((runLog (LRUKReplacer.new 7 2) (fun _ => [])
        [.recordAccess 1, .recordAccess 2, .recordAccess 1, .recordAccess 1]).2 1).length →
      kthRecent 2 ((runLog (LRUKReplacer.new 7 2) (fun _ => [])
        [.recordAccess 1, .recordAccess 2, .recordAccess 1, .recordAccess 1]).2 1)
        = some (front [2, 3]))) :=
  ⟨⟨by decide, by decide⟩,
    history_is_recent_accesses 7 2 (by decide)
      [.recordAccess 1, .recordAccess 2, .recordAccess 1, .recordAccess 1] 1
      { evictable_ := false, access_history_ := [2, 3] } (by decide)⟩

/-- C9: `RecordAccess(f)` on a frame that is not tracked.  If the number of tracked
frames equals `num_frames` the whole state is unchanged; otherwise a record for `f` is
created with `evictable = false` and a history holding exactly the pre-call timestamp,
the clock grows by one, and `Size` and all other records are unchanged. -/
theorem RecordAccess_untracked (r : LRUKReplacer) (f : frame_id_t)
    (hf : mapFind r.frame_map_ f = none) :
    (r.frame_map_.length = r.replacer_size_ → RecordAccess r f = r) ∧
    (r.frame_map_.length ≠ r.replacer_size_ →
      mapFind (RecordAccess r f).frame_map_ f
        = some { evictable_ := false, access_history_ := [r.current_timestamp_] } ∧
      (RecordAccess r f).current_timestamp_ = r.current_timestamp_ + 1 ∧
      Size (RecordAccess r f) = Size r ∧
      (RecordAccess r f).replacer_size_ = r.replacer_size_ ∧
      (RecordAccess r f).k_ = r.k_ ∧
      (RecordAccess r f).frame_map_.length = r.frame_map_.length + 1 ∧
      ∀ g, g ≠ f → mapFind (RecordAccess r f).frame_map_ g = mapFind r.frame_map_ g) := by
  refine ⟨?_, ?_⟩
  · intro hcap
    simp [RecordAccess, hf, hcap]
  · intro hcap
    have hm := (mapFind_eq_none_iff _ _).1 hf
    have hfresh : (if ([] : List Nat).length = r.k_ then ([] : List Nat).tail else [])
        ++ [r.current_timestamp_] = [r.current_timestamp_] := by
      split <;> simp
    simp only [RecordAccess, hf, hcap, and_false, if_false, true_and, mapAt,
      Option.getD_none, FrameInfo.fresh, mapFind_mapSet_same, Size, hfresh]
    refine ⟨?_, ?_⟩
    · rw [mapSet_of_not_mem _ _ _ hm]
      simp
    · intro g hg
      exact mapFind_mapSet_other _ _ _ _ hg

/-- Witness of C9 below capacity: frame 4 is unknown to the sample run. -/
theorem RecordAccess_untracked_witness :
    mapFind sampleReplacer.frame_map_ 4 = none ∧
    (sampleReplacer.frame_map_.length = sampleReplacer.replacer_size_ →
      RecordAccess sampleReplacer 4 = sampleReplacer) ∧
    (sampleReplacer.frame_map_.length ≠ sampleReplacer.replacer_size_ →
      mapFind (RecordAccess sampleReplacer 4).frame_map_ 4
        = some { evictable_ := false,
                 access_history_ := [sampleReplacer.current_timestamp_] } ∧
      (RecordAccess sampleReplacer 4).current_timestamp_
        = sampleReplacer.current_timestamp_ + 1 ∧
      Size (RecordAccess sampleReplacer 4) = Size sampleReplacer ∧
      (RecordAccess sampleReplacer 4).replacer_size_ = sampleReplacer.replacer_size_ ∧
      (RecordAccess sampleReplacer 4).k_ = sampleReplacer.k_ ∧
      (RecordAccess sampleReplacer 4).frame_map_.length
        = sampleReplacer.frame_map_.length + 1 ∧
      ∀ g, g ≠ 4 → mapFind (RecordAccess sampleReplacer 4).frame_map_ g
        = mapFind sampleReplacer.frame_map_ g) :=
  ⟨by decide, RecordAccess_untracked sampleReplacer 4 (by decide)⟩

/-- C10: `SetEvictable(f, b)`.  On an untracked frame the state is unchanged.  On a
tracked frame the flag becomes `b` and the history is kept, `Size` grows by one exactly
when the flag goes from false to true, shrinks by one exactly when it goes from true to
false and is unchanged otherwise, the clock and every other frame's record are
unchanged; and calling it twice in a row gives the same state as calling it once. -/
theorem SetEvictable_effect (n k : Nat) (r : LRUKReplacer) (hn : n < SIZE_MOD)
    (hr : Reachable n k r) (f : frame_id_t) (b : Bool) :
    (mapFind r.frame_map_ f = none → SetEvictable r f b = r) ∧
    (∀ info, mapFind r.frame_map_ f = some info →
      mapFind (SetEvictable r f b).frame_map_ f
        = some { evictable_ := b, access_history_ := info.access_history_ } ∧
      (info.evictable_ = false ∧ b = true → Size (SetEvictable r f b) = Size r + 1) ∧
      (info.evictable_ = true ∧ b = false → Size (SetEvictable r f b) + 1 = Size r) ∧
      (info.evictable_ = b → Size (SetEvictable r f b) = Size r) ∧
      (SetEvictable r f b).current_timestamp_ = r.current_timestamp_ ∧
      ∀ g, g ≠ f → mapFind (SetEvictable r f b).frame_map_ g = mapFind r.frame_map_ g) ∧
    SetEvictable (SetEvictable r f b) f b = SetEvictable r f b := by
  have hinv := Reachable.inv n k r hn hr
  have hinv2 := hinv.setEvictable n k r f b hn
  have hc := hinv.curr
  have hc2 := hinv2.curr
  simp only [evictableFrames, List.length_map] at hc hc2
  cases hfi : mapFind r.frame_map_ f with
  | none =>
    have e : SetEvictable r f b = r := by simp [SetEvictable, hfi]
    refine ⟨fun _ => e, ?_, ?_⟩
    · intro info h
      exact Option.noConfusion h
    · rw [e, e]
  | some info =>
    have hcnt := countEv_mapSet_some r.frame_map_ f info { info with evictable_ := b } hfi
    have hmap : (SetEvictable r f b).frame_map_
        = mapSet r.frame_map_ f { info with evictable_ := b } := by
      simp only [SetEvictable, hfi]
      split
      · rfl
      · split <;> rfl
    have hts : (SetEvictable r f b).current_timestamp_ = r.current_timestamp_ := by
      simp only [SetEvictable, hfi]
      split
      · rfl
      · split <;> rfl
    rw [hmap] at hc2
    refine ⟨?_, ?_, ?_⟩
    · intro h
      exact Option.noConfusion h
    · intro info2 h2
      simp only [Option.some.injEq] at h2
      subst h2
      refine ⟨?_, ?_, ?_, ?_, hts, ?_⟩
      · rw [hmap]
        exact mapFind_mapSet_same _ _ _
      · rintro ⟨h1, h2⟩
        subst h2
        simp only [Size]
        simp [h1] at hcnt
        omega
      · rintro ⟨h1, h2⟩
        subst h2
        simp only [Size]
        simp [h1] at hcnt
        omega
      · intro h1
        subst h1
        simp only [Size]
        simp only [add_left_inj] at hcnt
        omega
      · intro g hg
        rw [hmap]
        exact mapFind_mapSet_other _ _ _ _ hg
    · have hfind2 : mapFind (SetEvictable r f b).frame_map_ f
          = some { info with evictable_ := b } := by
        rw [hmap]
        exact mapFind_mapSet_same _ _ _
      have hidem : ∀ m : List (Int × FrameInfo), ∀ x : FrameInfo,
          mapSet (mapSet m f x) f x = mapSet m f x := by
        intro m x
        induction m with
        | nil => simp [mapSet]
        | cons a rest ih =>
          obtain ⟨key, value⟩ := a
          by_cases hk : key = f
          · simp [mapSet, hk]
          · simp [mapSet, hk, ih]
      generalize hs : SetEvictable r f b = s at hfind2 hmap
      unfold SetEvictable
      simp only [hfind2]
      have e1 : mapSet s.frame_map_ f
          { evictable_ := b, access_history_ := info.access_history_ } = s.frame_map_ := by
        rw [hmap]
        exact hidem _ _
      rw [e1]
      cases b <;> simp

/-- Witness of C10 on the sample run: frame 3 (tracked, not evictable) is made evictable. -/
theorem SetEvictable_effect_witness :
    7 < SIZE_MOD ∧
    (mapFind sampleReplacer.frame_map_ 3 = none →
      SetEvictable sampleReplacer 3 true = sampleReplacer) ∧
    (∀ info, mapFind sampleReplacer.frame_map_ 3 = some info →
      mapFind (SetEvictable sampleReplacer 3 true).frame_map_ 3
        = some { evictable_ := true, access_history_ := info.access_history_ } ∧
      (info.evictable_ = false ∧ true = true →
        Size (SetEvictable sampleReplacer 3 true) = Size sampleReplacer + 1) ∧
      (info.evictable_ = true ∧ true = false →
        Size (SetEvictable sampleReplacer 3 true) + 1 = Size sampleReplacer) ∧
      (info.evictable_ = true →
        Size (SetEvictable sampleReplacer 3 true) = Size sampleReplacer) ∧
      (SetEvictable sampleReplacer 3 true).current_timestamp_
        = sampleReplacer.current_timestamp_ ∧
      ∀ g, g ≠ 3 → mapFind (SetEvictable sampleReplacer 3 true).frame_map_ g
        = mapFind sampleReplacer.frame_map_ g) ∧
    SetEvictable (SetEvictable sampleReplacer 3 true) 3 true
      = SetEvictable sampleReplacer 3 true :=
  ⟨by decide, SetEvictable_effect 7 2 sampleReplacer (by decide) sampleReplacer_reachable 3 true⟩

/-- C11: replacer `Remove(f)`.  If `f` is not tracked, or tracked but not evictable, the
whole state is unchanged; otherwise exactly the record of `f` is erased, `Size` decreases
by one, the clock is unchanged and every other record is unchanged. -/
theorem Remove_effect (n k : Nat) (r : LRUKReplacer) (hn : n < SIZE_MOD)
    (hr : Reachable n k r) (f : frame_id_t) :
    (mapFind r.frame_map_ f = none → Remove r f = r) ∧
    (∀ info, mapFind r.frame_map_ f = some info → info.evictable_ = false →
      Remove r f = r) ∧
    (∀ info, mapFind r.frame_map_ f = some info → info.evictable_ = true →
      mapFind (Remove r f).frame_map_ f = none ∧
      Size (Remove r f) + 1 = Size r ∧
      (Remove r f).current_timestamp_ = r.current_timestamp_ ∧
      ∀ g, g ≠ f → mapFind (Remove r f).frame_map_ g = mapFind r.frame_map_ g) := by
  have hinv := Reachable.inv n k r hn hr
  refine ⟨?_, ?_, ?_⟩
  · intro h
    simp [Remove, h]
  · intro info h hev
    simp [Remove, h, mapAt, hev]
  · intro info h hev
    have h2 : Remove r f =
        { r with frame_map_ := mapErase r.frame_map_ f, curr_size_ := decSize r.curr_size_ } := by
      simp [Remove, h, mapAt, hev]
    have hmem : f ∈ evictableFrames r := (mem_evictableFrames r hinv.nodup f).2 ⟨info, h, hev⟩
    have hc := hinv.curr
    have hpos : 1 ≤ (evictableFrames r).length := by
      cases hl : evictableFrames r with
      | nil => rw [hl] at hmem; simp at hmem
      | cons a b => simp
    have hlt := hinv.count_lt n k r hn
    rw [← evictableFrames_length] at hlt
    have h3 : 1 ≤ r.curr_size_ := by omega
    have h4 : r.curr_size_ < SIZE_MOD := by omega
    have h5 := decSize_eq r.curr_size_ h3 h4
    refine ⟨?_, ?_, ?_, ?_⟩
    · rw [h2]
      exact mapFind_mapErase_same _ _
    · rw [h2]
      simp only [Size]
      omega
    · rw [h2]
    · intro g hg
      rw [h2]
      exact mapFind_mapErase_other _ _ _ hg

/-- Witness of C11 on the sample run: frame 2 is tracked and evictable. -/
theorem Remove_effect_witness :
    7 < SIZE_MOD ∧
    (mapFind sampleReplacer.frame_map_ 2 = none → Remove sampleReplacer 2 = sampleReplacer) ∧
    (∀ info, mapFind sampleReplacer.frame_map_ 2 = some info → info.evictable_ = false →
      Remove sampleReplacer 2 = sampleReplacer) ∧
    (∀ info, mapFind sampleReplacer.frame_map_ 2 = some info → info.evictable_ = true →
      mapFind (Remove sampleReplacer 2).frame_map_ 2 = none ∧
      Size (Remove sampleReplacer 2) + 1 = Size sampleReplacer ∧
      (Remove sampleReplacer 2).current_timestamp_ = sampleReplacer.current_timestamp_ ∧
      ∀ g, g ≠ 2 → mapFind (Remove sampleReplacer 2).frame_map_ g
        = mapFind sampleReplacer.frame_map_ g) :=
  ⟨by decide, Remove_effect 7 2 sampleReplacer (by decide) sampleReplacer_reachable 2⟩

/-- C12: in every reachable state and for every frame id `x`, tracked or not, the `Evict`
that follows `SetEvictable(x, false)` does not return `x`. -/
theorem Evict_after_SetEvictable_false (n k : Nat) (r : LRUKReplacer) (hn : n < SIZE_MOD)
    (hr : Reachable n k r) (x : frame_id_t) :
    (Evict (SetEvictable r x false)).1 ≠ some x := by
  intro hx
  have hr2 : Reachable n k (SetEvictable r x false) :=
    Reachable.step r (ReplacerOp.setEvictable x false) hr
  have hinv2 := Reachable.inv n k _ hn hr2
  obtain ⟨_, _, info, hfi, hev⟩ := Evict.some_evictable n k _ x hinv2 hx
  have heff := SetEvictable_effect n k r hn hr x false
  cases hold : mapFind r.frame_map_ x with
  | none =>
    rw [heff.1 hold, hold] at hfi
    exact Option.noConfusion hfi
  | some old =>
    have := (heff.2.1 old hold).1
    rw [this] at hfi
    simp only [Option.some.injEq] at hfi
    rw [← hfi] at hev
    exact Bool.noConfusion hev

/-- Witness of C12 on the sample run, for the evictable frame 2. -/
theorem Evict_after_SetEvictable_false_witness :
    7 < SIZE_MOD ∧ (Evict (SetEvictable sampleReplacer 2 false)).1 ≠ some 2 :=
  ⟨by decide,
    Evict_after_SetEvictable_false 7 2 sampleReplacer (by decide) sampleReplacer_reachable 2⟩

/-- C13: with `K = 2` and seven frames, after `RecordAccess(1..6)`, `SetEvictable(i, true)`
for `i = 1..6` and `RecordAccess(1..4)`, six `Evict` calls return 5, 6, 1, 2, 3, 4. -/
theorem Evict_order_scenario :
    evictMany
      (runOps (LRUKReplacer.new 7 2)
        [.recordAccess 1, .recordAccess 2, .recordAccess 3, .recordAccess 4, .recordAccess 5,
         .recordAccess 6, .setEvictable 1 true, .setEvictable 2 true, .setEvictable 3 true,
         .setEvictable 4 true, .setEvictable 5 true, .setEvictable 6 true,
         .recordAccess 1, .recordAccess 2, .recordAccess 3, .recordAccess 4]) 6
      = [some 5, some 6, some 1, some 2, some 3, some 4] := by
  decide
/-! ## B+tree: what the code does on concrete runs -/

/-- C4 (the code at the failing input): leaf and internal `max_size` 4, keys 1 to 6
inserted in ascending order, then `Remove(5)`.  Key 3 is then still in the leaf chain,
and after `Remove(3)` the iterator still yields 3: the call removed nothing. -/
theorem Remove_leaves_key_in_leaf_chain :
    ((BPlusTree.new "index" 4 4).run (insertKeys [1, 2, 3, 4, 5, 6] ++ removeKeys [5])).bind
        BPlusTree.iterateKeys = some [1, 2, 3, 4, 6] ∧
    ((BPlusTree.new "index" 4 4).run
        (insertKeys [1, 2, 3, 4, 5, 6] ++ removeKeys [5] ++ removeKeys [3])).bind
        BPlusTree.iterateKeys = some [1, 2, 3, 4, 6] := by
  decide

/-- C14 (the code at the failing input): leaf and internal `max_size` 4, keys
1, 2, 3, 4, 6, 7, 5 inserted, `Remove(1)`, `Insert(0)`.  The root is the internal page 3
and its child, the leaf page 1, holds five keys with `max_size` 4. -/
theorem leaf_grows_beyond_max_size :
    overfullLeafTree.map BPlusTree.root_page_id_ = some 3 ∧
    overfullLeafTree.bind (fun t => t.internalSlots 3) = some [(0, 1), (6, 4)] ∧
    overfullLeafTree.bind (fun t => t.leafKeys 1) = some [0, 2, 3, 4, 5] ∧
    overfullLeafTree.bind (fun t => t.sizeOf 1) = some (5, 4) := by
  decide

/-- C15 (the code at the failing input): leaf `max_size` 6, internal `max_size` 4, keys
10, …, 90, 61, 62 inserted, then `Remove(70)`, which redistributes from the left sibling.
The root, page 3, then has the separator 62 for the leaf page 2, which holds 40, 50, 60,
61 (all below 62), and the separator 70 for the leaf page 4, which holds 62. -/
theorem separator_above_subtree_keys :
    redistributedTree.map BPlusTree.root_page_id_ = some 3 ∧
    redistributedTree.bind (fun t => t.internalSlots 3) = some [(0, 1), (62, 2), (70, 4)] ∧
    redistributedTree.bind (fun t => t.leafKeys 2) = some [40, 50, 60, 61] ∧
    redistributedTree.bind (fun t => t.leafKeys 4) = some [62, 80, 90] := by
  decide

/-- C16 (the code at the failing input): leaf and internal `max_size` 4, keys 1 to 5
inserted, then `Remove(1)`.  The root collapses to the leaf page 1, whose parent id is
still 3, the id of the freed old root. -/
theorem root_keeps_parent_after_collapse :
    collapsedTree.map BPlusTree.root_page_id_ = some 1 ∧
    collapsedTree.bind (fun t => t.parentOf 1) = some 3 ∧
    collapsedTree.map (fun t => t.FetchPage 3) = some none ∧
    collapsedTree.bind (fun t => t.leafKeys 1) = some [2, 3, 4, 5] := by
  decide

/-- C17 (the code at the failing input): leaf and internal `max_size` 4, keys 1 and 2
inserted: every pin is released.  After the following `Remove(1)` the root leaf, page 1,
has one pin more than before the call. -/
theorem Remove_leaves_root_pinned :
    ((BPlusTree.new "index" 4 4).run (insertKeys [1, 2])).map
      (fun t => (t.root_page_id_, t.pinCount 1)) = some (1, 0) ∧
    ((BPlusTree.new "index" 4 4).run (insertKeys [1, 2] ++ removeKeys [1])).map
      (fun t => (t.root_page_id_, t.pinCount 1)) = some (1, 1) := by
  decide

/-- Counterexample to C19 as stated: after inserting 5, 4, 3, 2, 1 with both `max_size` 4
the left leaf (page 1) holds 1, 2, 3 and the right leaf (page 2) holds 4, 5. -/
theorem sampleTree_leaves_not_as_claimed :
    ¬ (sampleTree.bind (fun t => t.leafKeys 1) = some [1, 2] ∧
       sampleTree.bind (fun t => t.leafKeys 2) = some [3, 4, 5]) := by
  decide

/-- C19 (as amended): with leaf and internal `max_size` 4, inserting 5, 4, 3, 2, 1 yields
a root (page 3) that is an internal page with exactly two children, the left leaf
(page 1) holding 1, 2, 3 and the right leaf (page 2) holding 4, 5 (the leaf is split when
the fourth key arrives, `mid = size / 2`); `GetValue(3)` succeeds with the value inserted
for 3 and the iterator yields 1, 2, 3, 4, 5. -/
theorem sampleTree_shape :
    sampleTree.map BPlusTree.root_page_id_ = some 3 ∧
    sampleTree.bind (fun t => t.internalSlots 3) = some [(0, 1), (4, 2)] ∧
    sampleTree.bind (fun t => t.leafKeys 1) = some [1, 2, 3] ∧
    sampleTree.bind (fun t => t.leafKeys 2) = some [4, 5] ∧
    sampleTree.bind (fun t => (t.GetValue 3 []).map (fun r => (r.1, r.2.1)))
      = some (true, [ridOf 3]) ∧
    sampleTree.bind BPlusTree.iterateKeys = some [1, 2, 3, 4, 5] := by
  decide

/-- C20 (the code at the failing input): after inserting 5, 4, 3, 2, 1 and removing 3 and
4 with both `max_size` 4, the right leaf (page 2) was merged into the left leaf (page 1)
and freed, but the root is still the internal page 3 and still holds the slot `(4, 2)`
for the freed page: the parent was asked to delete the key of its slot 0.  The following
`Remove(5)` descends into the freed page. -/
theorem root_keeps_freed_child :
    mergedTree.map BPlusTree.root_page_id_ = some 3 ∧
    mergedTree.bind (fun t => t.internalSlots 3) = some [(0, 1), (4, 2)] ∧
    mergedTree.map (fun t => t.FetchPage 2) = some none ∧
    mergedTree.bind (fun t => t.leafKeys 1) = some [1, 2, 5] ∧
    mergedTree.bind (fun t => t.Remove 5) = none := by
  decide
/-! ## Claims about insert-only runs of the B+tree -/

theorem InsertReach.step_true {name : String} {L I : Int} {t : BPlusTree}
    {m : List (Int × ValueType)} (k : Int) (v : ValueType) (t' : BPlusTree)
    (h : InsertReach name L I t m) (hins : t.Insert k v = some (true, t')) :
    InsertReach name L I t' ((k, v) :: m) := by
  have := InsertReach.step k v true t' h hins
  simpa using this

/-- The sample tree (keys 5, 4, 3, 2, 1 inserted, both `max_size` 4) is a state of an
insert-only run. -/
theorem treeAfter_reach :
    InsertReach "index" 4 4 (treeAfter [5, 4, 3, 2, 1])
      [(1, ridOf 1), (2, ridOf 2), (3, ridOf 3), (4, ridOf 4), (5, ridOf 5)] :=
  InsertReach.step_true 1 (ridOf 1) _
    (InsertReach.step_true 2 (ridOf 2) (treeAfter [5, 4, 3, 2])
      (InsertReach.step_true 3 (ridOf 3) (treeAfter [5, 4, 3])
        (InsertReach.step_true 4 (ridOf 4) (treeAfter [5, 4])
          (InsertReach.step_true 5 (ridOf 5) (treeAfter [5]) InsertReach.init (by decide))
          (by decide))
        (by decide))
      (by decide))
    (by decide)

/-- C1, for a non-empty set of keys: for `leaf_max_size ≥ 2` and `internal_max_size ≥ 3`
and every list of pairs with distinct keys, the run of `Insert` calls from the empty tree
is defined, and the iterator walk from `Begin()` with `operator++` until `IsEnd()` returns
the inserted keys, each once, in strictly increasing order. -/
theorem iterate_yields_sorted_keys (name : String) (L I : Int) (hL : 2 ≤ L) (hI : 3 ≤ I)
    (kvs : List (KeyType × ValueType)) (hnd : (kvs.map Prod.fst).Nodup) (hne : kvs ≠ []) :
    ∃ t out, (BPlusTree.new name L I).run (insertPairs kvs) = some t ∧
      t.iterate = some out ∧ (out.map Prod.fst).Sorted (· < ·) ∧
      (out.map Prod.fst).Perm (kvs.map Prod.fst) := by
  obtain ⟨t, m, hrun, hreach, hkeys⟩ :=
    InsertReach.run (by omega) (by omega) kvs (BPlusTree.new name L I) [] InsertReach.init
  obtain ⟨hst, -⟩ := hreach.state_inv (by omega) (by omega)
  have hm : m ≠ [] := by
    intro e
    cases kvs with
    | nil => exact hne rfl
    | cons e2 rest =>
      have := (hkeys e2.1).2 (Or.inr (by simp))
      rw [e] at this
      simp at this
  rcases hst with ⟨-, -, -, -, -, e6⟩ | ⟨g, hinv, hholds⟩
  · exact absurd e6 hm
  · obtain ⟨out, h1, h2, h3⟩ := hinv.iterate_spec (by rw [hreach.sizes.1]; exact hL)
    refine ⟨t, out, hrun, h1, h2, ?_⟩
    rw [List.perm_ext_iff_of_nodup (List.Pairwise.imp (fun h => ne_of_lt h) h2) hnd]
    intro k
    rw [← (show k ∈ m.map Prod.fst ↔ k ∈ kvs.map Prod.fst from by
      rw [hkeys k]
      simp)]
    constructor
    · intro hk
      obtain ⟨⟨k2, w⟩, hmem, hfst⟩ := List.mem_map.1 hk
      simp only at hfst
      rw [hfst] at hmem
      exact List.mem_map.2 ⟨(k, w), (hholds k w).1 ((h3 k w).1 hmem), rfl⟩
    · intro hk
      obtain ⟨⟨k2, w⟩, hmem, hfst⟩ := List.mem_map.1 hk
      simp only at hfst
      rw [hfst] at hmem
      exact List.mem_map.2 ⟨(k, w), (h3 k w).2 ((hholds k w).2 hmem), rfl⟩

/-- Witness of C1: the keys 5, 4, 3, 2, 1 with both `max_size` 4. -/
theorem iterate_yields_sorted_keys_witness :
    (([(5, ridOf 5), (4, ridOf 4), (3, ridOf 3), (2, ridOf 2), (1, ridOf 1)] :
        List (KeyType × ValueType)).map Prod.fst).Nodup ∧
    ([(5, ridOf 5), (4, ridOf 4), (3, ridOf 3), (2, ridOf 2), (1, ridOf 1)] :
        List (KeyType × ValueType)) ≠ [] ∧
    ∃ t out,
      (BPlusTree.new "index" 4 4).run
        (insertPairs [(5, ridOf 5), (4, ridOf 4), (3, ridOf 3), (2, ridOf 2), (1, ridOf 1)])
        = some t ∧
      t.iterate = some out ∧ (out.map Prod.fst).Sorted (· < ·) ∧
      (out.map Prod.fst).Perm
        (([(5, ridOf 5), (4, ridOf 4), (3, ridOf 3), (2, ridOf 2), (1, ridOf 1)] :
          List (KeyType × ValueType)).map Prod.fst) :=
  ⟨by decide, by decide,
    iterate_yields_sorted_keys "index" 4 4 (by decide) (by decide) _ (by decide) (by decide)⟩

/-- C1, the empty set of keys: no call is made, the tree is empty, `Begin()` returns the
default-constructed iterator and the `IsEnd()` of the walk reads the page of an iterator
that holds no frame, so the walk has no defined result. -/
theorem iterate_undefined_on_empty_tree :
    (BPlusTree.new "index" 4 4).run (insertPairs []) = some (BPlusTree.new "index" 4 4) ∧
    (BPlusTree.new "index" 4 4).iterate = none := by
  decide

/-- C2: in every state of an insert-only run (`leaf_max_size ≥ 2`,
`internal_max_size ≥ 3`) and for every key `k` that was not inserted yet, `Insert(k, v)`
returns true, the `GetValue(k)` that follows returns true with the result `[v]`, and
`GetValue` of every key inserted before still returns the value it was inserted with. -/
theorem Insert_then_GetValue (name : String) (L I : Int) (t : BPlusTree)
    (m : List (KeyType × ValueType)) (hreach : InsertReach name L I t m) (hL : 2 ≤ L)
    (hI : 3 ≤ I) (k : KeyType) (v : ValueType) (hk : k ∉ m.map Prod.fst) :
    ∃ t', t.Insert k v = some (true, t') ∧
      (∃ t1, t'.GetValue k [] = some (true, [v], t1)) ∧
      ∀ k' v', (k', v') ∈ m → ∃ t1, t'.GetValue k' [] = some (true, [v'], t1) := by
  obtain ⟨hst, hnd⟩ := hreach.state_inv (by omega) (by omega)
  obtain ⟨b, t', h1, h2, h3, -, -⟩ := hst.insert_step hnd k v
  have hb : b = true := h2.2 hk
  rw [hb] at h1 h3
  simp only [if_true] at h3
  rcases h3 with ⟨-, -, -, -, -, e6⟩ | ⟨g, hinv, hholds⟩
  · exact absurd e6 (List.cons_ne_nil _ _)
  · refine ⟨t', h1, hinv.GetValue_holds k v ((hholds k v).2 (List.mem_cons_self _ _)), ?_⟩
    intro k' v' hmem
    exact hinv.GetValue_holds k' v' ((hholds k' v').2 (List.mem_cons_of_mem _ hmem))

/-- Witness of C2: key 7 on the sample tree. -/
theorem Insert_then_GetValue_witness :
    (7 : KeyType) ∉ ([(1, ridOf 1), (2, ridOf 2), (3, ridOf 3), (4, ridOf 4), (5, ridOf 5)] :
      List (KeyType × ValueType)).map Prod.fst ∧
    ∃ t', (treeAfter [5, 4, 3, 2, 1]).Insert 7 (ridOf 7) = some (true, t') ∧
      (∃ t1, t'.GetValue 7 [] = some (true, [ridOf 7], t1)) ∧
      ∀ k' v', (k', v') ∈ ([(1, ridOf 1), (2, ridOf 2), (3, ridOf 3), (4, ridOf 4),
          (5, ridOf 5)] : List (KeyType × ValueType)) →
        ∃ t1, t'.GetValue k' [] = some (true, [v'], t1) :=
  ⟨by decide,
    Insert_then_GetValue "index" 4 4 _ _ treeAfter_reach (by decide) (by decide) 7 (ridOf 7)
      (by decide)⟩

/-- In every state of an insert-only run with `leaf_max_size ≥ 2` and
`internal_max_size ≥ 3` and for every key `k` that was inserted with the value `v`,
`Insert(k, v')` returns false, leaves `root_page_id_` and the page table (the content of
every page) as they are, and `GetValue(k)` still returns `[v]`: for these sizes every
inserted pair is found by `GetValue`. -/
theorem Insert_duplicate_after_inserts (name : String) (L I : Int) (t : BPlusTree)
    (m : List (KeyType × ValueType)) (hreach : InsertReach name L I t m) (hL : 2 ≤ L)
    (hI : 3 ≤ I) (k : KeyType) (v v' : ValueType) (hk : (k, v) ∈ m) :
    ∃ t', t.Insert k v' = some (false, t') ∧ t'.root_page_id_ = t.root_page_id_ ∧
      t'.pages_ = t.pages_ ∧ ∃ t1, t'.GetValue k [] = some (true, [v], t1) := by
  obtain ⟨hst, -⟩ := hreach.state_inv (by omega) (by omega)
  rcases hst with ⟨-, -, -, -, -, e6⟩ | ⟨g, hinv, hholds⟩
  · rw [e6] at hk
    simp at hk
  · obtain ⟨t1, hget⟩ := hinv.GetValue_holds k v ((hholds k v).2 hk)
    obtain ⟨t2, h1, h2, h3⟩ := BPlusTree.Insert_duplicate t k v v' t1 hget
    exact ⟨t2, h1, h2.2.1, h2.1, h3⟩

/-- C18, for insert-only runs: in every state reached from the empty tree by `Insert`
calls, for every `leaf_max_size` and every `internal_max_size ≥ 0`, for every internal page
and every slot `i > 0`, the key of the slot is stored below the child of the slot and is the
least key stored there, for every depth bound of the walk from the number of pages on. -/
theorem separator_is_least_key_after_inserts (name : String) (L I : Int) (t : BPlusTree)
    (m : List (KeyType × ValueType)) (hreach : InsertReach name L I t m) (hI : 0 ≤ I)
    (page_id : page_id_t) (p : InternalPage) (i : Int)
    (hp : t.FetchPage page_id = some (.internal p)) (hi1 : 1 ≤ i) (hi2 : i < p.size_)
    (fuel : Nat) (hfuel : t.pages_.length ≤ fuel) :
    p.KeyAt i ∈ t.subtreeKeys fuel (p.ValueAt i) ∧
    ∀ k, k ∈ t.subtreeKeys fuel (p.ValueAt i) → p.KeyAt i ≤ k := by
  have hempty : t.pages_ = [] → False := by
    intro e2
    unfold BPlusTree.FetchPage at hp
    rw [e2] at hp
    simp [mapFind] at hp
  by_cases hL : L ≤ 0
  · -- no leaf is ever split: there is no internal page
    obtain ⟨lp, e, -⟩ := hreach.leaf_only hL page_id _ hp
    exact Page.noConfusion e
  · by_cases hI2 : 2 ≤ I
    · -- a search tree
      obtain ⟨hst, -⟩ := hreach.state_inv (by omega) hI2
      rcases hst with ⟨-, e2, -⟩ | ⟨g, hinv, -⟩
      · exact absurd e2 hempty
      · exact hinv.separator_least page_id p i hp hi1 hi2 fuel hfuel
    · -- no internal page ever has room: every split runs up to a new root
      rcases hreach.small_state (by omega) hI (by omega) with ⟨-, e2, -⟩ | ⟨g, hinv⟩
      · exact absurd e2 hempty
      · exact hinv.separator_least_small page_id p i hp hi1 hi2 fuel hfuel

/-- Witness of C18: slot 1 of the root of the sample tree. -/
theorem separator_is_least_key_after_inserts_witness :
    (treeAfter [5, 4, 3, 2, 1]).FetchPage 3
      = some (.internal { page_id_ := 3, parent_page_id_ := -1, size_ := 2, max_size_ := 4,
                          array_ := [(0, 1), (4, 2)] }) ∧
    (4 : KeyType) ∈ (treeAfter [5, 4, 3, 2, 1]).subtreeKeys 3 2 ∧
    ∀ k, k ∈ (treeAfter [5, 4, 3, 2, 1]).subtreeKeys 3 2 → (4 : KeyType) ≤ k :=
  ⟨by decide,
    separator_is_least_key_after_inserts "index" 4 4 _ _ treeAfter_reach (by decide) 3
      { page_id_ := 3, parent_page_id_ := -1, size_ := 2, max_size_ := 4,
        array_ := [(0, 1), (4, 2)] }
      1 (by decide) (by decide) (by decide) 3 (by decide)⟩

/-- C18, the example of the claim: after the keys 1 to 5 were inserted (leaves `[1, 2]` and
`[3, 4, 5]`, separator 3), `Remove(3)` leaves the right leaf with the keys `[4, 5]` and the
root with the separator 3: the separator is not a key below its child any more. -/
theorem Remove_keeps_old_separator :
    separatorTree.map (fun t => (t.internalSlots 3, t.subtreeKeys 3 2))
      = some (some [(0, 1), (3, 2)], [4, 5]) := by
  decide
/-! ## Claims about single pages, the header page and missing keys -/

/-- In every state in which `GetValue(k)` reports that `k` is not in the tree (the empty
tree included), `Remove(k)` returns and leaves `root_page_id_` and the page table, which
holds the slots, size, parent and next link of every page, as they are. -/
theorem Remove_of_missing_key (t : BPlusTree) (k : KeyType)
    (h : (t.GetValue k []).map Prod.fst = some false) :
    ∃ t', t.Remove k = some t' ∧ t'.root_page_id_ = t.root_page_id_ ∧
      t'.pages_ = t.pages_ := by
  obtain ⟨t', h1, h2⟩ := BPlusTree.Remove_absent t k h
  exact ⟨t', h1, h2.2.1, h2.1⟩

/-- An instance of `Remove_of_missing_key`: key 7 on the tree that holds 1, …, 5. -/
theorem Remove_of_missing_key_witness :
    ((treeAfter [5, 4, 3, 2, 1]).GetValue 7 []).map Prod.fst = some false ∧
    ∃ t', (treeAfter [5, 4, 3, 2, 1]).Remove 7 = some t' ∧
      t'.root_page_id_ = (treeAfter [5, 4, 3, 2, 1]).root_page_id_ ∧
      t'.pages_ = (treeAfter [5, 4, 3, 2, 1]).pages_ :=
  ⟨by decide, Remove_of_missing_key (treeAfter [5, 4, 3, 2, 1]) 7 (by decide)⟩

/-- C21 (the code at the failing input): with both `max_size` 4, after the keys 5, 4, 3, 2,
1 were inserted and 3 and 4 removed, the page table holds the leaf page 1 with the keys 1,
2, 5 and the root page 3, whose slot `(4, 2)` still names the freed page 2.  The key 7 is in
no page and the iterator does not read it, yet `GetValue(7)` and `Remove(7)` follow that
slot into the freed page and have no result: `Remove(7)` is not the call without effect of
the claim. -/
theorem Remove_of_missing_key_reads_freed_page :
    mergedTree.map (fun t => t.pages_.map Prod.fst) = some [1, 3] ∧
    mergedTree.bind (fun t => t.leafKeys 1) = some [1, 2, 5] ∧
    mergedTree.bind (fun t => t.internalSlots 3) = some [(0, 1), (4, 2)] ∧
    mergedTree.map (fun t => t.FetchPage 2) = some none ∧
    mergedTree.bind BPlusTree.iterateKeys = some [1, 2, 5] ∧
    mergedTree.map (fun t => (t.GetValue 7 []).isSome) = some false ∧
    mergedTree.map (fun t => (t.Remove 7).isSome) = some false := by
  decide

/-- C22 (the code at the failing input): with both `max_size` 4, after `Insert(1)`,
`Remove(1)` and `Insert(2)` the header page has received `InsertRecord("index", 1)`,
`UpdateRecord("index", -1)` and a second `InsertRecord("index", 2)`: the empty-tree branch
of `Insert` calls `UpdateRootPageId(1)` every time the tree becomes non-empty.  The root is
page 2, and the record of the index, which `InsertRecord` does not overwrite, still
holds `INVALID_PAGE_ID`. -/
theorem InsertRecord_repeated_after_empty_tree :
    headerTree.map BPlusTree.header_calls_
      = some [HeaderCall.InsertRecord "index" 1, HeaderCall.UpdateRecord "index" (-1),
              HeaderCall.InsertRecord "index" 2] ∧
    headerTree.map BPlusTree.root_page_id_ = some 2 ∧
    headerTree.map BPlusTree.header_ = some [("index", -1)] := by
  decide

/-- C23: on a leaf page whose keys in the slots `[0, size)` are strictly increasing,
`KeyIndex(k)` returns `i` with `0 ≤ i ≤ size` such that every slot below `i` has a key
below `k` and either `i = size` or the key of slot `i` is at least `k`. -/
theorem leaf_KeyIndex_is_first_slot_not_below (p : LeafPage) (k : KeyType)
    (h0 : 0 ≤ p.size_) (hs : (p.slots.map Prod.fst).Pairwise (· < ·)) :
    0 ≤ p.KeyIndex k ∧ p.KeyIndex k ≤ p.size_ ∧
    (∀ j, 0 ≤ j → j < p.KeyIndex k → p.KeyAt j < k) ∧
    (p.KeyIndex k = p.size_ ∨ k ≤ p.KeyAt (p.KeyIndex k)) := by
  obtain ⟨h1, h2, h3, h4⟩ := LeafPage.KeyIndex_slots p k h0 hs
  refine ⟨h1, h2, h3, ?_⟩
  by_cases hlt : p.KeyIndex k < p.size_
  · exact Or.inr (h4 _ (le_refl _) hlt)
  · exact Or.inl (le_antisymm h2 (not_lt.1 hlt))

/-- Witness of C23: key 4 on the leaf page with the keys 2, 3, 4, 5. -/
theorem leaf_KeyIndex_is_first_slot_not_below_witness :
    0 ≤ fullLeaf.size_ ∧ (fullLeaf.slots.map Prod.fst).Pairwise (· < ·) ∧
    fullLeaf.KeyIndex 4 = 2 ∧
    (0 ≤ fullLeaf.KeyIndex 4 ∧ fullLeaf.KeyIndex 4 ≤ fullLeaf.size_ ∧
      (∀ j, 0 ≤ j → j < fullLeaf.KeyIndex 4 → fullLeaf.KeyAt j < 4) ∧
      (fullLeaf.KeyIndex 4 = fullLeaf.size_ ∨ 4 ≤ fullLeaf.KeyAt (fullLeaf.KeyIndex 4))) :=
  ⟨by decide, by decide, by decide,
    leaf_KeyIndex_is_first_slot_not_below fullLeaf 4 (by decide) (by decide)⟩

/-- C24: on a leaf page with strictly increasing keys and for `i = KeyIndex(kv.key)`: if
the key is on the page, `Insert(kv, i)` returns false and the page is unchanged; otherwise
it returns true, `size` grows by one, the slots are the old slots with `kv` put in at
position `i`, and the keys are still strictly increasing. -/
theorem leaf_Insert_at_KeyIndex (p : LeafPage) (kv : KeyType × ValueType)
    (h0 : 0 ≤ p.size_) (hs : (p.slots.map Prod.fst).Pairwise (· < ·)) :
    (kv.1 ∈ p.slots.map Prod.fst → p.Insert kv (p.KeyIndex kv.1) = (false, p)) ∧
    (kv.1 ∉ p.slots.map Prod.fst →
      (p.Insert kv (p.KeyIndex kv.1)).1 = true ∧
      (p.Insert kv (p.KeyIndex kv.1)).2.size_ = p.size_ + 1 ∧
      (p.Insert kv (p.KeyIndex kv.1)).2.slots
        = p.slots.take (p.KeyIndex kv.1).toNat ++ kv :: p.slots.drop (p.KeyIndex kv.1).toNat ∧
      ((p.Insert kv (p.KeyIndex kv.1)).2.slots.map Prod.fst).Pairwise (· < ·)) := by
  obtain ⟨key, v⟩ := kv
  simp only
  constructor
  · intro hk
    obtain ⟨h1, h2⟩ := LeafPage.hit_of_mem p key h0 hs hk
    unfold LeafPage.Insert
    rw [if_pos ⟨h1, (comparator_eq _ _).2 h2.symm⟩]
  · intro hk
    obtain ⟨k0, -, -, -⟩ := LeafPage.KeyIndex_slots p key h0 hs
    obtain ⟨e1, -, -, -, -, e6, -⟩ := LeafPage.Insert_spec p key v h0
      (LeafPage.sorted_of_slots p hs) (LeafPage.not_hit_of_not_mem p key hk k0)
    obtain ⟨s1, s2⟩ := LeafPage.Insert_slots p key v h0 hs hk
    refine ⟨e1, e6, s1, ?_⟩
    apply LeafPage.slots_sorted
    rw [e6]
    exact s2

/-- Witness of C24: the pair with key 4 on the leaf page with the keys 1, 2 (a new key)
and the hypotheses of the theorem on that page. -/
theorem leaf_Insert_at_KeyIndex_witness :
    0 ≤ halfLeaf.size_ ∧ (halfLeaf.slots.map Prod.fst).Pairwise (· < ·) ∧
    (4 : KeyType) ∉ halfLeaf.slots.map Prod.fst ∧
    (halfLeaf.Insert (4, ridOf 4) (halfLeaf.KeyIndex 4)).1 = true ∧
    (halfLeaf.Insert (4, ridOf 4) (halfLeaf.KeyIndex 4)).2.size_ = halfLeaf.size_ + 1 ∧
    (halfLeaf.Insert (4, ridOf 4) (halfLeaf.KeyIndex 4)).2.slots
      = halfLeaf.slots.take (halfLeaf.KeyIndex 4).toNat
        ++ (4, ridOf 4) :: halfLeaf.slots.drop (halfLeaf.KeyIndex 4).toNat ∧
    ((halfLeaf.Insert (4, ridOf 4) (halfLeaf.KeyIndex 4)).2.slots.map
      Prod.fst).Pairwise (· < ·) :=
  ⟨by decide, by decide, by decide,
    (leaf_Insert_at_KeyIndex halfLeaf (4, ridOf 4) (by decide) (by decide)).2 (by decide)⟩

/-- C25: on a leaf page with strictly increasing keys: if `k` is not on the page,
`Delete(k)` returns false and leaves the page unchanged; if `k` is on the page, it returns
true, `size` shrinks by one and the slots are the old slots without the entry of `k`, the
other entries in their order and with their values. -/
theorem leaf_Delete_of_key (p : LeafPage) (k : KeyType) (h0 : 0 ≤ p.size_)
    (hs : (p.slots.map Prod.fst).Pairwise (· < ·)) :
    (k ∉ p.slots.map Prod.fst → p.Delete k = (false, p)) ∧
    (k ∈ p.slots.map Prod.fst →
      (p.Delete k).1 = true ∧ (p.Delete k).2.size_ = p.size_ - 1 ∧
      ∃ l1 v l2, p.slots = l1 ++ (k, v) :: l2 ∧ (p.Delete k).2.slots = l1 ++ l2) := by
  constructor
  · intro hk
    obtain ⟨k0, -, -, -⟩ := LeafPage.KeyIndex_slots p k h0 hs
    have hnot := LeafPage.not_hit_of_not_mem p k hk k0
    unfold LeafPage.Delete
    rw [if_pos]
    by_cases hlt : p.KeyIndex k < p.size_
    · exact Or.inr (fun hc => hnot ⟨hlt, hc⟩)
    · exact Or.inl (not_lt.1 hlt)
  · intro hk
    obtain ⟨d1, d2, d3, d4⟩ := LeafPage.Delete_slots p k h0 hs hk
    exact ⟨d1, d2, _, _, _, d3, d4⟩

/-- Witness of C25: key 3 on the leaf page with the keys 2, 3, 4, 5. -/
theorem leaf_Delete_of_key_witness :
    0 ≤ fullLeaf.size_ ∧ (fullLeaf.slots.map Prod.fst).Pairwise (· < ·) ∧
    (3 : KeyType) ∈ fullLeaf.slots.map Prod.fst ∧
    (fullLeaf.Delete 3).1 = true ∧ (fullLeaf.Delete 3).2.size_ = fullLeaf.size_ - 1 ∧
    ∃ l1 v l2, fullLeaf.slots = l1 ++ (3, v) :: l2 ∧ (fullLeaf.Delete 3).2.slots = l1 ++ l2 :=
  ⟨by decide, by decide, by decide,
    (leaf_Delete_of_key fullLeaf 3 (by decide) (by decide)).2 (by decide)⟩

/-- C26, for a full page: after `Split` of a leaf page with `size = max_size > 0` into a
freshly initialised page, with `mid = size / 2` of the size before the call, the page
holds the former slots `[0, mid)` and has size `mid`, the new page holds the former slots
`[mid, size)` from its slot 0 on and has size `size - mid`, the next link of the new page
is the old next link of the page and the next link of the page is the id of the new
page. -/
theorem leaf_Split_of_full_page (p : LeafPage) (page_id parent_id : page_id_t)
    (max_size : Int) (h0 : 0 < p.size_) (hfull : p.size_ = p.max_size_) :
    (p.Split (LeafPage.Init page_id parent_id max_size)).1.size_ = p.size_ / 2 ∧
    (p.Split (LeafPage.Init page_id parent_id max_size)).1.slots
      = p.slots.take (p.size_ / 2).toNat ∧
    (p.Split (LeafPage.Init page_id parent_id max_size)).2.size_ = p.size_ - p.size_ / 2 ∧
    (p.Split (LeafPage.Init page_id parent_id max_size)).2.slots
      = p.slots.drop (p.size_ / 2).toNat ∧
    (p.Split (LeafPage.Init page_id parent_id max_size)).2.next_page_id_ = p.next_page_id_ ∧
    (p.Split (LeafPage.Init page_id parent_id max_size)).1.next_page_id_ = page_id :=
  LeafPage.Split_slots p page_id parent_id max_size h0 hfull

/-- Witness of C26 for a full page: the leaf page with the keys 2, 3, 4, 5. -/
theorem leaf_Split_of_full_page_witness :
    0 < fullLeaf.size_ ∧ fullLeaf.size_ = fullLeaf.max_size_ ∧
    (fullLeaf.Split (LeafPage.Init 9 INVALID_PAGE_ID 4)).1.size_ = fullLeaf.size_ / 2 ∧
    (fullLeaf.Split (LeafPage.Init 9 INVALID_PAGE_ID 4)).1.slots
      = fullLeaf.slots.take (fullLeaf.size_ / 2).toNat ∧
    (fullLeaf.Split (LeafPage.Init 9 INVALID_PAGE_ID 4)).2.size_
      = fullLeaf.size_ - fullLeaf.size_ / 2 ∧
    (fullLeaf.Split (LeafPage.Init 9 INVALID_PAGE_ID 4)).2.slots
      = fullLeaf.slots.drop (fullLeaf.size_ / 2).toNat ∧
    (fullLeaf.Split (LeafPage.Init 9 INVALID_PAGE_ID 4)).2.next_page_id_
      = fullLeaf.next_page_id_ ∧
    (fullLeaf.Split (LeafPage.Init 9 INVALID_PAGE_ID 4)).1.next_page_id_ = 9 :=
  ⟨by decide, by decide,
    leaf_Split_of_full_page fullLeaf 9 INVALID_PAGE_ID 4 (by decide) (by decide)⟩

/-- C26, a page with room left: the loop of `Split` runs up to `max_size`, not up to
`size`.  On the leaf page with the keys 1, 2 and `max_size` 4 (`mid = 1`) it moves three
slots: the page is left with size `-1`, not `mid = 1`, and the new page has size 3, not
`size - mid = 1`, its slots 1 and 2 being copies of slots the page never wrote. -/
theorem leaf_Split_below_max_size :
    0 < halfLeaf.size_ ∧ halfLeaf.size_ ≤ halfLeaf.max_size_ ∧ halfLeaf.size_ / 2 = 1 ∧
    (halfLeaf.Split (LeafPage.Init 9 INVALID_PAGE_ID 4)).1.size_ = -1 ∧
    (halfLeaf.Split (LeafPage.Init 9 INVALID_PAGE_ID 4)).2.size_ = 3 ∧
    (halfLeaf.Split (LeafPage.Init 9 INVALID_PAGE_ID 4)).2.slots
      = [(2, ridOf 2), (0, { page_id_ := 0, slot_num_ := 0 }),
         (0, { page_id_ := 0, slot_num_ := 0 })] := by
  decide

/-- C27: on an internal page with `size ≥ 1` whose keys in the slots `[1, size)` are
strictly increasing, `Lookup(k)` returns the child of a slot `i` of the page such that
`i` is the largest slot in `[1, size)` with a key `≤ k`, or `i = 0` when no slot in
`[1, size)` has a key `≤ k`. -/
theorem internal_Lookup_is_last_slot_not_above (p : InternalPage) (k : KeyType)
    (h1 : 1 ≤ p.size_) (hs : ((p.slots.drop 1).map Prod.fst).Pairwise (· < ·)) :
    ∃ i, 0 ≤ i ∧ i < p.size_ ∧ p.Lookup k = p.ValueAt i ∧
      (1 ≤ i → p.KeyAt i ≤ k) ∧
      (∀ j, 1 ≤ j → j < p.size_ → p.KeyAt j ≤ k → j ≤ i) := by
  obtain ⟨x, x1, x2, x3, x4, x5⟩ :=
    InternalPage.Lookup_spec p k h1 (InternalPage.sorted_of_tail p hs)
  refine ⟨x - 1, by omega, by omega, x3, ?_, ?_⟩
  · intro hi
    exact x4 (x - 1) hi (by omega)
  · intro j j1 j2 hj
    by_contra hlt
    have := x5 j (by omega) j2
    exact absurd hj (not_le.2 this)

/-- Witness of C27: key 5 on the internal page with the separators 4 and 7. -/
theorem internal_Lookup_is_last_slot_not_above_witness :
    1 ≤ sampleInternal.size_ ∧
    ((sampleInternal.slots.drop 1).map Prod.fst).Pairwise (· < ·) ∧
    sampleInternal.Lookup 5 = 2 ∧
    ∃ i, 0 ≤ i ∧ i < sampleInternal.size_ ∧ sampleInternal.Lookup 5 = sampleInternal.ValueAt i ∧
      (1 ≤ i → sampleInternal.KeyAt i ≤ 5) ∧
      (∀ j, 1 ≤ j → j < sampleInternal.size_ → sampleInternal.KeyAt j ≤ 5 → j ≤ i) :=
  ⟨by decide, by decide, by decide,
    internal_Lookup_is_last_slot_not_above sampleInternal 5 (by decide) (by decide)⟩

/-- C28: on a store in which the frames of the page, of the sibling and of the children
are distinct pages, `Split(key, page_bother, sibling)` of a full internal page
(`size = max_size ≥ 2`, keys of the slots from 1 on strictly increasing, `key` not among
them) into an empty sibling returns; with `mid = (max_size + 1) / 2` the page keeps `mid`
slots and the sibling gets `max_size + 1 - mid`; the slots of the page followed by those of
the sibling are the old slots with `(key, page_bother)` put in at a position `pos ≥ 1`
that keeps the keys from slot 1 on strictly increasing; the key of the sibling's slot 0
is the least key of the sibling's slots; every child named in a slot of the sibling has
the sibling's page id as parent. -/
theorem internal_Split_of_full_page (t : BPlusTree) (self_id : page_id_t) (key : KeyType)
    (page_bother sibling_id : page_id_t) (self sibling : InternalPage)
    (hself : t.FetchPage self_id = some (.internal self))
    (hsib : t.FetchPage sibling_id = some (.internal sibling))
    (hsib0 : sibling.size_ = 0)
    (hbother : (t.FetchPage page_bother).isSome = true)
    (hfull : self.size_ = self.max_size_) (hmax : 2 ≤ self.max_size_)
    (hs : ((self.slots.drop 1).map Prod.fst).Pairwise (· < ·))
    (hkey : key ∉ (self.slots.drop 1).map Prod.fst)
    (hids : self_id ≠ sibling_id ∧ page_bother ≠ self_id ∧ page_bother ≠ sibling_id)
    (hch : ∀ e, e ∈ self.slots →
      (t.FetchPage e.2).isSome = true ∧ e.2 ≠ self_id ∧ e.2 ≠ sibling_id) :
    ∃ (t' : BPlusTree) (self' sib' : InternalPage) (pos : Nat),
      InternalPage.Split t self_id key page_bother sibling_id = some t' ∧
      t'.FetchPage self_id = some (.internal self') ∧
      t'.FetchPage sibling_id = some (.internal sib') ∧
      self'.size_ = (self.max_size_ + 1) / 2 ∧
      sib'.size_ = self.max_size_ + 1 - (self.max_size_ + 1) / 2 ∧
      sib'.page_id_ = sibling.page_id_ ∧
      1 ≤ pos ∧
      self'.slots ++ sib'.slots
        = self.slots.take pos ++ (key, page_bother) :: self.slots.drop pos ∧
      (((self'.slots ++ sib'.slots).drop 1).map Prod.fst).Pairwise (· < ·) ∧
      (∀ e, e ∈ sib'.slots → sib'.KeyAt 0 ≤ e.1) ∧
      (∀ e, e ∈ sib'.slots →
        ∃ cp, t'.FetchPage e.2 = some cp ∧ cp.GetParentPageId = sib'.page_id_) := by
  obtain ⟨hss, hbs, hbn⟩ := hids
  have hs' := InternalPage.sorted_of_tail self hs
  obtain ⟨pos, p1, p2, hbelow, habove⟩ := InternalPage.insert_pos self key (by omega) hs hkey
  obtain ⟨bother_node, hbo⟩ := Option.isSome_iff_exists.1 hbother
  have hchild : ∀ i, 0 ≤ i → i < self.size_ →
      (t.FetchPage (arrGet self.array_ i).2).isSome = true ∧
      (arrGet self.array_ i).2 ≠ self_id ∧ (arrGet self.array_ i).2 ≠ sibling_id :=
    fun i i0 i1 => hch _ ((InternalPage.mem_slots_iff self _).2 ⟨i, i0, i1, rfl⟩)
  have htmp : ∀ m, 0 ≤ m → m ≤ self.max_size_ →
      arrGet (InternalPage.Split.tmp self key page_bother) m
        = insAt self.array_ pos (key, page_bother) m :=
    fun m h0 h1 => InternalPage.Split.tmp_get self key page_bother pos p1 (by omega) hbelow
      (fun i a b => habove i a (by omega)) m h0 h1
  -- the child named by a slot of the scratch buffer
  have hslot : ∀ m, 0 ≤ m → m ≤ self.max_size_ →
      (insAt self.array_ pos (key, page_bother) m).2 = page_bother ∨
      ((t.FetchPage (insAt self.array_ pos (key, page_bother) m).2).isSome = true ∧
        (insAt self.array_ pos (key, page_bother) m).2 ≠ self_id ∧
        (insAt self.array_ pos (key, page_bother) m).2 ≠ sibling_id) := by
    intro m m0 m1
    by_cases c1 : m < pos
    · rw [insAt_lt _ _ _ _ c1]
      exact Or.inr (hchild m m0 (by omega))
    · by_cases c2 : m = pos
      · rw [c2, insAt_eq]
        exact Or.inl rfl
      · rw [insAt_gt _ _ _ _ (by omega)]
        exact Or.inr (hchild (m - 1) (by omega) (by omega))
  have hbase : ∀ id, (t.write page_bother (bother_node.SetParentPageId self.page_id_)).FetchPage id
      = if id = page_bother then some (bother_node.SetParentPageId self.page_id_)
        else t.FetchPage id := fun id => BPlusTree.FetchPage_write _ _ _ _
  obtain ⟨tm, sib, m1, m2, -, -, m5, m6, m7, -, -, -, -, -, -⟩ :=
    InternalPage.Split.move_spec (InternalPage.Split.tmp self key page_bother) sibling.page_id_
      ((self.max_size_ + 1) / 2) _ ((self.max_size_ + 1) / 2) (self.max_size_ + 1)
      (t.write page_bother (bother_node.SetParentPageId self.page_id_))
      { self with
        size_ := self.size_ + 1,
        array_ := (upTo 0 ((self.max_size_ + 1) / 2)).foldl
          (fun a i => arrSet a i (arrGet (InternalPage.Split.tmp self key page_bother) i))
          self.array_ }
      sibling rfl (le_refl _) (by omega)
      (by
        intro m a b
        rw [htmp m (by omega) (by omega), hbase]
        by_cases e1 : (insAt self.array_ pos (key, page_bother) m).2 = page_bother
        · rw [if_pos e1]
          exact ⟨_, rfl⟩
        · rw [if_neg e1]
          rcases hslot m (by omega) (by omega) with h | h
          · exact absurd h e1
          · exact Option.isSome_iff_exists.1 h.1)
  have hsplit : InternalPage.Split t self_id key page_bother sibling_id
      = some ((tm.write self_id (.internal
          { self with
            size_ := self.size_ + 1 - (self.max_size_ + 1 - (self.max_size_ + 1) / 2),
            array_ := (upTo 0 ((self.max_size_ + 1) / 2)).foldl
              (fun a i => arrSet a i (arrGet (InternalPage.Split.tmp self key page_bother) i))
              self.array_ })).write sibling_id (.internal sib)) := by
    unfold InternalPage.Split
    rw [hself, hbo, hsib]
    simp only
    rw [m1]
  have hfin : ∀ id, ((tm.write self_id (.internal
      { self with
        size_ := self.size_ + 1 - (self.max_size_ + 1 - (self.max_size_ + 1) / 2),
        array_ := (upTo 0 ((self.max_size_ + 1) / 2)).foldl
          (fun a i => arrSet a i (arrGet (InternalPage.Split.tmp self key page_bother) i))
          self.array_ })).write sibling_id (.internal sib)).FetchPage id
      = if id = sibling_id then some (.internal sib)
        else if id = self_id then some (.internal
          { self with
            size_ := self.size_ + 1 - (self.max_size_ + 1 - (self.max_size_ + 1) / 2),
            array_ := (upTo 0 ((self.max_size_ + 1) / 2)).foldl
              (fun a i => arrSet a i (arrGet (InternalPage.Split.tmp self key page_bother) i))
              self.array_ })
        else tm.FetchPage id := by
    intro id
    rw [BPlusTree.FetchPage_write, BPlusTree.FetchPage_write]
  have hsibget : ∀ x : Int, 0 ≤ x → x < self.max_size_ + 1 - (self.max_size_ + 1) / 2 →
      arrGet sib.array_ x
        = insAt self.array_ pos (key, page_bother) ((self.max_size_ + 1) / 2 + x) := by
    intro x x0 x1
    rw [m6 x, if_pos (by omega), htmp _ (by omega) (by omega)]
    congr 1
    omega
  have hsorted : ∀ i j, 1 ≤ i → i < j → j < self.size_ + 1 →
      (insAt self.array_ pos (key, page_bother) i).1
        < (insAt self.array_ pos (key, page_bother) j).1 :=
    insAt_sorted self.array_ 1 self.size_ pos (key, page_bother) hs' p1 p2 hbelow habove
  have hsibsz : sib.size_ = self.max_size_ + 1 - (self.max_size_ + 1) / 2 := by
    rw [m5, hsib0]
    omega
  have hcomb : ({ self with
        size_ := self.size_ + 1 - (self.max_size_ + 1 - (self.max_size_ + 1) / 2),
        array_ := (upTo 0 ((self.max_size_ + 1) / 2)).foldl
          (fun a i => arrSet a i (arrGet (InternalPage.Split.tmp self key page_bother) i))
          self.array_ } : InternalPage).slots ++ sib.slots
      = (List.range (self.size_.toNat + 1)).map
          (fun (j : Nat) => insAt self.array_ ((pos.toNat : Nat) : Int) (key, page_bother)
            (j : Int)) := by
    have epos : ((pos.toNat : Nat) : Int) = pos := by omega
    rw [epos]
    unfold InternalPage.slots
    simp only
    rw [hsibsz]
    have e1 : (self.size_ + 1 - (self.max_size_ + 1 - (self.max_size_ + 1) / 2)).toNat
        = ((self.max_size_ + 1) / 2).toNat := by omega
    have e2 : (self.max_size_ + 1 - (self.max_size_ + 1) / 2).toNat
        = self.size_.toNat + 1 - ((self.max_size_ + 1) / 2).toNat := by omega
    rw [e1, e2, rangeMap_split _ ((self.max_size_ + 1) / 2).toNat (self.size_.toNat + 1)
      (by omega)]
    congr 1
    · apply rangeMap_congr
      intro j hj
      rw [copy_get _ _ _ _ rfl, if_pos (by omega), htmp _ (by omega) (by omega)]
    · apply rangeMap_congr
      intro j hj
      rw [hsibget _ (by omega) (by omega)]
      congr 1
      omega
  refine ⟨_,
    { self with
      size_ := self.size_ + 1 - (self.max_size_ + 1 - (self.max_size_ + 1) / 2),
      array_ := (upTo 0 ((self.max_size_ + 1) / 2)).foldl
        (fun a i => arrSet a i (arrGet (InternalPage.Split.tmp self key page_bother) i))
        self.array_ },
    sib, pos.toNat, hsplit, ?_, ?_, ?_, hsibsz, m2, by omega, ?_, ?_, ?_, ?_⟩
  · rw [hfin, if_neg hss, if_pos rfl]
  · rw [hfin, if_pos rfl]
  · simp only
    omega
  · rw [hcomb, insAt_slots _ _ _ _ (by omega)]
    rfl
  · rw [hcomb, ← List.map_drop, List.map_map]
    have := rangeMap_pairwise (· < ·)
      (fun (j : Nat) => (insAt self.array_ ((pos.toNat : Nat) : Int) (key, page_bother)
        (j : Int)).1) 1 (self.size_.toNat + 1)
      (by
        intro i j hi hij hj
        have epos : ((pos.toNat : Nat) : Int) = pos := by omega
        simp only [epos]
        exact hsorted _ _ (by omega) (by omega) (by omega))
    rw [← List.map_drop] at this
    exact this
  · intro e he
    obtain ⟨x, x0, x1, x2⟩ := (InternalPage.mem_slots_iff sib e).1 he
    rw [hsibsz] at x1
    unfold InternalPage.KeyAt
    rw [← x2, hsibget x x0 x1, hsibget 0 (le_refl _) (by omega)]
    by_cases hx : x = 0
    · rw [hx]
    · exact le_of_lt (hsorted _ _ (by omega) (by omega) (by omega))
  · intro e he
    obtain ⟨x, x0, x1, x2⟩ := (InternalPage.mem_slots_iff sib e).1 he
    rw [hsibsz] at x1
    obtain ⟨cp, -, c2⟩ := m7 ((self.max_size_ + 1) / 2 + x) (by omega) (by omega)
    have e3 : arrGet (InternalPage.Split.tmp self key page_bother)
        ((self.max_size_ + 1) / 2 + x) = e := by
      rw [← x2, hsibget x x0 x1, htmp _ (by omega) (by omega)]
    rw [e3] at c2
    have hne : e.2 ≠ sibling_id ∧ e.2 ≠ self_id := by
      have e4 : e = insAt self.array_ pos (key, page_bother) ((self.max_size_ + 1) / 2 + x) := by
        rw [← x2, hsibget x x0 x1]
      rcases hslot ((self.max_size_ + 1) / 2 + x) (by omega) (by omega) with h | h
      · rw [← e4] at h
        rw [h]
        exact ⟨hbn, hbs⟩
      · rw [← e4] at h
        exact ⟨h.2.2, h.2.1⟩
    refine ⟨cp.SetParentPageId sibling.page_id_, ?_, ?_⟩
    · rw [hfin, if_neg hne.1, if_neg hne.2, c2]
    · rw [Page.GetParentPageId_SetParentPageId, m2]

/-- Witness of C28: the full internal page 5 of `splitStore` (slots `(_, 1)`, `(10, 2)`,
`(20, 3)`, `max_size` 3), the new pair `(15, 4)` and the empty sibling page 6. -/
theorem internal_Split_of_full_page_witness :
    splitStore.FetchPage 5 = some (.internal
      { page_id_ := 5, parent_page_id_ := INVALID_PAGE_ID, size_ := 3, max_size_ := 3,
        array_ := [(0, 1), (10, 2), (20, 3)] }) ∧
    splitStore.FetchPage 6 = some (.internal (InternalPage.Init 6 INVALID_PAGE_ID 3)) ∧
    (InternalPage.Split splitStore 5 15 4 6).bind (fun t => t.internalSlots 5)
      = some [(0, 1), (10, 2)] ∧
    (InternalPage.Split splitStore 5 15 4 6).bind (fun t => t.internalSlots 6)
      = some [(15, 4), (20, 3)] ∧
    ∃ (t' : BPlusTree) (self' sib' : InternalPage) (pos : Nat),
      InternalPage.Split splitStore 5 15 4 6 = some t' ∧
      t'.FetchPage 5 = some (.internal self') ∧
      t'.FetchPage 6 = some (.internal sib') ∧
      self'.size_ = ((3 : Int) + 1) / 2 ∧
      sib'.size_ = (3 : Int) + 1 - (3 + 1) / 2 ∧
      sib'.page_id_ = 6 ∧
      1 ≤ pos ∧
      self'.slots ++ sib'.slots
        = ([(0, 1), (10, 2), (20, 3)] : List (KeyType × page_id_t)).take pos
          ++ (15, 4) :: ([(0, 1), (10, 2), (20, 3)] : List (KeyType × page_id_t)).drop pos ∧
      (((self'.slots ++ sib'.slots).drop 1).map Prod.fst).Pairwise (· < ·) ∧
      (∀ e, e ∈ sib'.slots → sib'.KeyAt 0 ≤ e.1) ∧
      (∀ e, e ∈ sib'.slots →
        ∃ cp, t'.FetchPage e.2 = some cp ∧ cp.GetParentPageId = sib'.page_id_) :=
  ⟨by decide, by decide, by decide, by decide,
    internal_Split_of_full_page splitStore 5 15 4 6
      { page_id_ := 5, parent_page_id_ := INVALID_PAGE_ID, size_ := 3, max_size_ := 3,
        array_ := [(0, 1), (10, 2), (20, 3)] }
      (InternalPage.Init 6 INVALID_PAGE_ID 3)
      (by decide) (by decide) (by decide) (by decide) (by decide) (by decide) (by decide)
      (by decide) (by decide) (by decide)⟩

/-- C29: on a store in which the frames of the two pages and of the children of `right`
are distinct pages, `self.Merge(key, right)` with `right.size ≥ 1` returns; the slots of
`self` are then the old slots of `self`, followed by `(key, child of right's slot 0)`,
followed by the slots `[1, right.size)` of `right`; the size of `self` is the sum of the
two sizes; every child named in the appended slots has the page id of `self` as parent;
the page of `right` is deleted. -/
theorem internal_Merge_appends_right_page (t : BPlusTree) (self_id : page_id_t)
    (key : KeyType) (right_id : page_id_t) (self right : InternalPage)
    (hself : t.FetchPage self_id = some (.internal self))
    (hright : t.FetchPage right_id = some (.internal right))
    (hsz : 0 ≤ self.size_) (hr1 : 1 ≤ right.size_) (hne : self_id ≠ right.page_id_)
    (hch : ∀ e, e ∈ right.slots →
      (t.FetchPage e.2).isSome = true ∧ e.2 ≠ self_id ∧ e.2 ≠ right.page_id_) :
    ∃ (t' : BPlusTree) (self' : InternalPage),
      InternalPage.Merge t self_id key right_id = some t' ∧
      t'.FetchPage self_id = some (.internal self') ∧
      self'.page_id_ = self.page_id_ ∧
      self'.size_ = self.size_ + right.size_ ∧
      self'.slots = self.slots ++ (key, right.ValueAt 0) :: right.slots.drop 1 ∧
      (∀ e, e ∈ (key, right.ValueAt 0) :: right.slots.drop 1 →
        ∃ cp, t'.FetchPage e.2 = some cp ∧ cp.GetParentPageId = self'.page_id_) ∧
      t'.FetchPage right.page_id_ = none := by
  have hchild : ∀ i, 0 ≤ i → i < right.size_ →
      (t.FetchPage (arrGet right.array_ i).2).isSome = true ∧
      (arrGet right.array_ i).2 ≠ self_id ∧ (arrGet right.array_ i).2 ≠ right.page_id_ :=
    fun i i0 i1 => hch _ ((InternalPage.mem_slots_iff right _).2 ⟨i, i0, i1, rfl⟩)
  obtain ⟨a1, a2, a3⟩ := InternalPage.Merge.append_spec right (right.size_ - 1).toNat
    right.size_
    { self with array_ := arrSet self.array_ self.size_ (key, (arrGet right.array_ 0).2),
                size_ := self.size_ + 1 }
    rfl hr1 (by simp only; omega)
  simp only at a1 a2 a3
  -- the slots of the merged page
  have hget : ∀ x, arrGet ((upTo 1 right.size_).foldl
      (fun (q : InternalPage) j =>
        { q with array_ := arrSet q.array_ q.size_ (arrGet right.array_ j),
                 size_ := q.size_ + 1 })
      { self with array_ := arrSet self.array_ self.size_ (key, (arrGet right.array_ 0).2),
                  size_ := self.size_ + 1 }).array_ x
      = if x = self.size_ then (key, (arrGet right.array_ 0).2)
        else if self.size_ < x ∧ x < self.size_ + right.size_ then
          arrGet right.array_ (x - self.size_)
        else arrGet self.array_ x := by
    intro x
    rw [a3 x]
    by_cases h1 : x = self.size_
    · rw [if_neg (by omega), if_pos h1, h1, arrGet_arrSet_same _ _ _ hsz]
    · rw [if_neg h1, arrGet_arrSet_ne _ _ _ _ h1]
      by_cases h2 : self.size_ < x ∧ x < self.size_ + right.size_
      · rw [if_pos h2, if_pos (by omega)]
        congr 1
        omega
      · rw [if_neg h2, if_neg (by omega)]
  have hsnd : ∀ m, self.size_ ≤ m → m < self.size_ + right.size_ →
      (arrGet ((upTo 1 right.size_).foldl
        (fun (q : InternalPage) j =>
          { q with array_ := arrSet q.array_ q.size_ (arrGet right.array_ j),
                   size_ := q.size_ + 1 })
        { self with array_ := arrSet self.array_ self.size_ (key, (arrGet right.array_ 0).2),
                    size_ := self.size_ + 1 }).array_ m).2
        = (arrGet right.array_ (m - self.size_)).2 := by
    intro m m1 m2
    rw [hget m]
    by_cases h1 : m = self.size_
    · rw [if_pos h1, h1, sub_self]
    · rw [if_neg h1, if_pos (by omega)]
  have hbase : ∀ id, (((t.write self_id (.internal ((upTo 1 right.size_).foldl
      (fun (q : InternalPage) j =>
        { q with array_ := arrSet q.array_ q.size_ (arrGet right.array_ j),
                 size_ := q.size_ + 1 })
      { self with array_ := arrSet self.array_ self.size_ (key, (arrGet right.array_ 0).2),
                  size_ := self.size_ + 1 }))).UnpinPage right.page_id_).DeletePage
        right.page_id_).FetchPage id
      = if id = right.page_id_ then none
        else if id = self_id then some (.internal ((upTo 1 right.size_).foldl
          (fun (q : InternalPage) j =>
            { q with array_ := arrSet q.array_ q.size_ (arrGet right.array_ j),
                     size_ := q.size_ + 1 })
          { self with
            array_ := arrSet self.array_ self.size_ (key, (arrGet right.array_ 0).2),
            size_ := self.size_ + 1 }))
        else t.FetchPage id := by
    intro id
    rw [BPlusTree.FetchPage_DeletePage]
    have := BPlusTree.FetchPage_write t self_id (.internal ((upTo 1 right.size_).foldl
      (fun (q : InternalPage) j =>
        { q with array_ := arrSet q.array_ q.size_ (arrGet right.array_ j),
                 size_ := q.size_ + 1 })
      { self with array_ := arrSet self.array_ self.size_ (key, (arrGet right.array_ 0).2),
                  size_ := self.size_ + 1 })) id
    rw [← this]
    rfl
  obtain ⟨t', r1, r2, r3⟩ := InternalPage.Merge.reparent_spec self_id
    ((upTo 1 right.size_).foldl
      (fun (q : InternalPage) j =>
        { q with array_ := arrSet q.array_ q.size_ (arrGet right.array_ j),
                 size_ := q.size_ + 1 })
      { self with array_ := arrSet self.array_ self.size_ (key, (arrGet right.array_ 0).2),
                  size_ := self.size_ + 1 })
    (right.size_).toNat self.size_ (self.size_ + right.size_) _ (by omega) (by omega)
    (by rw [hbase, if_neg hne, if_pos rfl])
    (by
      intro m m1 m2
      rw [hsnd m m1 m2, hbase]
      obtain ⟨c1, c2, c3⟩ := hchild (m - self.size_) (by omega) (by omega)
      rw [if_neg c3, if_neg c2]
      exact ⟨c2, Option.isSome_iff_exists.1 c1⟩)
  have hmerge : InternalPage.Merge t self_id key right_id = some t' := by
    unfold InternalPage.Merge
    rw [hself, hright]
    simp only
    rw [a1]
    have e : self.size_ + 1 + (right.size_ - 1) = self.size_ + right.size_ := by omega
    rw [e]
    exact r1
  have hparent : ∀ i, 0 ≤ i → i < right.size_ →
      ∃ cp, t'.FetchPage (arrGet right.array_ i).2 = some cp ∧
        cp.GetParentPageId = self.page_id_ := by
    intro i i0 i1
    obtain ⟨c1, c2, c3⟩ := hchild i i0 i1
    obtain ⟨cp, hcp⟩ := Option.isSome_iff_exists.1 c1
    have := r2 (arrGet right.array_ i).2 ⟨self.size_ + i, by omega, by omega, by
      rw [hsnd _ (by omega) (by omega)]
      congr 2
      omega⟩
    rw [hbase, if_neg c3, if_neg c2, hcp, a2] at this
    exact ⟨_, this, Page.GetParentPageId_SetParentPageId _ _⟩
  refine ⟨t', _, hmerge, ?_, a2, ?_, ?_, ?_, ?_⟩
  · rw [r3 self_id, hbase, if_neg hne, if_pos rfl]
    intro m m1 m2
    rw [hsnd m m1 m2]
    exact (hchild (m - self.size_) (by omega) (by omega)).2.1
  · rw [a1]
    omega
  · unfold InternalPage.slots
    rw [a1]
    have en : (self.size_ + 1 + (right.size_ - 1)).toNat
        = (right.size_.toNat - 1) + 1 + self.size_.toNat := by omega
    rw [en, rangeMap_split _ self.size_.toNat _ (by omega), Nat.add_sub_cancel, rangeMap_succ,
      rangeMap_drop _ 1 _ (by omega)]
    congr 1
    · apply rangeMap_congr
      intro j hj
      rw [hget, if_neg (by omega), if_neg (by omega)]
    · congr 1
      · rw [hget, if_pos (by omega)]
        rfl
      · apply rangeMap_congr
        intro j hj
        rw [hget, if_neg (by omega), if_pos (by omega)]
        congr 1
        omega
  · intro e he
    rcases List.mem_cons.1 he with h | h
    · rw [h]
      obtain ⟨cp, c1, c2⟩ := hparent 0 (le_refl _) (by omega)
      exact ⟨cp, c1, by rw [c2, a2]⟩
    · have hmem : e ∈ right.slots := List.mem_of_mem_drop h
      obtain ⟨i, i0, i1, i2⟩ := (InternalPage.mem_slots_iff right e).1 hmem
      obtain ⟨cp, c1, c2⟩ := hparent i i0 i1
      rw [i2] at c1
      exact ⟨cp, c1, by rw [c2, a2]⟩
  · rw [r3 right.page_id_, hbase, if_pos rfl]
    intro m m1 m2
    rw [hsnd m m1 m2]
    exact (hchild (m - self.size_) (by omega) (by omega)).2.2

/-- Witness of C29: in `mergeStore` the internal page 6 (slots `(_, 3)`, `(30, 4)`) is
merged into the internal page 5 (slots `(_, 1)`, `(10, 2)`) with the separator 20. -/
theorem internal_Merge_appends_right_page_witness :
    mergeStore.FetchPage 5 = some (.internal
      { page_id_ := 5, parent_page_id_ := 7, size_ := 2, max_size_ := 4,
        array_ := [(0, 1), (10, 2)] }) ∧
    mergeStore.FetchPage 6 = some (.internal
      { page_id_ := 6, parent_page_id_ := 7, size_ := 2, max_size_ := 4,
        array_ := [(0, 3), (30, 4)] }) ∧
    (InternalPage.Merge mergeStore 5 20 6).bind (fun t => t.internalSlots 5)
      = some [(0, 1), (10, 2), (20, 3), (30, 4)] ∧
    ∃ (t' : BPlusTree) (self' : InternalPage),
      InternalPage.Merge mergeStore 5 20 6 = some t' ∧
      t'.FetchPage 5 = some (.internal self') ∧
      self'.page_id_ = 5 ∧
      self'.size_ = 2 + 2 ∧
      self'.slots = [(0, 1), (10, 2)] ++ (20, 3) :: [(30, 4)] ∧
      (∀ e, e ∈ ((20, 3) :: [(30, 4)] : List (KeyType × page_id_t)) →
        ∃ cp, t'.FetchPage e.2 = some cp ∧ cp.GetParentPageId = self'.page_id_) ∧
      t'.FetchPage 6 = none :=
  ⟨by decide, by decide, by decide,
    internal_Merge_appends_right_page mergeStore 5 20 6
      { page_id_ := 5, parent_page_id_ := 7, size_ := 2, max_size_ := 4,
        array_ := [(0, 1), (10, 2)] }
      { page_id_ := 6, parent_page_id_ := 7, size_ := 2, max_size_ := 4,
        array_ := [(0, 3), (30, 4)] }
      (by decide) (by decide) (by decide) (by decide) (by decide) (by decide)⟩

/-- C30 (what the code returns): for the child first stored at slot `i` of an internal
page, `GetBotherPage` returns, when `i ≥ 1`, the child of slot `i - 1`, the key of slot
`i - 1` (not the key of slot `i`, the separator between the two pages) and the flag true;
when `i = 0` it returns the child of slot 1, the key of slot 1 and the flag false. -/
theorem GetBotherPage_returns_key_of_left_slot (p : InternalPage) (child : page_id_t)
    (i : Int) (hi0 : 0 ≤ i) (hi : i < p.size_) (hv : p.ValueAt i = child)
    (hfirst : ∀ e, e ∈ p.slots.take i.toNat → e.2 ≠ child) :
    p.GetBotherPage child
      = if 1 ≤ i then (p.ValueAt (i - 1), p.KeyAt (i - 1), true)
        else (p.ValueAt 1, p.KeyAt 1, false) :=
  InternalPage.GetBotherPage_at p child i hi0 hi hv hfirst

/-- Witness of C30: on the internal page with the slots `(_, 1)`, `(4, 2)`, `(7, 5)` the
child 5 of slot 2 gets the sibling 2 with the key 4 of slot 1; the key of slot 2 is 7. -/
theorem GetBotherPage_returns_key_of_left_slot_witness :
    (0 : Int) ≤ 2 ∧ 2 < sampleInternal.size_ ∧ sampleInternal.ValueAt 2 = 5 ∧
    (∀ e, e ∈ sampleInternal.slots.take (2 : Int).toNat → e.2 ≠ 5) ∧
    sampleInternal.KeyAt 2 = 7 ∧
    sampleInternal.GetBotherPage 5 = (2, 4, true) :=
  ⟨by decide, by decide, by decide, by decide, by decide,
    (GetBotherPage_returns_key_of_left_slot sampleInternal 5 2 (by decide) (by decide)
      (by decide) (by decide)).trans (by decide)⟩
/-! ## Claims about the internal insert, redistribution, eviction order and tree depth -/

/-- C31: on an internal page with `size ≥ 1` whose keys in the slots `[1, size)` are
strictly increasing and for a pair whose key is not among them, `Insert` makes the size
one larger, leaves the key and child of slot 0 as they are, puts the pair in at a position
`pos ≥ 1` of the old slots, and the keys of the slots from 1 on are strictly increasing
afterwards. -/
theorem internal_Insert_puts_pair_in_order (p : InternalPage) (kv : KeyType × page_id_t)
    (h1 : 1 ≤ p.size_) (hs : ((p.slots.drop 1).map Prod.fst).Pairwise (· < ·))
    (hk : kv.1 ∉ (p.slots.drop 1).map Prod.fst) :
    (p.Insert kv).size_ = p.size_ + 1 ∧
    (p.Insert kv).KeyAt 0 = p.KeyAt 0 ∧ (p.Insert kv).ValueAt 0 = p.ValueAt 0 ∧
    (∃ pos : Nat, 1 ≤ pos ∧
      (p.Insert kv).slots = p.slots.take pos ++ kv :: p.slots.drop pos) ∧
    (((p.Insert kv).slots.drop 1).map Prod.fst).Pairwise (· < ·) := by
  have hs' := InternalPage.sorted_of_tail p hs
  obtain ⟨pos, p1, p2, hbelow, habove⟩ := InternalPage.insert_pos p kv.1 h1 hs hk
  have hget : ∀ m, m ≤ p.size_ → arrGet (p.Insert kv).array_ m = insAt p.array_ pos kv m :=
    fun m hm => InternalPage.Insert_slot p kv pos p1 p2 habove
      (fun h => le_of_lt (hbelow (pos - 1) (by omega) (by omega))) m hm
  have hsz : (p.Insert kv).size_ = p.size_ + 1 := rfl
  have epos : ((pos.toNat : Nat) : Int) = pos := by omega
  have hslots : (p.Insert kv).slots
      = (List.range (p.size_.toNat + 1)).map
          (fun (j : Nat) => insAt p.array_ ((pos.toNat : Nat) : Int) kv (j : Int)) := by
    unfold InternalPage.slots
    rw [hsz, epos]
    have e : (p.size_ + 1).toNat = p.size_.toNat + 1 := by omega
    rw [e]
    apply rangeMap_congr
    intro j hj
    exact hget _ (by omega)
  have h0 := hget 0 (by omega)
  rw [insAt_lt _ _ _ _ (by omega)] at h0
  refine ⟨hsz, ?_, ?_, ⟨pos.toNat, by omega, ?_⟩, ?_⟩
  · unfold InternalPage.KeyAt
    rw [h0]
  · unfold InternalPage.ValueAt
    rw [h0]
  · rw [hslots, insAt_slots _ _ _ _ (by omega)]
    rfl
  · rw [hslots, ← List.map_drop, List.map_map]
    have := rangeMap_pairwise (· < ·)
      (fun (j : Nat) => (insAt p.array_ ((pos.toNat : Nat) : Int) kv (j : Int)).1) 1
      (p.size_.toNat + 1)
      (by
        intro i j hi hij hj
        simp only [epos]
        exact insAt_sorted p.array_ 1 p.size_ pos kv hs' p1 p2 hbelow habove _ _ (by omega)
          (by omega) (by omega))
    rw [← List.map_drop] at this
    exact this

/-- Witness of C31: the pair `(5, 9)` on the internal page with the separators 4 and 7. -/
theorem internal_Insert_puts_pair_in_order_witness :
    1 ≤ sampleInternal.size_ ∧
    ((sampleInternal.slots.drop 1).map Prod.fst).Pairwise (· < ·) ∧
    (5 : KeyType) ∉ (sampleInternal.slots.drop 1).map Prod.fst ∧
    (sampleInternal.Insert (5, 9)).slots = [(0, 1), (4, 2), (5, 9), (7, 5)] ∧
    (sampleInternal.Insert (5, 9)).size_ = sampleInternal.size_ + 1 ∧
    (sampleInternal.Insert (5, 9)).KeyAt 0 = sampleInternal.KeyAt 0 ∧
    (sampleInternal.Insert (5, 9)).ValueAt 0 = sampleInternal.ValueAt 0 ∧
    (∃ pos : Nat, 1 ≤ pos ∧
      (sampleInternal.Insert (5, 9)).slots
        = sampleInternal.slots.take pos ++ (5, 9) :: sampleInternal.slots.drop pos) ∧
    (((sampleInternal.Insert (5, 9)).slots.drop 1).map Prod.fst).Pairwise (· < ·) :=
  ⟨by decide, by decide, by decide, by decide,
    internal_Insert_puts_pair_in_order sampleInternal (5, 9) (by decide) (by decide)
      (by decide)⟩

/-- C32 (the code at the failing input): leaf `max_size` 6, internal `max_size` 4, keys
10, …, 90, 61, 62 inserted.  The leaf page 4 with the keys 70, 80, 90 is the child of slot
2 of the root (page 3), its left sibling is the leaf page 2 with the keys 40, …, 62.
`GetBotherPage` hands out the key 40 of slot 1 and `KeyIndex(40)` is slot 1.  After
`Remove(70)` the last entry 62 of the sibling is the first slot of the page and the sizes
are 4 and 3, but the key of the root's slot 2, the separator between the two pages, is
still 70 and the key of slot 1 was changed from 40 to 62. -/
theorem leaf_Redistribute_overwrites_left_separator :
    beforeRedistribute.bind (fun t => t.internalSlots 3) = some [(0, 1), (40, 2), (70, 4)] ∧
    beforeRedistribute.bind (fun t => t.leafKeys 2) = some [40, 50, 60, 61, 62] ∧
    beforeRedistribute.bind (fun t => t.leafKeys 4) = some [70, 80, 90] ∧
    beforeRedistribute.bind (fun t => t.siblingOf 3 4) = some ((2, 40, true), 1) ∧
    beforeRedistribute.bind (fun t => t.run (removeKeys [70])) = redistributedTree ∧
    redistributedTree.bind (fun t => t.leafKeys 2) = some [40, 50, 60, 61] ∧
    redistributedTree.bind (fun t => t.leafKeys 4) = some [62, 80, 90] ∧
    redistributedTree.bind (fun t => t.internalSlots 3) = some [(0, 1), (62, 2), (70, 4)] := by
  decide

/-- C33 (what the code does): `Redistribute` chooses its branch by
`bother_node->IsRootPage()`.  For an internal sibling with a valid parent the test is
false, so the call runs the leaf branch, which reads both internal pages as leaf pages:
the call has no defined result, and the internal branch with `InsertFirst` and the
re-parenting of the moved child is never reached. -/
theorem Redistribute_of_internal_pages_takes_leaf_branch (t : BPlusTree)
    (page bother_page parent_page : page_id_t) (parent_key : KeyType) (ispre : Bool)
    (b p : InternalPage) (hb : t.FetchPage bother_page = some (.internal b))
    (hp : t.FetchPage page = some (.internal p))
    (hvalid : b.parent_page_id_ ≠ INVALID_PAGE_ID) :
    (Page.internal b).IsRootPage = false ∧
    t.Redistribute page bother_page parent_page parent_key ispre = none := by
  have hroot : (Page.internal b).IsRootPage = false := by
    unfold Page.IsRootPage Page.GetParentPageId
    simp only [decide_eq_false_iff_not]
    exact hvalid
  refine ⟨hroot, ?_⟩
  unfold BPlusTree.Redistribute
  rw [hb, hp]
  simp only [hroot, Bool.false_eq_true, if_false]

/-- Witness of C33: in `internalUnderflowState` the root (page 8) has the internal children
3, 7 and 11; page 7 has four children and page 11 two.  `Remove(110)` empties the leaf 6
below page 11 to one key, merges the leaf 10 into it, leaves page 11 with one child and
calls `Redistribute(11, 7, 8, 50, true)`: the call is undefined. -/
theorem Redistribute_of_internal_pages_takes_leaf_branch_witness :
    internalUnderflowTree.map BPlusTree.root_page_id_ = some 8 ∧
    internalUnderflowTree.bind (fun t => t.internalSlots 8)
      = some [(0, 3), (50, 7), (90, 11)] ∧
    internalUnderflowTree.bind (fun t => t.internalSlots 11) = some [(90, 6), (130, 10)] ∧
    internalUnderflowTree.bind (fun t => t.leafKeys 6) = some [110, 120] ∧
    internalUnderflowTree.bind (fun t => t.leafKeys 10) = some [130, 140] ∧
    internalUnderflowTree.bind (fun t => t.Remove 110) = none ∧
    internalUnderflowState.FetchPage 7 = some (.internal
      { page_id_ := 7, parent_page_id_ := 8, size_ := 4, max_size_ := 4,
        array_ := [(50, 4), (52, 12), (70, 5), (72, 13)] }) ∧
    (Page.internal
      { page_id_ := 7, parent_page_id_ := 8, size_ := 4, max_size_ := 4,
        array_ := [(50, 4), (52, 12), (70, 5), (72, 13)] }).IsRootPage = false ∧
    internalUnderflowState.Redistribute 11 7 8 50 true = none :=
  ⟨by decide, by decide, by decide, by decide, by decide, by decide, by decide,
    Redistribute_of_internal_pages_takes_leaf_branch internalUnderflowState 11 7 8 50 true
      { page_id_ := 7, parent_page_id_ := 8, size_ := 4, max_size_ := 4,
        array_ := [(50, 4), (52, 12), (70, 5), (72, 13)] }
      { page_id_ := 11, parent_page_id_ := 8, size_ := 2, max_size_ := 4,
        array_ := [(90, 6), (130, 10), (130, 10)] }
      (by decide) (by decide) (by decide)⟩

/-- C34, when no evictable frame has the id `-1`: in every reachable state with `K ≥ 1`,
for every other iteration order `m` of the frame map, `Evict` returns the same frame and
leaves the same records, size and clock; the comparison of `Evict` is irreflexive,
transitive and decides between any two distinct evictable frames. -/
theorem Evict_independent_of_iteration_order (n k : Nat) (r : LRUKReplacer)
    (m : List (Int × FrameInfo)) (hn : n < SIZE_MOD) (hk : 1 ≤ k) (hr : Reachable n k r)
    (hm : r.frame_map_.Perm m) (hneg : (-1 : frame_id_t) ∉ evictableFrames r) :
    (Evict { r with frame_map_ := m }).1 = (Evict r).1 ∧
    (Evict r).2.frame_map_.Perm (Evict { r with frame_map_ := m }).2.frame_map_ ∧
    (Evict { r with frame_map_ := m }).2.curr_size_ = (Evict r).2.curr_size_ ∧
    (Evict { r with frame_map_ := m }).2.current_timestamp_
      = (Evict r).2.current_timestamp_ ∧
    (∀ f, ¬ judge r f f = true) ∧
    (∀ f g h, judge r f g = true → judge r g h = true → judge r f h = true) ∧
    (∀ f g, f ∈ evictableFrames r → g ∈ evictableFrames r → f ≠ g →
      (judge r f g = true ∨ judge r g f = true)) := by
  have hinv := Reachable.inv n k r hn hr
  have hf : ∀ id, mapFind m id = mapFind r.frame_map_ id := mapFind_perm _ _ hinv.nodup hm
  have hscan : Evict.scan { r with frame_map_ := m } m (-1)
      = Evict.scan r r.frame_map_ (-1) := by
    rw [Evict.scan_congr r { r with frame_map_ := m } (judge_congr r m hf)]
    exact Evict.scan_perm n k r m hinv hk hm hneg
  have hlen := ReplacerInv.history_le n k r hinv hk
  refine ⟨?_, ?_, ?_, ?_, judge_irrefl r,
    fun f g h h1 h2 => judge_trans r f g h (hlen f) (hlen g) (hlen h) h1 h2, ?_⟩
  · unfold Evict
    simp only [hscan]
    by_cases hw : Evict.scan r r.frame_map_ (-1) = -1
    · rw [if_neg (not_not.2 hw), if_neg (not_not.2 hw)]
    · rw [if_pos hw, if_pos hw]
  · unfold Evict
    simp only [hscan]
    by_cases hw : Evict.scan r r.frame_map_ (-1) = -1
    · rw [if_neg (not_not.2 hw), if_neg (not_not.2 hw)]
      exact hm
    · rw [if_pos hw, if_pos hw]
      exact mapErase_perm _ _ hm _
  · unfold Evict
    simp only [hscan]
    by_cases hw : Evict.scan r r.frame_map_ (-1) = -1
    · rw [if_neg (not_not.2 hw), if_neg (not_not.2 hw)]
    · rw [if_pos hw, if_pos hw]
  · unfold Evict
    simp only [hscan]
    by_cases hw : Evict.scan r r.frame_map_ (-1) = -1
    · rw [if_neg (not_not.2 hw), if_neg (not_not.2 hw)]
    · rw [if_pos hw, if_pos hw]
  · intro f g hfe hge hne
    obtain ⟨i1, h1, -⟩ := (mem_evictableFrames r hinv.nodup f).1 hfe
    obtain ⟨i2, h2, -⟩ := (mem_evictableFrames r hinv.nodup g).1 hge
    exact judge_total n k r hinv hk f g i1 i2 h1 h2 hne

/-- Witness of C34: the sample replacer and its frame map in reverse order. -/
theorem Evict_independent_of_iteration_order_witness :
    (7 : Nat) < SIZE_MOD ∧ (1 : Nat) ≤ 2 ∧
    (-1 : frame_id_t) ∉ evictableFrames sampleReplacer ∧
    (Evict { sampleReplacer with frame_map_ := sampleReplacer.frame_map_.reverse }).1
      = (Evict sampleReplacer).1 ∧
    (Evict sampleReplacer).2.frame_map_.Perm
      (Evict { sampleReplacer with
        frame_map_ := sampleReplacer.frame_map_.reverse }).2.frame_map_ :=
  ⟨by decide, by decide, by decide,
    (Evict_independent_of_iteration_order 7 2 sampleReplacer
      sampleReplacer.frame_map_.reverse (by decide) (by decide) sampleReplacer_reachable
      (List.reverse_perm _).symm (by decide)).1,
    (Evict_independent_of_iteration_order 7 2 sampleReplacer
      sampleReplacer.frame_map_.reverse (by decide) (by decide) sampleReplacer_reachable
      (List.reverse_perm _).symm (by decide)).2.1⟩

/-- C34, an evictable frame with the id `-1`: the replacer with `K = 1` tracks the
evictable frames 5 and -1, frame -1 with the older access.  With frame 5 first in the
frame map `Evict` returns no frame; with frame -1 first it returns frame 5. -/
theorem Evict_depends_on_order_with_sentinel_frame :
    sentinelReplacer.frame_map_.Perm sentinelReplacer.frame_map_.reverse ∧
    sentinelReplacer.frame_map_.map Prod.fst = [5, -1] ∧
    evictableFrames sentinelReplacer = [5, -1] ∧
    (Evict sentinelReplacer).1 = none ∧
    (Evict { sentinelReplacer with
      frame_map_ := sentinelReplacer.frame_map_.reverse }).1 = some 5 :=
  ⟨(List.reverse_perm _).symm, by decide, by decide, by decide, by decide⟩

/-- C35: for `K ≥ 1`, in every reachable state the access history of every tracked frame
is non-empty (so its front is one of its entries), has at most `K` entries, is strictly
increasing from front to back and holds only timestamps below `current_timestamp_`, and
no timestamp occurs in the histories of two frames. -/
theorem histories_are_well_formed (n k : Nat) (r : LRUKReplacer) (hn : n < SIZE_MOD)
    (hk : 1 ≤ k) (hr : Reachable n k r) :
    (∀ f info, mapFind r.frame_map_ f = some info →
      info.access_history_ ≠ [] ∧ front info.access_history_ ∈ info.access_history_ ∧
      info.access_history_.length ≤ k ∧
      info.access_history_.Pairwise (· < ·) ∧
      ∀ ts, ts ∈ info.access_history_ → ts < r.current_timestamp_) ∧
    (∀ f g infoF infoG, mapFind r.frame_map_ f = some infoF →
      mapFind r.frame_map_ g = some infoG → f ≠ g →
      ∀ ts, ts ∈ infoF.access_history_ → ts ∉ infoG.access_history_) := by
  have hinv := Reachable.inv n k r hn hr
  constructor
  · intro f info hf
    exact ⟨hinv.hist_ne f info hf, front_mem _ (hinv.hist_ne f info hf),
      hinv.hist_le hk f info hf, hinv.hist_sorted f info hf, hinv.hist_lt f info hf⟩
  · intro f g infoF infoG hf hg hne ts h1 h2
    exact hne (hinv.hist_disj f g infoF infoG hf hg ts h1 h2)

/-- Witness of C35: the sample replacer (`K = 2`, seven frames). -/
theorem histories_are_well_formed_witness :
    (7 : Nat) < SIZE_MOD ∧ (1 : Nat) ≤ 2 ∧
    (∀ f info, mapFind sampleReplacer.frame_map_ f = some info →
      info.access_history_ ≠ [] ∧ front info.access_history_ ∈ info.access_history_ ∧
      info.access_history_.length ≤ 2 ∧
      info.access_history_.Pairwise (· < ·) ∧
      ∀ ts, ts ∈ info.access_history_ → ts < sampleReplacer.current_timestamp_) ∧
    (∀ f g infoF infoG, mapFind sampleReplacer.frame_map_ f = some infoF →
      mapFind sampleReplacer.frame_map_ g = some infoG → f ≠ g →
      ∀ ts, ts ∈ infoF.access_history_ → ts ∉ infoG.access_history_) :=
  ⟨by decide, by decide,
    histories_are_well_formed 7 2 sampleReplacer (by decide) (by decide)
      sampleReplacer_reachable⟩

/-- C36: after `Split` of a leaf page with `size = max_size ≥ 2` into a freshly initialised
page, the slots of the page followed by those of the new page are the old slots, the page
has `⌊max_size / 2⌋` slots and the new page `⌈max_size / 2⌉`, and both sizes are at least
`⌈(max_size - 1) / 2⌉` and below `max_size`. -/
theorem leaf_Split_halves_full_page (p : LeafPage) (page_id parent_id : page_id_t)
    (max_size : Int) (hfull : p.size_ = p.max_size_) (hmax : 2 ≤ p.max_size_) :
    (p.Split (LeafPage.Init page_id parent_id max_size)).1.slots
      ++ (p.Split (LeafPage.Init page_id parent_id max_size)).2.slots = p.slots ∧
    (p.Split (LeafPage.Init page_id parent_id max_size)).1.size_ = p.max_size_ / 2 ∧
    (p.Split (LeafPage.Init page_id parent_id max_size)).2.size_ = (p.max_size_ + 1) / 2 ∧
    (p.max_size_ - 1 + 1) / 2 ≤ (p.Split (LeafPage.Init page_id parent_id max_size)).1.size_ ∧
    (p.max_size_ - 1 + 1) / 2 ≤ (p.Split (LeafPage.Init page_id parent_id max_size)).2.size_ ∧
    (p.Split (LeafPage.Init page_id parent_id max_size)).1.size_ < p.max_size_ ∧
    (p.Split (LeafPage.Init page_id parent_id max_size)).2.size_ < p.max_size_ := by
  obtain ⟨e1, e2, e3, e4, -, -⟩ :=
    LeafPage.Split_slots p page_id parent_id max_size (by omega) hfull
  refine ⟨?_, by rw [e1, hfull], by rw [e3]; omega, by rw [e1]; omega, by rw [e3]; omega,
    by rw [e1]; omega, by rw [e3]; omega⟩
  rw [e2, e4]
  exact List.take_append_drop _ _

/-- Witness of C36: the leaf page with the keys 2, 3, 4, 5 and `max_size` 4. -/
theorem leaf_Split_halves_full_page_witness :
    fullLeaf.size_ = fullLeaf.max_size_ ∧ 2 ≤ fullLeaf.max_size_ ∧
    (fullLeaf.Split (LeafPage.Init 9 INVALID_PAGE_ID 4)).1.slots
      ++ (fullLeaf.Split (LeafPage.Init 9 INVALID_PAGE_ID 4)).2.slots = fullLeaf.slots ∧
    (fullLeaf.Split (LeafPage.Init 9 INVALID_PAGE_ID 4)).1.size_ = fullLeaf.max_size_ / 2 ∧
    (fullLeaf.Split (LeafPage.Init 9 INVALID_PAGE_ID 4)).2.size_
      = (fullLeaf.max_size_ + 1) / 2 ∧
    (fullLeaf.max_size_ - 1 + 1) / 2
      ≤ (fullLeaf.Split (LeafPage.Init 9 INVALID_PAGE_ID 4)).1.size_ ∧
    (fullLeaf.max_size_ - 1 + 1) / 2
      ≤ (fullLeaf.Split (LeafPage.Init 9 INVALID_PAGE_ID 4)).2.size_ ∧
    (fullLeaf.Split (LeafPage.Init 9 INVALID_PAGE_ID 4)).1.size_ < fullLeaf.max_size_ ∧
    (fullLeaf.Split (LeafPage.Init 9 INVALID_PAGE_ID 4)).2.size_ < fullLeaf.max_size_ :=
  ⟨by decide, by decide,
    leaf_Split_halves_full_page fullLeaf 9 INVALID_PAGE_ID 4 (by decide) (by decide)⟩

/-- C37: in every state reached from the empty tree by `Insert` calls
(`leaf_max_size ≥ 2`, `internal_max_size ≥ 3`) there is a depth `d` such that every leaf
found below the root is `d` child links below it, every leaf page of the page table is
found there, and `FindLeafPage` makes `d` `Lookup` calls for every key; on a non-empty
tree it returns a leaf page. -/
theorem leaves_at_one_depth (name : String) (L I : Int) (t : BPlusTree)
    (m : List (KeyType × ValueType)) (hreach : InsertReach name L I t m) (hL : 2 ≤ L)
    (hI : 3 ≤ I) :
    ∃ d : Nat,
      (∀ e, e ∈ t.leafDepths (t.pages_.length + 1) t.root_page_id_ → e.2 = d) ∧
      (∀ id p, t.FetchPage id = some (.leaf p) →
        (id, d) ∈ t.leafDepths (t.pages_.length + 1) t.root_page_id_) ∧
      (∀ key, t.lookupSteps key = some d) ∧
      (t.IsEmpty = false → ∀ key, ∃ leaf t1 p,
        t.FindLeafPage key = some (some leaf, t1) ∧ t.FetchPage leaf = some (.leaf p)) := by
  obtain ⟨hst, -⟩ := hreach.state_inv (by omega) (by omega)
  rcases hst with ⟨e1, e2, -, -, -, -⟩ | ⟨g, hinv, -⟩
  · have hfetch : ∀ id, t.FetchPage id = none := by
      intro id
      unfold BPlusTree.FetchPage
      rw [e2]
      rfl
    have hempty : t.IsEmpty = true := by
      unfold BPlusTree.IsEmpty
      rw [e1]
      rfl
    refine ⟨0, ?_, ?_, ?_, ?_⟩
    · intro e he
      simp [BPlusTree.leafDepths, hfetch] at he
    · intro id p hp
      rw [hfetch] at hp
      simp at hp
    · intro key
      unfold BPlusTree.lookupSteps
      rw [hempty]
      rfl
    · intro h
      rw [hempty] at h
      simp at h
  · obtain ⟨d1, d2, d3, -⟩ := hinv.depth_spec
    refine ⟨g.lvl t.root_page_id_, d1, d2, d3, ?_⟩
    intro _ key
    obtain ⟨id, t1, lp, r1, -, r3, -⟩ := BPlusTree.FindLeafPage_inv t g key hinv
    exact ⟨id, t1, lp, r1, r3⟩

/-- Witness of C37: the tree that holds 1, …, 5 with both `max_size` 4; its two leaves are
one link below the root. -/
theorem leaves_at_one_depth_witness :
    (treeAfter [5, 4, 3, 2, 1]).leafDepths ((treeAfter [5, 4, 3, 2, 1]).pages_.length + 1)
      (treeAfter [5, 4, 3, 2, 1]).root_page_id_ = [(1, 1), (2, 1)] ∧
    (treeAfter [5, 4, 3, 2, 1]).lookupSteps 4 = some 1 ∧
    ∃ d : Nat,
      (∀ e, e ∈ (treeAfter [5, 4, 3, 2, 1]).leafDepths
          ((treeAfter [5, 4, 3, 2, 1]).pages_.length + 1)
          (treeAfter [5, 4, 3, 2, 1]).root_page_id_ → e.2 = d) ∧
      (∀ id p, (treeAfter [5, 4, 3, 2, 1]).FetchPage id = some (.leaf p) →
        (id, d) ∈ (treeAfter [5, 4, 3, 2, 1]).leafDepths
          ((treeAfter [5, 4, 3, 2, 1]).pages_.length + 1)
          (treeAfter [5, 4, 3, 2, 1]).root_page_id_) ∧
      (∀ key, (treeAfter [5, 4, 3, 2, 1]).lookupSteps key = some d) ∧
      ((treeAfter [5, 4, 3, 2, 1]).IsEmpty = false → ∀ key, ∃ leaf t1 p,
        (treeAfter [5, 4, 3, 2, 1]).FindLeafPage key = some (some leaf, t1) ∧
        (treeAfter [5, 4, 3, 2, 1]).FetchPage leaf = some (.leaf p)) :=
  ⟨by decide, by decide,
    leaves_at_one_depth "index" 4 4 _ _ treeAfter_reach (by decide) (by decide)⟩

end bustub
